import Mathlib

/-! # A folder tree with per-folder readers/writers monitors (`Tree.c`)

Shallow embedding of `Tree.c`:

* a C string is the list of its characters (`CStr`);
* a folder (`struct Tree`) is a monitor (the five `int` fields) and a child map;
* a `Tree *` is the list of component names leading from the root to the folder
  (`Ptr`): the heap reachable from the root is a tree, so two pointers are equal
  exactly when the two paths are;
* a function of the program takes the whole tree and returns its result with the
  tree it leaves behind.  The run is that of one thread on its own: an entry
  protocol whose wait condition holds would wait for ever, which is the outcome
  `Stuck.blocked`.

Two further readings of the same code serve the claims on what happens during a call:
`tree_create_steps` and its like return, with the result, the list of the entry and final
protocols the call has run (`Ev`), and `Shared.step` lets any number of threads take turns
on the monitor of one folder, a step being what a protocol does while it has the mutex.

`path_utils.h` and `HashMap.h` are not part of the sources at hand; what `Tree.c`
uses of them is modelled from the specification and marked as such.
-/

namespace CFS

/-! ## Strings, error codes -/

/-- A C string: its characters, the terminating zero left out. -/
abbrev CStr := List Char

/-- The value of `EINVAL` in `errno.h`. -/
def EINVAL : Int := 22
/-- The value of `ENOENT` in `errno.h`. -/
def ENOENT : Int := 2
/-- The value of `EEXIST` in `errno.h`. -/
def EEXIST : Int := 17
/-- The value of `EBUSY` in `errno.h`. -/
def EBUSY : Int := 16
/-- The value of `ENOTEMPTY` in `errno.h`. -/
def ENOTEMPTY : Int := 39
/-- Code of `Tree.c` for moving a folder into its own subtree (`#define EILLEGALMOVE -1`). -/
def EILLEGALMOVE : Int := -1

/-- Modelled from the spec: `MAX_FOLDER_NAME_LENGTH` of the absent `path_utils.h`, the fixed
bound on the length of a component.  No theorem below depends on its value. -/
def MAX_FOLDER_NAME_LENGTH : Nat := 255

/-- Modelled from the spec: `MAX_PATH_LENGTH` of the absent `path_utils.h`, the fixed bound on
the length of a path.  No theorem below depends on its value. -/
def MAX_PATH_LENGTH : Nat := 4095

/-! ## Paths (`path_utils.h`) -/

/-- Lowercase letter test. -/
def is_lower (c : Char) : Bool := decide (97 ≤ c.toNat ∧ c.toNat ≤ 122)

/-- Scan of the characters after the leading slash; `n` is the length of the component
being read. -/
def valid_tail : Nat → CStr → Bool
  | n, [] => n == 0
  | n, ch :: rest =>
    if ch = '/' then (decide (0 < n) && decide (n ≤ MAX_FOLDER_NAME_LENGTH)) && valid_tail 0 rest
    else is_lower ch && valid_tail (n + 1) rest

/-- Modelled from the spec: `is_path_valid` of the absent `path_utils.h`.  A valid path is
`/`, or matches `(/c)+/` with `c` a non-empty sequence of lowercase letters of bounded
length; the length of the whole path is bounded. -/
def is_path_valid (path : CStr) : Bool :=
  decide (path.length ≤ MAX_PATH_LENGTH) &&
    match path with
    | [] => false
    | ch :: rest => decide (ch = '/') && valid_tail 0 rest

/-- Modelled from the spec: `split_path` of the absent `path_utils.h`, as `Tree.c` uses it.
For `/c/rest/` the result is the first component `c` and the subpath `/rest/`; for `/` the
result is `none` (the null pointer). -/
def split_path (path : CStr) : Option (CStr × CStr) :=
  match path with
  | [] => none
  | _ :: rest =>
    match rest.dropWhile (fun ch => decide (ch ≠ '/')) with
    | [] => none
    | subpath => some (rest.takeWhile (fun ch => decide (ch ≠ '/')), subpath)

/-- Modelled from the spec: `make_path_to_parent` of the absent `path_utils.h`, as `Tree.c`
uses it.  For `/a/b/c/` the result is the path `/a/b/` to the parent and the last component
`c`; for `/` the result is `none` (the null pointer). -/
def make_path_to_parent (path : CStr) : Option (CStr × CStr) :=
  match path.reverse with
  | [] => none
  | _ :: body =>
    match body.dropWhile (fun ch => decide (ch ≠ '/')) with
    | [] => none
    | parent => some (parent.reverse, (body.takeWhile (fun ch => decide (ch ≠ '/'))).reverse)

/-! ## Monitors (`Tree.c`, lines 15-101) -/

/-- The counters of `struct Tree`; the mutex and the two condition variables carry no data. -/
structure Monitor where
  reader_type_count : Int
  writer_type_count : Int
  reader_type_waiting : Int
  writer_type_waiting : Int
  change : Int
deriving DecidableEq, Repr

/-- Lines 27-49.  `none`: the wait condition of the `while` holds, so the only thread there
is waits for ever.  The signal of line 41 changes no field. -/
def tree_reader_type_entry_protocol (m : Monitor) : Option Monitor :=
  if m.writer_type_count + m.writer_type_waiting > 0 ∧ m.change ≤ 0 then none
  else
    let m := { m with change := m.change - 1 }
    let m := { m with reader_type_count := m.reader_type_count + 1 }
    some (if m.change < 0 then { m with change := 0 } else m)

/-- Lines 51-63. -/
def tree_reader_type_final_protocol (m : Monitor) : Monitor :=
  let m := { m with reader_type_count := m.reader_type_count - 1 }
  if m.reader_type_count = 0 ∧ m.writer_type_waiting > 0 then { m with change := -1 } else m

/-- Lines 65-81.  `none`: the wait condition of the `while` holds. -/
def tree_writer_type_entry_protocol (m : Monitor) : Option Monitor :=
  if m.writer_type_count + m.reader_type_count > 0 ∧ m.change ≠ -1 then none
  else
    let m := { m with writer_type_count := m.writer_type_count + 1 }
    some { m with change := 0 }

/-- Lines 83-101. -/
def tree_writer_type_final_protocol (m : Monitor) : Monitor :=
  let m := { m with writer_type_count := m.writer_type_count - 1 }
  if m.reader_type_waiting > 0 then { m with change := m.reader_type_waiting }
  else if m.writer_type_waiting > 0 then { m with change := -1 }
  else { m with change := 0 }

/-! ## Folders and child maps -/

/-- A folder: `struct Tree`, the child map held by value. -/
inductive Tree where
  | node (mon : Monitor) (children : List (CStr × Tree))

/-- Modelled from the spec: the `HashMap` of the absent `HashMap.h`, a finite map from
component names to folders, here the list of its entries. -/
abbrev HashMap := List (CStr × Tree)

/-- The monitor fields of a folder. -/
def Tree.mon : Tree → Monitor
  | .node m _ => m

/-- The field `children` of a folder. -/
def Tree.children : Tree → HashMap
  | .node _ ch => ch

/-- Modelled from the spec: `hmap_get`, the value under a key or `none`. -/
def hmap_get : HashMap → CStr → Option Tree
  | [], _ => none
  | e :: rest, key => if e.1 = key then some e.2 else hmap_get rest key

/-- Modelled from the spec: `hmap_insert`; `false` and no change when the key is there. -/
def hmap_insert (m : HashMap) (key : CStr) (value : Tree) : Bool × HashMap :=
  match hmap_get m key with
  | some _ => (false, m)
  | none => (true, m ++ [(key, value)])

/-- Modelled from the spec: `hmap_remove`. -/
def hmap_remove (m : HashMap) (key : CStr) : HashMap :=
  m.filter (fun e => decide (e.1 ≠ key))

/-- Modelled from the spec: `hmap_size`. -/
def hmap_size (m : HashMap) : Nat := m.length

/-- The keys of a map, in the order of iteration. -/
def hmap_keys (m : HashMap) : List CStr := m.map (fun e => e.1)

/-- Keys joined by commas. -/
def join_commas : List CStr → CStr
  | [] => []
  | [k] => k
  | k :: rest => k ++ ',' :: join_commas rest

/-- Modelled from the spec: `make_map_contents_string`, the keys of the map separated by
commas. -/
def make_map_contents_string (m : HashMap) : CStr := join_commas (hmap_keys m)

/-- Lines 103-120: a folder without children, all counters zero. -/
def tree_new : Tree := .node ⟨0, 0, 0, 0, 0⟩ []

/-! ## Pointers into the tree -/

/-- A `Tree *` that points into the tree: the component names from the root. -/
abbrev Ptr := List CStr

/-- Dereference: the folder a pointer designates, `none` when there is none. -/
def Tree.get? : Tree → Ptr → Option Tree
  | t, [] => some t
  | t, c :: cs =>
    match hmap_get t.children c with
    | none => none
    | some v => v.get? cs

/-- Assignment through a pointer: the folder it designates is replaced by its image. -/
def Tree.modify (f : Tree → Tree) : Ptr → Tree → Tree
  | [], t => f t
  | c :: cs, t =>
    .node t.mon (t.children.map (fun e => if e.1 = c then (e.1, Tree.modify f cs e.2) else e))

/-- Assignment to the monitor fields of the folder a pointer designates. -/
def Tree.modMon (g : Monitor → Monitor) (p : Ptr) (t : Tree) : Tree :=
  Tree.modify (fun n => .node (g n.mon) n.children) p t

/-- Assignment to the child map of the folder a pointer designates. -/
def Tree.modChildren (g : HashMap → HashMap) (p : Ptr) (t : Tree) : Tree :=
  Tree.modify (fun n => .node n.mon (g n.children)) p t

/-- The monitor of the folder a pointer designates. -/
def Tree.monAt (t : Tree) (p : Ptr) : Option Monitor := (t.get? p).map Tree.mon

/-- The names of the children of the folder a pointer designates. -/
def Tree.keysAt (t : Tree) (p : Ptr) : Option (List CStr) :=
  (t.get? p).map (fun n => hmap_keys n.children)

/-- Why a call does not return. -/
inductive Stuck where
  /-- an entry protocol waits, and no other thread is there to wake it -/
  | blocked
  /-- the C program reads through a null pointer or an uninitialised buffer -/
  | undefined
  /-- the bound on the iterations of a loop of the model is used up -/
  | fuel
deriving DecidableEq, Repr

/-- An entry protocol run on the folder a pointer designates. -/
def Tree.enter (proto : Monitor → Option Monitor) (t : Tree) (p : Ptr) : Except Stuck Tree :=
  match t.monAt p with
  | none => .error .undefined
  | some m =>
    match proto m with
    | none => .error .blocked
    | some m1 => .ok (t.modMon (fun _ => m1) p)

/-- `tree_reader_type_entry_protocol(p)`. -/
def Tree.reader_entry (t : Tree) (p : Ptr) : Except Stuck Tree :=
  t.enter tree_reader_type_entry_protocol p

/-- `tree_writer_type_entry_protocol(p)`. -/
def Tree.writer_entry (t : Tree) (p : Ptr) : Except Stuck Tree :=
  t.enter tree_writer_type_entry_protocol p

/-- `tree_reader_type_final_protocol(p)`. -/
def Tree.reader_final (t : Tree) (p : Ptr) : Tree :=
  t.modMon tree_reader_type_final_protocol p

/-- `tree_writer_type_final_protocol(p)`. -/
def Tree.writer_final (t : Tree) (p : Ptr) : Tree :=
  t.modMon tree_writer_type_final_protocol p

/-! ## `tree_list` (lines 226-253) -/

/-- The `while` of lines 239-248.  The result is the folder reached, or `none` when a
component is missing (the function then returns `NULL`). -/
def list_loop : Nat → Tree → Ptr → CStr → Except Stuck (Option Ptr × Tree)
  | 0, _, _, _ => .error .fuel
  | fuel + 1, t, curr_tree, subpath =>
    match split_path subpath with
    | none => .ok (some curr_tree, t)
    | some (component, subpath) =>
      let prev_tree := curr_tree
      let curr_tree := prev_tree ++ [component]
      match t.get? curr_tree with
      | none => .ok (none, t.reader_final prev_tree)
      | some _ =>
        match t.reader_entry curr_tree with
        | .error e => .error e
        | .ok t => list_loop fuel (t.reader_final prev_tree) curr_tree subpath

/-- `tree_list`: the string returned (`none` for `NULL`) and the tree afterwards. -/
def tree_list (tree : Tree) (path : CStr) : Except Stuck (Option CStr × Tree) :=
  if !is_path_valid path then .ok (none, tree)
  else
    match tree.reader_entry [] with
    | .error e => .error e
    | .ok t =>
      match list_loop (path.length + 1) t [] path with
      | .error e => .error e
      | .ok (none, t) => .ok (none, t)
      | .ok (some curr_tree, t) =>
        match t.get? curr_tree with
        | none => .error .undefined
        | some n => .ok (some (make_map_contents_string n.children), t.reader_final curr_tree)

/-! ## `tree_create` (lines 162-220) and `tree_remove` (lines 260-316) -/

/-- The `while` of lines 189-205, which lines 283-297 repeat: the walk to the parent, each
folder entered as reader but the last, entered as writer.  The result is the folder reached,
or `none` when a component is missing (the function then returns `ENOENT`). -/
def walk_loop : Nat → Tree → Ptr → CStr → Except Stuck (Option Ptr × Tree)
  | 0, _, _, _ => .error .fuel
  | fuel + 1, t, curr_tree, subpath =>
    match split_path subpath with
    | none => .ok (some curr_tree, t)
    | some (component, subpath) =>
      let prev_tree := curr_tree
      let curr_tree := prev_tree ++ [component]
      match t.get? curr_tree with
      | none => .ok (none, t.reader_final prev_tree)
      | some _ =>
        match (if subpath ≠ ['/'] then t.reader_entry curr_tree
               else t.writer_entry curr_tree) with
        | .error e => .error e
        | .ok t => walk_loop fuel (t.reader_final prev_tree) curr_tree subpath

/-- Lines 184-205 and 276-297: the root entered as reader or writer, then the walk. -/
def walk_to_parent (tree : Tree) (subpath : CStr) : Except Stuck (Option Ptr × Tree) :=
  match (if subpath ≠ ['/'] then tree.reader_entry [] else tree.writer_entry []) with
  | .error e => .error e
  | .ok t => walk_loop (subpath.length + 1) t [] subpath

/-- `tree_create`: the code returned and the tree afterwards. -/
def tree_create (tree : Tree) (path : CStr) : Except Stuck (Int × Tree) :=
  if path = [] ∨ !is_path_valid path then .ok (EINVAL, tree)
  else if path = ['/'] then .ok (EEXIST, tree)
  else
    match make_path_to_parent path with
    | none => .error .undefined
    | some (subpath, n_path) =>
      match walk_to_parent tree subpath with
      | .error e => .error e
      | .ok (none, t) => .ok (ENOENT, t)
      | .ok (some curr_tree, t) =>
        match t.get? curr_tree with
        | none => .error .undefined
        | some n =>
          let n_tree := tree_new
          match hmap_insert n.children n_path n_tree with
          | (false, _) => .ok (EEXIST, t.writer_final curr_tree)
          | (true, children) =>
            .ok (0, (t.modChildren (fun _ => children) curr_tree).writer_final curr_tree)

/-- `tree_remove`: the code returned and the tree afterwards. -/
def tree_remove (tree : Tree) (path : CStr) : Except Stuck (Int × Tree) :=
  if !is_path_valid path then .ok (EINVAL, tree)
  else if path = ['/'] then .ok (EBUSY, tree)
  else
    match make_path_to_parent path with
    | none => .error .undefined
    | some (subpath, componentToRemove) =>
      match walk_to_parent tree subpath with
      | .error e => .error e
      | .ok (none, t) => .ok (ENOENT, t)
      | .ok (some curr_tree, t) =>
        let final_tree := curr_tree ++ [componentToRemove]
        match t.get? final_tree with
        | none => .ok (ENOENT, t.writer_final curr_tree)
        | some n =>
          let t := t.reader_final final_tree
          if hmap_size n.children ≠ 0 then
            .ok (ENOTEMPTY, (t.writer_final curr_tree).reader_final final_tree)
          else
            -- `hmap_remove`, then `tree_free(final_tree)`
            let t := t.modChildren (fun m => hmap_remove m componentToRemove) curr_tree
            .ok (0, t.writer_final curr_tree)

/-! ## `tree_move` (lines 319-543) -/

/-- Lines 319-331: `source` is strictly shorter than `target` and agrees with it on its
whole length. -/
def moving_to_own_subtree (source target : CStr) : Bool :=
  if source.length < target.length then source.isPrefixOf target else false

/-- The `while` of lines 338-347: `total_length` after the loop.  `subpath` is the first
slash of `to_source` at or after index `total_length`; `strncmp` compares `curr_length`
characters. -/
def shared_loop : Nat → CStr → CStr → Nat → Except Stuck Nat
  | 0, _, _, _ => .error .fuel
  | fuel + 1, to_source, to_target, total_length =>
    let rest := to_source.drop total_length
    match rest.dropWhile (fun ch => decide (ch ≠ '/')) with
    | [] => .ok total_length
    | _ :: _ =>
      let curr_length := (rest.takeWhile (fun ch => decide (ch ≠ '/'))).length + 1
      if rest.take curr_length ≠ (to_target.drop total_length).take curr_length then
        .ok total_length
      else shared_loop fuel to_source to_target (total_length + curr_length)

/-- Lines 334-357: the first characters of `to_source` that `to_target` shares with it,
component by component. -/
def shared_path (to_source to_target : CStr) : Except Stuck CStr :=
  match shared_loop (to_source.length + 1) to_source to_target 1 with
  | .error e => .error e
  | .ok total_length => .ok (to_source.take total_length)

/-- `split_path` writing into a buffer: the buffer keeps its content when the result is
null. -/
def split_path_buf (subpath component : CStr) : Option CStr × CStr :=
  match split_path subpath with
  | none => (none, component)
  | some (c, s) => (some s, c)

/-- The `while` of lines 401-422: the walk to the deepest common folder, entered as writer.
The result is that folder, or `none` when a component is missing. -/
def move_lca_loop : Nat → Tree → Ptr → Option CStr → Option CStr → CStr → CStr →
    Except Stuck (Option Ptr × Tree)
  | 0, _, _, _, _, _, _ => .error .fuel
  | fuel + 1, t, curr_tree, subpath_source, subpath_target_parent, comp_src_help,
      comp_tgt_help =>
    if comp_src_help = comp_tgt_help then
      let prev_tree := curr_tree
      let curr_tree := prev_tree ++ [comp_src_help]
      match t.get? curr_tree with
      | none => .ok (none, t.reader_final prev_tree)
      | some _ =>
        match subpath_source, subpath_target_parent with
        | some ss, some st =>
          let (subpath_source, comp_src_help) := split_path_buf ss comp_src_help
          let (subpath_target_parent, comp_tgt_help) := split_path_buf st comp_tgt_help
          if comp_src_help ≠ comp_tgt_help ∨ subpath_target_parent = none then
            match t.writer_entry curr_tree with
            | .error e => .error e
            | .ok t => .ok (some curr_tree, t.reader_final prev_tree)
          else
            match t.reader_entry curr_tree with
            | .error e => .error e
            | .ok t =>
              move_lca_loop fuel (t.reader_final prev_tree) curr_tree subpath_source
                subpath_target_parent comp_src_help comp_tgt_help
        | _, _ => .error .undefined
    else .ok (some curr_tree, t)

/-- Lines 389-423. -/
def move_to_lca (tree : Tree) (source path_to_parent shared : CStr) :
    Except Stuck (Option Ptr × Tree) :=
  if shared = ['/'] then
    match tree.writer_entry [] with
    | .error e => .error e
    | .ok t => .ok (some [], t)
  else
    match tree.reader_entry [] with
    | .error e => .error e
    | .ok t =>
      match split_path source, split_path path_to_parent with
      | some (comp_src_help, subpath_source), some (comp_tgt_help, subpath_target_parent) =>
        move_lca_loop (source.length + 1) t [] (some subpath_source)
          (some subpath_target_parent) comp_src_help comp_tgt_help
      | _, _ => .error .undefined

/-- The `while` of lines 442-467: the walk from the common folder to the parent of `source`.
The result is that parent with the flag `first`, or `none` when a component is missing. -/
def move_source_loop : Nat → Tree → Ptr → Ptr → CStr → Bool →
    Except Stuck (Option (Ptr × Bool) × Tree)
  | 0, _, _, _, _, _ => .error .fuel
  | fuel + 1, t, curr_tree, source_tree, path_source_parent_left, first =>
    match split_path path_source_parent_left with
    | none => .ok (some (source_tree, first), t)
    | some (component, path_source_parent_left) =>
      let prev_tree := source_tree
      let source_tree := prev_tree ++ [component]
      match t.get? source_tree with
      | none =>
        match t.monAt prev_tree with
        | none => .error .undefined
        | some m =>
          let t := if m.writer_type_count > 0 then t.writer_final prev_tree
                   else t.reader_final prev_tree
          let t := if prev_tree ≠ curr_tree then t.writer_final curr_tree else t
          .ok (none, t)
      | some _ =>
        match (if path_source_parent_left ≠ ['/'] then t.reader_entry source_tree
               else t.writer_entry source_tree) with
        | .error e => .error e
        | .ok t =>
          let t := if !first then t.reader_final prev_tree else t
          move_source_loop fuel t curr_tree source_tree path_source_parent_left false

/-- The `while` of lines 482-511: the walk from the common folder to the parent of `target`.
The result is that parent with the flag `first_target`, or `none` when a component is
missing. -/
def move_target_loop : Nat → Tree → Ptr → Ptr → Ptr → CStr → Bool →
    Except Stuck (Option (Ptr × Bool) × Tree)
  | 0, _, _, _, _, _, _ => .error .fuel
  | fuel + 1, t, curr_tree, source_tree, target_tree, path_target_parent_left, first_target =>
    match split_path path_target_parent_left with
    | none => .ok (some (target_tree, first_target), t)
    | some (component, path_target_parent_left) =>
      let prev_tree := target_tree
      let target_tree := prev_tree ++ [component]
      match t.get? target_tree with
      | none =>
        let t := if prev_tree ≠ curr_tree then t.reader_final prev_tree else t
        let t := if source_tree ≠ curr_tree then t.writer_final source_tree else t
        .ok (none, t.writer_final curr_tree)
      | some _ =>
        match (if path_target_parent_left ≠ ['/'] then t.reader_entry target_tree
               else t.writer_entry target_tree) with
        | .error e => .error e
        | .ok t =>
          if !first_target ∧ prev_tree ≠ curr_tree then
            match t.monAt prev_tree with
            | none => .error .undefined
            | some m =>
              let t := if m.writer_type_count = 0 then t.reader_final prev_tree
                       else t.writer_final prev_tree
              move_target_loop fuel t curr_tree source_tree target_tree
                path_target_parent_left false
          else
            move_target_loop fuel t curr_tree source_tree target_tree
              path_target_parent_left false

/-- Lines 522-526 and 532-536: the writers released at the end. -/
def move_release (t : Tree) (curr_tree source_tree target_tree : Ptr)
    (first first_target : Bool) : Tree :=
  let t := if !first then t.writer_final source_tree else t
  let t := if !first_target then t.writer_final target_tree else t
  t.writer_final curr_tree

/-- `tree_move`: the code returned and the tree afterwards. -/
def tree_move (tree : Tree) (source target : CStr) : Except Stuck (Int × Tree) :=
  if !is_path_valid source || !is_path_valid target then .ok (EINVAL, tree)
  else if source = ['/'] then .ok (EBUSY, tree)
  else if target = ['/'] then .ok (EEXIST, tree)
  else if moving_to_own_subtree source target then .ok (EILLEGALMOVE, tree)
  else
    match make_path_to_parent target, make_path_to_parent source with
    | some (path_to_parent, comp_target), some (path_to_parent_src, comp_source) =>
      match shared_path source path_to_parent with
      | .error e => .error e
      | .ok shared =>
        match move_to_lca tree source path_to_parent shared with
        | .error e => .error e
        | .ok (none, t) => .ok (ENOENT, t)
        | .ok (some curr_tree, t) =>
          let path_target_parent_left := path_to_parent.drop (shared.length - 1)
          let path_source_parent_left := path_to_parent_src.drop (shared.length - 1)
          match move_source_loop (path_source_parent_left.length + 1) t curr_tree curr_tree
              path_source_parent_left true with
          | .error e => .error e
          | .ok (none, t) => .ok (ENOENT, t)
          | .ok (some (source_tree, first), t) =>
            let source_to_remove := source_tree ++ [comp_source]
            match t.get? source_to_remove with
            | none =>
              let t := if !first then t.writer_final source_tree else t
              .ok (ENOENT, t.writer_final curr_tree)
            | some _ =>
              match move_target_loop (path_target_parent_left.length + 1) t curr_tree
                  source_tree curr_tree path_target_parent_left true with
              | .error e => .error e
              | .ok (none, t) => .ok (ENOENT, t)
              | .ok (some (target_tree, first_target), t) =>
                match t.get? source_to_remove, t.get? target_tree with
                | some s, some tp =>
                  -- `n_tree`: a new folder whose child map is that of `source_to_remove`
                  let n_tree := Tree.node tree_new.mon s.children
                  match hmap_insert tp.children comp_target n_tree with
                  | (false, _) =>
                    .ok (EEXIST, move_release t curr_tree source_tree target_tree first
                      first_target)
                  | (true, children) =>
                    let t := t.modChildren (fun _ => children) target_tree
                    -- `free(source_to_remove)`, then `hmap_remove`
                    let t := t.modChildren (fun m => hmap_remove m comp_source) source_tree
                    .ok (0, move_release t curr_tree source_tree target_tree first
                      first_target)
                | _, _ => .error .undefined
    | _, _ => .error .undefined


/-! ## Paths as lists of components -/

/-- The characters of a path before its last slash. -/
def path_body : Ptr → CStr
  | [] => []
  | c :: cs => '/' :: (c ++ path_body cs)

/-- The path string of a list of components: `/c₁/c₂/.../`. -/
def path_of (cs : Ptr) : CStr := path_body cs ++ ['/']

/-- The loop `while ((subpath = split_path(subpath, component)))`, collecting the
components. -/
def components_loop : Nat → CStr → Ptr
  | 0, _ => []
  | fuel + 1, subpath =>
    match split_path subpath with
    | none => []
    | some (component, subpath) => component :: components_loop fuel subpath

/-- The components of a path, first to last. -/
def path_components (path : CStr) : Ptr := components_loop path.length path

/-- A component name in which no slash occurs. -/
def NoSlash (c : CStr) : Prop := '/' ∉ c

/-- A valid component name: non-empty, of bounded length, lowercase letters only. -/
def valid_name (c : CStr) : Prop :=
  c ≠ [] ∧ c.length ≤ MAX_FOLDER_NAME_LENGTH ∧ ∀ ch ∈ c, is_lower ch = true

/-! ## Trees on which no thread is at work -/

/-- No thread holds the monitor and none waits to write: the writer counters are zero and
the count of readers inside is not positive. -/
def Monitor.quiet (m : Monitor) : Bool :=
  decide (m.writer_type_count = 0) && decide (m.writer_type_waiting = 0) &&
    decide (m.reader_type_count ≤ 0)

/-- An idle monitor: the four counters and `change` are zero. -/
def Monitor.idle (m : Monitor) : Bool :=
  decide (m.reader_type_count = 0) && decide (m.writer_type_count = 0) &&
    decide (m.reader_type_waiting = 0) && decide (m.writer_type_waiting = 0) &&
    decide (m.change = 0)

mutual
/-- A test on the monitor of every folder of the tree. -/
def Tree.allMon (P : Monitor → Bool) : Tree → Bool
  | .node m ch => P m && allMonMap P ch
/-- The test on the folders of a child map. -/
def allMonMap (P : Monitor → Bool) : List (CStr × Tree) → Bool
  | [] => true
  | e :: rest => Tree.allMon P e.2 && allMonMap P rest
end

/-- Every monitor of the tree is quiet: the tree as one thread on its own finds it. -/
def Tree.quiet (t : Tree) : Bool := t.allMon Monitor.quiet

/-- Every monitor of the tree is idle. -/
def Tree.idle (t : Tree) : Bool := t.allMon Monitor.idle

/-- The monitor `m1` is `m` with `dr` more readers and `dw` more writers inside; the waiting
counters are those of `m`, and `change` is zero if `m` had no reader waiting and
`change` zero. -/
def Monitor.shift (d : Int × Int) (m m1 : Monitor) : Prop :=
  m1.reader_type_count = m.reader_type_count + d.1 ∧
  m1.writer_type_count = m.writer_type_count + d.2 ∧
  m1.reader_type_waiting = m.reader_type_waiting ∧
  m1.writer_type_waiting = m.writer_type_waiting ∧
  (m.reader_type_waiting = 0 → m.change = 0 → m1.change = 0)

/-- The tree `s` is the tree `t` up to the monitors of the folders in `P`: the same names of
children everywhere, the same folder with all below it outside `P`, and every monitor
shifted by what `h` tells. -/
structure Inv (P : Ptr → Prop) (h : Ptr → Int × Int) (t s : Tree) : Prop where
  keys : ∀ q, s.keysAt q = t.keysAt q
  frame : ∀ q, ¬ P q → s.get? q = t.get? q
  mons : ∀ q m, t.monAt q = some m → ∃ m1, s.monAt q = some m1 ∧ Monitor.shift (h q) m m1

/-- The folders a thread holds: none. -/
def hold0 : Ptr → Int × Int := fun _ => (0, 0)

/-- The folders a thread holds: `p`, with the counts `d`. -/
def hold1 (p : Ptr) (d : Int × Int) : Ptr → Int × Int := fun q => if q = p then d else (0, 0)

/-- The tree with the entry `(c, v)` added to the child map of the folder at `p`. -/
def Tree.insert_at (t : Tree) (p : Ptr) (c : CStr) (v : Tree) : Tree :=
  t.modChildren (fun m => m ++ [(c, v)]) p

/-- The tree with the entry under `c` removed from the child map of the folder at `p`. -/
def Tree.remove_at (t : Tree) (p : Ptr) (c : CStr) : Tree :=
  t.modChildren (fun m => hmap_remove m c) p

/-- The longest list of components two paths start with in common. -/
def lcp : Ptr → Ptr → Ptr
  | a :: as, b :: bs => if a = b then a :: lcp as bs else []
  | _, _ => []

/-- The folders a thread holds: those of `W` as writer, those of `R` as reader. -/
def holds (W R : List Ptr) : Ptr → Int × Int :=
  fun q => (if q ∈ R then 1 else 0, if q ∈ W then 1 else 0)

/-- The tree with the folder `src`, found under `cs` in the folder at `sp`, moved under `ct`
into the folder at `tp`: a new folder with the child map of `src` is entered there, and the
entry of `src` is removed. -/
def Tree.move_at (t : Tree) (sp : Ptr) (cs : CStr) (tp : Ptr) (ct : CStr) (src : Tree) : Tree :=
  (t.insert_at tp ct (.node tree_new.mon src.children)).remove_at sp cs

/-- The pointer to the parent of the folder a path names. -/
def parent_ptr (path : CStr) : Ptr := (path_components path).dropLast

/-- The last component of a path. -/
def last_name (path : CStr) : CStr := ((path_components path).getLast?).getD []

/-- An idle monitor. -/
def idle_mon : Monitor := ⟨0, 0, 0, 0, 0⟩

/-- A tree with the folders `/a/`, `/a/b/` and `/c/`, every monitor idle. -/
def ex_tree : Tree :=
  .node idle_mon [(['a'], .node idle_mon [(['b'], tree_new)]), (['c'], tree_new)]

/-- The path `/a/x/`: a folder that `ex_tree` has not, in a folder that it has. -/
def ex_new : CStr := ['/', 'a', '/', 'x', '/']

/-- The path `/a/`: a folder of `ex_tree` that is not empty. -/
def ex_a : CStr := ['/', 'a', '/']

/-- The path `/a/b/`: an empty folder of `ex_tree`. -/
def ex_ab : CStr := ['/', 'a', '/', 'b', '/']

/-- The path `/c/`: an empty folder of `ex_tree`. -/
def ex_c : CStr := ['/', 'c', '/']

/-- The path `/c/b/`: a folder that `ex_tree` has not, in a folder that it has. -/
def ex_cb : CStr := ['/', 'c', '/', 'b', '/']

/-- The items of a string between its commas. -/
def comma_items : CStr → List CStr
  | [] => [[]]
  | ch :: rest =>
    if ch = ',' then [] :: comma_items rest
    else
      match comma_items rest with
      | [] => [[ch]]
      | it :: its => (ch :: it) :: its

instance : DecidablePred valid_name := fun c => by
  unfold valid_name
  infer_instance

/-- The keys of a child map as the data model wants them: no name twice, every name a valid
component. -/
def keys_ok (ks : List CStr) : Bool := decide ks.Nodup && decide (∀ k ∈ ks, valid_name k)

mutual
/-- Every child map of the tree has keys as the data model wants them. -/
def Tree.wf : Tree → Bool
  | .node _ ch => keys_ok (ch.map (fun e => e.1)) && wfMap ch
/-- The test on the folders of a child map. -/
def wfMap : List (CStr × Tree) → Bool
  | [] => true
  | e :: rest => Tree.wf e.2 && wfMap rest
end

/-- The path `/c/a/`: a folder that `ex_tree` has not, in a folder that it has. -/
def ex_ca : CStr := ['/', 'c', '/', 'a', '/']

/-- The tree `s` has the folders of the tree `t`, each with the children it has in `t`. -/
def SameKeys (t s : Tree) : Prop := ∀ q, s.keysAt q = t.keysAt q

/-- Every folder a pointer reaches has a quiet monitor. -/
def Tree.all_quiet (t : Tree) : Prop := ∀ p m, t.monAt p = some m → m.quiet = true

/-- Every folder a pointer reaches has an idle monitor. -/
def Tree.all_idle (t : Tree) : Prop := ∀ p m, t.monAt p = some m → m.idle = true

/-- A call of one of the four functions of `Tree.h`, with its arguments. -/
inductive Call where
  | create (path : CStr)
  | remove (path : CStr)
  | move (source target : CStr)
  | list (path : CStr)

/-- The tree a call leaves behind. -/
def Tree.call (t : Tree) : Call → Except Stuck Tree
  | .create path => (tree_create t path).map Prod.snd
  | .remove path => (tree_remove t path).map Prod.snd
  | .move source target => (tree_move t source target).map Prod.snd
  | .list path => (tree_list t path).map Prod.snd

/-- The tree a sequence of calls leaves behind, each call made when the one before it has
returned. -/
def run_calls : Tree → List Call → Except Stuck Tree
  | t, [] => .ok t
  | t, c :: cs =>
    match t.call c with
    | .error e => .error e
    | .ok t1 => run_calls t1 cs

/-- Every name of a child, in every folder a pointer reaches, is a valid component name. -/
def Tree.valid_keys (t : Tree) : Prop :=
  ∀ q ks, t.keysAt q = some ks → ∀ k ∈ ks, valid_name k

/-- Every folder of `P` that a pointer reaches has a quiet monitor. -/
def Tree.quiet_on (t : Tree) (P : Ptr → Prop) : Prop :=
  ∀ p, P p → ∀ m, t.monAt p = some m → m.quiet = true

/-- The tree `ex_tree` while another thread reads in `/a/`: that thread has entered the root
and then `/a/` as reader and has left the root, as `tree_list` of `/a/` has at line 250. -/
def ex_read_a : Tree :=
  .node idle_mon [(['a'], .node ⟨1, 0, 0, 0, 0⟩ [(['b'], tree_new)]), (['c'], tree_new)]

/-- The tree `ex_tree` while another thread reads in `/c/`: that thread has entered the root
and then `/c/` as reader and has left the root, as `tree_list` of `/c/` has at line 250. -/
def ex_read_c : Tree :=
  .node idle_mon [(['a'], .node idle_mon [(['b'], tree_new)]),
    (['c'], .node ⟨1, 0, 0, 0, 0⟩ [])]

/-! ## The monitors a call holds, step by step -/

/-- A step of a call on the monitors: an entry protocol that has returned, or a final
protocol called, on the folder a pointer designates. -/
inductive Ev where
  | acquire (p : Ptr)
  | release (p : Ptr)
deriving DecidableEq, Repr

/-- The folders a thread holds after a step, the one entered last first.  A final protocol
called on a folder the thread does not hold gives up nothing. -/
def Ev.apply (held : List Ptr) : Ev → List Ptr
  | .acquire p => p :: held
  | .release p => held.erase p

/-- The folders held after a list of steps. -/
def held_after : List Ptr → List Ev → List Ptr
  | held, [] => held
  | held, e :: es => held_after (e.apply held) es

/-- The folders held at every point of a list of steps: before the first step, and after
each step. -/
def held_states : List Ptr → List Ev → List (List Ptr)
  | held, [] => [held]
  | held, e :: es => held :: held_states (e.apply held) es

/-- Hand over hand: at most two folders are held, and two only as a folder and a child of it,
the child entered last. -/
def hand_over_hand (held : List Ptr) : Prop :=
  held.length ≤ 2 ∧ ∀ a b, held = [a, b] → ∃ c, a = b ++ [c]

/-- The order of the steps of a walk, read with the folders held before each step: the root
is entered while nothing is held; any other folder is entered while its parent, and nothing
else, is held; and when two folders are held, the one given up is the one entered first, the
parent. -/
def coupled : List Ptr → List Ev → Prop
  | _, [] => True
  | held, .acquire q :: es =>
    ((held = [] ∧ q = []) ∨ ∃ p c, held = [p] ∧ q = p ++ [c]) ∧ coupled (q :: held) es
  | held, .release p :: es => (∀ a b, held = [a, b] → p = b) ∧ coupled (held.erase p) es

/-- The steps of a walk hand over hand from the folder `pre`, which is held, down the
components given: each folder on the way is entered, and then its parent is given up. -/
def descent_from (pre : Ptr) : Ptr → List Ev
  | [] => []
  | c :: rest => .acquire (pre ++ [c]) :: .release pre :: descent_from (pre ++ [c]) rest

/-- The steps of a walk hand over hand from the root down to the folder `q`, which is the
only folder held at the end. -/
def descent (q : Ptr) : List Ev := .acquire [] :: descent_from [] q

/-- The `while` of lines 239-248 (`list_loop`), with the steps it makes on the monitors. -/
def list_loop_steps : Nat → Tree → Ptr → CStr → List Ev × Except Stuck (Option Ptr × Tree)
  | 0, _, _, _ => ([], .error .fuel)
  | fuel + 1, t, curr_tree, subpath =>
    match split_path subpath with
    | none => ([], .ok (some curr_tree, t))
    | some (component, subpath) =>
      let prev_tree := curr_tree
      let curr_tree := prev_tree ++ [component]
      match t.get? curr_tree with
      | none => ([.release prev_tree], .ok (none, t.reader_final prev_tree))
      | some _ =>
        match t.reader_entry curr_tree with
        | .error e => ([], .error e)
        | .ok t =>
          let r := list_loop_steps fuel (t.reader_final prev_tree) curr_tree subpath
          (.acquire curr_tree :: .release prev_tree :: r.1, r.2)

/-- Lines 226-253 (`tree_list`), with the steps it makes on the monitors. -/
def tree_list_steps (tree : Tree) (path : CStr) : List Ev × Except Stuck (Option CStr × Tree) :=
  if !is_path_valid path then ([], .ok (none, tree))
  else
    match tree.reader_entry [] with
    | .error e => ([], .error e)
    | .ok t =>
      match list_loop_steps (path.length + 1) t [] path with
      | (steps, .error e) => (.acquire [] :: steps, .error e)
      | (steps, .ok (none, t)) => (.acquire [] :: steps, .ok (none, t))
      | (steps, .ok (some curr_tree, t)) =>
        match t.get? curr_tree with
        | none => (.acquire [] :: steps, .error .undefined)
        | some n =>
          (.acquire [] :: (steps ++ [.release curr_tree]),
            .ok (some (make_map_contents_string n.children), t.reader_final curr_tree))

/-- The `while` of lines 189-205 and 283-297 (`walk_loop`), with the steps it makes on the
monitors. -/
def walk_loop_steps : Nat → Tree → Ptr → CStr → List Ev × Except Stuck (Option Ptr × Tree)
  | 0, _, _, _ => ([], .error .fuel)
  | fuel + 1, t, curr_tree, subpath =>
    match split_path subpath with
    | none => ([], .ok (some curr_tree, t))
    | some (component, subpath) =>
      let prev_tree := curr_tree
      let curr_tree := prev_tree ++ [component]
      match t.get? curr_tree with
      | none => ([.release prev_tree], .ok (none, t.reader_final prev_tree))
      | some _ =>
        match (if subpath ≠ ['/'] then t.reader_entry curr_tree
               else t.writer_entry curr_tree) with
        | .error e => ([], .error e)
        | .ok t =>
          let r := walk_loop_steps fuel (t.reader_final prev_tree) curr_tree subpath
          (.acquire curr_tree :: .release prev_tree :: r.1, r.2)

/-- Lines 184-205 and 276-297 (`walk_to_parent`), with the steps made on the monitors. -/
def walk_to_parent_steps (tree : Tree) (subpath : CStr) :
    List Ev × Except Stuck (Option Ptr × Tree) :=
  match (if subpath ≠ ['/'] then tree.reader_entry [] else tree.writer_entry []) with
  | .error e => ([], .error e)
  | .ok t =>
    let r := walk_loop_steps (subpath.length + 1) t [] subpath
    (.acquire [] :: r.1, r.2)

/-- Lines 162-220 (`tree_create`), with the steps it makes on the monitors. -/
def tree_create_steps (tree : Tree) (path : CStr) : List Ev × Except Stuck (Int × Tree) :=
  if path = [] ∨ !is_path_valid path then ([], .ok (EINVAL, tree))
  else if path = ['/'] then ([], .ok (EEXIST, tree))
  else
    match make_path_to_parent path with
    | none => ([], .error .undefined)
    | some (subpath, n_path) =>
      match walk_to_parent_steps tree subpath with
      | (steps, .error e) => (steps, .error e)
      | (steps, .ok (none, t)) => (steps, .ok (ENOENT, t))
      | (steps, .ok (some curr_tree, t)) =>
        match t.get? curr_tree with
        | none => (steps, .error .undefined)
        | some n =>
          let n_tree := tree_new
          match hmap_insert n.children n_path n_tree with
          | (false, _) => (steps ++ [.release curr_tree], .ok (EEXIST, t.writer_final curr_tree))
          | (true, children) =>
            (steps ++ [.release curr_tree],
              .ok (0, (t.modChildren (fun _ => children) curr_tree).writer_final curr_tree))

/-- Lines 260-316 (`tree_remove`), with the steps it makes on the monitors. -/
def tree_remove_steps (tree : Tree) (path : CStr) : List Ev × Except Stuck (Int × Tree) :=
  if !is_path_valid path then ([], .ok (EINVAL, tree))
  else if path = ['/'] then ([], .ok (EBUSY, tree))
  else
    match make_path_to_parent path with
    | none => ([], .error .undefined)
    | some (subpath, componentToRemove) =>
      match walk_to_parent_steps tree subpath with
      | (steps, .error e) => (steps, .error e)
      | (steps, .ok (none, t)) => (steps, .ok (ENOENT, t))
      | (steps, .ok (some curr_tree, t)) =>
        let final_tree := curr_tree ++ [componentToRemove]
        match t.get? final_tree with
        | none => (steps ++ [.release curr_tree], .ok (ENOENT, t.writer_final curr_tree))
        | some n =>
          let t := t.reader_final final_tree
          if hmap_size n.children ≠ 0 then
            (steps ++ [.release final_tree, .release curr_tree, .release final_tree],
              .ok (ENOTEMPTY, (t.writer_final curr_tree).reader_final final_tree))
          else
            let t := t.modChildren (fun m => hmap_remove m componentToRemove) curr_tree
            (steps ++ [.release final_tree, .release curr_tree],
              .ok (0, t.writer_final curr_tree))

/-! ## Threads on one monitor -/

/-- The condition of the `while` of lines 31-32. -/
def reader_must_wait (m : Monitor) : Bool :=
  decide (m.writer_type_count + m.writer_type_waiting > 0 ∧ m.change ≤ 0)

/-- Lines 38-45: what a reader does to the counters once it is past the `while`. -/
def reader_pass (m : Monitor) : Monitor :=
  let m := { m with change := m.change - 1 }
  let m := { m with reader_type_count := m.reader_type_count + 1 }
  if m.change < 0 then { m with change := 0 } else m

/-- The condition of the `while` of lines 68-69. -/
def writer_must_wait (m : Monitor) : Bool :=
  decide (m.writer_type_count + m.reader_type_count > 0 ∧ m.change ≠ -1)

/-- Lines 77-78: what a writer does to the counters once it is past the `while`. -/
def writer_pass (m : Monitor) : Monitor :=
  let m := { m with writer_type_count := m.writer_type_count + 1 }
  { m with change := 0 }

/-- Where a thread is with respect to the monitor of the folder. -/
inductive Pc where
  /-- in no protocol, holding nothing -/
  | outside
  /-- in the `pthread_cond_wait` of line 34 -/
  | reader_waits
  /-- in the `pthread_cond_wait` of line 72 -/
  | writer_waits
  /-- past `tree_reader_type_entry_protocol`, not yet in the final protocol -/
  | reads
  /-- past `tree_writer_type_entry_protocol`, not yet in the final protocol -/
  | writes
deriving DecidableEq, Repr

/-- The monitor of one folder and the threads that use it.  The mutex makes every stretch of
a protocol between `pthread_mutex_lock` or the return of `pthread_cond_wait` and the next
`pthread_cond_wait` or `pthread_mutex_unlock` one step. -/
structure Shared where
  mon : Monitor
  pcs : List Pc
deriving DecidableEq, Repr

/-- What a thread does next. -/
inductive Act where
  /-- thread `i` calls `tree_reader_type_entry_protocol` -/
  | reader_enters (i : Nat)
  /-- thread `i` calls `tree_writer_type_entry_protocol` -/
  | writer_enters (i : Nat)
  /-- `pthread_cond_wait` returns in thread `i`, after a signal or without one -/
  | wakes (i : Nat)
  /-- thread `i` calls the final protocol that matches its entry -/
  | leaves (i : Nat)
deriving DecidableEq, Repr

/-- One step of one thread; `none` when the thread is not where the step starts. -/
def Shared.step (s : Shared) : Act → Option Shared
  | .reader_enters i =>
    if s.pcs[i]? = some .outside then
      if reader_must_wait s.mon then
        some ⟨{ s.mon with reader_type_waiting := s.mon.reader_type_waiting + 1 },
          s.pcs.set i .reader_waits⟩
      else some ⟨reader_pass s.mon, s.pcs.set i .reads⟩
    else none
  | .writer_enters i =>
    if s.pcs[i]? = some .outside then
      if writer_must_wait s.mon then
        some ⟨{ s.mon with writer_type_waiting := s.mon.writer_type_waiting + 1 },
          s.pcs.set i .writer_waits⟩
      else some ⟨writer_pass s.mon, s.pcs.set i .writes⟩
    else none
  | .wakes i =>
    match s.pcs[i]? with
    | some .reader_waits =>
      -- line 36, then the condition of the `while` again
      let m := { s.mon with reader_type_waiting := s.mon.reader_type_waiting - 1 }
      if reader_must_wait m then
        some ⟨{ m with reader_type_waiting := m.reader_type_waiting + 1 }, s.pcs⟩
      else some ⟨reader_pass m, s.pcs.set i .reads⟩
    | some .writer_waits =>
      -- line 75, then the condition of the `while` again
      let m := { s.mon with writer_type_waiting := s.mon.writer_type_waiting - 1 }
      if writer_must_wait m then
        some ⟨{ m with writer_type_waiting := m.writer_type_waiting + 1 }, s.pcs⟩
      else some ⟨writer_pass m, s.pcs.set i .writes⟩
    | _ => none
  | .leaves i =>
    match s.pcs[i]? with
    | some .reads => some ⟨tree_reader_type_final_protocol s.mon, s.pcs.set i .outside⟩
    | some .writes => some ⟨tree_writer_type_final_protocol s.mon, s.pcs.set i .outside⟩
    | _ => none

/-- The state after a list of steps, the threads taking turns in any order. -/
def Shared.run : Shared → List Act → Option Shared
  | s, [] => some s
  | s, a :: as =>
    match s.step a with
    | none => none
    | some s1 => s1.run as

/-- A new folder and `n` threads that have not touched it. -/
def Shared.init (n : Nat) : Shared := ⟨tree_new.mon, List.replicate n .outside⟩

/-- The counters count the threads, a signal for a writer is there only when nobody is
inside, and one for readers only when no writer is. -/
def Shared.ok (s : Shared) : Prop :=
  s.mon.writer_type_count = (s.pcs.count Pc.writes : Int) ∧
  s.mon.reader_type_count = (s.pcs.count Pc.reads : Int) ∧
  s.mon.writer_type_waiting = (s.pcs.count Pc.writer_waits : Int) ∧
  (s.mon.change = -1 → s.mon.writer_type_count = 0 ∧ s.mon.reader_type_count = 0) ∧
  (s.mon.change > 0 → s.mon.writer_type_count = 0) ∧
  s.mon.writer_type_count ≤ 1 ∧
  (s.mon.writer_type_count = 1 → s.mon.reader_type_count = 0)

/-- Three threads on a new folder: a writer enters, a reader and a second writer come and
wait, the writer leaves, the reader is woken and enters, the second writer is woken and waits
again, the reader leaves, the second writer is woken and enters. -/
def ex_acts : List Act :=
  [.writer_enters 0, .reader_enters 1, .writer_enters 2, .leaves 0, .wakes 1, .wakes 2,
    .leaves 1, .wakes 2]

/-- The state after `ex_acts`: the third thread writes, the other two are outside. -/
def ex_shared : Shared := ⟨⟨0, 1, 0, 0, 0⟩, [.outside, .outside, .writes]⟩

/-- The calls of `main.c` on the tree, in order. -/
def ex_calls : List Call :=
  [.list ['/'], .list ['/', 'a', '/'], .create ['/', 'a', '/'],
    .create ['/', 'a', '/', 'b', '/'], .create ['/', 'a', '/', 'b', '/'],
    .create ['/', 'a', '/', 'b', '/', 'c', '/', 'd', '/'], .remove ['/', 'a', '/'],
    .create ['/', 'b', '/'], .create ['/', 'a', '/', 'c', '/'],
    .create ['/', 'a', '/', 'c', '/', 'd', '/'],
    .move ['/', 'a', '/', 'c', '/'] ['/', 'b', '/', 'c', '/'],
    .remove ['/', 'b', '/', 'c', '/', 'd', '/'], .list ['/', 'b', '/']]

/-! ## The monitors `tree_move` holds, step by step -/

/-- The `while` of lines 401-422 (`move_lca_loop`), with the steps it makes on the
monitors. -/
def move_lca_loop_steps : Nat → Tree → Ptr → Option CStr → Option CStr → CStr → CStr →
    List Ev × Except Stuck (Option Ptr × Tree)
  | 0, _, _, _, _, _, _ => ([], .error .fuel)
  | fuel + 1, t, curr_tree, subpath_source, subpath_target_parent, comp_src_help,
      comp_tgt_help =>
    if comp_src_help = comp_tgt_help then
      let prev_tree := curr_tree
      let curr_tree := prev_tree ++ [comp_src_help]
      match t.get? curr_tree with
      | none => ([.release prev_tree], .ok (none, t.reader_final prev_tree))
      | some _ =>
        match subpath_source, subpath_target_parent with
        | some ss, some st =>
          let (subpath_source, comp_src_help) := split_path_buf ss comp_src_help
          let (subpath_target_parent, comp_tgt_help) := split_path_buf st comp_tgt_help
          if comp_src_help ≠ comp_tgt_help ∨ subpath_target_parent = none then
            match t.writer_entry curr_tree with
            | .error e => ([], .error e)
            | .ok t =>
              ([.acquire curr_tree, .release prev_tree],
                .ok (some curr_tree, t.reader_final prev_tree))
          else
            match t.reader_entry curr_tree with
            | .error e => ([], .error e)
            | .ok t =>
              let r := move_lca_loop_steps fuel (t.reader_final prev_tree) curr_tree
                subpath_source subpath_target_parent comp_src_help comp_tgt_help
              (.acquire curr_tree :: .release prev_tree :: r.1, r.2)
        | _, _ => ([], .error .undefined)
    else ([], .ok (some curr_tree, t))

/-- Lines 389-423 (`move_to_lca`), with the steps made on the monitors. -/
def move_to_lca_steps (tree : Tree) (source path_to_parent shared : CStr) :
    List Ev × Except Stuck (Option Ptr × Tree) :=
  if shared = ['/'] then
    match tree.writer_entry [] with
    | .error e => ([], .error e)
    | .ok t => ([.acquire []], .ok (some [], t))
  else
    match tree.reader_entry [] with
    | .error e => ([], .error e)
    | .ok t =>
      match split_path source, split_path path_to_parent with
      | some (comp_src_help, subpath_source), some (comp_tgt_help, subpath_target_parent) =>
        let r := move_lca_loop_steps (source.length + 1) t [] (some subpath_source)
          (some subpath_target_parent) comp_src_help comp_tgt_help
        (.acquire [] :: r.1, r.2)
      | _, _ => ([.acquire []], .error .undefined)

/-- The `while` of lines 442-467 (`move_source_loop`), with the steps it makes on the
monitors. -/
def move_source_loop_steps : Nat → Tree → Ptr → Ptr → CStr → Bool →
    List Ev × Except Stuck (Option (Ptr × Bool) × Tree)
  | 0, _, _, _, _, _ => ([], .error .fuel)
  | fuel + 1, t, curr_tree, source_tree, path_source_parent_left, first =>
    match split_path path_source_parent_left with
    | none => ([], .ok (some (source_tree, first), t))
    | some (component, path_source_parent_left) =>
      let prev_tree := source_tree
      let source_tree := prev_tree ++ [component]
      match t.get? source_tree with
      | none =>
        match t.monAt prev_tree with
        | none => ([], .error .undefined)
        | some m =>
          let t := if m.writer_type_count > 0 then t.writer_final prev_tree
                   else t.reader_final prev_tree
          let t := if prev_tree ≠ curr_tree then t.writer_final curr_tree else t
          (.release prev_tree :: (if prev_tree ≠ curr_tree then [.release curr_tree] else []),
            .ok (none, t))
      | some _ =>
        match (if path_source_parent_left ≠ ['/'] then t.reader_entry source_tree
               else t.writer_entry source_tree) with
        | .error e => ([], .error e)
        | .ok t =>
          let t := if !first then t.reader_final prev_tree else t
          let r := move_source_loop_steps fuel t curr_tree source_tree
            path_source_parent_left false
          (.acquire source_tree :: ((if !first then [.release prev_tree] else []) ++ r.1),
            r.2)

/-- The `while` of lines 482-511 (`move_target_loop`), with the steps it makes on the
monitors. -/
def move_target_loop_steps : Nat → Tree → Ptr → Ptr → Ptr → CStr → Bool →
    List Ev × Except Stuck (Option (Ptr × Bool) × Tree)
  | 0, _, _, _, _, _, _ => ([], .error .fuel)
  | fuel + 1, t, curr_tree, source_tree, target_tree, path_target_parent_left, first_target =>
    match split_path path_target_parent_left with
    | none => ([], .ok (some (target_tree, first_target), t))
    | some (component, path_target_parent_left) =>
      let prev_tree := target_tree
      let target_tree := prev_tree ++ [component]
      match t.get? target_tree with
      | none =>
        let t1 := if prev_tree ≠ curr_tree then t.reader_final prev_tree else t
        let t2 := if source_tree ≠ curr_tree then t1.writer_final source_tree else t1
        ((if prev_tree ≠ curr_tree then [.release prev_tree] else []) ++
          ((if source_tree ≠ curr_tree then [.release source_tree] else []) ++
            [.release curr_tree]),
          .ok (none, t2.writer_final curr_tree))
      | some _ =>
        match (if path_target_parent_left ≠ ['/'] then t.reader_entry target_tree
               else t.writer_entry target_tree) with
        | .error e => ([], .error e)
        | .ok t =>
          if !first_target ∧ prev_tree ≠ curr_tree then
            match t.monAt prev_tree with
            | none => ([.acquire target_tree], .error .undefined)
            | some m =>
              let t := if m.writer_type_count = 0 then t.reader_final prev_tree
                       else t.writer_final prev_tree
              let r := move_target_loop_steps fuel t curr_tree source_tree target_tree
                path_target_parent_left false
              (.acquire target_tree :: .release prev_tree :: r.1, r.2)
          else
            let r := move_target_loop_steps fuel t curr_tree source_tree target_tree
              path_target_parent_left false
            (.acquire target_tree :: r.1, r.2)

/-- Lines 522-526 and 532-536 (`move_release`): the final protocols called at the end. -/
def move_release_steps (curr_tree source_tree target_tree : Ptr) (first first_target : Bool) :
    List Ev :=
  (if !first then [.release source_tree] else []) ++
    ((if !first_target then [.release target_tree] else []) ++ [.release curr_tree])

/-- Lines 366-543 (`tree_move`), with the steps it makes on the monitors. -/
def tree_move_steps (tree : Tree) (source target : CStr) :
    List Ev × Except Stuck (Int × Tree) :=
  if !is_path_valid source || !is_path_valid target then ([], .ok (EINVAL, tree))
  else if source = ['/'] then ([], .ok (EBUSY, tree))
  else if target = ['/'] then ([], .ok (EEXIST, tree))
  else if moving_to_own_subtree source target then ([], .ok (EILLEGALMOVE, tree))
  else
    match make_path_to_parent target, make_path_to_parent source with
    | some (path_to_parent, comp_target), some (path_to_parent_src, comp_source) =>
      match shared_path source path_to_parent with
      | .error e => ([], .error e)
      | .ok shared =>
        match move_to_lca_steps tree source path_to_parent shared with
        | (s1, .error e) => (s1, .error e)
        | (s1, .ok (none, t)) => (s1, .ok (ENOENT, t))
        | (s1, .ok (some curr_tree, t)) =>
          let path_target_parent_left := path_to_parent.drop (shared.length - 1)
          let path_source_parent_left := path_to_parent_src.drop (shared.length - 1)
          match move_source_loop_steps (path_source_parent_left.length + 1) t curr_tree
              curr_tree path_source_parent_left true with
          | (s2, .error e) => (s1 ++ s2, .error e)
          | (s2, .ok (none, t)) => (s1 ++ s2, .ok (ENOENT, t))
          | (s2, .ok (some (source_tree, first), t)) =>
            let source_to_remove := source_tree ++ [comp_source]
            match t.get? source_to_remove with
            | none =>
              let t1 := if !first then t.writer_final source_tree else t
              (s1 ++ (s2 ++ ((if !first then [.release source_tree] else []) ++
                [.release curr_tree])), .ok (ENOENT, t1.writer_final curr_tree))
            | some _ =>
              match move_target_loop_steps (path_target_parent_left.length + 1) t curr_tree
                  source_tree curr_tree path_target_parent_left true with
              | (s3, .error e) => (s1 ++ (s2 ++ s3), .error e)
              | (s3, .ok (none, t)) => (s1 ++ (s2 ++ s3), .ok (ENOENT, t))
              | (s3, .ok (some (target_tree, first_target), t)) =>
                match t.get? source_to_remove, t.get? target_tree with
                | some s, some tp =>
                  let n_tree := Tree.node tree_new.mon s.children
                  match hmap_insert tp.children comp_target n_tree with
                  | (false, _) =>
                    (s1 ++ (s2 ++ (s3 ++ move_release_steps curr_tree source_tree target_tree
                      first first_target)),
                      .ok (EEXIST, move_release t curr_tree source_tree target_tree first
                        first_target))
                  | (true, children) =>
                    let t1 := t.modChildren (fun _ => children) target_tree
                    let t2 := t1.modChildren (fun m => hmap_remove m comp_source) source_tree
                    (s1 ++ (s2 ++ (s3 ++ move_release_steps curr_tree source_tree target_tree
                      first first_target)),
                      .ok (0, move_release t2 curr_tree source_tree target_tree first
                        first_target))
                | _, _ => (s1 ++ (s2 ++ s3), .error .undefined)
    | _, _ => ([], .error .undefined)

/-- No folder is entered while the thread holds it. -/
def no_reentry : List Ptr → List Ev → Prop
  | _, [] => True
  | held, .acquire p :: es => p ∉ held ∧ no_reentry (p :: held) es
  | held, .release p :: es => no_reentry (held.erase p) es

/-! ## Path strings and their components -/

theorem takeWhile_name (c s : CStr) (h : NoSlash c) :
    (c ++ '/' :: s).takeWhile (fun ch => decide (ch ≠ '/')) = c := by
  induction c with
  | nil => simp
  | cons a c ih =>
    have ha : a ≠ '/' := fun e => h (by simp [e])
    have hc : NoSlash c := fun e => h (by simp [e])
    simpa [List.takeWhile_cons, ha] using ih hc

theorem dropWhile_name (c s : CStr) (h : NoSlash c) :
    (c ++ '/' :: s).dropWhile (fun ch => decide (ch ≠ '/')) = '/' :: s := by
  induction c with
  | nil => simp
  | cons a c ih =>
    have ha : a ≠ '/' := fun e => h (by simp [e])
    have hc : NoSlash c := fun e => h (by simp [e])
    simpa [List.dropWhile_cons, ha] using ih hc

theorem path_of_nil : path_of [] = ['/'] := rfl

theorem path_of_cons (c : CStr) (cs : Ptr) : path_of (c :: cs) = '/' :: (c ++ path_of cs) := by
  simp [path_of, path_body]

theorem path_body_append (a b : Ptr) : path_body (a ++ b) = path_body a ++ path_body b := by
  induction a with
  | nil => rfl
  | cons c a ih => simp [path_body, ih]

theorem path_of_append (a b : Ptr) : path_of (a ++ b) = path_body a ++ path_of b := by
  simp [path_of, path_body_append]

theorem path_of_eq_slash (cs : Ptr) : path_of cs = '/' :: (path_of cs).tail := by
  cases cs <;> simp [path_of, path_body]

theorem path_of_ne_slash (c : CStr) (cs : Ptr) : path_of (c :: cs) ≠ ['/'] := by
  rw [path_of_cons, path_of_eq_slash cs]
  intro h
  have := congrArg List.length h
  simp at this

theorem path_of_eq_root_iff (cs : Ptr) : path_of cs = ['/'] ↔ cs = [] := by
  cases cs with
  | nil => simp [path_of_nil]
  | cons c cs => simp [path_of_ne_slash]

theorem split_path_root : split_path (path_of []) = none := by
  simp [split_path, path_of, path_body]

theorem split_path_cons (c : CStr) (cs : Ptr) (h : NoSlash c) :
    split_path (path_of (c :: cs)) = some (c, path_of cs) := by
  rw [path_of_cons, path_of_eq_slash cs]
  simp only [split_path]
  rw [dropWhile_name c _ h, takeWhile_name c _ h]

theorem path_of_snoc (cs : Ptr) (c : CStr) : path_of (cs ++ [c]) = path_of cs ++ (c ++ ['/']) := by
  simp [path_of, path_body_append, path_body]

theorem make_path_to_parent_snoc (cs : Ptr) (c : CStr) (h : NoSlash c) :
    make_path_to_parent (path_of (cs ++ [c])) = some (path_of cs, c) := by
  have hr : NoSlash c.reverse := by simpa [NoSlash] using h
  have e : (path_of (cs ++ [c])).reverse = '/' :: (c.reverse ++ '/' :: (path_body cs).reverse) := by
    simp [path_of, path_body_append, path_body]
  simp only [make_path_to_parent, e]
  rw [dropWhile_name _ _ hr, takeWhile_name _ _ hr]
  simp [path_of]

theorem make_path_to_parent_root : make_path_to_parent (path_of []) = none := by
  simp [make_path_to_parent, path_of, path_body]

theorem length_path_of_cons (c : CStr) (cs : Ptr) :
    (path_of cs).length < (path_of (c :: cs)).length := by
  rw [path_of_cons]; simp; omega

theorem components_loop_path_of (cs : Ptr) (h : ∀ c ∈ cs, NoSlash c) :
    ∀ fuel, (path_of cs).length ≤ fuel → components_loop fuel (path_of cs) = cs := by
  induction cs with
  | nil =>
    intro fuel hf
    cases fuel with
    | zero => rfl
    | succ n => simp [components_loop, split_path_root]
  | cons c cs ih =>
    intro fuel hf
    have hl := length_path_of_cons c cs
    cases fuel with
    | zero => omega
    | succ n =>
      simp only [components_loop, split_path_cons c cs (h c (by simp))]
      rw [ih (fun x hx => h x (by simp [hx])) n (by omega)]

theorem path_components_path_of (cs : Ptr) (h : ∀ c ∈ cs, NoSlash c) :
    path_components (path_of cs) = cs :=
  components_loop_path_of cs h _ (le_refl _)

theorem is_lower_ne_slash (ch : Char) (h : is_lower ch = true) : ch ≠ '/' := by
  intro e
  subst e
  simp [is_lower] at h

theorem valid_name_noSlash (c : CStr) (h : valid_name c) : NoSlash c :=
  fun hm => is_lower_ne_slash _ (h.2.2 _ hm) rfl

theorem valid_tail_split : ∀ (s : CStr) (n : Nat), valid_tail n s = true →
    (n = 0 ∧ s = []) ∨ ∃ name s1, s = name ++ '/' :: s1 ∧ (∀ ch ∈ name, is_lower ch = true) ∧
      0 < n + name.length ∧ n + name.length ≤ MAX_FOLDER_NAME_LENGTH ∧ valid_tail 0 s1 = true := by
  intro s
  induction s with
  | nil =>
    intro n h
    left
    simpa [valid_tail] using h
  | cons ch rest ih =>
    intro n h
    right
    by_cases hc : ch = '/'
    · subst hc
      simp [valid_tail] at h
      exact ⟨[], rest, by simp, by simp, by simpa using h.1.1, by simpa using h.1.2, h.2⟩
    · simp [valid_tail, hc] at h
      rcases ih (n + 1) h.2 with ⟨h0, _⟩ | ⟨name, s1, hs, hl, hp, hb, hv⟩
      · omega
      · refine ⟨ch :: name, s1, by simp [hs], ?_, by simp only [List.length_cons]; omega,
          by simp only [List.length_cons]; omega, hv⟩
        intro x hx
        rcases List.mem_cons.1 hx with rfl | hx
        · exact h.1
        · exact hl x hx

theorem valid_tail_components : ∀ (k : Nat) (s : CStr), s.length ≤ k → valid_tail 0 s = true →
    ∃ cs : Ptr, '/' :: s = path_of cs ∧ ∀ c ∈ cs, valid_name c := by
  intro k
  induction k with
  | zero =>
    intro s hk _
    have : s = [] := List.length_eq_zero.1 (by omega)
    subst this
    exact ⟨[], rfl, by simp⟩
  | succ k ih =>
    intro s hk hv
    rcases valid_tail_split s 0 hv with ⟨_, hs⟩ | ⟨name, s1, hs, hl, hp, hb, hv1⟩
    · subst hs
      exact ⟨[], rfl, by simp⟩
    · have hlen : s1.length ≤ k := by
        have := congrArg List.length hs
        simp at this
        omega
      obtain ⟨cs, hcs, hval⟩ := ih s1 hlen hv1
      refine ⟨name :: cs, ?_, ?_⟩
      · rw [path_of_cons, ← hcs, hs]
      · intro c hc
        rcases List.mem_cons.1 hc with rfl | hc
        · refine ⟨?_, by omega, hl⟩
          intro e
          subst e
          simp at hp
        · exact hval c hc

/-- A valid path is the path string of its components, each a valid name. -/
theorem is_path_valid_components (path : CStr) (h : is_path_valid path = true) :
    ∃ cs : Ptr, path = path_of cs ∧ ∀ c ∈ cs, valid_name c := by
  cases path with
  | nil => simp [is_path_valid] at h
  | cons ch rest =>
    simp [is_path_valid] at h
    obtain ⟨_, hch, hv⟩ := h
    subst hch
    exact valid_tail_components rest.length rest (le_refl _) hv

/-! ## Pointers: dereference after assignment -/

theorem ptr_cases (p : Ptr) : ∀ q : Ptr, p <+: q ∨ (∃ c r, p = q ++ c :: r) ∨
    ∃ a c k r r1, c ≠ k ∧ p = a ++ c :: r ∧ q = a ++ k :: r1 := by
  induction p with
  | nil => intro q; exact Or.inl (List.nil_prefix)
  | cons c p ih =>
    intro q
    cases q with
    | nil => exact Or.inr (Or.inl ⟨c, p, rfl⟩)
    | cons k q =>
      by_cases hck : c = k
      · subst hck
        rcases ih q with h | ⟨c1, r, h⟩ | ⟨a, c1, k1, r, r1, hne, hp, hq⟩
        · exact Or.inl ((List.prefix_cons_inj c).2 h)
        · exact Or.inr (Or.inl ⟨c1, r, by simp [h]⟩)
        · exact Or.inr (Or.inr ⟨c :: a, c1, k1, r, r1, hne, by simp [hp], by simp [hq]⟩)
      · exact Or.inr (Or.inr ⟨[], c, k, p, q, hck, rfl, rfl⟩)

theorem get?_nil (t : Tree) : t.get? [] = some t := by
  cases t; rfl

theorem get?_cons (t : Tree) (c : CStr) (cs : Ptr) :
    t.get? (c :: cs) = (hmap_get t.children c).bind (fun v => v.get? cs) := by
  cases h : hmap_get t.children c <;> simp [Tree.get?, h]

theorem get?_append (p : Ptr) : ∀ (t : Tree) (q : Ptr),
    t.get? (p ++ q) = (t.get? p).bind (fun n => n.get? q) := by
  induction p with
  | nil => intro t q; simp [get?_nil]
  | cons c p ih =>
    intro t q
    simp only [List.cons_append, get?_cons]
    cases hmap_get t.children c with
    | none => rfl
    | some v => simpa using ih v q

theorem hmap_get_map (g : Tree → Tree) (c k : CStr) (ch : HashMap) :
    hmap_get (ch.map (fun e => if e.1 = c then (e.1, g e.2) else e)) k =
      if k = c then (hmap_get ch k).map g else hmap_get ch k := by
  induction ch with
  | nil => simp [hmap_get]
  | cons e ch ih =>
    simp only [List.map_cons, hmap_get, ih]
    by_cases h1 : e.1 = c <;> by_cases h2 : e.1 = k <;> by_cases h3 : k = c <;>
      simp_all

theorem children_node (m : Monitor) (ch : HashMap) : (Tree.node m ch).children = ch := rfl

theorem mon_node (m : Monitor) (ch : HashMap) : (Tree.node m ch).mon = m := rfl

theorem modify_nil (f : Tree → Tree) (t : Tree) : Tree.modify f [] t = f t := rfl

theorem modify_cons (f : Tree → Tree) (c : CStr) (cs : Ptr) (t : Tree) :
    Tree.modify f (c :: cs) t =
      .node t.mon (t.children.map (fun e => if e.1 = c then (e.1, Tree.modify f cs e.2) else e)) :=
  rfl

theorem hmap_keys_map (g : Tree → Tree) (c : CStr) (ch : HashMap) :
    hmap_keys (ch.map (fun e => if e.1 = c then (e.1, g e.2) else e)) = hmap_keys ch := by
  induction ch with
  | nil => rfl
  | cons e ch ih =>
    simp only [hmap_keys, List.map_cons] at ih ⊢
    rw [ih]
    by_cases h : e.1 = c <;> simp [h]

/-- Dereference at or below the folder assigned to. -/
theorem get?_modify_at (f : Tree → Tree) (p : Ptr) : ∀ (t : Tree) (r : Ptr),
    (Tree.modify f p t).get? (p ++ r) = (t.get? p).bind (fun n => (f n).get? r) := by
  induction p with
  | nil => intro t r; simp [modify_nil, get?_nil]
  | cons c p ih =>
    intro t r
    simp only [List.cons_append, get?_cons, modify_cons, children_node, hmap_get_map, if_true]
    cases hmap_get t.children c with
    | none => rfl
    | some v => simpa using ih v r

/-- Dereference strictly above the folder assigned to. -/
theorem get?_modify_above (f : Tree → Tree) (q : Ptr) : ∀ (t : Tree) (c : CStr) (r : Ptr),
    (Tree.modify f (q ++ c :: r) t).get? q = (t.get? q).map (Tree.modify f (c :: r)) := by
  induction q with
  | nil => intro t c r; simp [get?_nil]
  | cons k q ih =>
    intro t c r
    simp only [List.cons_append, get?_cons, modify_cons, children_node, hmap_get_map, if_true]
    cases hmap_get t.children k with
    | none => rfl
    | some v => simpa using ih v c r

/-- Dereference beside the folder assigned to. -/
theorem get?_modify_beside (f : Tree → Tree) (a : Ptr) : ∀ (t : Tree) (c k : CStr) (r r1 : Ptr),
    c ≠ k → (Tree.modify f (a ++ c :: r) t).get? (a ++ k :: r1) = t.get? (a ++ k :: r1) := by
  induction a with
  | nil =>
    intro t c k r r1 h
    simp only [List.nil_append, get?_cons, modify_cons, children_node, hmap_get_map]
    rw [if_neg (fun e => h e.symm)]
  | cons x a ih =>
    intro t c k r r1 h
    simp only [List.cons_append, get?_cons, modify_cons, children_node, hmap_get_map, if_true]
    cases hmap_get t.children x with
    | none => rfl
    | some v => simpa using ih v c k r r1 h

theorem keysAt_modify_cons (f : Tree → Tree) (c : CStr) (r : Ptr) (n : Tree) :
    hmap_keys (Tree.modify f (c :: r) n).children = hmap_keys n.children := by
  rw [modify_cons, children_node, hmap_keys_map]

theorem mon_modify_cons (f : Tree → Tree) (c : CStr) (r : Ptr) (n : Tree) :
    (Tree.modify f (c :: r) n).mon = n.mon := rfl

/-- Above or beside the folder assigned to, the names of the children are unchanged. -/
theorem keysAt_modify_off (f : Tree → Tree) (p q : Ptr) (t : Tree) (h : ¬ p <+: q) :
    (Tree.modify f p t).keysAt q = t.keysAt q := by
  rcases ptr_cases p q with hp | ⟨c, r, rfl⟩ | ⟨a, c, k, r, r1, hne, rfl, rfl⟩
  · exact absurd hp h
  · simp only [Tree.keysAt, get?_modify_above]
    cases t.get? q with
    | none => rfl
    | some n => simp [keysAt_modify_cons]
  · simp only [Tree.keysAt, get?_modify_beside f a t c k r r1 hne]

/-- Above or beside the folder assigned to, the monitors are unchanged. -/
theorem monAt_modify_off (f : Tree → Tree) (p q : Ptr) (t : Tree) (h : ¬ p <+: q) :
    (Tree.modify f p t).monAt q = t.monAt q := by
  rcases ptr_cases p q with hp | ⟨c, r, rfl⟩ | ⟨a, c, k, r, r1, hne, rfl, rfl⟩
  · exact absurd hp h
  · simp only [Tree.monAt, get?_modify_above]
    cases t.get? q with
    | none => rfl
    | some n => simp [mon_modify_cons]
  · simp only [Tree.monAt, get?_modify_beside f a t c k r r1 hne]

/-- Beside the folder assigned to, nothing changes. -/
theorem get?_modify_off (f : Tree → Tree) (p q : Ptr) (t : Tree) (h : ¬ p <+: q)
    (h1 : ¬ q <+: p) : (Tree.modify f p t).get? q = t.get? q := by
  rcases ptr_cases p q with hp | ⟨c, r, rfl⟩ | ⟨a, c, k, r, r1, hne, rfl, rfl⟩
  · exact absurd hp h
  · exact absurd (List.prefix_append _ _) h1
  · exact get?_modify_beside f a t c k r r1 hne

theorem get?_of_children_eq (n n1 : Tree) (h : n1.children = n.children) (c : CStr) (r : Ptr) :
    n1.get? (c :: r) = n.get? (c :: r) := by
  rw [get?_cons, get?_cons, h]

/-- An assignment to monitor fields leaves every folder strictly below as it is. -/
theorem get?_modMon_below (g : Monitor → Monitor) (p : Ptr) (t : Tree) (c : CStr) (r : Ptr) :
    (t.modMon g p).get? (p ++ c :: r) = t.get? (p ++ c :: r) := by
  rw [Tree.modMon, get?_modify_at, get?_append]
  cases t.get? p with
  | none => rfl
  | some n => exact get?_of_children_eq n _ rfl c r

theorem get?_modMon_at (g : Monitor → Monitor) (p : Ptr) (t : Tree) :
    (t.modMon g p).get? p = (t.get? p).map (fun n => .node (g n.mon) n.children) := by
  have := get?_modify_at (fun n => .node (g n.mon) n.children) p t []
  simp only [List.append_nil] at this
  rw [Tree.modMon, this]
  cases t.get? p <;> simp [get?_nil]

/-- An assignment to monitor fields changes no folder but those on the way to it. -/
theorem get?_modMon_off (g : Monitor → Monitor) (p q : Ptr) (t : Tree) (h : ¬ q <+: p) :
    (t.modMon g p).get? q = t.get? q := by
  rcases ptr_cases p q with hp | ⟨c, r, rfl⟩ | ⟨a, c, k, r, r1, hne, rfl, rfl⟩
  · obtain ⟨r, rfl⟩ := hp
    cases r with
    | nil => exact absurd (by simp) h
    | cons c r => exact get?_modMon_below g p t c r
  · exact absurd (List.prefix_append _ _) h
  · exact get?_modify_beside _ a t c k r r1 hne

/-- An assignment to monitor fields changes no set of children. -/
theorem keysAt_modMon (g : Monitor → Monitor) (p q : Ptr) (t : Tree) :
    (t.modMon g p).keysAt q = t.keysAt q := by
  by_cases h : q = p
  · subst h
    simp only [Tree.keysAt, get?_modMon_at]
    cases t.get? q <;> simp [children_node]
  · by_cases h1 : q <+: p
    · have : ¬ p <+: q := fun h2 => h (List.Sublist.antisymm h1.sublist h2.sublist)
      exact keysAt_modify_off _ p q t this
    · simp only [Tree.keysAt, get?_modMon_off g p q t h1]

/-- An assignment to monitor fields changes the monitor of one folder. -/
theorem monAt_modMon (g : Monitor → Monitor) (p q : Ptr) (t : Tree) :
    (t.modMon g p).monAt q = if q = p then (t.monAt q).map g else t.monAt q := by
  by_cases h : q = p
  · subst h
    simp only [Tree.monAt, get?_modMon_at, if_true]
    cases t.get? q <;> simp [mon_node]
  · rw [if_neg h]
    by_cases h1 : q <+: p
    · have : ¬ p <+: q := fun h2 => h (List.Sublist.antisymm h1.sublist h2.sublist)
      exact monAt_modify_off _ p q t this
    · simp only [Tree.monAt, get?_modMon_off g p q t h1]

theorem get?_modChildren_at (g : HashMap → HashMap) (p : Ptr) (t : Tree) :
    (t.modChildren g p).get? p = (t.get? p).map (fun n => .node n.mon (g n.children)) := by
  have := get?_modify_at (fun n => .node n.mon (g n.children)) p t []
  simp only [List.append_nil] at this
  rw [Tree.modChildren, this]
  cases t.get? p <;> simp [get?_nil]

theorem get?_modChildren_below (g : HashMap → HashMap) (p : Ptr) (t : Tree) (c : CStr)
    (r : Ptr) : (t.modChildren g p).get? (p ++ c :: r) =
      (t.get? p).bind (fun n => (hmap_get (g n.children) c).bind (fun v => v.get? r)) := by
  rw [Tree.modChildren, get?_modify_at]
  cases t.get? p with
  | none => rfl
  | some n => simp [get?_cons, children_node]

/-- An assignment to a child map changes no monitor but those strictly below. -/
theorem monAt_modChildren (g : HashMap → HashMap) (p q : Ptr) (t : Tree)
    (h : ¬ p <+: q ∨ q = p) : (t.modChildren g p).monAt q = t.monAt q := by
  by_cases h1 : q = p
  · subst h1
    simp only [Tree.monAt, get?_modChildren_at]
    cases t.get? q <;> simp [mon_node]
  · rcases h with h | h
    · exact monAt_modify_off _ p q t h
    · exact absurd h h1

/-- An assignment to a child map changes no set of children above or beside it. -/
theorem keysAt_modChildren_off (g : HashMap → HashMap) (p q : Ptr) (t : Tree)
    (h : ¬ p <+: q) : (t.modChildren g p).keysAt q = t.keysAt q :=
  keysAt_modify_off _ p q t h

theorem keysAt_modChildren_at (g : HashMap → HashMap) (p : Ptr) (t : Tree) :
    (t.modChildren g p).keysAt p = (t.get? p).map (fun n => hmap_keys (g n.children)) := by
  simp only [Tree.keysAt, get?_modChildren_at]
  cases t.get? p <;> simp [children_node]

/-! ## Quiet trees -/

theorem allMonMap_get (P : Monitor → Bool) (ch : HashMap) (h : allMonMap P ch = true)
    (c : CStr) (v : Tree) (hv : hmap_get ch c = some v) : v.allMon P = true := by
  induction ch with
  | nil => simp [hmap_get] at hv
  | cons e ch ih =>
    simp only [allMonMap, Bool.and_eq_true] at h
    simp only [hmap_get] at hv
    by_cases he : e.1 = c
    · rw [if_pos he] at hv
      cases hv
      exact h.1
    · rw [if_neg he] at hv
      exact ih h.2 hv

theorem allMon_get? (P : Monitor → Bool) (p : Ptr) : ∀ (t n : Tree), t.allMon P = true →
    t.get? p = some n → n.allMon P = true := by
  induction p with
  | nil =>
    intro t n h hn
    rw [get?_nil] at hn
    cases hn
    exact h
  | cons c p ih =>
    intro t n h hn
    rw [get?_cons] at hn
    cases t with
    | node m ch =>
      simp only [Tree.allMon, Bool.and_eq_true] at h
      rw [children_node] at hn
      cases hc : hmap_get ch c with
      | none => rw [hc] at hn; cases hn
      | some v =>
        rw [hc] at hn
        exact ih v n (allMonMap_get P ch h.2 c v hc) hn

theorem allMon_monAt (P : Monitor → Bool) (t : Tree) (h : t.allMon P = true) (p : Ptr)
    (m : Monitor) (hm : t.monAt p = some m) : P m = true := by
  simp only [Tree.monAt] at hm
  cases hn : t.get? p with
  | none => rw [hn] at hm; cases hm
  | some n =>
    rw [hn] at hm
    have := allMon_get? P p t n h hn
    cases n with
    | node m1 ch =>
      simp only [Tree.allMon, Bool.and_eq_true] at this
      simp only [Option.map_some', mon_node, Option.some.injEq] at hm
      rw [← hm]
      exact this.1

theorem quiet_monAt (t : Tree) (h : t.quiet = true) (p : Ptr) (m : Monitor)
    (hm : t.monAt p = some m) : m.quiet = true :=
  allMon_monAt _ t h p m hm

theorem quiet_fields (m : Monitor) (h : m.quiet = true) :
    m.writer_type_count = 0 ∧ m.writer_type_waiting = 0 ∧ m.reader_type_count ≤ 0 := by
  simpa [Monitor.quiet, and_assoc] using h

/-! ## The protocols on a quiet monitor -/

theorem reader_entry_shift (m m1 : Monitor) (d : Int × Int) (hq : m.quiet = true)
    (h : Monitor.shift d m m1) (hd : d.2 = 0) :
    ∃ m2, tree_reader_type_entry_protocol m1 = some m2 ∧ Monitor.shift (d.1 + 1, d.2) m m2 := by
  obtain ⟨q1, q2, q3⟩ := quiet_fields m hq
  obtain ⟨h1, h2, h3, h4, h5⟩ := h
  have hno : ¬ (m1.writer_type_count + m1.writer_type_waiting > 0 ∧ m1.change ≤ 0) := by
    rw [h2, h4, q1, q2, hd]; simp
  simp only [tree_reader_type_entry_protocol, if_neg hno]
  refine ⟨_, rfl, ?_⟩
  by_cases hc : m1.change - 1 < 0
  · simp only [if_pos hc]
    exact ⟨by simp [h1]; ring, by simp [h2], h3, h4, fun _ _ => rfl⟩
  · simp only [if_neg hc]
    refine ⟨by simp [h1]; ring, by simp [h2], h3, h4, fun a b => ?_⟩
    have := h5 a b
    simp at hc ⊢
    omega

theorem writer_entry_shift (m m1 : Monitor) (hq : m.quiet = true)
    (h : Monitor.shift (0, 0) m m1) :
    ∃ m2, tree_writer_type_entry_protocol m1 = some m2 ∧ Monitor.shift (0, 1) m m2 := by
  obtain ⟨q1, q2, q3⟩ := quiet_fields m hq
  obtain ⟨h1, h2, h3, h4, h5⟩ := h
  have hno : ¬ (m1.writer_type_count + m1.reader_type_count > 0 ∧ m1.change ≠ -1) := by
    rw [h2, h1, q1]; simp; intro hh; omega
  simp only [tree_writer_type_entry_protocol, if_neg hno]
  exact ⟨_, rfl, by simp [h1], by simp [h2], h3, h4, fun _ _ => rfl⟩

theorem reader_final_shift (m m1 : Monitor) (d : Int × Int) (hq : m.quiet = true)
    (h : Monitor.shift d m m1) :
    Monitor.shift (d.1 - 1, d.2) m (tree_reader_type_final_protocol m1) := by
  obtain ⟨q1, q2, q3⟩ := quiet_fields m hq
  obtain ⟨h1, h2, h3, h4, h5⟩ := h
  have hno : ¬ (m1.reader_type_count - 1 = 0 ∧ m1.writer_type_waiting > 0) := by
    rw [h4, q2]; simp
  simp only [tree_reader_type_final_protocol, if_neg hno]
  exact ⟨by simp [h1]; ring, by simp [h2], h3, h4, h5⟩

theorem writer_final_shift (m m1 : Monitor) (d : Int × Int) (hq : m.quiet = true)
    (h : Monitor.shift d m m1) :
    Monitor.shift (d.1, d.2 - 1) m (tree_writer_type_final_protocol m1) := by
  obtain ⟨q1, q2, q3⟩ := quiet_fields m hq
  obtain ⟨h1, h2, h3, h4, h5⟩ := h
  simp only [tree_writer_type_final_protocol]
  by_cases hr : m1.reader_type_waiting > 0
  · simp only [if_pos hr]
    refine ⟨by simp [h1], by simp [h2]; ring, h3, h4, fun a _ => ?_⟩
    rw [h3, a] at hr
    exact absurd hr (by decide)
  · have hw : ¬ m1.writer_type_waiting > 0 := by rw [h4, q2]; decide
    simp only [if_neg hr, if_neg hw]
    exact ⟨by simp [h1], by simp [h2]; ring, h3, h4, fun _ _ => rfl⟩

/-! ## The invariant of a walk -/

theorem shift_refl (m : Monitor) : Monitor.shift (0, 0) m m :=
  ⟨by simp, by simp, rfl, rfl, fun _ h => h⟩

theorem inv_refl (P : Ptr → Prop) (t : Tree) : Inv P hold0 t t :=
  ⟨fun _ => rfl, fun _ _ => rfl, fun _ m hm => ⟨m, hm, shift_refl m⟩⟩

theorem inv_modMon (P : Ptr → Prop) (h h1 : Ptr → Int × Int) (t s : Tree) (p : Ptr)
    (g : Monitor → Monitor) (hinv : Inv P h t s) (hP : ∀ q, q <+: p → P q)
    (hg : ∀ m m1, t.monAt p = some m → s.monAt p = some m1 → Monitor.shift (h p) m m1 →
      Monitor.shift (h1 p) m (g m1))
    (hh : ∀ q, q ≠ p → h1 q = h q) : Inv P h1 t (s.modMon g p) := by
  refine ⟨fun q => ?_, fun q hq => ?_, fun q m hm => ?_⟩
  · rw [keysAt_modMon, hinv.keys]
  · rw [get?_modMon_off g p q s (fun hpre => hq (hP q hpre)), hinv.frame q hq]
  · obtain ⟨m1, hm1, hs⟩ := hinv.mons q m hm
    rw [monAt_modMon]
    by_cases hqp : q = p
    · subst hqp
      rw [if_pos rfl, hm1]
      exact ⟨g m1, rfl, hg m m1 hm hm1 hs⟩
    · rw [if_neg hqp, hh q hqp]
      exact ⟨m1, hm1, hs⟩

theorem inv_isSome (P : Ptr → Prop) (h : Ptr → Int × Int) (t s : Tree) (hinv : Inv P h t s)
    (q : Ptr) : (s.get? q).isSome = (t.get? q).isSome := by
  have := hinv.keys q
  simp only [Tree.keysAt] at this
  cases hs : s.get? q <;> cases ht : t.get? q <;> simp [hs, ht] at this ⊢

theorem inv_reader_entry (P : Ptr → Prop) (h h1 : Ptr → Int × Int) (t s : Tree) (p : Ptr)
    (hq : ∀ m, t.monAt p = some m → m.quiet = true) (hinv : Inv P h t s) (hP : ∀ q, q <+: p → P q)
    (hex : (t.get? p).isSome = true) (hd : (h p).2 = 0) (h1p : h1 p = ((h p).1 + 1, (h p).2))
    (hh : ∀ q, q ≠ p → h1 q = h q) :
    ∃ s1, s.reader_entry p = .ok s1 ∧ Inv P h1 t s1 := by
  obtain ⟨n, hn⟩ := Option.isSome_iff_exists.1 hex
  have hm : t.monAt p = some n.mon := by simp [Tree.monAt, hn]
  obtain ⟨m1, hm1, hs⟩ := hinv.mons p _ hm
  obtain ⟨m2, he, hs2⟩ := reader_entry_shift _ m1 _ (hq _ hm) hs hd
  refine ⟨s.modMon (fun _ => m2) p, ?_, ?_⟩
  · simp [Tree.reader_entry, Tree.enter, hm1, he]
  · refine inv_modMon P h h1 t s p _ hinv hP (fun m m1' hm' hm1' _ => ?_) hh
    rw [hm] at hm'
    cases hm'
    rw [h1p]
    exact hs2

theorem inv_writer_entry (P : Ptr → Prop) (h h1 : Ptr → Int × Int) (t s : Tree) (p : Ptr)
    (hq : ∀ m, t.monAt p = some m → m.quiet = true) (hinv : Inv P h t s) (hP : ∀ q, q <+: p → P q)
    (hex : (t.get? p).isSome = true) (hd : h p = (0, 0)) (h1p : h1 p = (0, 1))
    (hh : ∀ q, q ≠ p → h1 q = h q) :
    ∃ s1, s.writer_entry p = .ok s1 ∧ Inv P h1 t s1 := by
  obtain ⟨n, hn⟩ := Option.isSome_iff_exists.1 hex
  have hm : t.monAt p = some n.mon := by simp [Tree.monAt, hn]
  obtain ⟨m1, hm1, hs⟩ := hinv.mons p _ hm
  rw [hd] at hs
  obtain ⟨m2, he, hs2⟩ := writer_entry_shift _ m1 (hq _ hm) hs
  refine ⟨s.modMon (fun _ => m2) p, ?_, ?_⟩
  · simp [Tree.writer_entry, Tree.enter, hm1, he]
  · refine inv_modMon P h h1 t s p _ hinv hP (fun m m1' hm' hm1' _ => ?_) hh
    rw [hm] at hm'
    cases hm'
    rw [h1p]
    exact hs2

theorem inv_reader_final (P : Ptr → Prop) (h h1 : Ptr → Int × Int) (t s : Tree) (p : Ptr)
    (hq : ∀ m, t.monAt p = some m → m.quiet = true) (hinv : Inv P h t s) (hP : ∀ q, q <+: p → P q)
    (h1p : h1 p = ((h p).1 - 1, (h p).2)) (hh : ∀ q, q ≠ p → h1 q = h q) :
    Inv P h1 t (s.reader_final p) := by
  refine inv_modMon P h h1 t s p _ hinv hP (fun m m1 hm _ hs => ?_) hh
  rw [h1p]
  exact reader_final_shift m m1 _ (hq _ hm) hs

theorem inv_writer_final (P : Ptr → Prop) (h h1 : Ptr → Int × Int) (t s : Tree) (p : Ptr)
    (hq : ∀ m, t.monAt p = some m → m.quiet = true) (hinv : Inv P h t s) (hP : ∀ q, q <+: p → P q)
    (h1p : h1 p = ((h p).1, (h p).2 - 1)) (hh : ∀ q, q ≠ p → h1 q = h q) :
    Inv P h1 t (s.writer_final p) := by
  refine inv_modMon P h h1 t s p _ hinv hP (fun m m1 hm _ hs => ?_) hh
  rw [h1p]
  exact writer_final_shift m m1 _ (hq _ hm) hs

/-! ## The walk of `tree_create` and `tree_remove` -/

theorem ne_append_singleton (p : Ptr) (c : CStr) : p ≠ p ++ [c] := by
  intro h
  have := congrArg List.length h
  simp at this

theorem prefix_of_prefix_append (q pre : Ptr) (rest : Ptr) (h : q <+: pre) :
    q <+: pre ++ rest := h.trans (List.prefix_append _ _)

theorem walk_loop_spec (P : Ptr → Prop) (t : Tree) (hq : t.quiet_on P) :
    ∀ (rest pre : Ptr) (s : Tree) (fuel : Nat),
      (∀ c ∈ rest, NoSlash c) → (path_of rest).length < fuel →
      (∀ q, q <+: pre ++ rest → P q) →
      (t.get? pre).isSome = true →
      Inv P (hold1 pre (if rest = [] then (0, 1) else (1, 0))) t s →
      (∃ s1, walk_loop fuel s pre (path_of rest) = .ok (some (pre ++ rest), s1) ∧
          (t.get? (pre ++ rest)).isSome = true ∧ Inv P (hold1 (pre ++ rest) (0, 1)) t s1) ∨
      (∃ s1, walk_loop fuel s pre (path_of rest) = .ok (none, s1) ∧
          t.get? (pre ++ rest) = none ∧ Inv P hold0 t s1) := by
  intro rest
  induction rest with
  | nil =>
    intro pre s fuel _ hf _ hex hinv
    left
    cases fuel with
    | zero => omega
    | succ f =>
      refine ⟨s, ?_, by simpa using hex, by simpa using hinv⟩
      simp [walk_loop, split_path_root]
  | cons c rest ih =>
    intro pre s fuel hns hf hP hex hinv
    have hl := length_path_of_cons c rest
    cases fuel with
    | zero => omega
    | succ f =>
      have hc : NoSlash c := hns c (by simp)
      have hPpre : ∀ q, q <+: pre → P q := fun q hq1 => hP q (prefix_of_prefix_append q pre _ hq1)
      have hPchild : ∀ q, q <+: pre ++ [c] → P q := fun q hq1 =>
        hP q (hq1.trans ⟨rest, by simp⟩)
      simp only [walk_loop, split_path_cons c rest hc]
      simp only [if_neg (List.cons_ne_nil c rest)] at hinv
      cases hchild : t.get? (pre ++ [c]) with
      | none =>
        right
        have hs : s.get? (pre ++ [c]) = none := by
          have := inv_isSome P _ t s hinv (pre ++ [c])
          rw [hchild] at this
          simpa using this
        refine ⟨s.reader_final pre, by simp [hs], ?_, ?_⟩
        · have : pre ++ c :: rest = (pre ++ [c]) ++ rest := by simp
          rw [this, get?_append, hchild]
          rfl
        · exact inv_reader_final P _ hold0 t s pre (hq _ (hPpre _ (List.prefix_refl _))) hinv hPpre (by simp [hold0, hold1])
            (fun q hqp => by simp [hold0, hold1, hqp])
      | some n =>
        have hs : ∃ n1, s.get? (pre ++ [c]) = some n1 := by
          have := inv_isSome P _ t s hinv (pre ++ [c])
          rw [hchild] at this
          exact Option.isSome_iff_exists.1 (by simpa using this)
        obtain ⟨n1, hn1⟩ := hs
        have hne : pre ++ [c] ≠ pre := fun e => ne_append_singleton pre c e.symm
        have key : ∀ d : Int × Int, d = (if rest = [] then ((0 : Int), (1 : Int)) else (1, 0)) →
            ∃ s1, (if path_of rest ≠ ['/'] then s.reader_entry (pre ++ [c])
              else s.writer_entry (pre ++ [c])) = .ok s1 ∧
              Inv P (fun q => if q = pre ++ [c] then d else if q = pre then (1, 0) else (0, 0))
                t s1 := by
          intro d hd
          by_cases hr : rest = []
          · subst hr
            simp only [if_true] at hd
            subst hd
            simp only [path_of_nil, ne_eq, not_true_eq_false, if_false]
            exact inv_writer_entry P _ _ t s (pre ++ [c]) (hq _ (hPchild _ (List.prefix_refl _))) hinv hPchild (by simp [hchild])
              (by simp [hold1, hne]) (by simp) (fun q hqp => by simp [hold1, hqp])
          · simp only [if_neg hr] at hd
            subst hd
            have : path_of rest ≠ ['/'] := fun e => hr ((path_of_eq_root_iff rest).1 e)
            simp only [ne_eq, this, not_false_eq_true, if_true]
            exact inv_reader_entry P _ _ t s (pre ++ [c]) (hq _ (hPchild _ (List.prefix_refl _))) hinv hPchild (by simp [hchild])
              (by simp [hold1, hne]) (by simp [hold1, hne]) (fun q hqp => by simp [hold1, hqp])
        obtain ⟨s1, he, hinv1⟩ := key _ rfl
        have hinv2 : Inv P (hold1 (pre ++ [c]) (if rest = [] then (0, 1) else (1, 0))) t
            (s1.reader_final pre) :=
          inv_reader_final P _ _ t s1 pre (hq _ (hPpre _ (List.prefix_refl _))) hinv1 hPpre
            (by simp [hold1, hne.symm]) (fun q hqp => by simp [hold1, hqp])
        have hP2 : ∀ q, q <+: (pre ++ [c]) ++ rest → P q := fun q hq1 => hP q (by simpa using hq1)
        have := ih (pre ++ [c]) (s1.reader_final pre) f (fun x hx => hns x (by simp [hx]))
          (by omega) hP2 (by simp [hchild]) hinv2
        simp only [hn1, he]
        simpa using this

theorem walk_to_parent_spec (P : Ptr → Prop) (t : Tree) (hq : t.quiet_on P) (cs : Ptr)
    (hns : ∀ c ∈ cs, NoSlash c) (hP : ∀ q, q <+: cs → P q) :
    (∃ s1, walk_to_parent t (path_of cs) = .ok (some cs, s1) ∧
        (t.get? cs).isSome = true ∧ Inv P (hold1 cs (0, 1)) t s1) ∨
    (∃ s1, walk_to_parent t (path_of cs) = .ok (none, s1) ∧
        t.get? cs = none ∧ Inv P hold0 t s1) := by
  have hroot : (t.get? []).isSome = true := by simp [get?_nil]
  have hP0 : ∀ q, q <+: ([] : Ptr) → P q := fun q hq1 => hP q (hq1.trans (List.nil_prefix))
  have key : ∃ s0, (if path_of cs ≠ ['/'] then t.reader_entry [] else t.writer_entry []) = .ok s0 ∧
      Inv P (hold1 [] (if cs = [] then (0, 1) else (1, 0))) t s0 := by
    by_cases hr : cs = []
    · subst hr
      simp only [path_of_nil, ne_eq, not_true_eq_false, if_false, if_true]
      exact inv_writer_entry P hold0 _ t t [] (hq _ (hP0 _ (List.prefix_refl _))) (inv_refl P t) hP0 hroot rfl (by simp [hold1])
        (fun q hqp => by simp [hold0, hold1, hqp])
    · have : path_of cs ≠ ['/'] := fun e => hr ((path_of_eq_root_iff cs).1 e)
      simp only [ne_eq, this, not_false_eq_true, if_true, if_neg hr]
      exact inv_reader_entry P hold0 _ t t [] (hq _ (hP0 _ (List.prefix_refl _))) (inv_refl P t) hP0 hroot rfl
        (by simp [hold0, hold1]) (fun q hqp => by simp [hold0, hold1, hqp])
  obtain ⟨s0, he, hinv⟩ := key
  have := walk_loop_spec P t hq cs [] s0 ((path_of cs).length + 1) hns (by omega)
    (by simpa using hP) hroot hinv
  simp only [walk_to_parent, he]
  simpa using this

/-! ## Assignments to a child map on both sides of the invariant -/

theorem get?_below_eq (x : Tree) (p : Ptr) (n : Tree) (hx : x.get? p = some n) (k : CStr)
    (r : Ptr) : x.get? (p ++ k :: r) = (hmap_get n.children k).bind (fun v => v.get? r) := by
  rw [get?_append, hx]
  simp [get?_cons]

theorem get?_modChildren_below_eq (g : HashMap → HashMap) (x : Tree) (p : Ptr) (n : Tree)
    (hx : x.get? p = some n) (k : CStr) (r : Ptr) :
    (x.modChildren g p).get? (p ++ k :: r) =
      (hmap_get (g n.children) k).bind (fun v => v.get? r) := by
  rw [get?_modChildren_below, hx]
  rfl

/-- The same change of the child map of one folder, made in both trees, keeps the
invariant. -/
theorem inv_modChildren (P : Ptr → Prop) (h : Ptr → Int × Int) (t s : Tree) (p : Ptr)
    (gs gt : HashMap → HashMap) (ns nt : Tree) (hinv : Inv P h t s)
    (hs : s.get? p = some ns) (ht : t.get? p = some nt) (hP : ∀ q, q <+: p → P q)
    (hkeys : hmap_keys (gs ns.children) = hmap_keys (gt nt.children))
    (hget : ∀ k, (hmap_get (gs ns.children) k = hmap_get ns.children k ∧
        hmap_get (gt nt.children) k = hmap_get nt.children k) ∨
      (hmap_get (gs ns.children) k = hmap_get (gt nt.children) k ∧
        (hmap_get (gt nt.children) k = none ∨ ∀ r, h (p ++ k :: r) = (0, 0)))) :
    Inv P h (t.modChildren gt p) (s.modChildren gs p) := by
  have below : ∀ k r, ((s.modChildren gs p).get? (p ++ k :: r) = s.get? (p ++ k :: r) ∧
        (t.modChildren gt p).get? (p ++ k :: r) = t.get? (p ++ k :: r)) ∨
      ((s.modChildren gs p).get? (p ++ k :: r) = (t.modChildren gt p).get? (p ++ k :: r) ∧
        ((t.modChildren gt p).get? (p ++ k :: r) = none ∨ h (p ++ k :: r) = (0, 0))) := by
    intro k r
    rw [get?_modChildren_below_eq gs s p ns hs, get?_modChildren_below_eq gt t p nt ht,
      get?_below_eq s p ns hs, get?_below_eq t p nt ht]
    rcases hget k with ⟨h1, h2⟩ | ⟨h1, h2⟩
    · left; rw [h1, h2]; exact ⟨rfl, rfl⟩
    · right
      rw [h1]
      refine ⟨rfl, ?_⟩
      rcases h2 with h2 | h2
      · left; rw [h2]; rfl
      · right; exact h2 r
  refine ⟨fun q => ?_, fun q hq => ?_, fun q m hm => ?_⟩
  · by_cases hpq : p <+: q
    · obtain ⟨r, rfl⟩ := hpq
      cases r with
      | nil =>
        simp only [List.append_nil, keysAt_modChildren_at, hs, ht, Option.map_some', hkeys]
      | cons k r =>
        rcases below k r with ⟨h1, h2⟩ | ⟨h1, _⟩
        · simp only [Tree.keysAt, h1, h2]
          exact hinv.keys _
        · simp only [Tree.keysAt, h1]
    · rw [keysAt_modChildren_off gs p q s hpq, keysAt_modChildren_off gt p q t hpq]
      exact hinv.keys q
  · by_cases hpq : p <+: q
    · obtain ⟨r, rfl⟩ := hpq
      cases r with
      | nil => exact absurd (hP _ (by simp)) hq
      | cons k r =>
        rcases below k r with ⟨h1, h2⟩ | ⟨h1, _⟩
        · rw [h1, h2]
          exact hinv.frame _ hq
        · exact h1
    · have hqp : ¬ q <+: p := fun hh => hq (hP q hh)
      rw [Tree.modChildren, Tree.modChildren, get?_modify_off _ p q s hpq hqp,
        get?_modify_off _ p q t hpq hqp]
      exact hinv.frame q hq
  · by_cases hpq : p <+: q ∧ q ≠ p
    · obtain ⟨⟨r, rfl⟩, hne⟩ := hpq
      cases r with
      | nil => exact absurd (by simp) hne
      | cons k r =>
        rcases below k r with ⟨h1, h2⟩ | ⟨h1, h2⟩
        · simp only [Tree.monAt, h1, h2] at hm ⊢
          exact hinv.mons _ m hm
        · rcases h2 with h2 | h2
          · simp only [Tree.monAt, h2] at hm
            cases hm
          · simp only [Tree.monAt, h1] at hm ⊢
            rw [h2]
            exact ⟨m, hm, shift_refl m⟩
    · have hc : ¬ p <+: q ∨ q = p := by
        by_cases hh : p <+: q
        · right
          by_contra hne
          exact hpq ⟨hh, hne⟩
        · left; exact hh
      rw [monAt_modChildren gs p q s hc]
      rw [monAt_modChildren gt p q t hc] at hm
      exact hinv.mons q m hm

/-! ## Child maps -/

theorem hmap_get_append (ch : HashMap) (c k : CStr) (v : Tree) :
    hmap_get (ch ++ [(c, v)]) k =
      (hmap_get ch k).orElse (fun _ => if c = k then some v else none) := by
  induction ch with
  | nil => simp [hmap_get]
  | cons e ch ih =>
    show hmap_get (e :: (ch ++ [(c, v)])) k = _
    by_cases h : e.1 = k
    · simp [hmap_get, h]
    · rw [hmap_get, hmap_get, if_neg h, if_neg h, ih]

theorem hmap_keys_append (ch : HashMap) (c : CStr) (v : Tree) :
    hmap_keys (ch ++ [(c, v)]) = hmap_keys ch ++ [c] := by
  simp [hmap_keys]

theorem hmap_get_remove (ch : HashMap) (c k : CStr) :
    hmap_get (hmap_remove ch c) k = if k = c then none else hmap_get ch k := by
  induction ch with
  | nil => simp [hmap_get, hmap_remove]
  | cons e ch ih =>
    simp only [hmap_remove] at ih ⊢
    by_cases h : e.1 = c
    · have : decide (e.1 ≠ c) = false := by simp [h]
      rw [List.filter_cons_of_neg (by simp [h]), ih]
      by_cases hk : k = c
      · simp [hk]
      · have : e.1 ≠ k := fun e1 => hk (by rw [← e1, h])
        simp [hk, hmap_get, this]
    · rw [List.filter_cons_of_pos (by simp [h])]
      simp only [hmap_get, ih]
      by_cases hk : e.1 = k
      · have : k ≠ c := fun e1 => h (by rw [hk, e1])
        simp [hk, this]
      · simp [hk]

theorem hmap_keys_remove (ch : HashMap) (c : CStr) :
    hmap_keys (hmap_remove ch c) = (hmap_keys ch).filter (fun k => decide (k ≠ c)) := by
  induction ch with
  | nil => rfl
  | cons e ch ih =>
    simp only [hmap_remove, hmap_keys] at ih ⊢
    by_cases h : e.1 = c
    · rw [List.filter_cons_of_neg (by simp [h]), ih]
      simp [h]
    · rw [List.filter_cons_of_pos (by simp [h]), List.map_cons, ih, List.map_cons,
        List.filter_cons_of_pos (by simp [h])]

theorem hmap_get_eq_none_iff (ch : HashMap) (k : CStr) :
    hmap_get ch k = none ↔ k ∉ hmap_keys ch := by
  induction ch with
  | nil => simp [hmap_get, hmap_keys]
  | cons e ch ih =>
    simp only [hmap_keys] at ih
    simp only [hmap_get, hmap_keys, List.map_cons, List.mem_cons, not_or]
    by_cases h : e.1 = k
    · rw [if_pos h]
      constructor
      · intro hh; cases hh
      · intro hh; exact absurd h.symm hh.1
    · rw [if_neg h]
      constructor
      · intro hh; exact ⟨fun e1 => h e1.symm, ih.1 hh⟩
      · intro hh; exact ih.2 hh.2

theorem hmap_get_none_of_keys_eq (a b : HashMap) (k : CStr) (h : hmap_keys a = hmap_keys b)
    (ha : hmap_get a k = none) : hmap_get b k = none := by
  rw [hmap_get_eq_none_iff] at ha ⊢
  rw [← h]
  exact ha

theorem inv_children_keys (P : Ptr → Prop) (h : Ptr → Int × Int) (t s : Tree)
    (hinv : Inv P h t s) (p : Ptr) (ns nt : Tree) (hs : s.get? p = some ns)
    (ht : t.get? p = some nt) : hmap_keys ns.children = hmap_keys nt.children := by
  have := hinv.keys p
  simpa [Tree.keysAt, hs, ht] using this

theorem inv_get?_exists (P : Ptr → Prop) (h : Ptr → Int × Int) (t s : Tree)
    (hinv : Inv P h t s) (p : Ptr) (hex : (t.get? p).isSome = true) :
    ∃ ns, s.get? p = some ns := by
  have := inv_isSome P h t s hinv p
  rw [hex] at this
  exact Option.isSome_iff_exists.1 this

/-- A new entry added in both trees. -/
theorem inv_insert (P : Ptr → Prop) (h : Ptr → Int × Int) (t s : Tree) (p : Ptr) (c : CStr)
    (v : Tree) (ns nt : Tree) (hinv : Inv P h t s) (hs : s.get? p = some ns)
    (ht : t.get? p = some nt) (hP : ∀ q, q <+: p → P q)
    (hh : ∀ r, h (p ++ c :: r) = (0, 0)) :
    Inv P h (t.insert_at p c v) (s.modChildren (fun _ => ns.children ++ [(c, v)]) p) := by
  have hk := inv_children_keys P h t s hinv p ns nt hs ht
  refine inv_modChildren P h t s p _ _ ns nt hinv hs ht hP ?_ ?_
  · simp only [hmap_keys_append, hk]
  · intro k
    simp only [hmap_get_append]
    by_cases hck : c = k
    · subst hck
      cases h1 : hmap_get ns.children c with
      | none =>
        right
        rw [hmap_get_none_of_keys_eq _ _ c hk h1]
        exact ⟨rfl, Or.inr hh⟩
      | some x =>
        left
        cases h2 : hmap_get nt.children c with
        | none => rw [hmap_get_none_of_keys_eq _ _ c hk.symm h2] at h1; cases h1
        | some y => exact ⟨rfl, rfl⟩
    · left
      simp only [if_neg hck]
      cases hmap_get ns.children k <;> cases hmap_get nt.children k <;> simp

/-- An entry removed in both trees. -/
theorem inv_remove (P : Ptr → Prop) (h : Ptr → Int × Int) (t s : Tree) (p : Ptr) (c : CStr)
    (ns nt : Tree) (hinv : Inv P h t s) (hs : s.get? p = some ns)
    (ht : t.get? p = some nt) (hP : ∀ q, q <+: p → P q) :
    Inv P h (t.remove_at p c) (s.modChildren (fun m => hmap_remove m c) p) := by
  have hk := inv_children_keys P h t s hinv p ns nt hs ht
  refine inv_modChildren P h t s p _ _ ns nt hinv hs ht hP ?_ ?_
  · simp only [hmap_keys_remove, hk]
  · intro k
    rw [hmap_get_remove, hmap_get_remove]
    by_cases hck : k = c
    · subst hck
      right
      refine ⟨?_, Or.inl ?_⟩ <;> simp
    · left
      constructor <;> simp [hck]

/-- The counts `h` tells matter only for the folders of the tree. -/
theorem inv_congr (P : Ptr → Prop) (h h1 : Ptr → Int × Int) (t s : Tree) (hinv : Inv P h t s)
    (hh : ∀ q, (t.get? q).isSome = true → h1 q = h q) : Inv P h1 t s := by
  refine ⟨hinv.keys, hinv.frame, fun q m hm => ?_⟩
  have : (t.get? q).isSome = true := by
    simp only [Tree.monAt] at hm
    cases hg : t.get? q with
    | none => rw [hg] at hm; cases hm
    | some n => rfl
  rw [hh q this]
  exact hinv.mons q m hm

/-! ## `tree_create`, `tree_remove` and `tree_list` on lists of components -/

theorem path_of_ne_nil (cs : Ptr) : path_of cs ≠ [] := by
  simp [path_of]

theorem path_of_snoc_ne_root (cs : Ptr) (c : CStr) : path_of (cs ++ [c]) ≠ ['/'] := by
  intro h
  have := (path_of_eq_root_iff _).1 h
  simp at this

theorem get?_snoc (t : Tree) (p : Ptr) (c : CStr) (n : Tree) (h : t.get? p = some n) :
    t.get? (p ++ [c]) = hmap_get n.children c := by
  rw [get?_below_eq t p n h]
  cases hmap_get n.children c <;> simp [get?_nil]

/-- What `tree_create` does on a quiet tree, case by case. -/
theorem tree_create_comp (t : Tree) (cs : Ptr) (hq : t.quiet_on (fun q => q <+: cs)) (c : CStr)
    (hv : is_path_valid (path_of (cs ++ [c])) = true) (hns : ∀ x ∈ cs ++ [c], NoSlash x) :
    (t.get? cs = none →
      ∃ s, tree_create t (path_of (cs ++ [c])) = .ok (ENOENT, s) ∧
        Inv (fun q => q <+: cs) hold0 t s) ∧
    (∀ n, t.get? cs = some n → hmap_get n.children c ≠ none →
      ∃ s, tree_create t (path_of (cs ++ [c])) = .ok (EEXIST, s) ∧
        Inv (fun q => q <+: cs) hold0 t s) ∧
    (∀ n, t.get? cs = some n → hmap_get n.children c = none →
      ∃ s, tree_create t (path_of (cs ++ [c])) = .ok (0, s) ∧
        Inv (fun q => q <+: cs) hold0 (t.insert_at cs c tree_new) s) := by
  have h1 : ¬ (path_of (cs ++ [c]) = [] ∨ (!is_path_valid (path_of (cs ++ [c]))) = true) := by
    simp [path_of_ne_nil, hv]
  have hc : NoSlash c := hns c (by simp)
  have hcs : ∀ x ∈ cs, NoSlash x := fun x hx => hns x (by simp [hx])
  have unf : tree_create t (path_of (cs ++ [c])) =
      match walk_to_parent t (path_of cs) with
      | .error e => .error e
      | .ok (none, t) => .ok (ENOENT, t)
      | .ok (some curr_tree, t) =>
        match t.get? curr_tree with
        | none => .error .undefined
        | some n =>
          match hmap_insert n.children c tree_new with
          | (false, _) => .ok (EEXIST, t.writer_final curr_tree)
          | (true, children) =>
            .ok (0, (t.modChildren (fun _ => children) curr_tree).writer_final curr_tree) := by
    rw [tree_create, if_neg h1, if_neg (path_of_snoc_ne_root cs c), make_path_to_parent_snoc cs c hc]
  rw [unf]
  have hPcs : ∀ q, q <+: cs → (fun q => q <+: cs) q := fun q h => h
  rcases walk_to_parent_spec (fun q => q <+: cs) t hq cs hcs hPcs with
    ⟨s1, hw, hex, hinv⟩ | ⟨s1, hw, hno, hinv⟩
  · obtain ⟨nt, hnt⟩ := Option.isSome_iff_exists.1 hex
    obtain ⟨ns, hs⟩ := inv_get?_exists _ _ t s1 hinv cs hex
    have hk := inv_children_keys _ _ t s1 hinv cs ns nt hs hnt
    refine ⟨fun h => ?_, fun n hn hc1 => ?_, fun n hn hc1 => ?_⟩
    · rw [hnt] at h; cases h
    · rw [hnt] at hn
      cases hn
      have : hmap_get ns.children c ≠ none :=
        fun e => hc1 (hmap_get_none_of_keys_eq _ _ c hk e)
      obtain ⟨v, hv1⟩ := Option.ne_none_iff_exists'.1 this
      refine ⟨s1.writer_final cs, by simp [hw, hs, hmap_insert, hv1], ?_⟩
      exact inv_writer_final _ _ hold0 t s1 cs (hq _ (hPcs _ (List.prefix_refl _))) hinv hPcs
        (by simp [hold0, hold1])
        (fun q hqp => by simp [hold0, hold1, hqp])
    · rw [hnt] at hn
      cases hn
      have hv1 : hmap_get ns.children c = none := hmap_get_none_of_keys_eq _ _ c hk.symm hc1
      refine ⟨(s1.modChildren (fun _ => ns.children ++ [(c, tree_new)]) cs).writer_final cs,
        by simp [hw, hs, hmap_insert, hv1], ?_⟩
      have hi := inv_insert _ _ t s1 cs c tree_new ns nt hinv hs hnt hPcs
        (fun r => by simp [hold1])
      have hq2 : ∀ m, (t.insert_at cs c tree_new).monAt cs = some m → m.quiet = true := by
        intro m hm
        rw [Tree.insert_at, monAt_modChildren _ cs cs t (Or.inr rfl)] at hm
        exact hq _ (hPcs _ (List.prefix_refl _)) m hm
      exact inv_writer_final _ _ hold0 _ _ cs hq2 hi hPcs (by simp [hold0, hold1])
        (fun q hqp => by simp [hold0, hold1, hqp])
  · refine ⟨fun _ => ⟨s1, by simp [hw], hinv⟩, fun n hn _ => ?_, fun n hn _ => ?_⟩
    · rw [hno] at hn; cases hn
    · rw [hno] at hn; cases hn

theorem remove_at_get?_target (t : Tree) (cs : Ptr) (c : CStr) (n : Tree)
    (hn : t.get? cs = some n) (r : Ptr) : (t.remove_at cs c).get? (cs ++ c :: r) = none := by
  rw [Tree.remove_at, get?_modChildren_below_eq _ t cs n hn, hmap_get_remove, if_pos rfl]
  rfl

theorem hmap_size_eq_of_keys (a b : HashMap) (h : hmap_keys a = hmap_keys b) :
    hmap_size a = hmap_size b := by
  have := congrArg List.length h
  simpa [hmap_keys, hmap_size] using this

/-- What `tree_remove` does on a quiet tree, case by case. -/
theorem tree_remove_comp (t : Tree) (cs : Ptr) (c : CStr)
    (hq : t.quiet_on (fun q => q <+: cs ++ [c]))
    (hv : is_path_valid (path_of (cs ++ [c])) = true) (hns : ∀ x ∈ cs ++ [c], NoSlash x) :
    (t.get? (cs ++ [c]) = none →
      ∃ s, tree_remove t (path_of (cs ++ [c])) = .ok (ENOENT, s) ∧
        Inv (fun q => q <+: cs ++ [c]) hold0 t s) ∧
    (∀ v, t.get? (cs ++ [c]) = some v → v.children ≠ [] →
      ∃ s, tree_remove t (path_of (cs ++ [c])) = .ok (ENOTEMPTY, s) ∧
        Inv (fun q => q <+: cs ++ [c]) (hold1 (cs ++ [c]) (-2, 0)) t s) ∧
    (∀ v, t.get? (cs ++ [c]) = some v → v.children = [] →
      ∃ s, tree_remove t (path_of (cs ++ [c])) = .ok (0, s) ∧
        Inv (fun q => q <+: cs ++ [c]) hold0 (t.remove_at cs c) s) := by
  have h1 : ¬ ((!is_path_valid (path_of (cs ++ [c]))) = true) := by simp [hv]
  have hc : NoSlash c := hns c (by simp)
  have hcs : ∀ x ∈ cs, NoSlash x := fun x hx => hns x (by simp [hx])
  have unf : tree_remove t (path_of (cs ++ [c])) =
      match walk_to_parent t (path_of cs) with
      | .error e => .error e
      | .ok (none, t) => .ok (ENOENT, t)
      | .ok (some curr_tree, t) =>
        match t.get? (curr_tree ++ [c]) with
        | none => .ok (ENOENT, t.writer_final curr_tree)
        | some n =>
          if hmap_size n.children ≠ 0 then
            .ok (ENOTEMPTY,
              ((t.reader_final (curr_tree ++ [c])).writer_final curr_tree).reader_final
                (curr_tree ++ [c]))
          else
            .ok (0, ((t.reader_final (curr_tree ++ [c])).modChildren
              (fun m => hmap_remove m c) curr_tree).writer_final curr_tree) := by
    rw [tree_remove, if_neg h1, if_neg (path_of_snoc_ne_root cs c), make_path_to_parent_snoc cs c hc]
  rw [unf]
  have hPcs : ∀ q, q <+: cs → (fun q => q <+: cs ++ [c]) q :=
    fun q h => h.trans (List.prefix_append _ _)
  have hPt : ∀ q, q <+: cs ++ [c] → (fun q => q <+: cs ++ [c]) q := fun q h => h
  have hne : cs ++ [c] ≠ cs := fun e => ne_append_singleton cs c e.symm
  rcases walk_to_parent_spec (fun q => q <+: cs ++ [c]) t hq cs hcs hPcs with
    ⟨s1, hw, hex, hinv⟩ | ⟨s1, hw, hno, hinv⟩
  · obtain ⟨nt, hnt⟩ := Option.isSome_iff_exists.1 hex
    obtain ⟨ns, hs⟩ := inv_get?_exists _ _ t s1 hinv cs hex
    simp only [hw]
    refine ⟨fun h => ?_, fun v hv1 hch => ?_, fun v hv1 hch => ?_⟩
    · have : s1.get? (cs ++ [c]) = none := by
        have := inv_isSome _ _ t s1 hinv (cs ++ [c])
        rw [h] at this
        simpa using this
      refine ⟨s1.writer_final cs, by simp [this], ?_⟩
      exact inv_writer_final _ _ hold0 t s1 cs (hq _ (hPcs _ (List.prefix_refl _))) hinv hPcs (by simp [hold0, hold1])
        (fun q hqp => by simp [hold0, hold1, hqp])
    · obtain ⟨n1, hn1⟩ := inv_get?_exists _ _ t s1 hinv (cs ++ [c]) (by simp [hv1])
      have hk := inv_children_keys _ _ t s1 hinv _ n1 v hn1 hv1
      have hsz : hmap_size n1.children ≠ 0 := by
        rw [hmap_size_eq_of_keys _ _ hk]
        simpa [hmap_size] using hch
      refine ⟨_, by simp only [hn1, if_pos hsz]; rfl, ?_⟩
      have i2 := inv_reader_final _ _
        (fun q => if q = cs ++ [c] then (-1, 0) else if q = cs then (0, 1) else (0, 0))
        t s1 (cs ++ [c]) (hq _ (hPt _ (List.prefix_refl _))) hinv hPt (by simp [hold1, hne])
        (fun q hqp => by simp [hold1, hqp])
      have i3 := inv_writer_final _ _ (hold1 (cs ++ [c]) (-1, 0)) t _ cs (hq _ (hPcs _ (List.prefix_refl _))) i2 hPcs
        (by simp [hold1, hne.symm]) (fun q hqp => by simp [hold1, hqp])
      exact inv_reader_final _ _ (hold1 (cs ++ [c]) (-2, 0)) t _ (cs ++ [c]) (hq _ (hPt _ (List.prefix_refl _))) i3 hPt
        (by simp [hold1]) (fun q hqp => by simp [hold1, hqp])
    · obtain ⟨n1, hn1⟩ := inv_get?_exists _ _ t s1 hinv (cs ++ [c]) (by simp [hv1])
      have hk := inv_children_keys _ _ t s1 hinv _ n1 v hn1 hv1
      have hsz : ¬ hmap_size n1.children ≠ 0 := by
        rw [hmap_size_eq_of_keys _ _ hk]
        simp [hmap_size, hch]
      refine ⟨_, by simp only [hn1, if_neg hsz]; rfl, ?_⟩
      have i2 := inv_reader_final _ _
        (fun q => if q = cs ++ [c] then (-1, 0) else if q = cs then (0, 1) else (0, 0))
        t s1 (cs ++ [c]) (hq _ (hPt _ (List.prefix_refl _))) hinv hPt (by simp [hold1, hne])
        (fun q hqp => by simp [hold1, hqp])
      obtain ⟨ns2, hs2⟩ := inv_get?_exists _ _ t _ i2 cs hex
      have i3 := inv_remove _ _ t _ cs c ns2 nt i2 hs2 hnt hPcs
      have hq2 : ∀ m, (t.remove_at cs c).monAt cs = some m → m.quiet = true := by
        intro m hm
        rw [Tree.remove_at, monAt_modChildren _ cs cs t (Or.inr rfl)] at hm
        exact hq _ (hPcs _ (List.prefix_refl _)) m hm
      have i4 := inv_writer_final _ _ (hold1 (cs ++ [c]) (-1, 0)) _ _ cs hq2 i3 hPcs
        (by simp [hold1, hne.symm]) (fun q hqp => by simp [hold1, hqp])
      refine inv_congr _ _ hold0 _ _ i4 (fun q hex2 => ?_)
      by_cases hqt : q = cs ++ [c]
      · subst hqt
        have := remove_at_get?_target t cs c nt hnt []
        rw [this] at hex2
        cases hex2
      · simp [hold0, hold1, hqt]
  · have hno2 : t.get? (cs ++ [c]) = none := by rw [get?_append, hno]; rfl
    refine ⟨fun _ => ⟨s1, by simp [hw], hinv⟩, fun v hv1 _ => ?_, fun v hv1 _ => ?_⟩
    · rw [hno2] at hv1; cases hv1
    · rw [hno2] at hv1; cases hv1

theorem list_loop_spec (P : Ptr → Prop) (t : Tree) (hq : t.quiet_on P) :
    ∀ (rest pre : Ptr) (s : Tree) (fuel : Nat),
      (∀ c ∈ rest, NoSlash c) → (path_of rest).length < fuel →
      (∀ q, q <+: pre ++ rest → P q) →
      (t.get? pre).isSome = true →
      Inv P (hold1 pre (1, 0)) t s →
      (∃ s1, list_loop fuel s pre (path_of rest) = .ok (some (pre ++ rest), s1) ∧
          (t.get? (pre ++ rest)).isSome = true ∧ Inv P (hold1 (pre ++ rest) (1, 0)) t s1) ∨
      (∃ s1, list_loop fuel s pre (path_of rest) = .ok (none, s1) ∧
          t.get? (pre ++ rest) = none ∧ Inv P hold0 t s1) := by
  intro rest
  induction rest with
  | nil =>
    intro pre s fuel _ hf _ hex hinv
    left
    cases fuel with
    | zero => omega
    | succ f =>
      refine ⟨s, ?_, by simpa using hex, by simpa using hinv⟩
      simp [list_loop, split_path_root]
  | cons c rest ih =>
    intro pre s fuel hns hf hP hex hinv
    have hl := length_path_of_cons c rest
    cases fuel with
    | zero => omega
    | succ f =>
      have hc : NoSlash c := hns c (by simp)
      have hPpre : ∀ q, q <+: pre → P q := fun q hq1 => hP q (prefix_of_prefix_append q pre _ hq1)
      have hPchild : ∀ q, q <+: pre ++ [c] → P q := fun q hq1 =>
        hP q (hq1.trans ⟨rest, by simp⟩)
      simp only [list_loop, split_path_cons c rest hc]
      cases hchild : t.get? (pre ++ [c]) with
      | none =>
        right
        have hs : s.get? (pre ++ [c]) = none := by
          have := inv_isSome P _ t s hinv (pre ++ [c])
          rw [hchild] at this
          simpa using this
        refine ⟨s.reader_final pre, by simp [hs], ?_, ?_⟩
        · have : pre ++ c :: rest = (pre ++ [c]) ++ rest := by simp
          rw [this, get?_append, hchild]
          rfl
        · exact inv_reader_final P _ hold0 t s pre (hq _ (hPpre _ (List.prefix_refl _))) hinv hPpre (by simp [hold0, hold1])
            (fun q hqp => by simp [hold0, hold1, hqp])
      | some n =>
        obtain ⟨n1, hn1⟩ := inv_get?_exists P _ t s hinv (pre ++ [c]) (by simp [hchild])
        have hne : pre ++ [c] ≠ pre := fun e => ne_append_singleton pre c e.symm
        obtain ⟨s1, he, hinv1⟩ := inv_reader_entry P _
          (fun q => if q = pre ++ [c] then (1, 0) else if q = pre then (1, 0) else (0, 0))
          t s (pre ++ [c]) (hq _ (hPchild _ (List.prefix_refl _))) hinv hPchild (by simp [hchild])
          (by simp [hold1, hne]) (by simp [hold1, hne]) (fun q hqp => by simp [hold1, hqp])
        have hinv2 : Inv P (hold1 (pre ++ [c]) (1, 0)) t (s1.reader_final pre) :=
          inv_reader_final P _ _ t s1 pre (hq _ (hPpre _ (List.prefix_refl _))) hinv1 hPpre
            (by simp [hold1, hne.symm]) (fun q hqp => by simp [hold1, hqp])
        have hP2 : ∀ q, q <+: (pre ++ [c]) ++ rest → P q := fun q hq1 => hP q (by simpa using hq1)
        have := ih (pre ++ [c]) (s1.reader_final pre) f (fun x hx => hns x (by simp [hx]))
          (by omega) hP2 (by simp [hchild]) hinv2
        simp only [hn1, he]
        simpa using this

/-- What `tree_list` does on a quiet tree, case by case. -/
theorem tree_list_comp (t : Tree) (cs : Ptr) (hq : t.quiet_on (fun q => q <+: cs))
    (hv : is_path_valid (path_of cs) = true) (hns : ∀ x ∈ cs, NoSlash x) :
    (t.get? cs = none →
      ∃ s, tree_list t (path_of cs) = .ok (none, s) ∧ Inv (fun q => q <+: cs) hold0 t s) ∧
    (∀ n, t.get? cs = some n →
      ∃ s, tree_list t (path_of cs) = .ok (some (join_commas (hmap_keys n.children)), s) ∧
        Inv (fun q => q <+: cs) hold0 t s) := by
  have hP : ∀ q, q <+: cs → (fun q => q <+: cs) q := fun q h => h
  have hroot : (t.get? []).isSome = true := by simp [get?_nil]
  obtain ⟨s0, he, hinv0⟩ := inv_reader_entry (fun q => q <+: cs) hold0 (hold1 [] (1, 0)) t t []
    (hq _ List.nil_prefix) (inv_refl _ t) (fun q hq1 => hq1.trans List.nil_prefix) hroot rfl
    (by simp [hold0, hold1]) (fun q hqp => by simp [hold0, hold1, hqp])
  have unf : tree_list t (path_of cs) =
      match list_loop ((path_of cs).length + 1) s0 [] (path_of cs) with
      | .error e => .error e
      | .ok (none, t) => .ok (none, t)
      | .ok (some curr_tree, t) =>
        match t.get? curr_tree with
        | none => .error .undefined
        | some n => .ok (some (make_map_contents_string n.children), t.reader_final curr_tree) := by
    rw [tree_list, if_neg (by simp [hv]), he]
  rw [unf]
  rcases list_loop_spec (fun q => q <+: cs) t hq cs [] s0 _ hns (Nat.lt_succ_self _)
    (by simp) hroot hinv0 with ⟨s1, hw, hex, hinv⟩ | ⟨s1, hw, hno, hinv⟩
  · simp only [List.nil_append] at hw hex hinv
    obtain ⟨ns, hs⟩ := inv_get?_exists _ _ t s1 hinv cs hex
    refine ⟨fun h => ?_, fun n hn => ?_⟩
    · rw [h] at hex; cases hex
    · have hk := inv_children_keys _ _ t s1 hinv cs ns n hs hn
      refine ⟨s1.reader_final cs, by simp [hw, hs, make_map_contents_string, hk], ?_⟩
      exact inv_reader_final _ _ hold0 t s1 cs (hq _ (hP _ (List.prefix_refl _))) hinv hP (by simp [hold0, hold1])
        (fun q hqp => by simp [hold0, hold1, hqp])
  · simp only [List.nil_append] at hw hno
    refine ⟨fun _ => ⟨s1, by simp [hw], hinv⟩, fun n hn => ?_⟩
    rw [hno] at hn; cases hn

/-! ## The common part of two paths -/

theorem lcp_spec : ∀ (x y : Ptr), ∃ a b, x = lcp x y ++ a ∧ y = lcp x y ++ b ∧
    (a = [] ∨ b = [] ∨ a.head? ≠ b.head?) := by
  intro x
  induction x with
  | nil => intro y; exact ⟨[], y, by simp [lcp], by simp [lcp], Or.inl rfl⟩
  | cons c x ih =>
    intro y
    cases y with
    | nil => exact ⟨c :: x, [], by simp [lcp], by simp [lcp], Or.inr (Or.inl rfl)⟩
    | cons d y =>
      by_cases hcd : c = d
      · subst hcd
        obtain ⟨a, b, h1, h2, h3⟩ := ih y
        refine ⟨a, b, ?_, ?_, h3⟩
        · simp only [lcp, if_true, List.cons_append]; rw [← h1]
        · simp only [lcp, if_true, List.cons_append]; rw [← h2]
      · refine ⟨c :: x, d :: y, by simp [lcp, hcd], by simp [lcp, hcd], Or.inr (Or.inr ?_)⟩
        simp [hcd]

theorem path_of_tail_cons (c : CStr) (cs : Ptr) :
    (path_of (c :: cs)).tail = c ++ '/' :: (path_of cs).tail := by
  rw [path_of_cons]
  conv_lhs => rw [path_of_eq_slash cs]
  rfl

theorem drop_path_of (pre rest : Ptr) :
    (path_of (pre ++ rest)).drop ((path_body pre).length + 1) = (path_of rest).tail := by
  rw [path_of_append, path_of_eq_slash rest]
  simp only [List.tail_cons]
  rw [show path_body pre ++ '/' :: (path_of rest).tail =
    (path_body pre ++ ['/']) ++ (path_of rest).tail by simp]
  rw [List.drop_append_of_le_length (by simp)]
  simp

theorem take_name (c x : CStr) : (c ++ '/' :: x).take (c.length + 1) = c ++ ['/'] := by
  rw [show c ++ '/' :: x = (c ++ ['/']) ++ x by simp, List.take_append_of_le_length (by simp)]
  simp

theorem name_eq_of_take (c d : CStr) (x y : CStr) (hc : NoSlash c) (hd : NoSlash d)
    (h : (c ++ '/' :: x).take (c.length + 1) = (d ++ '/' :: y).take (c.length + 1)) : c = d := by
  have h1 : (c ++ '/' :: x).take (c.length + 1) = c ++ ['/'] := by
    rw [show c ++ '/' :: x = (c ++ ['/']) ++ x by simp, List.take_append_of_le_length (by simp)]
    simp
  rw [h1] at h
  have h2 := congrArg (List.takeWhile (fun ch => decide (ch ≠ '/'))) (List.take_append_drop (c.length + 1) (d ++ '/' :: y))
  rw [← h, List.append_assoc, List.singleton_append, takeWhile_name c _ hc, takeWhile_name d _ hd] at h2
  exact h2

theorem shared_loop_spec : ∀ (as bs pre : Ptr) (fuel : Nat),
    (∀ c ∈ as, NoSlash c) → (∀ c ∈ bs, NoSlash c) → (path_of as).length < fuel + 1 →
    shared_loop fuel (path_of (pre ++ as)) (path_of (pre ++ bs)) ((path_body pre).length + 1) =
      .ok ((path_body (pre ++ lcp as bs)).length + 1) := by
  intro as
  induction as with
  | nil =>
    intro bs pre fuel _ _ hf
    cases fuel with
    | zero => simp [path_of, path_body] at hf
    | succ f =>
      rw [shared_loop]
      simp only [drop_path_of]
      simp [path_of, path_body, lcp]
  | cons c as ih =>
    intro bs pre fuel has hbs hf
    have hl := length_path_of_cons c as
    have hc : NoSlash c := has c (by simp)
    cases fuel with
    | zero => omega
    | succ f =>
      rw [shared_loop]
      simp only [drop_path_of, path_of_tail_cons]
      rw [dropWhile_name c _ hc, takeWhile_name c _ hc]
      simp only []
      have hts : (c ++ '/' :: (path_of as).tail).take (c.length + 1) = c ++ ['/'] := by
        rw [show c ++ '/' :: (path_of as).tail = (c ++ ['/']) ++ (path_of as).tail by simp,
          List.take_append_of_le_length (by simp)]
        simp
      cases bs with
      | nil =>
        have : (path_of ([] : Ptr)).tail = [] := rfl
        rw [this]
        simp [lcp]
      | cons d bs =>
        have hd : NoSlash d := hbs d (by simp)
        rw [path_of_tail_cons]
        by_cases hcd : c = d
        · subst hcd
          rw [if_neg (by simp [take_name])]
          have := ih bs (pre ++ [c]) f (fun x hx => has x (by simp [hx]))
            (fun x hx => hbs x (by simp [hx])) (by omega)
          simp only [List.append_assoc, List.singleton_append] at this
          have e : (path_body (pre ++ [c])).length + 1 = (path_body pre).length + 1 + (c.length + 1) := by
            simp [path_body_append, path_body]; omega
          rw [e] at this
          rw [this]
          simp [lcp]
        · rw [if_pos (fun e => hcd (name_eq_of_take c d _ _ hc hd e))]
          simp [lcp, hcd]

theorem shared_path_spec (ss tp : Ptr) (hs : ∀ c ∈ ss, NoSlash c) (ht : ∀ c ∈ tp, NoSlash c) :
    shared_path (path_of ss) (path_of tp) = .ok (path_of (lcp ss tp)) := by
  have := shared_loop_spec ss tp [] ((path_of ss).length + 1) hs ht (by omega)
  simp only [List.nil_append, path_body, List.length_nil, Nat.zero_add] at this
  rw [shared_path, this]
  obtain ⟨a, b, h1, _, _⟩ := lcp_spec ss tp
  generalize lcp ss tp = L at h1 ⊢
  subst h1
  simp only []
  congr 1
  rw [path_of_append]
  rw [show path_body L ++ path_of a = (path_body L ++ ['/']) ++ (path_of a).tail by
    conv_lhs => rw [path_of_eq_slash a]
    simp]
  rw [List.take_append_of_le_length (by simp)]
  simp [path_of]

theorem drop_shared (pre rest : Ptr) :
    (path_of (pre ++ rest)).drop ((path_of pre).length - 1) = path_of rest := by
  rw [path_of_append]
  have : (path_of pre).length - 1 = (path_body pre).length := by simp [path_of]
  rw [this, List.drop_left]

/-! ## `tree_move`: the walk to the deepest common folder -/

theorem split_path_buf_cons (c : CStr) (cs : Ptr) (buf : CStr) (h : NoSlash c) :
    split_path_buf (path_of (c :: cs)) buf = (some (path_of cs), c) := by
  simp [split_path_buf, split_path_cons c cs h]

theorem split_path_buf_root (buf : CStr) : split_path_buf (path_of []) buf = (none, buf) := by
  simp [split_path_buf, split_path_root]

theorem move_lca_loop_spec (P : Ptr → Prop) (t : Tree) (hq : t.quiet_on P) (a b : Ptr)
    (ha : a ≠ []) (hab : b = [] ∨ a.head? ≠ b.head?)
    (hna : ∀ c ∈ a, NoSlash c) (hnb : ∀ c ∈ b, NoSlash c) :
    ∀ (restL : Ptr) (c : CStr) (pre : Ptr) (s : Tree) (fuel : Nat),
      (∀ x ∈ restL, NoSlash x) → restL.length < fuel →
      (∀ q, q <+: pre ++ c :: restL → P q) →
      (t.get? pre).isSome = true →
      Inv P (hold1 pre (1, 0)) t s →
      (∃ s1, move_lca_loop fuel s pre (some (path_of (restL ++ a))) (some (path_of (restL ++ b)))
            c c = .ok (some (pre ++ c :: restL), s1) ∧
          (t.get? (pre ++ c :: restL)).isSome = true ∧
          Inv P (hold1 (pre ++ c :: restL) (0, 1)) t s1) ∨
      (∃ s1, move_lca_loop fuel s pre (some (path_of (restL ++ a))) (some (path_of (restL ++ b)))
            c c = .ok (none, s1) ∧
          t.get? (pre ++ c :: restL) = none ∧ Inv P hold0 t s1) := by
  intro restL
  induction restL with
  | nil =>
    intro c pre s fuel _ hf hP hex hinv
    cases fuel with
    | zero => omega
    | succ f =>
      have hPpre : ∀ q, q <+: pre → P q := fun q hq1 => hP q (prefix_of_prefix_append q pre _ hq1)
      have hPchild : ∀ q, q <+: pre ++ [c] → P q := hP
      have hne : pre ++ [c] ≠ pre := fun e => ne_append_singleton pre c e.symm
      rw [move_lca_loop, if_pos rfl]
      simp only [List.nil_append]
      cases hchild : t.get? (pre ++ [c]) with
      | none =>
        right
        have hs : s.get? (pre ++ [c]) = none := by
          have := inv_isSome P _ t s hinv (pre ++ [c])
          rw [hchild] at this
          simpa using this
        refine ⟨s.reader_final pre, by simp [hs], rfl, ?_⟩
        exact inv_reader_final P _ hold0 t s pre (hq _ (hPpre _ (List.prefix_refl _))) hinv hPpre (by simp [hold0, hold1])
          (fun q hqp => by simp [hold0, hold1, hqp])
      | some n =>
        left
        obtain ⟨n1, hn1⟩ := inv_get?_exists P _ t s hinv (pre ++ [c]) (by simp [hchild])
        obtain ⟨s1, he, hinv1⟩ := inv_writer_entry P _
          (fun q => if q = pre ++ [c] then (0, 1) else if q = pre then (1, 0) else (0, 0))
          t s (pre ++ [c]) (hq _ (hPchild _ (List.prefix_refl _))) hinv hPchild (by simp [hchild])
          (by simp [hold1, hne]) (by simp) (fun q hqp => by simp [hold1, hqp])
        have hinv2 : Inv P (hold1 (pre ++ [c]) (0, 1)) t (s1.reader_final pre) :=
          inv_reader_final P _ _ t s1 pre (hq _ (hPpre _ (List.prefix_refl _))) hinv1 hPpre
            (by simp [hold1, hne.symm]) (fun q hqp => by simp [hold1, hqp])
        refine ⟨s1.reader_final pre, ?_, rfl, hinv2⟩
        obtain ⟨x, a1, rfl⟩ := List.exists_cons_of_ne_nil ha
        have hx : NoSlash x := hna x (by simp)
        simp only [hn1, split_path_buf_cons x a1 c hx]
        cases b with
        | nil =>
          simp only [split_path_buf_root]
          simp [he]
        | cons y b1 =>
          have hy : NoSlash y := hnb y (by simp)
          have hxy : x ≠ y := by
            rcases hab with h | h
            · cases h
            · simpa using h
          simp only [split_path_buf_cons y b1 c hy]
          simp [hxy, he]
  | cons c1 restL ih =>
    intro c pre s fuel hns hf hP hex hinv
    cases fuel with
    | zero => simp at hf
    | succ f =>
      have hPpre : ∀ q, q <+: pre → P q := fun q hq1 => hP q (prefix_of_prefix_append q pre _ hq1)
      have hPchild : ∀ q, q <+: pre ++ [c] → P q := fun q hq1 =>
        hP q (hq1.trans ⟨c1 :: restL, by simp⟩)
      have hne : pre ++ [c] ≠ pre := fun e => ne_append_singleton pre c e.symm
      have hc1 : NoSlash c1 := hns c1 (by simp)
      rw [move_lca_loop, if_pos rfl]
      cases hchild : t.get? (pre ++ [c]) with
      | none =>
        right
        have hs : s.get? (pre ++ [c]) = none := by
          have := inv_isSome P _ t s hinv (pre ++ [c])
          rw [hchild] at this
          simpa using this
        refine ⟨s.reader_final pre, by simp [hs], ?_, ?_⟩
        · have : pre ++ c :: c1 :: restL = (pre ++ [c]) ++ (c1 :: restL) := by simp
          rw [this, get?_append, hchild]
          rfl
        · exact inv_reader_final P _ hold0 t s pre (hq _ (hPpre _ (List.prefix_refl _))) hinv hPpre (by simp [hold0, hold1])
            (fun q hqp => by simp [hold0, hold1, hqp])
      | some n =>
        obtain ⟨n1, hn1⟩ := inv_get?_exists P _ t s hinv (pre ++ [c]) (by simp [hchild])
        obtain ⟨s1, he, hinv1⟩ := inv_reader_entry P _
          (fun q => if q = pre ++ [c] then (1, 0) else if q = pre then (1, 0) else (0, 0))
          t s (pre ++ [c]) (hq _ (hPchild _ (List.prefix_refl _))) hinv hPchild (by simp [hchild])
          (by simp [hold1, hne]) (by simp [hold1, hne]) (fun q hqp => by simp [hold1, hqp])
        have hinv2 : Inv P (hold1 (pre ++ [c]) (1, 0)) t (s1.reader_final pre) :=
          inv_reader_final P _ _ t s1 pre (hq _ (hPpre _ (List.prefix_refl _))) hinv1 hPpre
            (by simp [hold1, hne.symm]) (fun q hqp => by simp [hold1, hqp])
        have := ih c1 (pre ++ [c]) (s1.reader_final pre) f (fun x hx => hns x (by simp [hx]))
          (by simpa using hf) (fun q hq1 => hP q (by simpa using hq1)) (by simp [hchild]) hinv2
        simp only [hn1, List.cons_append, split_path_buf_cons c1 _ c hc1, he]
        simpa using this

theorem length_le_path_of (cs : Ptr) : cs.length < (path_of cs).length := by
  induction cs with
  | nil => simp [path_of]
  | cons c cs ih =>
    rw [path_of_cons]
    simp only [List.length_cons, List.length_append]
    omega

theorem hold1_writer (p : Ptr) : hold1 p (0, 1) = holds [p] [] := by
  funext q
  by_cases h : q = p <;> simp [hold1, holds, h]

theorem hold1_reader (p : Ptr) : hold1 p (1, 0) = holds [] [p] := by
  funext q
  by_cases h : q = p <;> simp [hold1, holds, h]

theorem hold0_eq : hold0 = holds [] [] := by
  funext q
  simp [hold0, holds]

theorem move_to_lca_spec (P : Ptr → Prop) (t : Tree) (hq : t.quiet_on P) (L a b : Ptr)
    (ha : a ≠ []) (hab : b = [] ∨ a.head? ≠ b.head?)
    (hnL : ∀ c ∈ L, NoSlash c) (hna : ∀ c ∈ a, NoSlash c) (hnb : ∀ c ∈ b, NoSlash c)
    (hP : ∀ q, q <+: L → P q) :
    (∃ s1, move_to_lca t (path_of (L ++ a)) (path_of (L ++ b)) (path_of L) = .ok (some L, s1) ∧
        (t.get? L).isSome = true ∧ Inv P (holds [L] []) t s1) ∨
    (∃ s1, move_to_lca t (path_of (L ++ a)) (path_of (L ++ b)) (path_of L) = .ok (none, s1) ∧
        t.get? L = none ∧ Inv P hold0 t s1) := by
  have hroot : (t.get? []).isSome = true := by simp [get?_nil]
  have hP0 : ∀ q, q <+: ([] : Ptr) → P q := fun q hq1 => hP q (hq1.trans List.nil_prefix)
  cases L with
  | nil =>
    left
    obtain ⟨s1, he, hinv⟩ := inv_writer_entry P hold0 (hold1 [] (0, 1)) t t []
      (hq _ (hP0 _ (List.prefix_refl _)))
      (inv_refl P t) hP0 hroot rfl (by simp [hold1]) (fun q hqp => by simp [hold0, hold1, hqp])
    refine ⟨s1, ?_, hroot, by rw [← hold1_writer]; exact hinv⟩
    simp [move_to_lca, path_of_nil, he]
  | cons c restL =>
    obtain ⟨s0, he, hinv⟩ := inv_reader_entry P hold0 (hold1 [] (1, 0)) t t []
      (hq _ (hP0 _ (List.prefix_refl _)))
      (inv_refl P t) hP0 hroot rfl (by simp [hold0, hold1])
      (fun q hqp => by simp [hold0, hold1, hqp])
    have hc : NoSlash c := hnL c (by simp)
    have unf : move_to_lca t (path_of (c :: restL ++ a)) (path_of (c :: restL ++ b))
        (path_of (c :: restL)) =
        move_lca_loop ((path_of (c :: restL ++ a)).length + 1) s0 []
          (some (path_of (restL ++ a))) (some (path_of (restL ++ b))) c c := by
      rw [move_to_lca, if_neg (path_of_ne_slash c restL), he]
      simp only [List.cons_append, split_path_cons c _ hc]
    rw [unf]
    have hlen : restL.length < (path_of (c :: restL ++ a)).length + 1 := by
      have := length_le_path_of (c :: restL ++ a)
      simp only [List.cons_append, List.length_cons, List.length_append] at this
      simp only [List.cons_append]
      omega
    have := move_lca_loop_spec P t hq a b ha hab hna hnb restL c [] s0 _
      (fun x hx => hnL x (by simp [hx])) hlen (by simpa using hP) hroot hinv
    simp only [List.nil_append] at this
    rw [hold1_writer] at this
    exact this

/-! ## `tree_move`: the walk to the parent of `source` -/

theorem append_ne_self (L d : Ptr) (h : d ≠ []) : L ++ d ≠ L := by
  intro e
  have := congrArg List.length e
  simp only [List.length_append] at this
  have : d.length = 0 := by omega
  exact h (List.length_eq_zero.1 this)

theorem snoc_ne_self (L d : Ptr) (c : CStr) : L ++ d ++ [c] ≠ L ++ d :=
  fun e => ne_append_singleton (L ++ d) c e.symm

theorem snoc_ne_base (L d : Ptr) (c : CStr) : L ++ d ++ [c] ≠ L := by
  rw [List.append_assoc]
  exact append_ne_self L (d ++ [c]) (by simp)

theorem inv_writer_count (P : Ptr → Prop) (h : Ptr → Int × Int) (t s : Tree)
    (hq : t.quiet_on P) (hinv : Inv P h t s) (p : Ptr) (hPp : P p)
    (hex : (t.get? p).isSome = true) :
    ∃ m1, s.monAt p = some m1 ∧ m1.writer_type_count = (h p).2 := by
  obtain ⟨n, hn⟩ := Option.isSome_iff_exists.1 hex
  have hm : t.monAt p = some n.mon := by simp [Tree.monAt, hn]
  obtain ⟨m1, hm1, hs⟩ := hinv.mons p _ hm
  refine ⟨m1, hm1, ?_⟩
  rw [hs.2.1, (quiet_fields _ (hq p hPp _ hm)).1]
  simp

theorem move_source_loop_spec (P : Ptr → Prop) (t : Tree) (hq : t.quiet_on P) (L : Ptr) :
    ∀ (rem done : Ptr) (s : Tree) (fuel : Nat),
      (∀ c ∈ rem, NoSlash c) → (path_of rem).length < fuel →
      (∀ q, q <+: L ++ done ++ rem → P q) →
      (t.get? (L ++ done)).isSome = true →
      Inv P (if rem = [] ∨ done = [] then holds [L, L ++ done] [] else holds [L] [L ++ done])
        t s →
      (∃ s1, move_source_loop fuel s L (L ++ done) (path_of rem) (decide (done = [])) =
            .ok (some (L ++ done ++ rem, decide (done ++ rem = [])), s1) ∧
          (t.get? (L ++ done ++ rem)).isSome = true ∧
          Inv P (holds [L, L ++ done ++ rem] []) t s1) ∨
      (∃ s1, move_source_loop fuel s L (L ++ done) (path_of rem) (decide (done = [])) =
            .ok (none, s1) ∧
          t.get? (L ++ done ++ rem) = none ∧ Inv P hold0 t s1) := by
  intro rem
  induction rem with
  | nil =>
    intro done s fuel _ hf _ hex hinv
    left
    cases fuel with
    | zero => omega
    | succ f =>
      refine ⟨s, ?_, by simpa using hex, by simpa using hinv⟩
      simp [move_source_loop, split_path_root]
  | cons c rem ih =>
    intro done s fuel hns hf hP hex hinv
    have hl := length_path_of_cons c rem
    cases fuel with
    | zero => omega
    | succ f =>
      have hc : NoSlash c := hns c (by simp)
      have hPL : ∀ q, q <+: L → P q := fun q hq1 =>
        hP q (by rw [List.append_assoc]; exact prefix_of_prefix_append q L _ hq1)
      have hPpre : ∀ q, q <+: L ++ done → P q :=
        fun q hq1 => hP q (prefix_of_prefix_append q _ _ hq1)
      have hPchild : ∀ q, q <+: L ++ done ++ [c] → P q := fun q hq1 =>
        hP q (hq1.trans ⟨rem, by simp⟩)
      have hne1 := snoc_ne_self L done c
      have hne2 := snoc_ne_base L done c
      rw [move_source_loop]
      simp only [split_path_cons c rem hc]
      simp only [List.cons_ne_nil, false_or] at hinv
      cases hchild : t.get? (L ++ done ++ [c]) with
      | none =>
        right
        have hs : s.get? (L ++ done ++ [c]) = none := by
          have := inv_isSome P _ t s hinv (L ++ done ++ [c])
          rw [hchild] at this
          simpa using this
        have hnone : t.get? (L ++ done ++ c :: rem) = none := by
          have : L ++ done ++ c :: rem = (L ++ done ++ [c]) ++ rem := by simp
          rw [this, get?_append, hchild]
          rfl
        obtain ⟨m1, hm1, hwc⟩ := inv_writer_count P _ t s hq hinv (L ++ done)
          (hPpre _ (List.prefix_refl _)) hex
        simp only [hs, hm1]
        by_cases hd : done = []
        · subst hd
          simp only [List.append_nil, if_true] at hinv hwc ⊢
          have hw1 : m1.writer_type_count > 0 := by rw [hwc]; simp [holds]
          refine ⟨s.writer_final L, by simp [hw1], by simpa using hnone, ?_⟩
          exact inv_writer_final P _ hold0 t s L (hq _ (hPL _ (List.prefix_refl _))) hinv hPL (by simp [hold0, holds])
            (fun q hqp => by simp [hold0, holds, hqp])
        · simp only [if_neg hd] at hinv hwc
          have hLd := append_ne_self L done hd
          have hw0 : ¬ m1.writer_type_count > 0 := by rw [hwc]; simp [holds, hLd]
          refine ⟨(s.reader_final (L ++ done)).writer_final L, by simp [hw0, hLd], hnone, ?_⟩
          have i1 := inv_reader_final P _ (holds [L] []) t s (L ++ done) (hq _ (hPpre _ (List.prefix_refl _))) hinv hPpre
            (by simp [holds, hLd]) (fun q hqp => by simp [holds, hqp])
          exact inv_writer_final P _ hold0 t _ L (hq _ (hPL _ (List.prefix_refl _))) i1 hPL (by simp [hold0, holds])
            (fun q hqp => by simp [hold0, holds, hqp])
      | some n =>
        have hex2 : (t.get? (L ++ done ++ [c])).isSome = true := by rw [hchild]; rfl
        obtain ⟨n1, hn1⟩ := inv_get?_exists P _ t s hinv (L ++ done ++ [c]) hex2
        have e1 : L ++ (done ++ [c]) = L ++ done ++ [c] := by simp
        have hdc : done ++ [c] ≠ [] := by simp
        have hih := fun s2 => ih (done ++ [c]) s2 f (fun x hx => hns x (by simp [hx])) (by omega)
          (fun q hq1 => hP q (by simpa using hq1)) (by rw [e1]; exact hex2)
        simp only [hdc, or_false, decide_False, e1] at hih
        have e2 : L ++ done ++ [c] ++ rem = L ++ done ++ c :: rem := by simp
        have e3 : decide (done ++ c :: rem = []) = false := by simp
        have e4 : decide (done ++ [c] ++ rem = []) = false := by simp
        rw [e2, e4] at hih
        rw [e3]
        simp only [hn1]
        generalize L ++ done ++ [c] = child at hne1 hne2 hPchild hex2 hih ⊢
        have key : ∃ s2, (match (if path_of rem ≠ ['/'] then s.reader_entry child
              else s.writer_entry child) with
            | .error e => .error e
            | .ok t1 => move_source_loop f
                (if (!decide (done = [])) = true then t1.reader_final (L ++ done) else t1) L
                child (path_of rem) false) =
              move_source_loop f s2 L child (path_of rem) false ∧
            Inv P (if rem = [] then holds [L, child] [] else holds [L] [child]) t s2 := by
          by_cases hr : rem = []
          · subst hr
            simp only [path_of_nil, ne_eq, not_true_eq_false, if_false, if_true]
            by_cases hd : done = []
            · subst hd
              simp only [List.append_nil, if_true] at hinv ⊢
              obtain ⟨s1, he, hinv1⟩ := inv_writer_entry P _ (holds [L, child] []) t s
                child (hq _ (hPchild _ (List.prefix_refl _))) hinv hPchild hex2
                (by simp [holds, hne2]) (by simp [holds])
                (fun q hqp => by simp [holds, hqp])
              exact ⟨s1, by simp [he], hinv1⟩
            · simp only [if_neg hd] at hinv
              have hLd := append_ne_self L done hd
              obtain ⟨s1, he, hinv1⟩ := inv_writer_entry P _
                (holds [L, child] [L ++ done]) t s
                child (hq _ (hPchild _ (List.prefix_refl _))) hinv hPchild hex2
                (by simp [holds, hne1, hne2]) (by simp [holds, hne1])
                (fun q hqp => by simp [holds, hqp])
              refine ⟨s1.reader_final (L ++ done), by simp [he, hd], ?_⟩
              exact inv_reader_final P _ _ t s1 (L ++ done) (hq _ (hPpre _ (List.prefix_refl _))) hinv1 hPpre
                (by simp [holds, hd, hne1.symm]) (fun q hqp => by simp [holds, hqp])
          · have hpr : path_of rem ≠ ['/'] := fun e => hr ((path_of_eq_root_iff rem).1 e)
            simp only [ne_eq, hpr, not_false_eq_true, if_true, if_neg hr]
            by_cases hd : done = []
            · subst hd
              simp only [List.append_nil, if_true] at hinv ⊢
              obtain ⟨s1, he, hinv1⟩ := inv_reader_entry P _ (holds [L] [child]) t s
                child (hq _ (hPchild _ (List.prefix_refl _))) hinv hPchild hex2
                (by simp [holds, hne2]) (by simp [holds, hne2])
                (fun q hqp => by simp [holds, hqp])
              exact ⟨s1, by simp [he], hinv1⟩
            · simp only [if_neg hd] at hinv
              have hLd := append_ne_self L done hd
              obtain ⟨s1, he, hinv1⟩ := inv_reader_entry P _
                (holds [L] [child, L ++ done]) t s
                child (hq _ (hPchild _ (List.prefix_refl _))) hinv hPchild hex2
                (by simp [holds, hne1, hne2]) (by simp [holds, hne1, hne2])
                (fun q hqp => by simp [holds, hqp])
              refine ⟨s1.reader_final (L ++ done), by simp [he, hd], ?_⟩
              exact inv_reader_final P _ _ t s1 (L ++ done) (hq _ (hPpre _ (List.prefix_refl _))) hinv1 hPpre
                (by simp [holds, hd, hne1.symm]) (fun q hqp => by simp [holds, hqp])
        obtain ⟨s2, he2, hinv2⟩ := key
        rw [he2]
        exact hih s2 hinv2

/-! ## `tree_move`: the walk to the parent of `target` -/

theorem or_dup3 (a b : Prop) : (a ∨ b ∨ a) ↔ (a ∨ b) := by tauto

theorem move_target_loop_spec (P : Ptr → Prop) (t : Tree) (hq : t.quiet_on P) (L sp : Ptr)
    (hPsp : ∀ q, q <+: sp → P q) (hPL : ∀ q, q <+: L → P q) :
    ∀ (rem done : Ptr) (s : Tree) (fuel : Nat),
      (∀ c ∈ rem, NoSlash c) → (path_of rem).length < fuel →
      (∀ q, q <+: L ++ done ++ rem → P q) →
      (∀ d, d ≠ [] → d <+: done ++ rem → L ++ d ≠ sp) →
      (t.get? (L ++ done)).isSome = true →
      Inv P (if rem = [] ∨ done = [] then holds [L, sp, L ++ done] []
        else holds [L, sp] [L ++ done]) t s →
      (∃ s1, move_target_loop fuel s L sp (L ++ done) (path_of rem) (decide (done = [])) =
            .ok (some (L ++ done ++ rem, decide (done ++ rem = [])), s1) ∧
          (t.get? (L ++ done ++ rem)).isSome = true ∧
          Inv P (holds [L, sp, L ++ done ++ rem] []) t s1) ∨
      (∃ s1, move_target_loop fuel s L sp (L ++ done) (path_of rem) (decide (done = [])) =
            .ok (none, s1) ∧
          t.get? (L ++ done ++ rem) = none ∧ Inv P hold0 t s1) := by
  have release : ∀ s0, Inv P (holds [L, sp] []) t s0 →
      Inv P hold0 t ((if sp ≠ L then s0.writer_final sp else s0).writer_final L) := by
    intro s0 h0
    by_cases hsl : sp = L
    · subst hsl
      simp only [ne_eq, not_true_eq_false, if_false]
      exact inv_writer_final P _ hold0 t s0 sp (hq _ (hPL _ (List.prefix_refl _))) h0 hPL (by simp [hold0, holds])
        (fun q hqp => by simp [hold0, holds, hqp])
    · simp only [ne_eq, hsl, not_false_eq_true, if_true]
      have i1 := inv_writer_final P _ (holds [L] []) t s0 sp (hq _ (hPsp _ (List.prefix_refl _))) h0 hPsp
        (by simp [holds, or_dup3, hsl]) (fun q hqp => by simp [holds, or_dup3, hqp])
      exact inv_writer_final P _ hold0 t _ L (hq _ (hPL _ (List.prefix_refl _))) i1 hPL (by simp [hold0, holds])
        (fun q hqp => by simp [hold0, holds, hqp])
  intro rem
  induction rem with
  | nil =>
    intro done s fuel _ hf _ _ hex hinv
    left
    cases fuel with
    | zero => omega
    | succ f =>
      refine ⟨s, ?_, by simpa using hex, by simpa using hinv⟩
      simp [move_target_loop, split_path_root]
  | cons c rem ih =>
    intro done s fuel hns hf hP hdiv hex hinv
    have hl := length_path_of_cons c rem
    cases fuel with
    | zero => omega
    | succ f =>
      have hc : NoSlash c := hns c (by simp)
      have hPpre : ∀ q, q <+: L ++ done → P q :=
        fun q hq1 => hP q (prefix_of_prefix_append q _ _ hq1)
      have hPchild : ∀ q, q <+: L ++ done ++ [c] → P q := fun q hq1 =>
        hP q (hq1.trans ⟨rem, by simp⟩)
      have hne1 := snoc_ne_self L done c
      have hne2 := snoc_ne_base L done c
      have hne3 : L ++ done ++ [c] ≠ sp := by
        rw [List.append_assoc]
        exact hdiv (done ++ [c]) (by simp) ⟨rem, by simp⟩
      rw [move_target_loop]
      simp only [split_path_cons c rem hc]
      simp only [List.cons_ne_nil, false_or] at hinv
      cases hchild : t.get? (L ++ done ++ [c]) with
      | none =>
        right
        have hs : s.get? (L ++ done ++ [c]) = none := by
          have := inv_isSome P _ t s hinv (L ++ done ++ [c])
          rw [hchild] at this
          simpa using this
        have hnone : t.get? (L ++ done ++ c :: rem) = none := by
          have : L ++ done ++ c :: rem = (L ++ done ++ [c]) ++ rem := by simp
          rw [this, get?_append, hchild]
          rfl
        simp only [hs]
        refine ⟨_, rfl, hnone, ?_⟩
        by_cases hd : done = []
        · subst hd
          simp only [List.append_nil, if_true] at hinv ⊢
          simp only [ne_eq, not_true_eq_false, if_false]
          apply release
          have : holds [L, sp, L] [] = holds [L, sp] [] := by
            funext q
            simp [holds, or_dup3]
          rw [← this]
          exact hinv
        · simp only [if_neg hd] at hinv
          have hLd := append_ne_self L done hd
          have hsp : L ++ done ≠ sp := hdiv done hd (List.prefix_append _ _)
          simp only [ne_eq, hLd, not_false_eq_true, if_true]
          apply release
          exact inv_reader_final P _ (holds [L, sp] []) t s (L ++ done) (hq _ (hPpre _ (List.prefix_refl _))) hinv hPpre
            (by simp [holds, or_dup3, hd, hsp]) (fun q hqp => by simp [holds, or_dup3, hqp])
      | some n =>
        have hex2 : (t.get? (L ++ done ++ [c])).isSome = true := by rw [hchild]; rfl
        obtain ⟨n1, hn1⟩ := inv_get?_exists P _ t s hinv (L ++ done ++ [c]) hex2
        have e1 : L ++ (done ++ [c]) = L ++ done ++ [c] := by simp
        have hdc : done ++ [c] ≠ [] := by simp
        have hih := fun s2 => ih (done ++ [c]) s2 f (fun x hx => hns x (by simp [hx])) (by omega)
          (fun q hq1 => hP q (by simpa using hq1))
          (fun d hd1 hd2 => hdiv d hd1 (by simpa using hd2)) (by rw [e1]; exact hex2)
        simp only [hdc, or_false, decide_False, e1] at hih
        have e2 : L ++ done ++ [c] ++ rem = L ++ done ++ c :: rem := by simp
        have e3 : decide (done ++ c :: rem = []) = false := by simp
        have e4 : decide (done ++ [c] ++ rem = []) = false := by simp
        rw [e2, e4] at hih
        rw [e3]
        simp only [hn1]
        generalize L ++ done ++ [c] = child at hne1 hne2 hne3 hPchild hex2 hih ⊢
        have key : ∃ s1, (if path_of rem ≠ ['/'] then s.reader_entry child
              else s.writer_entry child) = .ok s1 ∧
            Inv P (if rem = [] then
                (if done = [] then holds [L, sp, child] [] else holds [L, sp, child] [L ++ done])
              else
                (if done = [] then holds [L, sp] [child] else holds [L, sp] [child, L ++ done]))
              t s1 := by
          by_cases hr : rem = []
          · subst hr
            simp only [path_of_nil, ne_eq, not_true_eq_false, if_false, if_true]
            by_cases hd : done = []
            · subst hd
              simp only [List.append_nil, if_true] at hinv ⊢
              exact inv_writer_entry P _ _ t s child (hq _ (hPchild _ (List.prefix_refl _))) hinv hPchild hex2
                (by simp [holds, or_dup3, hne2, hne3]) (by simp [holds, or_dup3])
                (fun q hqp => by simp [holds, or_dup3, hqp])
            · simp only [if_neg hd] at hinv ⊢
              exact inv_writer_entry P _ _ t s child (hq _ (hPchild _ (List.prefix_refl _))) hinv hPchild hex2
                (by simp [holds, or_dup3, hne1, hne2, hne3]) (by simp [holds, or_dup3, hne1])
                (fun q hqp => by simp [holds, or_dup3, hqp])
          · have hpr : path_of rem ≠ ['/'] := fun e => hr ((path_of_eq_root_iff rem).1 e)
            simp only [ne_eq, hpr, not_false_eq_true, if_true, if_neg hr]
            by_cases hd : done = []
            · subst hd
              simp only [List.append_nil, if_true] at hinv ⊢
              exact inv_reader_entry P _ _ t s child (hq _ (hPchild _ (List.prefix_refl _))) hinv hPchild hex2
                (by simp [holds, or_dup3, hne2, hne3]) (by simp [holds, or_dup3, hne2, hne3])
                (fun q hqp => by simp [holds, or_dup3, hqp])
            · simp only [if_neg hd] at hinv ⊢
              exact inv_reader_entry P _ _ t s child (hq _ (hPchild _ (List.prefix_refl _))) hinv hPchild hex2
                (by simp [holds, or_dup3, hne1, hne2, hne3]) (by simp [holds, or_dup3, hne1, hne2, hne3])
                (fun q hqp => by simp [holds, or_dup3, hqp])
        obtain ⟨s1, he, hinv1⟩ := key
        rw [he]
        simp only []
        by_cases hd : done = []
        · subst hd
          simp only [decide_True, Bool.not_true, Bool.false_eq_true, false_and, if_false]
          apply hih s1
          simpa using hinv1
        · have hLd := append_ne_self L done hd
          have hsp : L ++ done ≠ sp := hdiv done hd ⟨c :: rem, rfl⟩
          simp only [if_neg hd] at hinv1
          obtain ⟨m1, hm1, hwc⟩ := inv_writer_count P _ t s1 hq hinv1 (L ++ done)
            (hPpre _ (List.prefix_refl _)) hex
          have hw0 : m1.writer_type_count = 0 := by
            rw [hwc]
            by_cases hr : rem = [] <;> simp [hr, holds, hd, hsp, hne1.symm]
          have hcond : (!decide (done = [])) = true ∧ L ++ done ≠ L := by simp [hd]
          rw [if_pos hcond]
          simp only [hm1, hw0, if_true]
          apply hih (s1.reader_final (L ++ done))
          by_cases hr : rem = []
          · simp only [hr, if_true] at hinv1 ⊢
            exact inv_reader_final P _ _ t s1 (L ++ done) (hq _ (hPpre _ (List.prefix_refl _))) hinv1 hPpre
              (by simp [holds, or_dup3, hd, hsp, hne1.symm]) (fun q hqp => by simp [holds, or_dup3, hqp])
          · simp only [hr, if_false] at hinv1 ⊢
            exact inv_reader_final P _ _ t s1 (L ++ done) (hq _ (hPpre _ (List.prefix_refl _))) hinv1 hPpre
              (by simp [holds, or_dup3, hd, hsp, hne1.symm]) (fun q hqp => by simp [holds, or_dup3, hqp])

/-! ## `tree_move`: the check, the child maps, the release -/

theorem path_of_mono (x y : Ptr) (h : x <+: y) : path_of x <+: path_of y := by
  obtain ⟨r, rfl⟩ := h
  rw [path_of_append, path_of_eq_slash r]
  exact ⟨(path_of r).tail, by simp [path_of]⟩

theorem path_of_length_append (x r : Ptr) (hr : r ≠ []) :
    (path_of x).length < (path_of (x ++ r)).length := by
  rw [path_of_append]
  have := length_le_path_of r
  have h1 : 0 < r.length := List.length_pos.2 hr
  simp only [path_of, List.length_append, List.length_singleton] at this ⊢
  omega

/-- A move that passes the check of line 373 does not take the source below itself. -/
theorem not_prefix_of_check (ss tp : Ptr) (ct : CStr)
    (h : moving_to_own_subtree (path_of ss) (path_of (tp ++ [ct])) = false) : ¬ ss <+: tp := by
  intro hp
  have h1 : path_of ss <+: path_of (tp ++ [ct]) :=
    path_of_mono _ _ (hp.trans (List.prefix_append _ _))
  obtain ⟨r, rfl⟩ := hp
  have h2 := path_of_length_append ss (r ++ [ct]) (by simp)
  rw [← List.append_assoc] at h2
  simp only [moving_to_own_subtree, if_pos h2] at h
  rw [List.isPrefixOf_iff_prefix.2 h1] at h
  cases h

theorem monAt_remove_at_some (x : Tree) (p : Ptr) (c : CStr) (q : Ptr) (m : Monitor)
    (h : (x.remove_at p c).monAt q = some m) : x.monAt q = some m := by
  by_cases hpq : p <+: q ∧ q ≠ p
  · obtain ⟨⟨r, rfl⟩, hne⟩ := hpq
    cases r with
    | nil => exact absurd (by simp) hne
    | cons k r =>
      cases hx : x.get? p with
      | none =>
        simp only [Tree.monAt, Tree.remove_at, get?_modChildren_below, hx] at h
        cases h
      | some n =>
        simp only [Tree.monAt, Tree.remove_at, get?_modChildren_below_eq _ x p n hx,
          hmap_get_remove] at h
        simp only [Tree.monAt, get?_below_eq x p n hx]
        by_cases hk : k = c
        · rw [if_pos hk] at h; cases h
        · rw [if_neg hk] at h; exact h
  · have hc : ¬ p <+: q ∨ q = p := by
      by_cases hh : p <+: q
      · right
        by_contra hne
        exact hpq ⟨hh, hne⟩
      · left; exact hh
    rw [Tree.remove_at, monAt_modChildren _ p q x hc] at h
    exact h

theorem monAt_insert_at_some (x : Tree) (p : Ptr) (c : CStr) (v : Tree) (q : Ptr) (m : Monitor)
    (h : (x.insert_at p c v).monAt q = some m) :
    x.monAt q = some m ∨ ∃ r, v.monAt r = some m := by
  by_cases hpq : p <+: q ∧ q ≠ p
  · obtain ⟨⟨r, rfl⟩, hne⟩ := hpq
    cases r with
    | nil => exact absurd (by simp) hne
    | cons k r =>
      cases hx : x.get? p with
      | none =>
        simp only [Tree.monAt, Tree.insert_at, get?_modChildren_below, hx] at h
        cases h
      | some n =>
        simp only [Tree.monAt, Tree.insert_at, get?_modChildren_below_eq _ x p n hx,
          hmap_get_append] at h
        simp only [Tree.monAt, get?_below_eq x p n hx]
        cases hg : hmap_get n.children k with
        | some w => rw [hg] at h; left; exact h
        | none =>
          rw [hg] at h
          by_cases hk : c = k
          · right
            simp only [Option.orElse, if_pos hk, Option.bind] at h
            exact ⟨r, h⟩
          · simp only [Option.orElse, if_neg hk, Option.bind] at h
            cases h
  · have hc : ¬ p <+: q ∨ q = p := by
      by_cases hh : p <+: q
      · right
        by_contra hne
        exact hpq ⟨hh, hne⟩
      · left; exact hh
    rw [Tree.insert_at, monAt_modChildren _ p q x hc] at h
    exact Or.inl h

theorem get?_insert_at_isSome (x : Tree) (p : Ptr) (c : CStr) (v : Tree) (q : Ptr)
    (h : (x.get? q).isSome = true) : ((x.insert_at p c v).get? q).isSome = true := by
  by_cases hpq : p <+: q
  · obtain ⟨r, rfl⟩ := hpq
    cases hx : x.get? p with
    | none => rw [get?_append, hx] at h; cases h
    | some n =>
      cases r with
      | nil => simp [Tree.insert_at, get?_modChildren_at, hx]
      | cons k r =>
        rw [Tree.insert_at, get?_modChildren_below_eq _ x p n hx, hmap_get_append]
        rw [get?_below_eq x p n hx] at h
        cases hg : hmap_get n.children k with
        | none => rw [hg] at h; cases h
        | some w => rw [hg] at h; exact h
  · have h1 := keysAt_modChildren_off (fun m => m ++ [(c, v)]) p q x hpq
    simp only [Tree.keysAt] at h1
    rw [Tree.insert_at]
    cases hx : x.get? q with
    | none => rw [hx] at h; cases h
    | some n =>
      rw [hx] at h1
      cases hy : (x.modChildren (fun m => m ++ [(c, v)]) p).get? q with
      | none => rw [hy] at h1; cases h1
      | some w => rfl

theorem monAt_insert_at_old (x : Tree) (p : Ptr) (c : CStr) (v : Tree) (q : Ptr)
    (h : (x.get? q).isSome = true) : (x.insert_at p c v).monAt q = x.monAt q := by
  by_cases hpq : p <+: q
  · obtain ⟨r, rfl⟩ := hpq
    cases hx : x.get? p with
    | none => rw [get?_append, hx] at h; cases h
    | some n =>
      cases r with
      | nil => rw [List.append_nil, Tree.insert_at, monAt_modChildren _ p p x (Or.inr rfl)]
      | cons k r =>
        simp only [Tree.monAt]
        rw [Tree.insert_at, get?_modChildren_below_eq _ x p n hx, hmap_get_append,
          get?_below_eq x p n hx]
        rw [get?_below_eq x p n hx] at h
        cases hg : hmap_get n.children k with
        | none => rw [hg] at h; cases h
        | some w => rfl
  · rw [Tree.insert_at, monAt_modChildren _ p q x (Or.inl hpq)]

/-- Lines 532-536: the three writers released. -/
theorem move_release_spec (P : Ptr → Prop) (tr s : Tree) (L sp tp : Ptr)
    (hinv : Inv P (holds [L, sp, tp] []) tr s)
    (hqL : ∀ m, tr.monAt L = some m → m.quiet = true)
    (hqs : ∀ m, tr.monAt sp = some m → m.quiet = true)
    (hqt : ∀ m, tr.monAt tp = some m → m.quiet = true)
    (hPL : ∀ q, q <+: L → P q) (hPs : ∀ q, q <+: sp → P q) (hPt : ∀ q, q <+: tp → P q)
    (hst : sp = tp → sp = L) :
    Inv P hold0 tr (move_release s L sp tp (decide (sp = L)) (decide (tp = L))) := by
  have step1 : Inv P (holds [L, tp] []) tr (if (!decide (sp = L)) = true then s.writer_final sp
      else s) := by
    by_cases h : sp = L
    · subst h
      simp only [decide_True, Bool.not_true, Bool.false_eq_true, if_false]
      have : holds [sp, tp] [] = holds [sp, sp, tp] [] := by
        funext q
        by_cases hq1 : q = sp <;> simp [holds, hq1]
      rw [this]
      exact hinv
    · have hne : sp ≠ tp := fun e => h (hst e)
      simp only [h, decide_False, Bool.not_false, if_true]
      exact inv_writer_final P _ _ tr s sp hqs hinv hPs (by simp [holds, h, hne])
        (fun q hqp => by simp [holds, hqp])
  have step2 : Inv P (holds [L] []) tr
      (if (!decide (tp = L)) = true then
        (if (!decide (sp = L)) = true then s.writer_final sp else s).writer_final tp
       else (if (!decide (sp = L)) = true then s.writer_final sp else s)) := by
    by_cases h : tp = L
    · subst h
      simp only [decide_True, Bool.not_true, Bool.false_eq_true, if_false]
      have : holds [tp] [] = holds [tp, tp] [] := by
        funext q
        simp [holds]
      rw [this]
      simpa using step1
    · simp only [h, decide_False, Bool.not_false, if_true]
      exact inv_writer_final P _ _ tr _ tp hqt step1 hPt (by simp [holds, h])
        (fun q hqp => by simp [holds, hqp])
  rw [move_release]
  exact inv_writer_final P _ hold0 tr _ L hqL step2 hPL (by simp [hold0, holds])
    (fun q hqp => by simp [hold0, holds, hqp])

/-! ## `tree_move` on lists of components -/

theorem move_split (sp tp : Ptr) (cs : CStr) (hnp : ¬ sp ++ [cs] <+: tp) :
    ∃ L a b, sp = L ++ a ∧ tp = L ++ b ∧ lcp (sp ++ [cs]) tp = L ∧
      (b = [] ∨ (a ++ [cs]).head? ≠ b.head?) ∧
      (∀ d, d ≠ [] → d <+: b → L ++ d ≠ sp) ∧ (sp = tp → sp = L) := by
  obtain ⟨a, b, h1, h2, h3⟩ := lcp_spec (sp ++ [cs]) tp
  generalize lcp (sp ++ [cs]) tp = L at h1 h2 ⊢
  have ha : a ≠ [] := by
    intro e
    subst e
    apply hnp
    rw [h1, h2]
    simp
  have hsplit : sp = L ++ a.dropLast ∧ [cs] = [a.getLast ha] := by
    have h4 : sp ++ [cs] = (L ++ a.dropLast) ++ [a.getLast ha] := by
      rw [List.append_assoc, List.dropLast_append_getLast ha]
      exact h1
    exact List.append_inj' h4 rfl
  have hsp : sp = L ++ a.dropLast := hsplit.1
  have ha2 : a = a.dropLast ++ [cs] := by
    rw [hsplit.2]
    exact (List.dropLast_append_getLast ha).symm
  have hab : b = [] ∨ (a.dropLast ++ [cs]).head? ≠ b.head? := by
    rw [← ha2]
    rcases h3 with h | h | h
    · exact absurd h ha
    · exact Or.inl h
    · exact Or.inr h
  have hdiv : ∀ d, d ≠ [] → d <+: b → a.dropLast ≠ d := by
    intro d hd hdb hda
    rcases hab with hb | hb
    · subst hb
      exact hd (List.prefix_nil.1 hdb)
    · apply hb
      obtain ⟨r, rfl⟩ := hdb
      rw [hda]
      cases d with
      | nil => exact absurd rfl hd
      | cons x d => rfl
  refine ⟨L, a.dropLast, b, hsp, h2, rfl, hab, ?_, ?_⟩
  · intro d hd hdb e
    rw [hsp] at e
    exact hdiv d hd hdb (List.append_cancel_left e).symm
  · intro e
    rw [hsp, h2] at e
    have e2 := List.append_cancel_left e
    by_cases hb : b = []
    · rw [hsp, e2, hb]; simp
    · exact absurd e2 (hdiv b hb (List.prefix_refl b))

theorem holds_dup2 (L : Ptr) : holds [L, L] [] = holds [L] [] := by
  funext q
  simp [holds]

theorem holds_dup3 (L sp : Ptr) : holds [L, sp, L] [] = holds [L, sp] [] := by
  funext q
  simp [holds, or_dup3]

/-- The outcomes of `tree_move` on a quiet tree, for a move that passes the check of line
373. -/
theorem tree_move_flow (t : Tree) (sp : Ptr) (cs : CStr) (tp : Ptr)
    (ct : CStr) (hq : t.quiet_on (fun q => q <+: sp ∨ q <+: tp))
    (hvs : is_path_valid (path_of (sp ++ [cs])) = true)
    (hvt : is_path_valid (path_of (tp ++ [ct])) = true)
    (hns : ∀ x ∈ sp ++ [cs], NoSlash x) (hnt : ∀ x ∈ tp ++ [ct], NoSlash x)
    (hchk : moving_to_own_subtree (path_of (sp ++ [cs])) (path_of (tp ++ [ct])) = false) :
    ((t.get? (sp ++ [cs]) = none ∨ t.get? tp = none) ∧
      ∃ s, tree_move t (path_of (sp ++ [cs])) (path_of (tp ++ [ct])) = .ok (ENOENT, s) ∧
        Inv (fun q => q <+: sp ∨ q <+: tp) hold0 t s) ∨
    (∃ src tpn, t.get? (sp ++ [cs]) = some src ∧ t.get? tp = some tpn ∧
      ((hmap_get tpn.children ct ≠ none ∧
        ∃ s, tree_move t (path_of (sp ++ [cs])) (path_of (tp ++ [ct])) = .ok (EEXIST, s) ∧
          Inv (fun q => q <+: sp ∨ q <+: tp) hold0 t s) ∨
       (hmap_get tpn.children ct = none ∧
        ∃ s, tree_move t (path_of (sp ++ [cs])) (path_of (tp ++ [ct])) = .ok (0, s) ∧
          Inv (fun q => q <+: sp ∨ q <+: tp) hold0 (t.move_at sp cs tp ct src) s))) := by
  have hnp := not_prefix_of_check (sp ++ [cs]) tp ct hchk
  obtain ⟨L, a, b, hsp, htp, hL, hab, hdiv, hst⟩ := move_split sp tp cs hnp
  have hcs : NoSlash cs := hns cs (by simp)
  have hct : NoSlash ct := hnt ct (by simp)
  have hnsp : ∀ x ∈ sp, NoSlash x := fun x hx => hns x (by simp [hx])
  have hntp : ∀ x ∈ tp, NoSlash x := fun x hx => hnt x (by simp [hx])
  have hnL : ∀ x ∈ L, NoSlash x := fun x hx => hnsp x (by rw [hsp]; simp [hx])
  have hna : ∀ x ∈ a, NoSlash x := fun x hx => hnsp x (by rw [hsp]; simp [hx])
  have hnb : ∀ x ∈ b, NoSlash x := fun x hx => hntp x (by rw [htp]; simp [hx])
  have hPs : ∀ q, q <+: sp → (fun q => q <+: sp ∨ q <+: tp) q := fun q h => Or.inl h
  have hPt : ∀ q, q <+: tp → (fun q => q <+: sp ∨ q <+: tp) q := fun q h => Or.inr h
  have hPL : ∀ q, q <+: L → (fun q => q <+: sp ∨ q <+: tp) q :=
    fun q h => Or.inl (by rw [hsp]; exact h.trans (List.prefix_append _ _))
  generalize hP : (fun q => q <+: sp ∨ q <+: tp) = P at hq hPs hPt hPL ⊢
  -- the guards and the strings
  have g1 : ¬ ((!is_path_valid (path_of (sp ++ [cs])) || !is_path_valid (path_of (tp ++ [ct])))
      = true) := by simp [hvs, hvt]
  have e_drop_t : (path_of tp).drop ((path_of L).length - 1) = path_of b := by
    rw [htp]; exact drop_shared L b
  have e_drop_s : (path_of sp).drop ((path_of L).length - 1) = path_of a := by
    rw [hsp]; exact drop_shared L a
  rw [tree_move, if_neg g1, if_neg (path_of_snoc_ne_root sp cs),
    if_neg (path_of_snoc_ne_root tp ct), if_neg (by simp [hchk]),
    make_path_to_parent_snoc tp ct hct, make_path_to_parent_snoc sp cs hcs]
  simp only [shared_path_spec (sp ++ [cs]) tp hns hntp, hL, e_drop_t, e_drop_s]
  have e_src : sp ++ [cs] = L ++ (a ++ [cs]) := by rw [hsp]; simp
  have hnacs : ∀ x ∈ a ++ [cs], NoSlash x := by
    intro x hx
    rcases List.mem_append.1 hx with h | h
    · exact hna x h
    · simp only [List.mem_singleton] at h; rw [h]; exact hcs
  have hlca := move_to_lca_spec P t hq L (a ++ [cs]) b (by simp) hab hnL hnacs hnb hPL
  rw [← e_src, ← htp] at hlca
  have hprefix_none : ∀ (x r : Ptr), t.get? x = none → t.get? (x ++ r) = none := by
    intro x r h
    rw [get?_append, h]
    rfl
  rcases hlca with ⟨s1, hw, hexL, hinv1⟩ | ⟨s1, hw, hnoL, hinv1⟩
  swap
  · left
    refine ⟨Or.inr (by rw [htp]; exact hprefix_none L b hnoL), s1, by simp only [hw], hinv1⟩
  simp only [hw]
  have hsrc := move_source_loop_spec P t hq L a [] s1 ((path_of a).length + 1) hna (by omega)
    (fun q hq1 => hPs q (by rw [hsp]; simpa using hq1)) (by simpa using hexL)
    (by simpa [holds_dup2] using hinv1)
  simp only [List.append_nil, List.nil_append, decide_True] at hsrc
  rw [← hsp] at hsrc
  rcases hsrc with ⟨s2, hw2, hexs, hinv2⟩ | ⟨s2, hw2, hnos, hinv2⟩
  swap
  · left
    refine ⟨Or.inl (hprefix_none sp [cs] hnos), s2, by simp only [hw2], hinv2⟩
  simp only [hw2]
  have hfirst : decide (a = []) = decide (sp = L) := by
    rw [hsp]; simp
  have hfirst_t : decide (b = []) = decide (tp = L) := by
    rw [htp]; simp
  rw [hfirst]
  cases hsrc_t : t.get? (sp ++ [cs]) with
  | none =>
    left
    have hs2 : s2.get? (sp ++ [cs]) = none := by
      have := inv_isSome P _ t s2 hinv2 (sp ++ [cs])
      rw [hsrc_t] at this
      simpa using this
    refine ⟨Or.inl rfl, _, by simp only [hs2]; rfl, ?_⟩
    have := move_release_spec P t s2 L sp L (by rw [holds_dup3]; exact hinv2)
      (hq _ (hPL _ (List.prefix_refl _))) (hq _ (hPs _ (List.prefix_refl _)))
      (hq _ (hPL _ (List.prefix_refl _))) hPL hPs hPL (fun e => e)
    simpa [move_release] using this
  | some src =>
    obtain ⟨sn2, hsn2⟩ := inv_get?_exists P _ t s2 hinv2 (sp ++ [cs]) (by rw [hsrc_t]; rfl)
    simp only [hsn2]
    have htgt := move_target_loop_spec P t hq L sp hPs hPL b [] s2 ((path_of b).length + 1) hnb
      (by omega) (fun q hq1 => hPt q (by rw [htp]; simpa using hq1))
      (fun d hd1 hd2 => hdiv d hd1 (by simpa using hd2)) (by simpa using hexL)
      (by simpa [holds_dup3] using hinv2)
    simp only [List.append_nil, List.nil_append, decide_True] at htgt
    rw [← htp, hfirst_t] at htgt
    rcases htgt with ⟨s3, hw3, hext, hinv3⟩ | ⟨s3, hw3, hnot, hinv3⟩
    swap
    · left
      exact ⟨Or.inr hnot, s3, by simp only [hw3], hinv3⟩
    simp only [hw3]
    right
    obtain ⟨tpn, htpn⟩ := Option.isSome_iff_exists.1 hext
    refine ⟨src, tpn, rfl, htpn, ?_⟩
    have hnotP : ¬ P (sp ++ [cs]) := by
      rw [← hP]
      intro h
      rcases h with h | h
      · have := h.length_le
        simp at this
      · exact hnp h
    have hsn3 : s3.get? (sp ++ [cs]) = some src := by
      rw [hinv3.frame _ hnotP, hsrc_t]
    obtain ⟨tpn3, htpn3⟩ := inv_get?_exists P _ t s3 hinv3 tp hext
    have hk := inv_children_keys P _ t s3 hinv3 tp tpn3 tpn htpn3 htpn
    simp only [hsn3, htpn3]
    cases hins : hmap_get tpn.children ct with
    | some w =>
      left
      have : hmap_get tpn3.children ct ≠ none := by
        intro e
        have := hmap_get_none_of_keys_eq _ _ ct hk e
        rw [hins] at this
        cases this
      obtain ⟨w3, hw3'⟩ := Option.ne_none_iff_exists'.1 this
      refine ⟨by simp, _, by simp only [hmap_insert, hw3']; rfl, ?_⟩
      exact move_release_spec P t s3 L sp tp hinv3 (hq _ (hPL _ (List.prefix_refl _)))
        (hq _ (hPs _ (List.prefix_refl _))) (hq _ (hPt _ (List.prefix_refl _))) hPL hPs hPt hst
    | none =>
      right
      have hins3 : hmap_get tpn3.children ct = none :=
        hmap_get_none_of_keys_eq _ _ ct hk.symm hins
      refine ⟨rfl, _, by simp only [hmap_insert, hins3]; rfl, ?_⟩
      have hh : ∀ r, holds [L, sp, tp] [] (tp ++ ct :: r) = (0, 0) := by
        intro r
        have h1 : tp ++ ct :: r ≠ tp := append_ne_self tp (ct :: r) (by simp)
        have h2 : tp ++ ct :: r ≠ L := by
          intro e
          have := congrArg List.length e
          rw [htp] at this
          simp at this
        have h3 : tp ++ ct :: r ≠ sp := by
          intro e
          rw [← e, get?_below_eq t tp tpn htpn, hins] at hexs
          cases hexs
        simp [holds, h1, h2, h3]
      have i4 := inv_insert P _ t s3 tp ct (Tree.node tree_new.mon src.children) tpn3 tpn hinv3
        htpn3 htpn hPt hh
      have hex1 := get?_insert_at_isSome t tp ct (Tree.node tree_new.mon src.children) sp hexs
      obtain ⟨nt1, hnt1⟩ := Option.isSome_iff_exists.1 hex1
      obtain ⟨ns4, hns4⟩ := inv_get?_exists P _ _ _ i4 sp hex1
      have i5 := inv_remove P _ _ _ sp cs ns4 nt1 i4 hns4 hnt1 hPs
      have hqtr : ∀ q, P q → (t.get? q).isSome = true → ∀ m,
          (t.move_at sp cs tp ct src).monAt q = some m → m.quiet = true := by
        intro q hPq hexq m hm
        have h := monAt_remove_at_some _ _ _ _ _ hm
        rw [monAt_insert_at_old t tp ct _ q hexq] at h
        exact hq q hPq m h
      exact move_release_spec P _ _ L sp tp i5 (hqtr _ (hPL _ (List.prefix_refl _)) hexL)
        (hqtr _ (hPs _ (List.prefix_refl _)) hexs)
        (hqtr _ (hPt _ (List.prefix_refl _)) (by rw [htpn]; rfl)) hPL hPs hPt hst

/-! ## What is seen of a tree after an entry is added or removed -/

theorem not_prefix_or_eq (p q : Ptr) (h : ¬ (p <+: q ∧ q ≠ p)) : ¬ p <+: q ∨ q = p := by
  by_cases hh : p <+: q
  · right
    by_contra hne
    exact h ⟨hh, hne⟩
  · left; exact hh

theorem keysAt_insert_at_other (x : Tree) (p : Ptr) (c : CStr) (v : Tree) (q : Ptr)
    (hq : q ≠ p) (hn : ¬ p ++ [c] <+: q) : (x.insert_at p c v).keysAt q = x.keysAt q := by
  by_cases hpq : p <+: q
  · obtain ⟨r, rfl⟩ := hpq
    cases r with
    | nil => exact absurd (by simp) hq
    | cons k r =>
      have hk : c ≠ k := by
        intro e
        subst e
        exact hn ⟨r, by simp⟩
      cases hx : x.get? p with
      | none =>
        have e1 : (x.modChildren (fun m => m ++ [(c, v)]) p).get? (p ++ k :: r) = none := by
          rw [get?_modChildren_below, hx]; rfl
        have e2 : x.get? (p ++ k :: r) = none := by rw [get?_append, hx]; rfl
        simp only [Tree.keysAt, Tree.insert_at, e1, e2]
      | some n =>
        simp only [Tree.keysAt, Tree.insert_at, get?_modChildren_below_eq _ x p n hx,
          get?_below_eq x p n hx, hmap_get_append, if_neg hk]
        cases hmap_get n.children k <;> rfl
  · exact keysAt_modChildren_off _ p q x hpq

theorem get?_insert_at_new (x : Tree) (p : Ptr) (c : CStr) (v n : Tree)
    (hx : x.get? p = some n) (hc : hmap_get n.children c = none) (r : Ptr) :
    (x.insert_at p c v).get? (p ++ c :: r) = v.get? r := by
  rw [Tree.insert_at, get?_modChildren_below_eq _ x p n hx, hmap_get_append, hc]
  simp

theorem keysAt_insert_at_parent (x : Tree) (p : Ptr) (c : CStr) (v n : Tree)
    (hx : x.get? p = some n) :
    (x.insert_at p c v).keysAt p = some (hmap_keys n.children ++ [c]) := by
  rw [Tree.insert_at, keysAt_modChildren_at, hx]
  simp [hmap_keys_append]

theorem keysAt_remove_at_other (x : Tree) (p : Ptr) (c : CStr) (q : Ptr)
    (hq : q ≠ p) (hn : ¬ p ++ [c] <+: q) : (x.remove_at p c).keysAt q = x.keysAt q := by
  by_cases hpq : p <+: q
  · obtain ⟨r, rfl⟩ := hpq
    cases r with
    | nil => exact absurd (by simp) hq
    | cons k r =>
      have hk : k ≠ c := by
        intro e
        subst e
        exact hn ⟨r, by simp⟩
      cases hx : x.get? p with
      | none =>
        have e1 : (x.modChildren (fun m => hmap_remove m c) p).get? (p ++ k :: r) = none := by
          rw [get?_modChildren_below, hx]; rfl
        have e2 : x.get? (p ++ k :: r) = none := by rw [get?_append, hx]; rfl
        simp only [Tree.keysAt, Tree.remove_at, e1, e2]
      | some n =>
        simp only [Tree.keysAt, Tree.remove_at, get?_modChildren_below_eq _ x p n hx,
          get?_below_eq x p n hx, hmap_get_remove, if_neg hk]
  · exact keysAt_modChildren_off _ p q x hpq

theorem keysAt_remove_at_parent (x : Tree) (p : Ptr) (c : CStr) (n : Tree)
    (hx : x.get? p = some n) :
    (x.remove_at p c).keysAt p =
      some ((hmap_keys n.children).filter (fun k => decide (k ≠ c))) := by
  rw [Tree.remove_at, keysAt_modChildren_at, hx]
  simp [hmap_keys_remove]

theorem get?_remove_at_other (x : Tree) (p : Ptr) (c : CStr) (q : Ptr)
    (hq : ¬ q <+: p) (hn : ¬ p ++ [c] <+: q) : (x.remove_at p c).get? q = x.get? q := by
  by_cases hpq : p <+: q
  · obtain ⟨r, rfl⟩ := hpq
    cases r with
    | nil => exact absurd (by simp) hq
    | cons k r =>
      have hk : k ≠ c := by
        intro e
        subst e
        exact hn ⟨r, by simp⟩
      cases hx : x.get? p with
      | none =>
        have e1 : (x.modChildren (fun m => hmap_remove m c) p).get? (p ++ k :: r) = none := by
          rw [get?_modChildren_below, hx]; rfl
        have e2 : x.get? (p ++ k :: r) = none := by rw [get?_append, hx]; rfl
        simp only [Tree.remove_at, e1, e2]
      | some n =>
        simp only [Tree.remove_at, get?_modChildren_below_eq _ x p n hx,
          get?_below_eq x p n hx, hmap_get_remove, if_neg hk]
  · exact get?_modify_off _ p q x hpq hq

theorem get?_remove_at_gone (x : Tree) (p : Ptr) (c : CStr) (q : Ptr) (h : p ++ [c] <+: q) :
    (x.remove_at p c).get? q = none := by
  obtain ⟨r, rfl⟩ := h
  rw [List.append_assoc, List.singleton_append]
  cases hx : x.get? p with
  | none =>
    simp only [Tree.remove_at, get?_modChildren_below, hx]
    rfl
  | some n => exact remove_at_get?_target x p c n hx r

theorem get?_none_below (t : Tree) (x q : Ptr) (h : x <+: q) (hx : t.get? x = none) :
    t.get? q = none := by
  obtain ⟨r, rfl⟩ := h
  rw [get?_append, hx]
  rfl

/-! ## Valid paths and their components -/

theorem valid_path_comps (p : CStr) (hv : is_path_valid p = true) :
    ∃ cs, p = path_of cs ∧ path_components p = cs ∧ ∀ x ∈ cs, valid_name x := by
  obtain ⟨cs, rfl, hval⟩ := is_path_valid_components p hv
  exact ⟨cs, rfl, path_components_path_of cs (fun c hc => valid_name_noSlash c (hval c hc)), hval⟩

theorem valid_path_snoc (p : CStr) (hv : is_path_valid p = true) (hr : p ≠ ['/']) :
    ∃ cs c, p = path_of (cs ++ [c]) ∧ path_components p = cs ++ [c] ∧
      (path_components p).dropLast = cs ∧ ∀ x ∈ cs ++ [c], valid_name x := by
  obtain ⟨cs, rfl, hc, hval⟩ := valid_path_comps p hv
  have hne : cs ≠ [] := fun e => hr (by rw [e]; rfl)
  refine ⟨cs.dropLast, cs.getLast hne, ?_, ?_, ?_, ?_⟩
  · rw [List.dropLast_append_getLast hne]
  · rw [List.dropLast_append_getLast hne]; exact hc
  · rw [hc]
  · rw [List.dropLast_append_getLast hne]; exact hval

theorem valid_path_parts (p : CStr) (hv : is_path_valid p = true) (hr : p ≠ ['/']) :
    p = path_of (parent_ptr p ++ [last_name p]) ∧
      path_components p = parent_ptr p ++ [last_name p] ∧
      ∀ x ∈ parent_ptr p ++ [last_name p], valid_name x := by
  obtain ⟨cs, c, h1, h2, h3, h4⟩ := valid_path_snoc p hv hr
  have hl : last_name p = c := by simp [last_name, h2]
  have hp : parent_ptr p = cs := h3
  rw [hl, hp]
  exact ⟨h1, h2, h4⟩

theorem missing_ancestor_iff (t : Tree) (p : Ptr) :
    (∃ q, q <+: p ∧ t.get? q = none) ↔ t.get? p = none :=
  ⟨fun ⟨q, hq, hn⟩ => get?_none_below t q p hq hn, fun h => ⟨p, List.prefix_refl p, h⟩⟩

theorem noSlash_of_valid (cs : Ptr) (h : ∀ x ∈ cs, valid_name x) : ∀ x ∈ cs, NoSlash x :=
  fun x hx => valid_name_noSlash x (h x hx)

/-! ## The claims on `tree_create` -/

/-- C2: on a tree no thread is at work on, for a valid path other than `/` whose parent folder
exists and has no child under the last component, `tree_create` returns 0; in the tree it
leaves the folder of the path is a new, empty one, the parent has the children it had and
then the last component, and every other folder has the children it had. -/
theorem tree_create_inserts (t : Tree) (path : CStr) (n : Tree) (hq : t.quiet = true)
    (hv : is_path_valid path = true) (hr : path ≠ ['/'])
    (hp : t.get? (parent_ptr path) = some n)
    (hnew : hmap_get n.children (last_name path) = none) :
    ∃ t1, tree_create t path = .ok (0, t1) ∧
      t1.get? (path_components path) = some tree_new ∧
      t1.keysAt (parent_ptr path) = some (hmap_keys n.children ++ [last_name path]) ∧
      ∀ q, q ≠ parent_ptr path → ¬ path_components path <+: q → t1.keysAt q = t.keysAt q := by
  obtain ⟨h1, h2, h3⟩ := valid_path_parts path hv hr
  generalize parent_ptr path = cs at *
  generalize last_name path = c at *
  rw [h2]
  have hv1 := hv
  rw [h1] at hv1
  obtain ⟨s, hs, hinv⟩ := (tree_create_comp t cs (fun p _ => quiet_monAt t hq p) c hv1 (noSlash_of_valid _ h3)).2.2 n hp hnew
  refine ⟨s, by rw [h1]; exact hs, ?_, ?_, ?_⟩
  · have hnp : ¬ (fun q => q <+: cs) (cs ++ [c]) := by
      intro h
      have := h.length_le
      simp at this
    rw [hinv.frame _ hnp]
    have := get?_insert_at_new t cs c tree_new n hp hnew []
    simpa [get?_nil] using this
  · rw [hinv.keys, keysAt_insert_at_parent t cs c tree_new n hp]
  · intro q hq1 hq2
    rw [hinv.keys, keysAt_insert_at_other t cs c tree_new q hq1 hq2]

/-- C5: on a tree no thread is at work on, for a path other than `/`, `tree_create` returns
`EINVAL` exactly when the path is empty or not valid; for a valid path it returns `ENOENT`
exactly when a proper ancestor is missing, and `EEXIST` exactly when every proper ancestor
exists and the parent has a child under the last component. -/
theorem tree_create_errors (t : Tree) (path : CStr) (hq : t.quiet = true) (hr : path ≠ ['/']) :
    ∃ code t1, tree_create t path = .ok (code, t1) ∧
      (code = EINVAL ↔ (path = [] ∨ is_path_valid path = false)) ∧
      (is_path_valid path = true →
        (code = ENOENT ↔ ∃ q, q <+: parent_ptr path ∧ t.get? q = none) ∧
        (code = EEXIST ↔ (∀ q, q <+: parent_ptr path → t.get? q ≠ none) ∧
          ∃ n, t.get? (parent_ptr path) = some n ∧ last_name path ∈ hmap_keys n.children)) := by
  by_cases hv : is_path_valid path = true
  swap
  · refine ⟨EINVAL, t, ?_, ?_, fun h => absurd h hv⟩
    · rw [tree_create, if_pos (Or.inr (by simpa using hv))]
    · simp only [true_iff]
      right
      simpa using hv
  obtain ⟨h1, h2, h3⟩ := valid_path_parts path hv hr
  have hinv_iff : ∀ code : Int, code ≠ EINVAL →
      (code = EINVAL ↔ (path = [] ∨ is_path_valid path = false)) := by
    intro code hc
    constructor
    · intro h; exact absurd h hc
    · intro h
      rcases h with h | h
      · rw [h] at hv; simp [is_path_valid] at hv
      · rw [hv] at h; cases h
  rw [missing_ancestor_iff]
  generalize parent_ptr path = cs at *
  generalize last_name path = c at *
  have hv1 := hv
  rw [h1] at hv1
  have hcomp := tree_create_comp t cs (fun p _ => quiet_monAt t hq p) c hv1 (noSlash_of_valid _ h3)
  rw [← h1] at hcomp
  have hall : ∀ n, t.get? cs = some n → ∀ q, q <+: cs → t.get? q ≠ none := by
    intro n hn q hq1 e
    rw [get?_none_below t q cs hq1 e] at hn
    cases hn
  cases hcs : t.get? cs with
  | none =>
    obtain ⟨s, hs, _⟩ := hcomp.1 hcs
    refine ⟨ENOENT, s, hs, hinv_iff _ (by decide), fun _ => ⟨by simp, ?_⟩⟩
    constructor
    · intro h; cases h
    · rintro ⟨_, n, hn, _⟩
      cases hn
  | some n =>
    cases hc : hmap_get n.children c with
    | some w =>
      obtain ⟨s, hs, _⟩ := hcomp.2.1 n hcs (by rw [hc]; simp)
      refine ⟨EEXIST, s, hs, hinv_iff _ (by decide), fun _ => ⟨?_, ?_⟩⟩
      · constructor
        · intro h; cases h
        · intro h; cases h
      · simp only [true_iff]
        refine ⟨hall n hcs, n, rfl, ?_⟩
        by_contra hm
        rw [(hmap_get_eq_none_iff _ _).2 hm] at hc
        cases hc
    | none =>
      obtain ⟨s, hs, _⟩ := hcomp.2.2 n hcs hc
      refine ⟨0, s, hs, hinv_iff _ (by decide), fun _ => ⟨?_, ?_⟩⟩
      · constructor
        · intro h; cases h
        · intro h; cases h
      · constructor
        · intro h; cases h
        · rintro ⟨_, n1, hn1, hm⟩
          cases hn1
          exact absurd hm ((hmap_get_eq_none_iff _ _).1 hc)

theorem tree_create_inserts_witness :
    ex_tree.quiet = true ∧ is_path_valid ex_new = true ∧ ex_new ≠ ['/'] ∧
    ex_tree.get? (parent_ptr ex_new) = some (.node idle_mon [(['b'], tree_new)]) ∧
    ∃ t1, tree_create ex_tree ex_new = .ok (0, t1) ∧
      t1.get? (path_components ex_new) = some tree_new ∧
      t1.keysAt (parent_ptr ex_new) = some ([['b']] ++ [last_name ex_new]) ∧
      ∀ q, q ≠ parent_ptr ex_new → ¬ path_components ex_new <+: q →
        t1.keysAt q = ex_tree.keysAt q :=
  ⟨by decide, by decide, by decide, rfl,
    tree_create_inserts ex_tree ex_new (.node idle_mon [(['b'], tree_new)]) (by decide)
      (by decide) (by decide) rfl rfl⟩

theorem tree_create_errors_witness :
    ∃ code t1, tree_create ex_tree ex_ab = .ok (code, t1) ∧
      (code = EINVAL ↔ (ex_ab = [] ∨ is_path_valid ex_ab = false)) ∧
      (is_path_valid ex_ab = true →
        (code = ENOENT ↔ ∃ q, q <+: parent_ptr ex_ab ∧ ex_tree.get? q = none) ∧
        (code = EEXIST ↔ (∀ q, q <+: parent_ptr ex_ab → ex_tree.get? q ≠ none) ∧
          ∃ n, ex_tree.get? (parent_ptr ex_ab) = some n ∧
            last_name ex_ab ∈ hmap_keys n.children)) :=
  tree_create_errors ex_tree ex_ab (by decide) (by decide)

/-! ## The claims on `tree_remove` -/

/-- C3: on a tree no thread is at work on, for a valid path other than `/`, `tree_remove`
returns `ENOENT` exactly when the folder or one of its ancestors is missing, `ENOTEMPTY`
exactly when the folder exists and has a child, and 0 otherwise; when it returns 0, in the
tree it leaves the parent has lost the last component among its children and nothing else,
no folder is left at the path or below it, and every other folder has the children it had. -/
theorem tree_remove_cases (t : Tree) (path : CStr) (hq : t.quiet = true)
    (hv : is_path_valid path = true) (hr : path ≠ ['/']) :
    ∃ code t1, tree_remove t path = .ok (code, t1) ∧
      (code = ENOENT ↔ ∃ q, q <+: path_components path ∧ t.get? q = none) ∧
      (code = ENOTEMPTY ↔ ∃ v, t.get? (path_components path) = some v ∧ v.children ≠ []) ∧
      (code ≠ ENOENT → code ≠ ENOTEMPTY → code = 0 ∧
        t1.keysAt (parent_ptr path) = (t.keysAt (parent_ptr path)).map
          (fun ks => ks.filter (fun k => decide (k ≠ last_name path))) ∧
        (∀ q, path_components path <+: q → t1.get? q = none) ∧
        ∀ q, q ≠ parent_ptr path → ¬ path_components path <+: q →
          t1.keysAt q = t.keysAt q) := by
  obtain ⟨h1, h2, h3⟩ := valid_path_parts path hv hr
  rw [missing_ancestor_iff, h2]
  generalize parent_ptr path = cs at *
  generalize last_name path = c at *
  have hv1 := hv
  rw [h1] at hv1
  have hcomp := tree_remove_comp t cs c (fun p _ => quiet_monAt t hq p) hv1 (noSlash_of_valid _ h3)
  rw [← h1] at hcomp
  cases hp : t.get? (cs ++ [c]) with
  | none =>
    obtain ⟨s, hs, _⟩ := hcomp.1 hp
    refine ⟨ENOENT, s, hs, by simp, ?_, fun h => absurd rfl h⟩
    constructor
    · intro h; cases h
    · rintro ⟨v, hv2, _⟩; cases hv2
  | some v =>
    by_cases hch : v.children = []
    · obtain ⟨s, hs, hinv⟩ := hcomp.2.2 v hp hch
      refine ⟨0, s, hs, ?_, ?_, fun _ _ => ⟨rfl, ?_, ?_, ?_⟩⟩
      · constructor
        · intro h; cases h
        · intro h; cases h
      · constructor
        · intro h; cases h
        · rintro ⟨v1, hv2, hne⟩
          cases hv2
          exact absurd hch hne
      · rw [hinv.keys]
        cases hcs : t.get? cs with
        | none => rw [get?_append, hcs] at hp; cases hp
        | some n =>
          rw [keysAt_remove_at_parent t cs c n hcs]
          simp [Tree.keysAt, hcs]
      · intro q hq1
        have hgone := get?_remove_at_gone t cs c q hq1
        have hk := hinv.keys q
        simp only [Tree.keysAt, hgone, Option.map_none'] at hk
        cases hsq : s.get? q with
        | none => rfl
        | some w => rw [hsq] at hk; cases hk
      · intro q hq1 hq2
        rw [hinv.keys, keysAt_remove_at_other t cs c q hq1 hq2]
    · obtain ⟨s, hs, _⟩ := hcomp.2.1 v hp hch
      refine ⟨ENOTEMPTY, s, hs, ?_, ?_, fun _ h => absurd rfl h⟩
      · constructor
        · intro h; cases h
        · intro h; cases h
      · simp only [true_iff]
        exact ⟨v, rfl, hch⟩

theorem tree_remove_cases_witness :
    ∃ code t1, tree_remove ex_tree ex_ab = .ok (code, t1) ∧
      (code = ENOENT ↔ ∃ q, q <+: path_components ex_ab ∧ ex_tree.get? q = none) ∧
      (code = ENOTEMPTY ↔
        ∃ v, ex_tree.get? (path_components ex_ab) = some v ∧ v.children ≠ []) ∧
      (code ≠ ENOENT → code ≠ ENOTEMPTY → code = 0 ∧
        t1.keysAt (parent_ptr ex_ab) = (ex_tree.keysAt (parent_ptr ex_ab)).map
          (fun ks => ks.filter (fun k => decide (k ≠ last_name ex_ab))) ∧
        (∀ q, path_components ex_ab <+: q → t1.get? q = none) ∧
        ∀ q, q ≠ parent_ptr ex_ab → ¬ path_components ex_ab <+: q →
          t1.keysAt q = ex_tree.keysAt q) :=
  tree_remove_cases ex_tree ex_ab (by decide) (by decide) (by decide)

/-! ## The claim on `tree_list` -/

theorem wfMap_get (ch : HashMap) (h : wfMap ch = true) (c : CStr) (v : Tree)
    (hv : hmap_get ch c = some v) : v.wf = true := by
  induction ch with
  | nil => simp [hmap_get] at hv
  | cons e ch ih =>
    simp only [wfMap, Bool.and_eq_true] at h
    simp only [hmap_get] at hv
    by_cases he : e.1 = c
    · rw [if_pos he] at hv
      cases hv
      exact h.1
    · rw [if_neg he] at hv
      exact ih h.2 hv

theorem wf_get? (p : Ptr) : ∀ (t n : Tree), t.wf = true → t.get? p = some n → n.wf = true := by
  induction p with
  | nil =>
    intro t n h hn
    rw [get?_nil] at hn
    cases hn
    exact h
  | cons c p ih =>
    intro t n h hn
    rw [get?_cons] at hn
    cases t with
    | node m ch =>
      simp only [Tree.wf, Bool.and_eq_true] at h
      rw [children_node] at hn
      cases hc : hmap_get ch c with
      | none => rw [hc] at hn; cases hn
      | some v =>
        rw [hc] at hn
        exact ih v n (wfMap_get ch h.2 c v hc) hn

theorem wf_keys (t n : Tree) (p : Ptr) (h : t.wf = true) (hn : t.get? p = some n) :
    (hmap_keys n.children).Nodup ∧ ∀ k ∈ hmap_keys n.children, valid_name k := by
  have := wf_get? p t n h hn
  cases n with
  | node m ch =>
    simp only [Tree.wf, Bool.and_eq_true, keys_ok, decide_eq_true_eq] at this
    exact this.1

theorem is_lower_ne_comma (ch : Char) (h : is_lower ch = true) : ch ≠ ',' := by
  intro e
  subst e
  simp [is_lower] at h

theorem comma_items_name (k : CStr) (h : ',' ∉ k) : comma_items k = [k] := by
  induction k with
  | nil => rfl
  | cons ch k ih =>
    have h1 : ch ≠ ',' := fun e => h (by simp [e])
    have h2 : ',' ∉ k := fun e => h (by simp [e])
    simp [comma_items, h1, ih h2]

theorem comma_items_append (k s : CStr) (h : ',' ∉ k) :
    comma_items (k ++ ',' :: s) = k :: comma_items s := by
  induction k with
  | nil => simp [comma_items]
  | cons ch k ih =>
    have h1 : ch ≠ ',' := fun e => h (by simp [e])
    have h2 : ',' ∉ k := fun e => h (by simp [e])
    simp [comma_items, h1, ih h2]

theorem comma_items_join (ks : List CStr) (hne : ks ≠ []) (h : ∀ k ∈ ks, ',' ∉ k) :
    comma_items (join_commas ks) = ks := by
  induction ks with
  | nil => exact absurd rfl hne
  | cons k ks ih =>
    cases ks with
    | nil => simpa [join_commas] using comma_items_name k (h k (by simp))
    | cons k1 ks =>
      have e : join_commas (k :: k1 :: ks) = k ++ ',' :: join_commas (k1 :: ks) := rfl
      rw [e, comma_items_append k _ (h k (by simp)),
        ih (by simp) (fun x hx => h x (by simp [hx]))]

/-- C4: on a tree no thread is at work on, whose child maps have keys as the data model
wants them, for a valid path, `tree_list` returns the null pointer exactly when the path
leads to no folder; otherwise it returns a string that is empty when the folder has no
children and whose items between commas are otherwise the names of the children of the
folder, each of them once. -/
theorem tree_list_cases (t : Tree) (path : CStr) (hq : t.quiet = true) (hwf : t.wf = true)
    (hv : is_path_valid path = true) :
    ∃ r t1, tree_list t path = .ok (r, t1) ∧
      (r = none ↔ t.get? (path_components path) = none) ∧
      ∀ n, t.get? (path_components path) = some n →
        ∃ str, r = some str ∧ (hmap_keys n.children = [] → str = []) ∧
          (hmap_keys n.children ≠ [] → comma_items str = hmap_keys n.children) ∧
          (hmap_keys n.children).Nodup := by
  obtain ⟨cs, h1, h2, h3⟩ := valid_path_comps path hv
  rw [h2]
  have hv1 := hv
  rw [h1] at hv1
  have hcomp := tree_list_comp t cs (fun p _ => quiet_monAt t hq p) hv1 (noSlash_of_valid _ h3)
  rw [← h1] at hcomp
  cases hp : t.get? cs with
  | none =>
    obtain ⟨s, hs, _⟩ := hcomp.1 hp
    exact ⟨none, s, hs, by simp, fun n hn => by cases hn⟩
  | some n =>
    obtain ⟨s, hs, _⟩ := hcomp.2 n hp
    refine ⟨_, s, hs, by simp, fun n1 hn1 => ?_⟩
    cases hn1
    obtain ⟨hnd, hval⟩ := wf_keys t n cs hwf hp
    refine ⟨_, rfl, fun h => by rw [h]; rfl, fun h => ?_, hnd⟩
    exact comma_items_join _ h (fun k hk hm => is_lower_ne_comma _ ((hval k hk).2.2 _ hm) rfl)

theorem tree_list_cases_witness :
    tree_list tree_new ['/'] = .ok (some [], tree_new) ∧
    ∃ r t1, tree_list ex_tree ex_a = .ok (r, t1) ∧
      (r = none ↔ ex_tree.get? (path_components ex_a) = none) ∧
      ∀ n, ex_tree.get? (path_components ex_a) = some n →
        ∃ str, r = some str ∧ (hmap_keys n.children = [] → str = []) ∧
          (hmap_keys n.children ≠ [] → comma_items str = hmap_keys n.children) ∧
          (hmap_keys n.children).Nodup :=
  ⟨rfl, tree_list_cases ex_tree ex_a (by decide) (by decide) (by decide)⟩

/-! ## The claims on the root, on the check of `tree_move`, on the locks of `tree_remove` -/

theorem tree_remove_root (t : Tree) : tree_remove t ['/'] = .ok (EBUSY, t) := by
  have hroot : is_path_valid ['/'] = true := by decide
  rw [tree_remove, if_neg (by simp [hroot]), if_pos rfl]

theorem tree_create_root (t : Tree) : tree_create t ['/'] = .ok (EEXIST, t) := by
  have hroot : is_path_valid ['/'] = true := by decide
  rw [tree_create, if_neg (by simp [hroot]), if_pos rfl]

theorem tree_move_from_root (t : Tree) (target : CStr) (hv : is_path_valid target = true) :
    tree_move t ['/'] target = .ok (EBUSY, t) := by
  have hroot : is_path_valid ['/'] = true := by decide
  rw [tree_move, if_neg (by simp [hroot, hv]), if_pos rfl]

theorem tree_move_to_root (t : Tree) (source : CStr) (hv : is_path_valid source = true)
    (hs : source ≠ ['/']) : tree_move t source ['/'] = .ok (EEXIST, t) := by
  have hroot : is_path_valid ['/'] = true := by decide
  rw [tree_move, if_neg (by simp [hroot, hv]), if_neg hs, if_pos rfl]

/-- C8: on every tree, `tree_remove` of `/` returns `EBUSY`, `tree_create` of `/` returns
`EEXIST`, `tree_move` from `/` returns `EBUSY` for every valid target, and `tree_move` to `/`
returns `EEXIST` for every valid source other than `/`; the tree is left as it is. -/
theorem root_operations_rejected (t : Tree) :
    tree_remove t ['/'] = .ok (EBUSY, t) ∧ tree_create t ['/'] = .ok (EEXIST, t) ∧
    (∀ target, is_path_valid target = true → tree_move t ['/'] target = .ok (EBUSY, t)) ∧
    (∀ source, is_path_valid source = true → source ≠ ['/'] →
      tree_move t source ['/'] = .ok (EEXIST, t)) := by
  exact ⟨tree_remove_root t, tree_create_root t, tree_move_from_root t, tree_move_to_root t⟩

theorem root_operations_rejected_witness :
    tree_move ex_tree ['/'] ex_a = .ok (EBUSY, ex_tree) ∧
    tree_move ex_tree ex_a ['/'] = .ok (EEXIST, ex_tree) :=
  ⟨(root_operations_rejected ex_tree).2.2.1 ex_a (by decide),
    (root_operations_rejected ex_tree).2.2.2 ex_a (by decide) (by decide)⟩

/-- The check of line 373 answers yes exactly when `source` is a prefix of `target` and
shorter than it; `tree_move` then returns `EILLEGALMOVE` and leaves the tree as it is. -/
theorem tree_move_check (t : Tree) (source target : CStr) (hvs : is_path_valid source = true)
    (hvt : is_path_valid target = true) (hs : source ≠ ['/']) (ht : target ≠ ['/']) :
    (moving_to_own_subtree source target = true ↔
      (source <+: target ∧ source.length < target.length)) ∧
    (moving_to_own_subtree source target = true →
      tree_move t source target = .ok (EILLEGALMOVE, t)) := by
  constructor
  · rw [moving_to_own_subtree]
    by_cases h : source.length < target.length
    · rw [if_pos h, List.isPrefixOf_iff_prefix]
      exact ⟨fun h1 => ⟨h1, h⟩, fun h1 => h1.1⟩
    · rw [if_neg h]
      constructor
      · intro h1; cases h1
      · intro h1; exact absurd h1.2 h
  · intro h
    rw [tree_move, if_neg (by simp [hvs, hvt]), if_neg hs, if_neg ht, if_pos h]

/-- C7, at the input where the code departs from it: `/a/` is a prefix of `/a/`, and
`tree_move` from `/a/` to `/a/` in a tree that has the folder returns `EEXIST`, not
`EILLEGALMOVE`. -/
theorem tree_move_onto_itself :
    ex_a <+: ex_a ∧ is_path_valid ex_a = true ∧
      tree_move ex_tree ex_a ex_a = .ok (EEXIST, ex_tree) ∧ EEXIST ≠ EILLEGALMOVE :=
  ⟨List.prefix_refl _, by decide, rfl, by decide⟩

/-- C10, at the input where the code departs from it: in a tree whose monitors are all idle,
`tree_remove` of the folder `/a/`, which is not empty, returns `ENOTEMPTY` and leaves that
folder with a count of readers of -2. -/
theorem tree_remove_not_empty_exit :
    ex_tree.idle = true ∧
    ∃ t1, tree_remove ex_tree ex_a = .ok (ENOTEMPTY, t1) ∧
      t1.monAt (path_components ex_a) = some ⟨-2, 0, 0, 0, 0⟩ ∧ t1.idle = false :=
  ⟨by decide, _, rfl, rfl, by decide⟩

/-! ## The claims on `tree_move` -/

/-- A successful `tree_move` on lists of components: what is seen of the tree it leaves. -/
theorem tree_move_ok_comp (t : Tree) (sp : Ptr) (cs : CStr) (tp : Ptr)
    (ct : CStr) (hq : t.quiet_on (fun q => q <+: sp ∨ q <+: tp)) (src : Tree) (hvs : is_path_valid (path_of (sp ++ [cs])) = true)
    (hvt : is_path_valid (path_of (tp ++ [ct])) = true)
    (hns : ∀ x ∈ sp ++ [cs], NoSlash x) (hnt : ∀ x ∈ tp ++ [ct], NoSlash x)
    (hnp : ¬ sp ++ [cs] <+: tp ++ [ct])
    (hchk : moving_to_own_subtree (path_of (sp ++ [cs])) (path_of (tp ++ [ct])) = false)
    (hsrc : t.get? (sp ++ [cs]) = some src) (htp : (t.get? tp).isSome = true)
    (hnew : t.get? (tp ++ [ct]) = none) :
    ∃ t1, tree_move t (path_of (sp ++ [cs])) (path_of (tp ++ [ct])) = .ok (0, t1) ∧
      t1.get? (tp ++ [ct]) = some (.node tree_new.mon src.children) ∧
      t1.get? (sp ++ [cs]) = none ∧
      ∀ q, ¬ sp ++ [cs] <+: q → ¬ tp ++ [ct] <+: q → q ≠ sp → q ≠ tp →
        t1.keysAt q = t.keysAt q := by
  obtain ⟨tpn0, htpn0⟩ := Option.isSome_iff_exists.1 htp
  have hnew0 : hmap_get tpn0.children ct = none := by
    rw [← get?_snoc t tp ct tpn0 htpn0]; exact hnew
  have hexsp : (t.get? sp).isSome = true := by
    cases h : t.get? sp with
    | none => rw [get?_append, h] at hsrc; cases hsrc
    | some n => rfl
  have hnts : ¬ tp ++ [ct] <+: sp := by
    intro h
    rw [get?_none_below t _ sp h hnew] at hexsp
    cases hexsp
  have hnst : ¬ sp ++ [cs] <+: tp := fun h => hnp (h.trans (List.prefix_append _ _))
  rcases tree_move_flow t sp cs tp ct hq hvs hvt hns hnt hchk with
    ⟨h | h, _⟩ | ⟨src1, tpn, h1, h2, ⟨h3, _⟩ | ⟨h3, s, hs, hinv⟩⟩
  · rw [hsrc] at h; cases h
  · rw [htpn0] at h; cases h
  · rw [htpn0] at h2; cases h2
    exact absurd hnew0 h3
  · rw [hsrc] at h1; cases h1
    rw [htpn0] at h2; cases h2
    have hPt : ¬ (fun q => q <+: sp ∨ q <+: tp) (tp ++ [ct]) := by
      intro h
      rcases h with h | h
      · exact hnts h
      · have := h.length_le
        simp at this
    have hPs : ¬ (fun q => q <+: sp ∨ q <+: tp) (sp ++ [cs]) := by
      intro h
      rcases h with h | h
      · have := h.length_le
        simp at this
      · exact hnst h
    refine ⟨s, hs, ?_, ?_, ?_⟩
    · rw [hinv.frame _ hPt, Tree.move_at, get?_remove_at_other _ sp cs _ hnts hnp]
      have := get?_insert_at_new t tp ct (Tree.node tree_new.mon src.children) tpn0 htpn0
        hnew0 []
      simpa [get?_nil] using this
    · rw [hinv.frame _ hPs, Tree.move_at]
      exact get?_remove_at_gone _ sp cs _ (List.prefix_refl _)
    · intro q hq1 hq2 hq3 hq4
      rw [hinv.keys, Tree.move_at, keysAt_remove_at_other _ sp cs q hq3 hq1,
        keysAt_insert_at_other t tp ct _ q hq4 hq2]

theorem check_passes (source target : CStr) (h : ¬ source <+: target) :
    moving_to_own_subtree source target = false := by
  rw [moving_to_own_subtree]
  by_cases hl : source.length < target.length
  · rw [if_pos hl]
    cases hp : source.isPrefixOf target with
    | false => rfl
    | true => exact absurd (List.isPrefixOf_iff_prefix.1 hp) h
  · rw [if_neg hl]

/-- C1: on a tree no thread is at work on, for valid paths `source` and `target` other than
`/` with `source` no prefix of `target`, when the folder `source` exists, the parent of
`target` exists and `target` does not, `tree_move` returns 0; in the tree it leaves the
folder at `target` has the child map, with all below, that the folder at `source` had,
no folder is left at `source`, and every folder outside the moved subtree other than the two
parents has the children it had. -/
theorem tree_move_relocates (t : Tree) (source target : CStr) (src : Tree)
    (hq : t.quiet = true) (hvs : is_path_valid source = true)
    (hvt : is_path_valid target = true) (hs : source ≠ ['/']) (ht : target ≠ ['/'])
    (hnp : ¬ source <+: target)
    (hsrc : t.get? (path_components source) = some src)
    (htp : (t.get? (parent_ptr target)).isSome = true)
    (hnew : t.get? (path_components target) = none) :
    ∃ t1, tree_move t source target = .ok (0, t1) ∧
      (t1.get? (path_components target)).map Tree.children = some src.children ∧
      t1.get? (path_components source) = none ∧
      ∀ q, ¬ path_components source <+: q → ¬ path_components target <+: q →
        q ≠ parent_ptr source → q ≠ parent_ptr target → t1.keysAt q = t.keysAt q := by
  obtain ⟨s1, s2, s3⟩ := valid_path_parts source hvs hs
  obtain ⟨t1, t2, t3⟩ := valid_path_parts target hvt ht
  have hchk := check_passes source target hnp
  rw [s2] at hsrc
  rw [t2] at hnew
  rw [s2, t2]
  generalize parent_ptr source = sp at *
  generalize last_name source = cs at *
  generalize parent_ptr target = tp at *
  generalize last_name target = ct at *
  have hnp1 : ¬ sp ++ [cs] <+: tp ++ [ct] := by
    intro h
    apply hnp
    rw [s1, t1]
    exact path_of_mono _ _ h
  subst s1
  subst t1
  obtain ⟨r, hr1, hr2, hr3, hr4⟩ := tree_move_ok_comp t sp cs tp ct (fun p _ => quiet_monAt t hq p) src hvs hvt
    (noSlash_of_valid _ s3) (noSlash_of_valid _ t3) hnp1 hchk hsrc htp hnew
  exact ⟨r, hr1, by rw [hr2]; rfl, hr3, hr4⟩

theorem tree_move_relocates_witness :
    ex_tree.quiet = true ∧ ¬ ex_a <+: ex_ca ∧
    ex_tree.get? (path_components ex_a) = some (.node idle_mon [(['b'], tree_new)]) ∧
    ex_tree.get? (path_components ex_ca) = none ∧
    ∃ t1, tree_move ex_tree ex_a ex_ca = .ok (0, t1) ∧
      (t1.get? (path_components ex_ca)).map Tree.children = some [(['b'], tree_new)] ∧
      t1.get? (path_components ex_a) = none ∧
      ∀ q, ¬ path_components ex_a <+: q → ¬ path_components ex_ca <+: q →
        q ≠ parent_ptr ex_a → q ≠ parent_ptr ex_ca → t1.keysAt q = ex_tree.keysAt q :=
  ⟨by decide, by decide, rfl, rfl,
    tree_move_relocates ex_tree ex_a ex_ca (.node idle_mon [(['b'], tree_new)]) (by decide)
      (by decide) (by decide) (by decide) (by decide) (by decide) rfl rfl rfl⟩

/-- C6: on a tree no thread is at work on, for valid paths other than `/` that pass the
check of line 373, `tree_move` returns `ENOENT` exactly when the folder `source` or the
parent of `target` is missing; otherwise it returns `EEXIST` exactly when the parent of
`target` has a child under the last component of `target`; otherwise it returns 0. -/
theorem tree_move_errors (t : Tree) (source target : CStr) (hq : t.quiet = true)
    (hvs : is_path_valid source = true) (hvt : is_path_valid target = true)
    (hs : source ≠ ['/']) (ht : target ≠ ['/'])
    (hchk : moving_to_own_subtree source target = false) :
    ∃ code t1, tree_move t source target = .ok (code, t1) ∧
      (code = ENOENT ↔
        (t.get? (path_components source) = none ∨ t.get? (parent_ptr target) = none)) ∧
      (code ≠ ENOENT → (code = EEXIST ↔
        ∃ n, t.get? (parent_ptr target) = some n ∧ last_name target ∈ hmap_keys n.children)) ∧
      (code ≠ ENOENT → code ≠ EEXIST → code = 0) := by
  obtain ⟨s1, s2, s3⟩ := valid_path_parts source hvs hs
  obtain ⟨t1, t2, t3⟩ := valid_path_parts target hvt ht
  rw [s2]
  generalize parent_ptr source = sp at *
  generalize last_name source = cs at *
  generalize parent_ptr target = tp at *
  generalize last_name target = ct at *
  subst s1
  subst t1
  rcases tree_move_flow t sp cs tp ct (fun p _ => quiet_monAt t hq p) hvs hvt (noSlash_of_valid _ s3)
      (noSlash_of_valid _ t3) hchk with
    ⟨h, s, hs1, _⟩ | ⟨src, tpn, h1, h2, ⟨h3, s, hs1, _⟩ | ⟨h3, s, hs1, _⟩⟩
  · exact ⟨ENOENT, s, hs1, by simp [h], fun hc => absurd rfl hc, fun hc => absurd rfl hc⟩
  · refine ⟨EEXIST, s, hs1, ?_, fun _ => ?_, fun _ hc => absurd rfl hc⟩
    · constructor
      · intro h; cases h
      · rintro (h | h)
        · rw [h1] at h; cases h
        · rw [h2] at h; cases h
    · simp only [true_iff]
      refine ⟨tpn, h2, ?_⟩
      by_contra hm
      exact h3 ((hmap_get_eq_none_iff _ _).2 hm)
  · refine ⟨0, s, hs1, ?_, fun _ => ?_, fun _ _ => rfl⟩
    · constructor
      · intro h; cases h
      · rintro (h | h)
        · rw [h1] at h; cases h
        · rw [h2] at h; cases h
    · constructor
      · intro h; cases h
      · rintro ⟨n, hn, hm⟩
        rw [h2] at hn
        cases hn
        exact absurd hm ((hmap_get_eq_none_iff _ _).1 h3)

theorem tree_move_errors_witness :
    ∃ code t1, tree_move ex_tree ex_ab ex_c = .ok (code, t1) ∧
      (code = ENOENT ↔
        (ex_tree.get? (path_components ex_ab) = none ∨
          ex_tree.get? (parent_ptr ex_c) = none)) ∧
      (code ≠ ENOENT → (code = EEXIST ↔
        ∃ n, ex_tree.get? (parent_ptr ex_c) = some n ∧
          last_name ex_c ∈ hmap_keys n.children)) ∧
      (code ≠ ENOENT → code ≠ EEXIST → code = 0) :=
  tree_move_errors ex_tree ex_ab ex_c (by decide) (by decide) (by decide) (by decide)
    (by decide) (by decide)

/-! ## Walks change no set of children, whatever the monitors -/

theorem sameKeys_refl (t : Tree) : SameKeys t t := fun _ => rfl

theorem sameKeys_trans (a b c : Tree) (h1 : SameKeys a b) (h2 : SameKeys b c) : SameKeys a c :=
  fun q => (h2 q).trans (h1 q)

theorem sameKeys_modMon (g : Monitor → Monitor) (p : Ptr) (t : Tree) :
    SameKeys t (t.modMon g p) := fun q => keysAt_modMon g p q t

theorem sameKeys_enter (proto : Monitor → Option Monitor) (t s : Tree) (p : Ptr)
    (h : t.enter proto p = .ok s) : SameKeys t s := by
  unfold Tree.enter at h
  split at h
  · cases h
  · split at h
    · cases h
    · cases h
      exact sameKeys_modMon _ p t

theorem sameKeys_entry_choice (b : Prop) [Decidable b] (t s : Tree) (p : Ptr)
    (h : (if b then t.reader_entry p else t.writer_entry p) = .ok s) : SameKeys t s := by
  split at h
  · exact sameKeys_enter _ t s p h
  · exact sameKeys_enter _ t s p h

theorem walk_loop_keys : ∀ (fuel : Nat) (s : Tree) (pre : Ptr) (sub : CStr) (r : Option Ptr)
    (s1 : Tree), walk_loop fuel s pre sub = .ok (r, s1) → SameKeys s s1 := by
  intro fuel
  induction fuel with
  | zero => intro s pre sub r s1 h; cases h
  | succ f ih =>
    intro s pre sub r s1 h
    rw [walk_loop] at h
    cases hsp : split_path sub with
    | none =>
      simp only [hsp] at h
      cases h
      exact sameKeys_refl s
    | some cs =>
      obtain ⟨component, subpath⟩ := cs
      simp only [hsp] at h
      cases hg : s.get? (pre ++ [component]) with
      | none =>
        simp only [hg] at h
        cases h
        exact sameKeys_modMon _ _ s
      | some n =>
        simp only [hg] at h
        cases he : (if subpath ≠ ['/'] then s.reader_entry (pre ++ [component])
            else s.writer_entry (pre ++ [component])) with
        | error e => rw [he] at h; cases h
        | ok s2 =>
          rw [he] at h
          exact sameKeys_trans _ _ _ (sameKeys_trans _ _ _ (sameKeys_entry_choice _ s s2 _ he)
            (sameKeys_modMon _ _ s2)) (ih _ _ _ _ _ h)

theorem list_loop_keys : ∀ (fuel : Nat) (s : Tree) (pre : Ptr) (sub : CStr) (r : Option Ptr)
    (s1 : Tree), list_loop fuel s pre sub = .ok (r, s1) → SameKeys s s1 := by
  intro fuel
  induction fuel with
  | zero => intro s pre sub r s1 h; cases h
  | succ f ih =>
    intro s pre sub r s1 h
    rw [list_loop] at h
    cases hsp : split_path sub with
    | none =>
      simp only [hsp] at h
      cases h
      exact sameKeys_refl s
    | some cs =>
      obtain ⟨component, subpath⟩ := cs
      simp only [hsp] at h
      cases hg : s.get? (pre ++ [component]) with
      | none =>
        simp only [hg] at h
        cases h
        exact sameKeys_modMon _ _ s
      | some n =>
        simp only [hg] at h
        cases he : s.reader_entry (pre ++ [component]) with
        | error e => rw [he] at h; cases h
        | ok s2 =>
          rw [he] at h
          exact sameKeys_trans _ _ _ (sameKeys_trans _ _ _ (sameKeys_enter _ s s2 _ he)
            (sameKeys_modMon _ _ s2)) (ih _ _ _ _ _ h)

theorem walk_to_parent_keys (t : Tree) (sub : CStr) (r : Option Ptr) (s1 : Tree)
    (h : walk_to_parent t sub = .ok (r, s1)) : SameKeys t s1 := by
  rw [walk_to_parent] at h
  cases he : (if sub ≠ ['/'] then t.reader_entry [] else t.writer_entry []) with
  | error e => rw [he] at h; cases h
  | ok s0 =>
    rw [he] at h
    exact sameKeys_trans _ _ _ (sameKeys_entry_choice _ t s0 _ he) (walk_loop_keys _ _ _ _ _ _ h)

theorem tree_create_keys (t : Tree) (path : CStr) (code : Int) (t1 : Tree)
    (h : tree_create t path = .ok (code, t1)) (hc : code ≠ 0) : SameKeys t t1 := by
  rw [tree_create] at h
  by_cases h1 : path = [] ∨ (!is_path_valid path) = true
  · rw [if_pos h1] at h; cases h; exact sameKeys_refl t
  rw [if_neg h1] at h
  by_cases h2 : path = ['/']
  · rw [if_pos h2] at h; cases h; exact sameKeys_refl t
  rw [if_neg h2] at h
  cases hm : make_path_to_parent path with
  | none => simp only [hm] at h; cases h
  | some ps =>
    obtain ⟨subpath, n_path⟩ := ps
    simp only [hm] at h
    cases hw : walk_to_parent t subpath with
    | error e => simp only [hw] at h; cases h
    | ok rs =>
      obtain ⟨r, s⟩ := rs
      have hk := walk_to_parent_keys _ _ _ _ hw
      cases r with
      | none => simp only [hw] at h; cases h; exact hk
      | some curr =>
        simp only [hw] at h
        cases hg : s.get? curr with
        | none => simp only [hg] at h; cases h
        | some n =>
          simp only [hg] at h
          cases hi : hmap_insert n.children n_path tree_new with
          | mk ok ch =>
            cases ok with
            | false =>
              simp only [hi] at h
              cases h
              exact sameKeys_trans _ _ _ hk (sameKeys_modMon _ _ _)
            | true =>
              simp only [hi] at h
              cases h
              exact absurd rfl hc

theorem tree_remove_keys (t : Tree) (path : CStr) (code : Int) (t1 : Tree)
    (h : tree_remove t path = .ok (code, t1)) (hc : code ≠ 0) : SameKeys t t1 := by
  rw [tree_remove] at h
  by_cases h1 : (!is_path_valid path) = true
  · rw [if_pos h1] at h; cases h; exact sameKeys_refl t
  rw [if_neg h1] at h
  by_cases h2 : path = ['/']
  · rw [if_pos h2] at h; cases h; exact sameKeys_refl t
  rw [if_neg h2] at h
  cases hm : make_path_to_parent path with
  | none => simp only [hm] at h; cases h
  | some ps =>
    obtain ⟨subpath, name⟩ := ps
    simp only [hm] at h
    cases hw : walk_to_parent t subpath with
    | error e => simp only [hw] at h; cases h
    | ok rs =>
      obtain ⟨r, s⟩ := rs
      have hk := walk_to_parent_keys _ _ _ _ hw
      cases r with
      | none => simp only [hw] at h; cases h; exact hk
      | some curr =>
        simp only [hw] at h
        cases hg : s.get? (curr ++ [name]) with
        | none =>
          simp only [hg] at h
          cases h
          exact sameKeys_trans _ _ _ hk (sameKeys_modMon _ _ _)
        | some n =>
          simp only [hg] at h
          by_cases hsz : hmap_size n.children ≠ 0
          · rw [if_pos hsz] at h
            cases h
            exact sameKeys_trans _ _ _ hk
              (sameKeys_trans _ _ _ (sameKeys_modMon _ _ _)
                (sameKeys_trans _ _ _ (sameKeys_modMon _ _ _) (sameKeys_modMon _ _ _)))
          · rw [if_neg hsz] at h
            cases h
            exact absurd rfl hc

theorem tree_list_keys (t : Tree) (path : CStr) (r : Option CStr) (t1 : Tree)
    (h : tree_list t path = .ok (r, t1)) : SameKeys t t1 := by
  rw [tree_list] at h
  by_cases h1 : (!is_path_valid path) = true
  · rw [if_pos h1] at h; cases h; exact sameKeys_refl t
  rw [if_neg h1] at h
  cases he : t.reader_entry [] with
  | error e => simp only [he] at h; cases h
  | ok s0 =>
    simp only [he] at h
    have hk0 := sameKeys_enter _ t s0 _ he
    cases hw : list_loop (path.length + 1) s0 [] path with
    | error e => simp only [hw] at h; cases h
    | ok rs =>
      obtain ⟨r1, s⟩ := rs
      have hk := list_loop_keys _ _ _ _ _ _ hw
      cases r1 with
      | none => simp only [hw] at h; cases h; exact sameKeys_trans _ _ _ hk0 hk
      | some curr =>
        simp only [hw] at h
        cases hg : s.get? curr with
        | none => simp only [hg] at h; cases h
        | some n =>
          simp only [hg] at h
          cases h
          exact sameKeys_trans _ _ _ hk0 (sameKeys_trans _ _ _ hk (sameKeys_modMon _ _ _))

theorem sameKeys_of_ite {b : Prop} [Decidable b] (t x y : Tree) (hx : SameKeys t x)
    (hy : SameKeys t y) : SameKeys t (if b then x else y) := by
  split
  · exact hx
  · exact hy

theorem sameKeys_step (t s : Tree) (g : Monitor → Monitor) (p : Ptr) (h : SameKeys t s) :
    SameKeys t (s.modMon g p) := sameKeys_trans _ _ _ h (sameKeys_modMon g p s)

theorem move_lca_loop_keys : ∀ (fuel : Nat) (s : Tree) (pre : Ptr) (ss st : Option CStr)
    (c1 c2 : CStr) (r : Option Ptr) (s1 : Tree),
    move_lca_loop fuel s pre ss st c1 c2 = .ok (r, s1) → SameKeys s s1 := by
  intro fuel
  induction fuel with
  | zero => intro s pre ss st c1 c2 r s1 h; cases h
  | succ f ih =>
    intro s pre ss st c1 c2 r s1 h
    rw [move_lca_loop] at h
    by_cases hc : c1 = c2
    swap
    · rw [if_neg hc] at h; cases h; exact sameKeys_refl s
    rw [if_pos hc] at h
    cases hg : s.get? (pre ++ [c1]) with
    | none =>
      simp only [hg] at h
      cases h
      exact sameKeys_modMon _ _ s
    | some n =>
      simp only [hg] at h
      cases ss with
      | none => cases h
      | some ss1 =>
        cases st with
        | none => cases h
        | some st1 =>
          simp only [] at h
          by_cases hb : (split_path_buf ss1 c1).2 ≠ (split_path_buf st1 c2).2 ∨
              (split_path_buf st1 c2).1 = none
          · rw [if_pos hb] at h
            cases he : s.writer_entry (pre ++ [c1]) with
            | error e => rw [he] at h; cases h
            | ok s2 =>
              rw [he] at h
              cases h
              exact sameKeys_trans _ _ _ (sameKeys_enter _ s s2 _ he) (sameKeys_modMon _ _ s2)
          · rw [if_neg hb] at h
            cases he : s.reader_entry (pre ++ [c1]) with
            | error e => rw [he] at h; cases h
            | ok s2 =>
              rw [he] at h
              exact sameKeys_trans _ _ _ (sameKeys_trans _ _ _ (sameKeys_enter _ s s2 _ he)
                (sameKeys_modMon _ _ s2)) (ih _ _ _ _ _ _ _ _ h)

theorem move_to_lca_keys (t : Tree) (source ptp shared : CStr) (r : Option Ptr) (s1 : Tree)
    (h : move_to_lca t source ptp shared = .ok (r, s1)) : SameKeys t s1 := by
  rw [move_to_lca] at h
  by_cases hs : shared = ['/']
  · rw [if_pos hs] at h
    cases he : t.writer_entry [] with
    | error e => rw [he] at h; cases h
    | ok s0 =>
      rw [he] at h
      cases h
      exact sameKeys_enter _ t _ _ he
  · rw [if_neg hs] at h
    cases he : t.reader_entry [] with
    | error e => rw [he] at h; cases h
    | ok s0 =>
      rw [he] at h
      simp only [] at h
      cases h1 : split_path source with
      | none => simp only [h1] at h; cases h
      | some a =>
        cases h2 : split_path ptp with
        | none => simp only [h1, h2] at h; cases h
        | some b =>
          simp only [h1, h2] at h
          exact sameKeys_trans _ _ _ (sameKeys_enter _ t s0 _ he)
            (move_lca_loop_keys _ _ _ _ _ _ _ _ _ h)

theorem move_source_loop_keys : ∀ (fuel : Nat) (s : Tree) (curr st : Ptr) (left : CStr)
    (first : Bool) (r : Option (Ptr × Bool)) (s1 : Tree),
    move_source_loop fuel s curr st left first = .ok (r, s1) → SameKeys s s1 := by
  intro fuel
  induction fuel with
  | zero => intro s curr st left first r s1 h; cases h
  | succ f ih =>
    intro s curr st left first r s1 h
    rw [move_source_loop] at h
    cases hsp : split_path left with
    | none =>
      simp only [hsp] at h
      cases h
      exact sameKeys_refl s
    | some cs =>
      obtain ⟨component, rest⟩ := cs
      simp only [hsp] at h
      cases hg : s.get? (st ++ [component]) with
      | none =>
        simp only [hg] at h
        cases hm : s.monAt st with
        | none => simp only [hm] at h; cases h
        | some m =>
          simp only [hm] at h
          cases h
          have ka : SameKeys s (if m.writer_type_count > 0 then s.writer_final st
              else s.reader_final st) :=
            sameKeys_of_ite _ _ _ (sameKeys_modMon _ _ s) (sameKeys_modMon _ _ s)
          exact sameKeys_of_ite _ _ _ (sameKeys_step _ _ _ _ ka) ka
      | some n =>
        simp only [hg] at h
        cases he : (if rest ≠ ['/'] then s.reader_entry (st ++ [component])
            else s.writer_entry (st ++ [component])) with
        | error e => rw [he] at h; cases h
        | ok s2 =>
          rw [he] at h
          have hk2 := sameKeys_entry_choice _ s s2 _ he
          have ka : SameKeys s (if (!first) = true then s2.reader_final st else s2) :=
            sameKeys_of_ite _ _ _ (sameKeys_step _ _ _ _ hk2) hk2
          exact sameKeys_trans _ _ _ ka (ih _ _ _ _ _ _ _ h)

theorem move_target_loop_keys : ∀ (fuel : Nat) (s : Tree) (curr src tt : Ptr) (left : CStr)
    (first : Bool) (r : Option (Ptr × Bool)) (s1 : Tree),
    move_target_loop fuel s curr src tt left first = .ok (r, s1) → SameKeys s s1 := by
  intro fuel
  induction fuel with
  | zero => intro s curr src tt left first r s1 h; cases h
  | succ f ih =>
    intro s curr src tt left first r s1 h
    rw [move_target_loop] at h
    cases hsp : split_path left with
    | none =>
      simp only [hsp] at h
      cases h
      exact sameKeys_refl s
    | some cs =>
      obtain ⟨component, rest⟩ := cs
      simp only [hsp] at h
      cases hg : s.get? (tt ++ [component]) with
      | none =>
        simp only [hg] at h
        cases h
        have ka : SameKeys s (if tt ≠ curr then s.reader_final tt else s) :=
          sameKeys_of_ite _ _ _ (sameKeys_modMon _ _ s) (sameKeys_refl s)
        exact sameKeys_step _ _ _ _
          (sameKeys_of_ite _ _ _ (sameKeys_step _ _ _ _ ka) ka)
      | some n =>
        simp only [hg] at h
        cases he : (if rest ≠ ['/'] then s.reader_entry (tt ++ [component])
            else s.writer_entry (tt ++ [component])) with
        | error e => rw [he] at h; cases h
        | ok s2 =>
          rw [he] at h
          have hk2 := sameKeys_entry_choice _ s s2 _ he
          simp only [] at h
          by_cases hb : (!first) = true ∧ tt ≠ curr
          · rw [if_pos hb] at h
            cases hm : s2.monAt tt with
            | none => simp only [hm] at h; cases h
            | some m =>
              simp only [hm] at h
              have ka : SameKeys s (if m.writer_type_count = 0 then s2.reader_final tt
                  else s2.writer_final tt) :=
                sameKeys_of_ite _ _ _ (sameKeys_step _ _ _ _ hk2) (sameKeys_step _ _ _ _ hk2)
              exact sameKeys_trans _ _ _ ka (ih _ _ _ _ _ _ _ _ h)
          · rw [if_neg hb] at h
            exact sameKeys_trans _ _ _ hk2 (ih _ _ _ _ _ _ _ _ h)

theorem move_release_keys (t : Tree) (a b c : Ptr) (f1 f2 : Bool) :
    SameKeys t (move_release t a b c f1 f2) := by
  rw [move_release]
  have ka : SameKeys t (if (!f1) = true then t.writer_final b else t) :=
    sameKeys_of_ite _ _ _ (sameKeys_modMon _ _ t) (sameKeys_refl t)
  exact sameKeys_step _ _ _ _ (sameKeys_of_ite _ _ _ (sameKeys_step _ _ _ _ ka) ka)

theorem tree_move_keys (t : Tree) (source target : CStr) (code : Int) (t1 : Tree)
    (h : tree_move t source target = .ok (code, t1)) (hc : code ≠ 0) : SameKeys t t1 := by
  rw [tree_move] at h
  by_cases h1 : (!is_path_valid source || !is_path_valid target) = true
  · rw [if_pos h1] at h; cases h; exact sameKeys_refl t
  rw [if_neg h1] at h
  by_cases h2 : source = ['/']
  · rw [if_pos h2] at h; cases h; exact sameKeys_refl t
  rw [if_neg h2] at h
  by_cases h3 : target = ['/']
  · rw [if_pos h3] at h; cases h; exact sameKeys_refl t
  rw [if_neg h3] at h
  by_cases h4 : moving_to_own_subtree source target = true
  · rw [if_pos h4] at h; cases h; exact sameKeys_refl t
  rw [if_neg h4] at h
  cases hm1 : make_path_to_parent target with
  | none => simp only [hm1] at h; cases h
  | some pt =>
    obtain ⟨ptp, ct⟩ := pt
    cases hm2 : make_path_to_parent source with
    | none => simp only [hm1, hm2] at h; cases h
    | some ps =>
      obtain ⟨psp, cs⟩ := ps
      simp only [hm1, hm2] at h
      cases hsh : shared_path source ptp with
      | error e => simp only [hsh] at h; cases h
      | ok shared =>
        simp only [hsh] at h
        cases hl : move_to_lca t source ptp shared with
        | error e => simp only [hl] at h; cases h
        | ok rs =>
          obtain ⟨r, s1⟩ := rs
          have k1 := move_to_lca_keys _ _ _ _ _ _ hl
          cases r with
          | none => simp only [hl] at h; cases h; exact k1
          | some curr =>
            simp only [hl] at h
            cases hs : move_source_loop ((psp.drop (shared.length - 1)).length + 1) s1 curr curr
                (psp.drop (shared.length - 1)) true with
            | error e => simp only [hs] at h; cases h
            | ok rs2 =>
              obtain ⟨r2, s2⟩ := rs2
              have k2 := sameKeys_trans _ _ _ k1 (move_source_loop_keys _ _ _ _ _ _ _ _ hs)
              cases r2 with
              | none => simp only [hs] at h; cases h; exact k2
              | some sf =>
                obtain ⟨st, first⟩ := sf
                simp only [hs] at h
                cases hg : s2.get? (st ++ [cs]) with
                | none =>
                  simp only [hg] at h
                  cases h
                  exact sameKeys_step _ _ _ _
                    (sameKeys_of_ite _ _ _ (sameKeys_step _ _ _ _ k2) k2)
                | some sn =>
                  simp only [hg] at h
                  cases ht : move_target_loop ((ptp.drop (shared.length - 1)).length + 1) s2 curr
                      st curr (ptp.drop (shared.length - 1)) true with
                  | error e => simp only [ht] at h; cases h
                  | ok rs3 =>
                    obtain ⟨r3, s3⟩ := rs3
                    have k3 := sameKeys_trans _ _ _ k2
                      (move_target_loop_keys _ _ _ _ _ _ _ _ _ ht)
                    cases r3 with
                    | none => simp only [ht] at h; cases h; exact k3
                    | some tf =>
                      obtain ⟨tt, ft⟩ := tf
                      simp only [ht] at h
                      cases hg1 : s3.get? (st ++ [cs]) with
                      | none => simp only [hg1] at h; cases h
                      | some sn3 =>
                        cases hg2 : s3.get? tt with
                        | none => simp only [hg1, hg2] at h; cases h
                        | some tn3 =>
                          simp only [hg1, hg2] at h
                          cases hi : hmap_insert tn3.children ct
                              (Tree.node tree_new.mon sn3.children) with
                          | mk ok ch =>
                            cases ok with
                            | false =>
                              simp only [hi] at h
                              cases h
                              exact sameKeys_trans _ _ _ k3 (move_release_keys _ _ _ _ _ _)
                            | true =>
                              simp only [hi] at h
                              cases h
                              exact absurd rfl hc

/-! ## The claim on failing calls -/

/-- C9: on every tree and for every argument, whenever `tree_create`, `tree_remove` or
`tree_move` returns a code other than 0, and whenever `tree_list` returns, the tree left
has the folders of the tree before the call, each with the children it had. -/
theorem failure_keeps_folders (t : Tree) :
    (∀ path code t1, tree_create t path = .ok (code, t1) → code ≠ 0 →
      ∀ q, t1.keysAt q = t.keysAt q) ∧
    (∀ path code t1, tree_remove t path = .ok (code, t1) → code ≠ 0 →
      ∀ q, t1.keysAt q = t.keysAt q) ∧
    (∀ source target code t1, tree_move t source target = .ok (code, t1) → code ≠ 0 →
      ∀ q, t1.keysAt q = t.keysAt q) ∧
    (∀ path r t1, tree_list t path = .ok (r, t1) → ∀ q, t1.keysAt q = t.keysAt q) :=
  ⟨fun path code t1 h hc => tree_create_keys t path code t1 h hc,
    fun path code t1 h hc => tree_remove_keys t path code t1 h hc,
    fun source target code t1 h hc => tree_move_keys t source target code t1 h hc,
    fun path r t1 h => tree_list_keys t path r t1 h⟩

theorem failure_keeps_folders_witness :
    (∃ t1, tree_create ex_tree ex_ab = .ok (EEXIST, t1) ∧
      ∀ q, t1.keysAt q = ex_tree.keysAt q) ∧
    (∃ t1, tree_remove ex_tree ex_a = .ok (ENOTEMPTY, t1) ∧
      ∀ q, t1.keysAt q = ex_tree.keysAt q) ∧
    (∃ t1, tree_move ex_tree ex_new ex_c = .ok (ENOENT, t1) ∧
      ∀ q, t1.keysAt q = ex_tree.keysAt q) ∧
    (∃ t1, tree_move ex_tree ex_a ex_ab = .ok (EILLEGALMOVE, t1) ∧
      ∀ q, t1.keysAt q = ex_tree.keysAt q) ∧
    (∃ r t1, tree_list ex_tree ex_a = .ok (r, t1) ∧ ∀ q, t1.keysAt q = ex_tree.keysAt q) :=
  ⟨⟨_, rfl, (failure_keeps_folders ex_tree).1 ex_ab EEXIST _ rfl (by decide)⟩,
    ⟨_, rfl, (failure_keeps_folders ex_tree).2.1 ex_a ENOTEMPTY _ rfl (by decide)⟩,
    ⟨_, rfl, (failure_keeps_folders ex_tree).2.2.1 ex_new ex_c ENOENT _ rfl (by decide)⟩,
    ⟨_, rfl, (failure_keeps_folders ex_tree).2.2.1 ex_a ex_ab EILLEGALMOVE _ rfl (by decide)⟩,
    ⟨_, _, rfl, (failure_keeps_folders ex_tree).2.2.2 ex_a _ _ rfl⟩⟩

/-! ## Monitors after a call -/

theorem monAt_isSome (t : Tree) (q : Ptr) (m : Monitor) (h : t.monAt q = some m) :
    (t.get? q).isSome = true := by
  simp only [Tree.monAt] at h
  cases hg : t.get? q with
  | none => rw [hg] at h; cases h
  | some n => rfl

theorem inv_monAt_back (P : Ptr → Prop) (h : Ptr → Int × Int) (t s : Tree) (hinv : Inv P h t s)
    (q : Ptr) (m1 : Monitor) (hm1 : s.monAt q = some m1) :
    ∃ m, t.monAt q = some m ∧ Monitor.shift (h q) m m1 := by
  have hs := monAt_isSome s q m1 hm1
  rw [inv_isSome P h t s hinv q] at hs
  obtain ⟨n, hn⟩ := Option.isSome_iff_exists.1 hs
  have hm : t.monAt q = some n.mon := by simp [Tree.monAt, hn]
  obtain ⟨m2, hm2, hsh⟩ := hinv.mons q _ hm
  rw [hm1] at hm2
  cases hm2
  exact ⟨_, hm, hsh⟩

theorem idle_fields (m : Monitor) (h : m.idle = true) :
    m.reader_type_count = 0 ∧ m.writer_type_count = 0 ∧ m.reader_type_waiting = 0 ∧
      m.writer_type_waiting = 0 ∧ m.change = 0 := by
  simpa [Monitor.idle, and_assoc] using h

theorem quiet_of_idle (m : Monitor) (h : m.idle = true) : m.quiet = true := by
  obtain ⟨a, b, c, d, e⟩ := idle_fields m h
  simp [Monitor.quiet, a, b, d]

theorem all_quiet_of_idle (t : Tree) (h : t.all_idle) : t.all_quiet :=
  fun p m hm => quiet_of_idle m (h p m hm)

theorem all_quiet_of_inv (P : Ptr → Prop) (h : Ptr → Int × Int) (t s : Tree)
    (hinv : Inv P h t s) (hh : ∀ q, (h q).1 ≤ 0 ∧ (h q).2 = 0) (hq : t.all_quiet) :
    s.all_quiet := by
  intro q m1 hm1
  obtain ⟨m, hm, a, b, c, d, e⟩ := inv_monAt_back P h t s hinv q m1 hm1
  obtain ⟨x, y, z⟩ := quiet_fields m (hq q m hm)
  obtain ⟨h1, h2⟩ := hh q
  simp only [Monitor.quiet, Bool.and_eq_true, decide_eq_true_eq]
  refine ⟨⟨?_, ?_⟩, ?_⟩ <;> omega

theorem all_idle_of_inv (P : Ptr → Prop) (t s : Tree) (hinv : Inv P hold0 t s)
    (hi : t.all_idle) : s.all_idle := by
  intro q m1 hm1
  obtain ⟨m, hm, a, b, c, d, e⟩ := inv_monAt_back P hold0 t s hinv q m1 hm1
  obtain ⟨x, y, z, u, v⟩ := idle_fields m (hi q m hm)
  have e1 := e z v
  simp only [hold0] at a b
  simp only [Monitor.idle, Bool.and_eq_true, decide_eq_true_eq]
  refine ⟨⟨⟨⟨?_, ?_⟩, ?_⟩, ?_⟩, ?_⟩ <;> omega

theorem monAt_tree_new (q : Ptr) (m : Monitor) (h : tree_new.monAt q = some m) :
    m = tree_new.mon := by
  cases q with
  | nil => simp only [Tree.monAt, get?_nil, Option.map_some', Option.some.injEq] at h; exact h.symm
  | cons k r => simp [Tree.monAt, get?_cons, tree_new, children_node, hmap_get] at h

theorem monAt_fresh_node (src : Tree) (r : Ptr) (m : Monitor)
    (h : (Tree.node tree_new.mon src.children).monAt r = some m) :
    m = tree_new.mon ∨ src.monAt r = some m := by
  cases r with
  | nil =>
    left
    simp only [Tree.monAt, get?_nil, Option.map_some', Option.some.injEq, mon_node] at h
    exact h.symm
  | cons k r =>
    right
    simp only [Tree.monAt] at h ⊢
    rw [get?_of_children_eq src _ (children_node _ _) k r] at h
    exact h

theorem monAt_move_at_some (t : Tree) (sp : Ptr) (cs : CStr) (tp : Ptr) (ct : CStr)
    (src : Tree) (hsrc : t.get? (sp ++ [cs]) = some src) (q : Ptr) (m : Monitor)
    (h : (t.move_at sp cs tp ct src).monAt q = some m) :
    m = tree_new.mon ∨ ∃ r, t.monAt r = some m := by
  have h1 := monAt_remove_at_some _ _ _ _ _ h
  rcases monAt_insert_at_some _ _ _ _ _ _ h1 with h2 | ⟨r, h2⟩
  · exact Or.inr ⟨q, h2⟩
  · rcases monAt_fresh_node src r m h2 with h3 | h3
    · exact Or.inl h3
    · right
      refine ⟨sp ++ [cs] ++ r, ?_⟩
      simp only [Tree.monAt] at h3 ⊢
      rw [get?_append, hsrc]
      exact h3

/-! ## The outcome of a call on a tree no thread is at work on -/

theorem tree_create_outcome (t : Tree) (hq : t.all_quiet) (path : CStr) :
    ∃ code s, tree_create t path = .ok (code, s) ∧
      ((code ≠ 0 ∧ Inv (fun q => q <+: parent_ptr path) hold0 t s) ∨
       (code = 0 ∧ is_path_valid path = true ∧ path ≠ ['/'] ∧
         ∃ n, t.get? (parent_ptr path) = some n ∧
           hmap_get n.children (last_name path) = none ∧
           Inv (fun q => q <+: parent_ptr path) hold0
             (t.insert_at (parent_ptr path) (last_name path) tree_new) s)) := by
  by_cases h0 : path = [] ∨ (!is_path_valid path) = true
  · exact ⟨EINVAL, t, by rw [tree_create, if_pos h0], Or.inl ⟨by decide, inv_refl _ t⟩⟩
  by_cases hr : path = ['/']
  · exact ⟨EEXIST, t, by rw [tree_create, if_neg h0, if_pos hr],
      Or.inl ⟨by decide, inv_refl _ t⟩⟩
  have hv : is_path_valid path = true := by
    by_contra h
    exact h0 (Or.inr (by simpa using h))
  obtain ⟨h1, h2, h3⟩ := valid_path_parts path hv hr
  generalize parent_ptr path = cs at *
  generalize last_name path = c at *
  have hv1 := hv
  rw [h1] at hv1
  have hcomp := tree_create_comp t cs (fun p _ => hq p) c hv1 (noSlash_of_valid _ h3)
  rw [← h1] at hcomp
  cases hcs : t.get? cs with
  | none =>
    obtain ⟨s, hs, hi⟩ := hcomp.1 hcs
    exact ⟨ENOENT, s, hs, Or.inl ⟨by decide, hi⟩⟩
  | some n =>
    cases hc : hmap_get n.children c with
    | some w =>
      obtain ⟨s, hs, hi⟩ := hcomp.2.1 n hcs (by rw [hc]; simp)
      exact ⟨EEXIST, s, hs, Or.inl ⟨by decide, hi⟩⟩
    | none =>
      obtain ⟨s, hs, hi⟩ := hcomp.2.2 n hcs hc
      exact ⟨0, s, hs, Or.inr ⟨rfl, hv, hr, n, rfl, hc, hi⟩⟩

theorem tree_list_outcome (t : Tree) (hq : t.all_quiet) (path : CStr) :
    ∃ r s, tree_list t path = .ok (r, s) ∧
      Inv (fun q => q <+: path_components path) hold0 t s := by
  by_cases hv : is_path_valid path = true
  swap
  · exact ⟨none, t, by rw [tree_list, if_pos (by simpa using hv)], inv_refl _ t⟩
  obtain ⟨cs, h1, h2, h3⟩ := valid_path_comps path hv
  rw [h2]
  subst h1
  have hcomp := tree_list_comp t cs (fun p _ => hq p) hv (noSlash_of_valid _ h3)
  cases hcs : t.get? cs with
  | none =>
    obtain ⟨s, hs, hi⟩ := hcomp.1 hcs
    exact ⟨_, s, hs, hi⟩
  | some n =>
    obtain ⟨s, hs, hi⟩ := hcomp.2 n hcs
    exact ⟨_, s, hs, hi⟩

theorem tree_remove_outcome (t : Tree) (hq : t.all_quiet) (path : CStr) :
    ∃ code s, tree_remove t path = .ok (code, s) ∧
      ((code ≠ 0 ∧ ∃ h : Ptr → Int × Int, (∀ q, (h q).1 ≤ 0 ∧ (h q).2 = 0) ∧
          Inv (fun q => q <+: path_components path) h t s) ∨
       (code = 0 ∧ is_path_valid path = true ∧ path ≠ ['/'] ∧
         ∃ v, t.get? (path_components path) = some v ∧ v.children = [] ∧
           Inv (fun q => q <+: path_components path) hold0
             (t.remove_at (parent_ptr path) (last_name path)) s)) := by
  have h00 : ∀ q : Ptr, (hold0 q).1 ≤ 0 ∧ (hold0 q).2 = 0 := fun q => by simp [hold0]
  by_cases h0 : (!is_path_valid path) = true
  · exact ⟨EINVAL, t, by rw [tree_remove, if_pos h0],
      Or.inl ⟨by decide, hold0, h00, inv_refl _ t⟩⟩
  by_cases hr : path = ['/']
  · exact ⟨EBUSY, t, by rw [tree_remove, if_neg h0, if_pos hr],
      Or.inl ⟨by decide, hold0, h00, inv_refl _ t⟩⟩
  have hv : is_path_valid path = true := by simpa using h0
  obtain ⟨h1, h2, h3⟩ := valid_path_parts path hv hr
  rw [h2]
  generalize parent_ptr path = cs at *
  generalize last_name path = c at *
  have hv1 := hv
  rw [h1] at hv1
  have hcomp := tree_remove_comp t cs c (fun p _ => hq p) hv1 (noSlash_of_valid _ h3)
  rw [← h1] at hcomp
  cases hcs : t.get? (cs ++ [c]) with
  | none =>
    obtain ⟨s, hs, hi⟩ := hcomp.1 hcs
    exact ⟨ENOENT, s, hs, Or.inl ⟨by decide, hold0, h00, hi⟩⟩
  | some v =>
    by_cases hc : v.children = []
    · obtain ⟨s, hs, hi⟩ := hcomp.2.2 v hcs hc
      exact ⟨0, s, hs, Or.inr ⟨rfl, hv, hr, v, rfl, hc, hi⟩⟩
    · obtain ⟨s, hs, hi⟩ := hcomp.2.1 v hcs hc
      refine ⟨ENOTEMPTY, s, hs, Or.inl ⟨by decide, _, fun q => ?_, hi⟩⟩
      simp only [hold1]
      split <;> simp

theorem tree_move_outcome (t : Tree) (source target : CStr)
    (hq : t.quiet_on (fun q => q <+: parent_ptr source ∨ q <+: parent_ptr target)) :
    ∃ code s, tree_move t source target = .ok (code, s) ∧
      ((code ≠ 0 ∧
          Inv (fun q => q <+: parent_ptr source ∨ q <+: parent_ptr target) hold0 t s) ∨
       (code = 0 ∧ is_path_valid source = true ∧ is_path_valid target = true ∧
         source ≠ ['/'] ∧ target ≠ ['/'] ∧ moving_to_own_subtree source target = false ∧
         ∃ src tpn, t.get? (path_components source) = some src ∧
           t.get? (parent_ptr target) = some tpn ∧
           hmap_get tpn.children (last_name target) = none ∧
           Inv (fun q => q <+: parent_ptr source ∨ q <+: parent_ptr target) hold0
             (t.move_at (parent_ptr source) (last_name source) (parent_ptr target)
               (last_name target) src) s)) := by
  by_cases h0 : (!is_path_valid source || !is_path_valid target) = true
  · exact ⟨EINVAL, t, by rw [tree_move, if_pos h0], Or.inl ⟨by decide, inv_refl _ t⟩⟩
  by_cases hs : source = ['/']
  · exact ⟨EBUSY, t, by rw [tree_move, if_neg h0, if_pos hs],
      Or.inl ⟨by decide, inv_refl _ t⟩⟩
  by_cases ht : target = ['/']
  · exact ⟨EEXIST, t, by rw [tree_move, if_neg h0, if_neg hs, if_pos ht],
      Or.inl ⟨by decide, inv_refl _ t⟩⟩
  by_cases hchk : moving_to_own_subtree source target = true
  · exact ⟨EILLEGALMOVE, t, by rw [tree_move, if_neg h0, if_neg hs, if_neg ht, if_pos hchk],
      Or.inl ⟨by decide, inv_refl _ t⟩⟩
  have hchk : moving_to_own_subtree source target = false := by simpa using hchk
  have hvs : is_path_valid source = true := by
    by_contra h
    apply h0
    simp [h]
  have hvt : is_path_valid target = true := by
    by_contra h
    apply h0
    simp [h]
  obtain ⟨s1, s2, s3⟩ := valid_path_parts source hvs hs
  obtain ⟨t1, t2, t3⟩ := valid_path_parts target hvt ht
  rw [s2]
  generalize parent_ptr source = sp at *
  generalize last_name source = cs at *
  generalize parent_ptr target = tp at *
  generalize last_name target = ct at *
  have hvs1 := hvs
  have hvt1 := hvt
  have hchk1 := hchk
  rw [s1] at hvs1 hchk1
  rw [t1] at hvt1 hchk1
  have hflow := tree_move_flow t sp cs tp ct hq hvs1 hvt1 (noSlash_of_valid _ s3)
    (noSlash_of_valid _ t3) hchk1
  rw [← s1, ← t1] at hflow
  rcases hflow with ⟨_, s, hs1, hi⟩ | ⟨src, tpn, h1, h2, ⟨_, s, hs1, hi⟩ | ⟨h3, s, hs1, hi⟩⟩
  · exact ⟨ENOENT, s, hs1, Or.inl ⟨by decide, hi⟩⟩
  · exact ⟨EEXIST, s, hs1, Or.inl ⟨by decide, hi⟩⟩
  · exact ⟨0, s, hs1, Or.inr ⟨rfl, hvs, hvt, hs, ht, hchk, src, tpn, h1, h2, h3, hi⟩⟩

/-! ## The claim on the locks of `tree_create`, `tree_list` and `tree_move` -/

theorem all_idle_insert_new (t : Tree) (p : Ptr) (c : CStr) (hi : t.all_idle) :
    (t.insert_at p c tree_new).all_idle := by
  intro q m hm
  rcases monAt_insert_at_some _ _ _ _ _ _ hm with h | ⟨r, h⟩
  · exact hi q m h
  · rw [monAt_tree_new r m h]
    rfl

theorem all_idle_move_at (t : Tree) (sp : Ptr) (cs : CStr) (tp : Ptr) (ct : CStr) (src : Tree)
    (hsrc : t.get? (sp ++ [cs]) = some src) (hi : t.all_idle) :
    (t.move_at sp cs tp ct src).all_idle := by
  intro q m hm
  rcases monAt_move_at_some t sp cs tp ct src hsrc q m hm with h | ⟨r, h⟩
  · rw [h]
    rfl
  · exact hi r m h

/-- C11: on a tree in which the monitor of every folder is idle, `tree_create`, `tree_list`
and `tree_move` return for every argument, and in the tree each of them leaves, whatever the
code or string returned, the monitor of every folder is idle. -/
theorem locks_released (t : Tree) (hi : t.all_idle) :
    (∀ path, ∃ code t1, tree_create t path = .ok (code, t1) ∧ t1.all_idle) ∧
    (∀ path, ∃ r t1, tree_list t path = .ok (r, t1) ∧ t1.all_idle) ∧
    (∀ source target, ∃ code t1, tree_move t source target = .ok (code, t1) ∧
      t1.all_idle) := by
  have hq := all_quiet_of_idle t hi
  refine ⟨fun path => ?_, fun path => ?_, fun source target => ?_⟩
  · obtain ⟨code, s, hs, h⟩ := tree_create_outcome t hq path
    refine ⟨code, s, hs, ?_⟩
    rcases h with ⟨_, hinv⟩ | ⟨_, _, _, n, _, _, hinv⟩
    · exact all_idle_of_inv _ t s hinv hi
    · exact all_idle_of_inv _ _ s hinv (all_idle_insert_new t _ _ hi)
  · obtain ⟨r, s, hs, hinv⟩ := tree_list_outcome t hq path
    exact ⟨r, s, hs, all_idle_of_inv _ t s hinv hi⟩
  · obtain ⟨code, s, hs, h⟩ := tree_move_outcome t source target (fun p _ => hq p)
    refine ⟨code, s, hs, ?_⟩
    rcases h with ⟨_, hinv⟩ | ⟨_, hvs, _, hr, _, _, src, tpn, hsrc, _, _, hinv⟩
    · exact all_idle_of_inv _ t s hinv hi
    · refine all_idle_of_inv _ _ s hinv (all_idle_move_at t _ _ _ _ src ?_ hi)
      rw [← (valid_path_parts source hvs hr).2.1]
      exact hsrc

theorem locks_released_witness :
    ex_tree.all_idle ∧
    (∃ code t1, tree_create ex_tree ex_new = .ok (code, t1) ∧ t1.all_idle) ∧
    (∃ code t1, tree_create ex_tree ex_ab = .ok (code, t1) ∧ t1.all_idle) ∧
    (∃ r t1, tree_list ex_tree ex_a = .ok (r, t1) ∧ t1.all_idle) ∧
    (∃ code t1, tree_move ex_tree ex_a ex_ca = .ok (code, t1) ∧ t1.all_idle) ∧
    (∃ code t1, tree_move ex_tree ex_new ex_c = .ok (code, t1) ∧ t1.all_idle) :=
  ⟨allMon_monAt Monitor.idle ex_tree (by decide),
    (locks_released ex_tree (allMon_monAt Monitor.idle ex_tree (by decide))).1 ex_new,
    (locks_released ex_tree (allMon_monAt Monitor.idle ex_tree (by decide))).1 ex_ab,
    (locks_released ex_tree (allMon_monAt Monitor.idle ex_tree (by decide))).2.1 ex_a,
    (locks_released ex_tree (allMon_monAt Monitor.idle ex_tree (by decide))).2.2 ex_a ex_ca,
    (locks_released ex_tree (allMon_monAt Monitor.idle ex_tree (by decide))).2.2 ex_new ex_c⟩

/-! ## The claims on `tree_create` followed by another call -/

theorem tree_create_ok_shape (t : Tree) (hq : t.all_quiet) (path : CStr) (t1 : Tree)
    (h1 : tree_create t path = .ok (0, t1)) :
    is_path_valid path = true ∧ path ≠ ['/'] ∧
      ∃ n, t.get? (parent_ptr path) = some n ∧
        hmap_get n.children (last_name path) = none ∧
        Inv (fun q => q <+: parent_ptr path) hold0
          (t.insert_at (parent_ptr path) (last_name path) tree_new) t1 := by
  obtain ⟨code, s, hs, h⟩ := tree_create_outcome t hq path
  rw [h1] at hs
  cases hs
  rcases h with ⟨hc, _⟩ | ⟨_, h⟩
  · exact absurd rfl hc
  · exact h

theorem all_quiet_insert_new (t : Tree) (p : Ptr) (c : CStr) (hq : t.all_quiet) :
    (t.insert_at p c tree_new).all_quiet := by
  intro q m hm
  rcases monAt_insert_at_some _ _ _ _ _ _ hm with h | ⟨r, h⟩
  · exact hq q m h
  · rw [monAt_tree_new r m h]
    rfl

theorem hold0_le (q : Ptr) : (hold0 q).1 ≤ 0 ∧ (hold0 q).2 = 0 := by simp [hold0]

theorem shift_idle_eq (m m1 : Monitor) (h : Monitor.shift (0, 0) m m1) (hi : m.idle = true) :
    m1 = m := by
  obtain ⟨a, b, c, d, e⟩ := h
  obtain ⟨x, y, z, u, v⟩ := idle_fields m hi
  have e1 := e z v
  cases m
  cases m1
  simp only [Monitor.mk.injEq] at *
  refine ⟨?_, ?_, ?_, ?_, ?_⟩ <;> omega

theorem inv_idle_monAt (P : Ptr → Prop) (t s : Tree) (hinv : Inv P hold0 t s)
    (hi : t.all_idle) (q : Ptr) : s.monAt q = t.monAt q := by
  cases hm : t.monAt q with
  | some m =>
    obtain ⟨m1, hm1, hs⟩ := hinv.mons q m hm
    rw [hm1, shift_idle_eq m m1 hs (hi q m hm)]
  | none =>
    have h1 := inv_isSome P hold0 t s hinv q
    simp only [Tree.monAt] at hm ⊢
    cases hg : t.get? q with
    | some n => rw [hg] at hm; cases hm
    | none =>
      rw [hg] at h1
      cases hs : s.get? q with
      | none => rfl
      | some n => rw [hs] at h1; cases h1

/-- C15: on a tree no thread is at work on, when `tree_create` of a path returns 0, the same
call on the tree it leaves returns `EEXIST`, and leaves every folder with the children it had;
if the monitors were idle before the first call, it leaves the monitors as they were too. -/
theorem tree_create_twice (t : Tree) (hq : t.all_quiet) (path : CStr) (t1 : Tree)
    (h1 : tree_create t path = .ok (0, t1)) :
    ∃ t2, tree_create t1 path = .ok (EEXIST, t2) ∧ (∀ q, t2.keysAt q = t1.keysAt q) ∧
      (t.all_idle → ∀ q, t2.monAt q = t1.monAt q) := by
  obtain ⟨hv, hr, n, hn, hc, hinv⟩ := tree_create_ok_shape t hq path t1 h1
  obtain ⟨p1, p2, p3⟩ := valid_path_parts path hv hr
  generalize parent_ptr path = cs at *
  generalize last_name path = c at *
  have hq1 : t1.all_quiet :=
    all_quiet_of_inv _ _ _ _ hinv hold0_le (all_quiet_insert_new t cs c hq)
  have hv1 := hv
  rw [p1] at hv1
  have hcomp := tree_create_comp t1 cs (fun p _ => hq1 p) c hv1 (noSlash_of_valid _ p3)
  rw [← p1] at hcomp
  have hk : t1.keysAt cs = some (hmap_keys n.children ++ [c]) := by
    rw [hinv.keys, keysAt_insert_at_parent t cs c tree_new n hn]
  cases hn1 : t1.get? cs with
  | none => simp [Tree.keysAt, hn1] at hk
  | some n1 =>
    have hk1 : hmap_keys n1.children = hmap_keys n.children ++ [c] := by
      simpa [Tree.keysAt, hn1] using hk
    have hc1 : hmap_get n1.children c ≠ none := by
      intro e
      have := (hmap_get_eq_none_iff _ _).1 e
      rw [hk1] at this
      simp at this
    obtain ⟨s, hs, hi2⟩ := hcomp.2.1 n1 hn1 hc1
    refine ⟨s, hs, hi2.keys, fun hidle q => ?_⟩
    exact inv_idle_monAt _ t1 s hi2
      (all_idle_of_inv _ _ _ hinv (all_idle_insert_new t cs c hidle)) q

theorem tree_create_twice_witness :
    ex_tree.all_quiet ∧ tree_create ex_tree ex_new = .ok (0, ex_tree.insert_at [['a']] ['x'] tree_new) ∧
    ∃ t2, tree_create (ex_tree.insert_at [['a']] ['x'] tree_new) ex_new = .ok (EEXIST, t2) ∧
      (∀ q, t2.keysAt q = (ex_tree.insert_at [['a']] ['x'] tree_new).keysAt q) ∧
      (ex_tree.all_idle → ∀ q, t2.monAt q = (ex_tree.insert_at [['a']] ['x'] tree_new).monAt q) :=
  ⟨allMon_monAt Monitor.quiet ex_tree (by decide), rfl,
    tree_create_twice ex_tree (allMon_monAt Monitor.quiet ex_tree (by decide)) ex_new _ rfl⟩

theorem tree_list_same (t s : Tree) (hqt : t.all_quiet) (hqs : s.all_quiet)
    (hk : ∀ q, s.keysAt q = t.keysAt q) (path : CStr) :
    (tree_list s path).map Prod.fst = (tree_list t path).map Prod.fst := by
  by_cases hv : is_path_valid path = true
  swap
  · rw [tree_list, tree_list, if_pos (by simpa using hv), if_pos (by simpa using hv)]
    rfl
  obtain ⟨cs, h1, _, h3⟩ := valid_path_comps path hv
  subst h1
  have ct := tree_list_comp t cs (fun p _ => hqt p) hv (noSlash_of_valid _ h3)
  have cs1 := tree_list_comp s cs (fun p _ => hqs p) hv (noSlash_of_valid _ h3)
  have hkc := hk cs
  simp only [Tree.keysAt] at hkc
  cases hts : t.get? cs with
  | none =>
    rw [hts] at hkc
    cases hss : s.get? cs with
    | some n => rw [hss] at hkc; cases hkc
    | none =>
      obtain ⟨a, ha, _⟩ := ct.1 hts
      obtain ⟨b, hb, _⟩ := cs1.1 hss
      rw [ha, hb]
      rfl
  | some n =>
    rw [hts] at hkc
    cases hss : s.get? cs with
    | none => rw [hss] at hkc; cases hkc
    | some n1 =>
      rw [hss] at hkc
      simp only [Option.map_some', Option.some.injEq] at hkc
      obtain ⟨a, ha, _⟩ := ct.2 n hts
      obtain ⟨b, hb, _⟩ := cs1.2 n1 hss
      rw [ha, hb, hkc]
      rfl

theorem filter_ne_append_new (ks : List CStr) (c : CStr) (h : c ∉ ks) :
    (ks ++ [c]).filter (fun k => decide (k ≠ c)) = ks := by
  rw [List.filter_append]
  have h1 : ks.filter (fun k => decide (k ≠ c)) = ks := by
    apply List.filter_eq_self.2
    intro k hk
    simp only [ne_eq, decide_eq_true_eq]
    intro e
    exact h (e ▸ hk)
  rw [h1]
  simp

/-- C14: on a tree no thread is at work on, when `tree_create` of a path returns 0,
`tree_remove` of the same path on the tree it leaves returns 0, and in the tree after it every
folder of the first tree is there with the children it had, in the order it had them, and no
other folder; `tree_list` returns for every path, that of the parent among them, what it
returned before the two calls. -/
theorem create_then_remove (t : Tree) (hq : t.all_quiet) (path : CStr) (t1 : Tree)
    (h1 : tree_create t path = .ok (0, t1)) :
    ∃ t2, tree_remove t1 path = .ok (0, t2) ∧ (∀ q, t2.keysAt q = t.keysAt q) ∧
      ∀ p, (tree_list t2 p).map Prod.fst = (tree_list t p).map Prod.fst := by
  obtain ⟨hv, hr, n, hn, hc, hinv⟩ := tree_create_ok_shape t hq path t1 h1
  obtain ⟨p1, p2, p3⟩ := valid_path_parts path hv hr
  generalize parent_ptr path = cs at *
  generalize last_name path = c at *
  have hq1 : t1.all_quiet :=
    all_quiet_of_inv _ _ _ _ hinv hold0_le (all_quiet_insert_new t cs c hq)
  have hv1 := hv
  rw [p1] at hv1
  have hcomp := tree_remove_comp t1 cs c (fun p _ => hq1 p) hv1 (noSlash_of_valid _ p3)
  rw [← p1] at hcomp
  have hnp : ¬ (fun q => q <+: cs) (cs ++ [c]) := by
    intro h
    have := h.length_le
    simp at this
  have hnew : t1.get? (cs ++ [c]) = some tree_new := by
    rw [hinv.frame _ hnp]
    have := get?_insert_at_new t cs c tree_new n hn hc []
    simpa [get?_nil] using this
  obtain ⟨s, hs, hi2⟩ := hcomp.2.2 tree_new hnew rfl
  have hk : t1.keysAt cs = some (hmap_keys n.children ++ [c]) := by
    rw [hinv.keys, keysAt_insert_at_parent t cs c tree_new n hn]
  have hgone : t.get? (cs ++ [c]) = none := by
    rw [get?_snoc t cs c n hn, hc]
  have hkeys : ∀ q, s.keysAt q = t.keysAt q := by
    intro q
    rw [hi2.keys]
    by_cases hq1 : cs ++ [c] <+: q
    · simp only [Tree.keysAt]
      rw [get?_remove_at_gone t1 cs c q hq1, get?_none_below t _ q hq1 hgone]
    by_cases hq2 : q = cs
    · subst hq2
      cases hn1 : t1.get? q with
      | none => simp [Tree.keysAt, hn1] at hk
      | some n1 =>
        have hk1 : hmap_keys n1.children = hmap_keys n.children ++ [c] := by
          simpa [Tree.keysAt, hn1] using hk
        rw [keysAt_remove_at_parent t1 q c n1 hn1, hk1,
          filter_ne_append_new _ c ((hmap_get_eq_none_iff _ _).1 hc)]
        simp [Tree.keysAt, hn]
    · rw [keysAt_remove_at_other t1 cs c q hq2 hq1, hinv.keys,
        keysAt_insert_at_other t cs c tree_new q hq2 hq1]
  refine ⟨s, hs, hkeys, fun p => ?_⟩
  have hqr : (t1.remove_at cs c).all_quiet :=
    fun q m hm => hq1 q m (monAt_remove_at_some _ _ _ _ _ hm)
  exact tree_list_same t s hq (all_quiet_of_inv _ _ _ _ hi2 hold0_le hqr) hkeys p

theorem create_then_remove_witness :
    ex_tree.all_quiet ∧
    tree_create ex_tree ex_new = .ok (0, ex_tree.insert_at [['a']] ['x'] tree_new) ∧
    ∃ t2, tree_remove (ex_tree.insert_at [['a']] ['x'] tree_new) ex_new = .ok (0, t2) ∧
      (∀ q, t2.keysAt q = ex_tree.keysAt q) ∧
      ∀ p, (tree_list t2 p).map Prod.fst = (tree_list ex_tree p).map Prod.fst :=
  ⟨allMon_monAt Monitor.quiet ex_tree (by decide), rfl,
    create_then_remove ex_tree (allMon_monAt Monitor.quiet ex_tree (by decide)) ex_new _ rfl⟩

/-! ## The claim on the names of children -/

theorem valid_keys_of_keys (t s : Tree) (hk : ∀ q, s.keysAt q = t.keysAt q)
    (h : t.valid_keys) : s.valid_keys :=
  fun q ks hq => h q ks ((hk q).symm.trans hq)

theorem keysAt_fresh_node (m : Monitor) (src : Tree) (r : Ptr) :
    (Tree.node m src.children).keysAt r = src.keysAt r := by
  cases r with
  | nil => simp [Tree.keysAt, get?_nil, children_node]
  | cons k r =>
    simp only [Tree.keysAt]
    rw [get?_of_children_eq src _ (children_node _ _) k r]

theorem valid_keys_insert_at (x : Tree) (p : Ptr) (c : CStr) (v n : Tree)
    (hx : x.get? p = some n) (hc : hmap_get n.children c = none) (hv : x.valid_keys)
    (hcv : valid_name c) (hvv : v.valid_keys) : (x.insert_at p c v).valid_keys := by
  intro q ks hq k hk
  by_cases h1 : p ++ [c] <+: q
  · obtain ⟨r, rfl⟩ := h1
    simp only [Tree.keysAt] at hq
    rw [List.append_assoc, List.singleton_append, get?_insert_at_new x p c v n hx hc r] at hq
    exact hvv r ks hq k hk
  by_cases h2 : q = p
  · subst h2
    rw [keysAt_insert_at_parent x q c v n hx] at hq
    cases hq
    rcases List.mem_append.1 hk with h | h
    · exact hv q _ (by simp [Tree.keysAt, hx]) k h
    · rw [List.mem_singleton.1 h]
      exact hcv
  · rw [keysAt_insert_at_other x p c v q h2 h1] at hq
    exact hv q ks hq k hk

theorem valid_keys_remove_at (x : Tree) (p : Ptr) (c : CStr) (n : Tree)
    (hx : x.get? p = some n) (hv : x.valid_keys) : (x.remove_at p c).valid_keys := by
  intro q ks hq k hk
  by_cases h1 : p ++ [c] <+: q
  · simp only [Tree.keysAt] at hq
    rw [get?_remove_at_gone x p c q h1] at hq
    cases hq
  by_cases h2 : q = p
  · subst h2
    rw [keysAt_remove_at_parent x q c n hx] at hq
    cases hq
    exact hv q _ (by simp [Tree.keysAt, hx]) k (List.mem_filter.1 hk).1
  · rw [keysAt_remove_at_other x p c q h2 h1] at hq
    exact hv q ks hq k hk

theorem valid_keys_tree_new : tree_new.valid_keys := by
  intro q ks hq k hk
  cases q with
  | nil =>
    simp only [Tree.keysAt, get?_nil, Option.map_some', Option.some.injEq] at hq
    subst hq
    simp [tree_new, children_node, hmap_keys] at hk
  | cons c r => simp [Tree.keysAt, get?_cons, tree_new, children_node, hmap_get] at hq

theorem get?_parent_isSome (t : Tree) (p : Ptr) (c : CStr) (v : Tree)
    (h : t.get? (p ++ [c]) = some v) : ∃ n, t.get? p = some n := by
  cases hp : t.get? p with
  | some n => exact ⟨n, rfl⟩
  | none =>
    rw [get?_none_below t p (p ++ [c]) (List.prefix_append _ _) hp] at h
    cases h

theorem valid_keys_move_at (t : Tree) (sp : Ptr) (cs : CStr) (tp : Ptr) (ct : CStr)
    (src tpn : Tree) (hsrc : t.get? (sp ++ [cs]) = some src) (htp : t.get? tp = some tpn)
    (hnew : hmap_get tpn.children ct = none) (hct : valid_name ct) (hv : t.valid_keys) :
    (t.move_at sp cs tp ct src).valid_keys := by
  obtain ⟨spn, hsp⟩ := get?_parent_isSome t sp cs src hsrc
  have hex := get?_insert_at_isSome t tp ct (Tree.node tree_new.mon src.children) sp
    (by rw [hsp]; rfl)
  obtain ⟨n1, hn1⟩ := Option.isSome_iff_exists.1 hex
  refine valid_keys_remove_at _ sp cs n1 hn1
    (valid_keys_insert_at t tp ct _ tpn htp hnew hv hct ?_)
  intro r ks hr
  rw [keysAt_fresh_node] at hr
  refine hv (sp ++ [cs] ++ r) ks ?_
  simp only [Tree.keysAt] at hr ⊢
  rw [get?_append, hsrc]
  exact hr

theorem all_quiet_move_at (t : Tree) (sp : Ptr) (cs : CStr) (tp : Ptr) (ct : CStr) (src : Tree)
    (hsrc : t.get? (sp ++ [cs]) = some src) (hq : t.all_quiet) :
    (t.move_at sp cs tp ct src).all_quiet := by
  intro q m hm
  rcases monAt_move_at_some t sp cs tp ct src hsrc q m hm with h | ⟨r, h⟩
  · rw [h]
    rfl
  · exact hq r m h

theorem call_outcome (t : Tree) (hq : t.all_quiet) (hv : t.valid_keys) (c : Call) :
    ∃ t1, t.call c = .ok t1 ∧ t1.all_quiet ∧ t1.valid_keys := by
  cases c with
  | create path =>
    obtain ⟨code, s, hs, h⟩ := tree_create_outcome t hq path
    refine ⟨s, by rw [Tree.call, hs]; rfl, ?_⟩
    rcases h with ⟨_, hinv⟩ | ⟨_, hpv, hr, n, hn, hc, hinv⟩
    · exact ⟨all_quiet_of_inv _ _ _ _ hinv hold0_le hq, valid_keys_of_keys _ _ hinv.keys hv⟩
    · refine ⟨all_quiet_of_inv _ _ _ _ hinv hold0_le (all_quiet_insert_new t _ _ hq),
        valid_keys_of_keys _ _ hinv.keys ?_⟩
      exact valid_keys_insert_at t _ _ _ n hn hc hv
        ((valid_path_parts path hpv hr).2.2 _ (by simp)) valid_keys_tree_new
  | remove path =>
    obtain ⟨code, s, hs, h⟩ := tree_remove_outcome t hq path
    refine ⟨s, by rw [Tree.call, hs]; rfl, ?_⟩
    rcases h with ⟨_, h, hh, hinv⟩ | ⟨_, hpv, hr, v, hn, _, hinv⟩
    · exact ⟨all_quiet_of_inv _ _ _ _ hinv hh hq, valid_keys_of_keys _ _ hinv.keys hv⟩
    · rw [(valid_path_parts path hpv hr).2.1] at hn
      obtain ⟨n, hn1⟩ := get?_parent_isSome t _ _ v hn
      refine ⟨all_quiet_of_inv _ _ _ _ hinv hold0_le
        (fun q m hm => hq q m (monAt_remove_at_some _ _ _ _ _ hm)),
        valid_keys_of_keys _ _ hinv.keys (valid_keys_remove_at t _ _ n hn1 hv)⟩
  | move source target =>
    obtain ⟨code, s, hs, h⟩ := tree_move_outcome t source target (fun p _ => hq p)
    refine ⟨s, by rw [Tree.call, hs]; rfl, ?_⟩
    rcases h with ⟨_, hinv⟩ | ⟨_, hvs, hvt, hrs, hrt, _, src, tpn, hsrc, htp, hnew, hinv⟩
    · exact ⟨all_quiet_of_inv _ _ _ _ hinv hold0_le hq, valid_keys_of_keys _ _ hinv.keys hv⟩
    · rw [(valid_path_parts source hvs hrs).2.1] at hsrc
      exact ⟨all_quiet_of_inv _ _ _ _ hinv hold0_le (all_quiet_move_at t _ _ _ _ src hsrc hq),
        valid_keys_of_keys _ _ hinv.keys (valid_keys_move_at t _ _ _ _ src tpn hsrc htp hnew
          ((valid_path_parts target hvt hrt).2.2 _ (by simp)) hv)⟩
  | list path =>
    obtain ⟨r, s, hs, hinv⟩ := tree_list_outcome t hq path
    exact ⟨s, by rw [Tree.call, hs]; rfl, all_quiet_of_inv _ _ _ _ hinv hold0_le hq,
      valid_keys_of_keys _ _ hinv.keys hv⟩

theorem run_calls_outcome : ∀ (calls : List Call) (t : Tree), t.all_quiet → t.valid_keys →
    ∃ t1, run_calls t calls = .ok t1 ∧ t1.all_quiet ∧ t1.valid_keys := by
  intro calls
  induction calls with
  | nil => exact fun t hq hv => ⟨t, rfl, hq, hv⟩
  | cons c cs ih =>
    intro t hq hv
    obtain ⟨t1, h1, hq1, hv1⟩ := call_outcome t hq hv c
    obtain ⟨t2, h2, hq2, hv2⟩ := ih t1 hq1 hv1
    exact ⟨t2, by rw [run_calls, h1]; exact h2, hq2, hv2⟩

/-- C16: every sequence of calls of `tree_create`, `tree_remove`, `tree_move` and `tree_list`
with arbitrary arguments, made one after the other on the tree of `tree_new`, runs to its end,
and in the tree it leaves every name of a child, in every folder, is a valid component name:
not empty, no longer than the bound, lowercase letters only. -/
theorem reachable_keys_valid (calls : List Call) :
    ∃ t, run_calls tree_new calls = .ok t ∧
      ∀ q ks, t.keysAt q = some ks → ∀ k ∈ ks, valid_name k := by
  obtain ⟨t, h, _, hv⟩ := run_calls_outcome calls tree_new
    (fun q m hm => by rw [monAt_tree_new q m hm]; rfl) valid_keys_tree_new
  exact ⟨t, h, hv⟩

theorem reachable_keys_valid_witness :
    ∃ t, run_calls tree_new ex_calls = .ok t ∧
      ∀ q ks, t.keysAt q = some ks → ∀ k ∈ ks, valid_name k :=
  reachable_keys_valid ex_calls

/-! ## What is seen of a tree after a folder is moved -/

theorem not_below_new (x : Tree) (tp : Ptr) (ct : CStr) (tpn : Tree)
    (htp : x.get? tp = some tpn) (hnew : hmap_get tpn.children ct = none) (q : Ptr)
    (hq : (x.get? q).isSome = true) : ¬ tp ++ [ct] <+: q := by
  intro h
  have hn : x.get? (tp ++ [ct]) = none := by rw [get?_snoc x tp ct tpn htp, hnew]
  rw [get?_none_below x _ q h hn] at hq
  cases hq

theorem keysAt_move_at_gone (x : Tree) (sp : Ptr) (cs : CStr) (tp : Ptr) (ct : CStr) (v : Tree)
    (q : Ptr) (h : sp ++ [cs] <+: q) : (x.move_at sp cs tp ct v).keysAt q = none := by
  simp only [Tree.keysAt, Tree.move_at]
  rw [get?_remove_at_gone _ sp cs q h]
  rfl

theorem keysAt_move_at_new (x : Tree) (sp : Ptr) (cs : CStr) (tp : Ptr) (ct : CStr)
    (v tpn : Tree) (htp : x.get? tp = some tpn) (hnew : hmap_get tpn.children ct = none)
    (hsp : (x.get? sp).isSome = true) (hF : ¬ sp ++ [cs] <+: tp ++ [ct]) (r : Ptr) :
    (x.move_at sp cs tp ct v).keysAt (tp ++ ct :: r) =
      (Tree.node tree_new.mon v.children).keysAt r := by
  have hts : ¬ tp ++ [ct] <+: sp := not_below_new x tp ct tpn htp hnew sp hsp
  have hpre : tp ++ [ct] <+: tp ++ ct :: r := ⟨r, by simp⟩
  have h1 : tp ++ ct :: r ≠ sp := fun e => hts (e ▸ hpre)
  have h2 : ¬ sp ++ [cs] <+: tp ++ ct :: r := by
    intro h
    rcases List.prefix_or_prefix_of_prefix h hpre with h3 | h3
    · exact hF h3
    · rcases List.prefix_concat_iff.1 h3 with h4 | h4
      · exact hF (h4 ▸ List.prefix_refl _)
      · exact hts h4
  rw [Tree.move_at, keysAt_remove_at_other _ sp cs _ h1 h2]
  simp only [Tree.keysAt]
  rw [get?_insert_at_new x tp ct _ tpn htp hnew r]

theorem keysAt_move_at_source_parent (x : Tree) (sp : Ptr) (cs : CStr) (tp : Ptr) (ct : CStr)
    (v spn tpn : Tree) (hsp : x.get? sp = some spn) (htp : x.get? tp = some tpn)
    (hnew : hmap_get tpn.children ct = none) :
    (x.move_at sp cs tp ct v).keysAt sp =
      some ((if sp = tp then hmap_keys spn.children ++ [ct]
        else hmap_keys spn.children).filter (fun k => decide (k ≠ cs))) := by
  have hts : ¬ tp ++ [ct] <+: sp :=
    not_below_new x tp ct tpn htp hnew sp (by rw [hsp]; rfl)
  have hex := get?_insert_at_isSome x tp ct (Tree.node tree_new.mon v.children) sp
    (by rw [hsp]; rfl)
  obtain ⟨n1, hn1⟩ := Option.isSome_iff_exists.1 hex
  have hk : (x.insert_at tp ct (Tree.node tree_new.mon v.children)).keysAt sp =
      some (hmap_keys n1.children) := by simp [Tree.keysAt, hn1]
  rw [Tree.move_at, keysAt_remove_at_parent _ sp cs n1 hn1]
  by_cases e : sp = tp
  · subst e
    rw [hsp] at htp
    cases htp
    rw [keysAt_insert_at_parent x sp ct _ spn hsp] at hk
    rw [if_pos rfl, Option.some.inj hk]
  · rw [keysAt_insert_at_other x tp ct _ sp e hts] at hk
    simp only [Tree.keysAt, hsp, Option.map_some', Option.some.injEq] at hk
    rw [if_neg e, hk]

theorem keysAt_move_at_target_parent (x : Tree) (sp : Ptr) (cs : CStr) (tp : Ptr) (ct : CStr)
    (v tpn : Tree) (htp : x.get? tp = some tpn) (hne : tp ≠ sp) (hF : ¬ sp ++ [cs] <+: tp) :
    (x.move_at sp cs tp ct v).keysAt tp = some (hmap_keys tpn.children ++ [ct]) := by
  rw [Tree.move_at, keysAt_remove_at_other _ sp cs tp hne hF,
    keysAt_insert_at_parent x tp ct _ tpn htp]

theorem keysAt_move_at_other (x : Tree) (sp : Ptr) (cs : CStr) (tp : Ptr) (ct : CStr)
    (v : Tree) (q : Ptr) (h1 : ¬ sp ++ [cs] <+: q) (h2 : ¬ tp ++ [ct] <+: q) (h3 : q ≠ sp)
    (h4 : q ≠ tp) : (x.move_at sp cs tp ct v).keysAt q = x.keysAt q := by
  rw [Tree.move_at, keysAt_remove_at_other _ sp cs q h3 h1,
    keysAt_insert_at_other x tp ct _ q h4 h2]

theorem filter_back (ks : List CStr) (cs ct : CStr) (hs : cs ∈ ks) (ht : ct ∉ ks) :
    ((ks ++ [ct]).filter (fun k => decide (k ≠ cs)) ++ [cs]).filter
        (fun k => decide (k ≠ ct)) =
      ks.filter (fun k => decide (k ≠ cs)) ++ [cs] := by
  have hne : cs ≠ ct := fun e => ht (e ▸ hs)
  have h1 : (ks.filter (fun k => decide (k ≠ cs))).filter (fun k => decide (k ≠ ct)) =
      ks.filter (fun k => decide (k ≠ cs)) := by
    apply List.filter_eq_self.2
    intro k hk
    simp only [ne_eq, decide_eq_true_eq]
    intro e
    exact ht (e ▸ (List.mem_filter.1 hk).1)
  simp only [List.filter_append, h1]
  simp [hne, Ne.symm hne]

/-! ## The claim on a move and the move back -/

theorem tree_move_ok_shape (t : Tree) (source target : CStr)
    (hq : t.quiet_on (fun q => q <+: parent_ptr source ∨ q <+: parent_ptr target)) (t1 : Tree)
    (h1 : tree_move t source target = .ok (0, t1)) :
    is_path_valid source = true ∧ is_path_valid target = true ∧
      source ≠ ['/'] ∧ target ≠ ['/'] ∧ moving_to_own_subtree source target = false ∧
      ∃ src tpn, t.get? (path_components source) = some src ∧
        t.get? (parent_ptr target) = some tpn ∧
        hmap_get tpn.children (last_name target) = none ∧
        Inv (fun q => q <+: parent_ptr source ∨ q <+: parent_ptr target) hold0
          (t.move_at (parent_ptr source) (last_name source) (parent_ptr target)
            (last_name target) src) t1 := by
  obtain ⟨code, s, hs, h⟩ := tree_move_outcome t source target hq
  rw [h1] at hs
  cases hs
  rcases h with ⟨hc, _⟩ | ⟨_, h⟩
  · exact absurd rfl hc
  · exact h

theorem mem_keys_of_get (n v : Tree) (c : CStr) (h : hmap_get n.children c = some v) :
    c ∈ hmap_keys n.children := by
  by_contra hm
  rw [(hmap_get_eq_none_iff _ _).2 hm] at h
  cases h

theorem keysAt_below (t : Tree) (p : Ptr) (n : Tree) (h : t.get? p = some n) (r : Ptr) :
    t.keysAt (p ++ r) = n.keysAt r := by
  simp only [Tree.keysAt]
  rw [get?_append, h]
  rfl

/-- What is seen of the tree after a folder was moved and moved back, on lists of
components. -/
theorem move_back_comp (t t1 t2 : Tree) (sp : Ptr) (cs : CStr) (tp : Ptr) (ct : CStr)
    (src tpn src1 spn1 : Tree) (P1 P2 : Ptr → Prop)
    (hF1 : ¬ sp ++ [cs] <+: tp) (hF2 : ¬ tp ++ [ct] <+: sp)
    (hsrc : t.get? (sp ++ [cs]) = some src) (htp : t.get? tp = some tpn)
    (hnew : hmap_get tpn.children ct = none)
    (hinv1 : Inv P1 hold0 (t.move_at sp cs tp ct src) t1)
    (hsrc1 : t1.get? (tp ++ [ct]) = some src1) (hsp1 : t1.get? sp = some spn1)
    (hnew1 : hmap_get spn1.children cs = none)
    (hinv2 : Inv P2 hold0 (t1.move_at tp ct sp cs src1) t2) :
    (∀ q, q ≠ sp → t2.keysAt q = t.keysAt q) ∧
    ∃ ks, t.keysAt sp = some ks ∧ cs ∈ ks ∧
      t2.keysAt sp = some (ks.filter (fun k => decide (k ≠ cs)) ++ [cs]) := by
  obtain ⟨spn, hsp⟩ := get?_parent_isSome t sp cs src hsrc
  obtain ⟨tpn1, htp1⟩ := get?_parent_isSome t1 tp ct src1 hsrc1
  have hcs : cs ∈ hmap_keys spn.children := by
    rw [get?_snoc t sp cs spn hsp] at hsrc
    exact mem_keys_of_get spn src cs hsrc
  have hct : ct ∉ hmap_keys tpn.children := (hmap_get_eq_none_iff _ _).1 hnew
  have hgone : t.get? (tp ++ [ct]) = none := by rw [get?_snoc t tp ct tpn htp, hnew]
  have hst : sp ++ [cs] ≠ tp ++ [ct] := by
    intro e
    rw [e, hgone] at hsrc
    cases hsrc
  have hF3 : ¬ sp ++ [cs] <+: tp ++ [ct] := by
    intro h
    rcases List.prefix_concat_iff.1 h with h | h
    · exact hst h
    · exact hF1 h
  have hF4 : ¬ tp ++ [ct] <+: sp ++ [cs] := by
    intro h
    rcases List.prefix_concat_iff.1 h with h | h
    · exact hst h.symm
    · exact hF2 h
  have k1sp : hmap_keys spn1.children =
      (if sp = tp then hmap_keys spn.children ++ [ct]
        else hmap_keys spn.children).filter (fun k => decide (k ≠ cs)) := by
    have := hinv1.keys sp
    rw [keysAt_move_at_source_parent t sp cs tp ct src spn tpn hsp htp hnew] at this
    simpa [Tree.keysAt, hsp1] using this
  constructor
  · intro q hqs
    rw [hinv2.keys]
    by_cases hA : tp ++ [ct] <+: q
    · rw [keysAt_move_at_gone t1 tp ct sp cs src1 q hA]
      simp only [Tree.keysAt]
      rw [get?_none_below t _ q hA hgone]
      rfl
    by_cases hD : sp ++ [cs] <+: q
    · obtain ⟨r, rfl⟩ := hD
      rw [List.append_assoc, List.singleton_append,
        keysAt_move_at_new t1 tp ct sp cs src1 spn1 hsp1 hnew1 (by rw [htp1]; rfl) hF4 r,
        keysAt_fresh_node, ← keysAt_below t1 (tp ++ [ct]) src1 hsrc1 r, hinv1.keys,
        List.append_assoc, List.singleton_append,
        keysAt_move_at_new t sp cs tp ct src tpn htp hnew (by rw [hsp]; rfl) hF3 r,
        keysAt_fresh_node, ← keysAt_below t (sp ++ [cs]) src hsrc r, List.append_assoc,
        List.singleton_append]
    by_cases ht : q = tp
    · subst ht
      have hne : sp ≠ q := fun e => hqs e.symm
      have k1tp : hmap_keys tpn1.children = hmap_keys tpn.children ++ [ct] := by
        have := hinv1.keys q
        rw [keysAt_move_at_target_parent t sp cs q ct src tpn htp hqs hF1] at this
        simpa [Tree.keysAt, htp1] using this
      rw [keysAt_move_at_source_parent t1 q ct sp cs src1 tpn1 spn1 htp1 hsp1 hnew1,
        if_neg hqs, k1tp, filter_ne_append_new _ ct hct]
      simp [Tree.keysAt, htp]
    · rw [keysAt_move_at_other t1 tp ct sp cs src1 q hA hD ht hqs, hinv1.keys,
        keysAt_move_at_other t sp cs tp ct src q hD hA hqs ht]
  · refine ⟨hmap_keys spn.children, by simp [Tree.keysAt, hsp], hcs, ?_⟩
    rw [hinv2.keys]
    by_cases e : sp = tp
    · subst e
      rw [hsp1] at htp1
      cases htp1
      rw [hsp] at htp
      cases htp
      rw [keysAt_move_at_source_parent t1 sp ct sp cs src1 spn1 spn1 hsp1 hsp1 hnew1,
        if_pos rfl, k1sp, if_pos rfl, filter_back _ cs ct hcs hct]
    · rw [keysAt_move_at_target_parent t1 tp ct sp cs src1 spn1 hsp1 e hF2, k1sp, if_neg e]

/-- C13: on a tree no thread is at work on, when `tree_move` from `source` to `target`
returns 0 and `tree_move` from `target` to `source` on the tree it leaves returns 0, the tree
after the second call has the folders of the tree before the first, each with the children it
had: every folder other than the parent of `source` has its names of children as they were,
and the parent of `source` has the names it had, the name of the moved folder now the last. -/
theorem move_there_and_back (t : Tree) (hq : t.all_quiet) (source target : CStr)
    (t1 t2 : Tree) (h1 : tree_move t source target = .ok (0, t1))
    (h2 : tree_move t1 target source = .ok (0, t2)) :
    (∀ q, q ≠ parent_ptr source → t2.keysAt q = t.keysAt q) ∧
    ∃ ks, t.keysAt (parent_ptr source) = some ks ∧ last_name source ∈ ks ∧
      t2.keysAt (parent_ptr source) =
        some (ks.filter (fun k => decide (k ≠ last_name source)) ++ [last_name source]) ∧
      ∀ k, k ∈ ks.filter (fun k => decide (k ≠ last_name source)) ++ [last_name source] ↔
        k ∈ ks := by
  obtain ⟨hvs, hvt, hrs, hrt, hchk1, src, tpn, hsrc, htp, hnew, hinv1⟩ :=
    tree_move_ok_shape t source target (fun p _ => hq p) t1 h1
  obtain ⟨s1, s2, s3⟩ := valid_path_parts source hvs hrs
  obtain ⟨g1, g2, g3⟩ := valid_path_parts target hvt hrt
  rw [s2] at hsrc
  have hq1 : t1.all_quiet :=
    all_quiet_of_inv _ _ _ _ hinv1 hold0_le (all_quiet_move_at t _ _ _ _ src hsrc hq)
  obtain ⟨_, _, _, _, hchk2, src1, spn1, hsrc1, hsp1, hnew1, hinv2⟩ :=
    tree_move_ok_shape t1 target source (fun p _ => hq1 p) t2 h2
  rw [g2] at hsrc1
  generalize parent_ptr source = sp at *
  generalize last_name source = cs at *
  generalize parent_ptr target = tp at *
  generalize last_name target = ct at *
  have hF1 : ¬ sp ++ [cs] <+: tp := by
    apply not_prefix_of_check (sp ++ [cs]) tp ct
    rw [← s1, ← g1]
    exact hchk1
  have hF2 : ¬ tp ++ [ct] <+: sp := by
    apply not_prefix_of_check (tp ++ [ct]) sp cs
    rw [← s1, ← g1]
    exact hchk2
  obtain ⟨hA, ks, hk1, hk2, hk3⟩ := move_back_comp t t1 t2 sp cs tp ct src tpn src1 spn1 _ _
    hF1 hF2 hsrc htp hnew hinv1 hsrc1 hsp1 hnew1 hinv2
  refine ⟨hA, ks, hk1, hk2, hk3, fun k => ?_⟩
  simp only [List.mem_append, List.mem_filter, List.mem_singleton, ne_eq, decide_eq_true_eq]
  constructor
  · rintro (h | h)
    · exact h.1
    · rw [h]
      exact hk2
  · intro h
    by_cases e : k = cs
    · exact Or.inr e
    · exact Or.inl ⟨h, e⟩

theorem move_there_and_back_witness :
    ex_tree.all_quiet ∧
    ∃ t1 t2, tree_move ex_tree ex_a ex_ca = .ok (0, t1) ∧
      tree_move t1 ex_ca ex_a = .ok (0, t2) ∧
      (∀ q, q ≠ parent_ptr ex_a → t2.keysAt q = ex_tree.keysAt q) ∧
      ∃ ks, ex_tree.keysAt (parent_ptr ex_a) = some ks ∧ last_name ex_a ∈ ks ∧
        t2.keysAt (parent_ptr ex_a) =
          some (ks.filter (fun k => decide (k ≠ last_name ex_a)) ++ [last_name ex_a]) ∧
        ∀ k, k ∈ ks.filter (fun k => decide (k ≠ last_name ex_a)) ++ [last_name ex_a] ↔
          k ∈ ks :=
  ⟨allMon_monAt Monitor.quiet ex_tree (by decide), _, _, rfl, rfl,
    move_there_and_back ex_tree (allMon_monAt Monitor.quiet ex_tree (by decide)) ex_a ex_ca
      _ _ rfl rfl⟩

/-! ## The claim on the monitor of a moved folder -/

/-- C12, at an input where the code departs from it: while another thread reads in `/a/`,
its monitor counting one reader, `tree_move` from `/a/` to `/c/a/` returns 0, and the folder
then found at `/c/a/` has a monitor with all counters zero, not the monitor `/a/` had. -/
theorem tree_move_resets_monitor :
    (∃ ta tb, ex_tree.reader_entry [] = .ok ta ∧ ta.reader_entry [['a']] = .ok tb ∧
      tb.reader_final [] = ex_read_a) ∧
    ex_read_a.monAt (path_components ex_a) = some ⟨1, 0, 0, 0, 0⟩ ∧
    ∃ t1, tree_move ex_read_a ex_a ex_ca = .ok (0, t1) ∧
      t1.monAt (path_components ex_ca) = some ⟨0, 0, 0, 0, 0⟩ ∧
      t1.monAt (path_components ex_ca) ≠ ex_read_a.monAt (path_components ex_a) :=
  ⟨⟨_, _, rfl, rfl, rfl⟩, rfl, _, rfl, rfl, by decide⟩

theorem ex_read_a_quiet_on :
    ex_read_a.quiet_on (fun q => q <+: parent_ptr ex_a ∨ q <+: parent_ptr ex_ca) := by
  have e1 : parent_ptr ex_a = [] := rfl
  have e2 : parent_ptr ex_ca = [] ++ [['c']] := rfl
  intro p hp m hm
  rw [e1, e2] at hp
  have hcases : p = [] ∨ p = [['c']] := by
    rcases hp with h | h
    · exact Or.inl (List.prefix_nil.1 h)
    · rcases List.prefix_concat_iff.1 h with h | h
      · exact Or.inr h
      · exact Or.inl (List.prefix_nil.1 h)
  rcases hcases with rfl | rfl
  · cases hm
    rfl
  · cases hm
    rfl

/-- C12, as amended: on a tree in which no thread holds or awaits the folders on the way to
the parents of `source` and `target`, whatever the monitors of all other folders, that of
`source` among them, when `tree_move` returns 0 the folder found at `target` is a new one:
its monitor is that of `tree_new`, all counters zero, and its child map is the child map the
folder at `source` had, every folder below with the monitor it had. -/
theorem tree_move_fresh_folder (t : Tree) (source target : CStr)
    (hq : t.quiet_on (fun q => q <+: parent_ptr source ∨ q <+: parent_ptr target))
    (t1 : Tree) (h1 : tree_move t source target = .ok (0, t1)) :
    ∃ src, t.get? (path_components source) = some src ∧
      t1.get? (path_components target) = some (Tree.node tree_new.mon src.children) ∧
      t1.monAt (path_components target) = some ⟨0, 0, 0, 0, 0⟩ := by
  obtain ⟨hvs, hvt, hrs, hrt, hchk, src, tpn, hsrc, htp, hnew, _⟩ :=
    tree_move_ok_shape t source target hq t1 h1
  obtain ⟨s1, s2, s3⟩ := valid_path_parts source hvs hrs
  obtain ⟨g1, g2, g3⟩ := valid_path_parts target hvt hrt
  rw [s2] at hsrc
  rw [s2, g2]
  generalize parent_ptr source = sp at *
  generalize last_name source = cs at *
  generalize parent_ptr target = tp at *
  generalize last_name target = ct at *
  subst s1
  subst g1
  have hgone : t.get? (tp ++ [ct]) = none := by rw [get?_snoc t tp ct tpn htp, hnew]
  have hnp : ¬ sp ++ [cs] <+: tp ++ [ct] := by
    intro h
    rcases List.prefix_concat_iff.1 h with h | h
    · rw [h, hgone] at hsrc
      cases hsrc
    · exact not_prefix_of_check (sp ++ [cs]) tp ct hchk h
  obtain ⟨r, hr1, hr2, _, _⟩ := tree_move_ok_comp t sp cs tp ct hq src hvs hvt
    (noSlash_of_valid _ s3) (noSlash_of_valid _ g3) hnp hchk hsrc (by rw [htp]; rfl) hgone
  rw [h1] at hr1
  cases hr1
  refine ⟨src, hsrc, hr2, ?_⟩
  simp only [Tree.monAt, hr2]
  rfl

theorem tree_move_fresh_folder_witness :
    ex_read_a.quiet_on (fun q => q <+: parent_ptr ex_a ∨ q <+: parent_ptr ex_ca) ∧
    ∃ t1, tree_move ex_read_a ex_a ex_ca = .ok (0, t1) ∧
      ∃ src, ex_read_a.get? (path_components ex_a) = some src ∧
        t1.get? (path_components ex_ca) = some (Tree.node tree_new.mon src.children) ∧
        t1.monAt (path_components ex_ca) = some ⟨0, 0, 0, 0, 0⟩ :=
  ⟨ex_read_a_quiet_on, _, rfl,
    tree_move_fresh_folder ex_read_a ex_a ex_ca ex_read_a_quiet_on _ rfl⟩

/-! ## The claim on the folder `tree_move` locks first -/

theorem common_prefix_le (L a b M : Ptr) (hab : b = [] ∨ a.head? ≠ b.head?)
    (h1 : M <+: L ++ a) (h2 : M <+: L ++ b) : M <+: L ∨ a = [] := by
  rcases List.prefix_or_prefix_of_prefix h1 (List.prefix_append L a) with h | h
  · exact Or.inl h
  · obtain ⟨x, rfl⟩ := h
    rw [List.prefix_append_right_inj] at h1 h2
    cases x with
    | nil => exact Or.inl (by simp)
    | cons c x =>
      obtain ⟨a1, rfl⟩ := h1
      obtain ⟨b1, rfl⟩ := h2
      rcases hab with h | h
      · cases h
      · exact absurd rfl h

/-- C19: for valid paths `source` and `target` other than `/`, `source` no prefix of
`target`, the string `shared_path` returns at line 385 is the path of a folder `L` on the way
to the parent of `source` and on the way to the parent of `target`, and every folder on both
ways is on the way to `L`; it is `/` when the two parents have no component in common; and on
a tree in which no thread holds or awaits the folders on the way to `L`, when `L` exists, the
walk of lines 389-423 ends in `L`, entered as writer. -/
theorem shared_path_is_lca (source target : CStr) (hvs : is_path_valid source = true)
    (hvt : is_path_valid target = true) (hs : source ≠ ['/']) (ht : target ≠ ['/'])
    (hnp : ¬ source <+: target) :
    ∃ pp ct L, make_path_to_parent target = some (pp, ct) ∧
      shared_path source pp = .ok (path_of L) ∧
      L <+: parent_ptr source ∧ L <+: parent_ptr target ∧
      (∀ M, M <+: parent_ptr source → M <+: parent_ptr target → M <+: L) ∧
      ((∀ c, ¬ ([c] <+: parent_ptr source ∧ [c] <+: parent_ptr target)) →
        path_of L = ['/']) ∧
      ∀ t : Tree, t.quiet_on (fun q => q <+: L) → (t.get? L).isSome = true →
        ∃ s1 m, move_to_lca t source pp (path_of L) = .ok (some L, s1) ∧
          s1.monAt L = some m ∧ m.writer_type_count = 1 ∧ m.reader_type_count ≤ 0 := by
  obtain ⟨s1, s2, s3⟩ := valid_path_parts source hvs hs
  obtain ⟨g1, g2, g3⟩ := valid_path_parts target hvt ht
  have hchk := check_passes source target hnp
  generalize parent_ptr source = sp at *
  generalize last_name source = cs at *
  generalize parent_ptr target = tp at *
  generalize last_name target = ct at *
  subst s1
  subst g1
  have hns := noSlash_of_valid _ s3
  have hnt := noSlash_of_valid _ g3
  have hF := not_prefix_of_check (sp ++ [cs]) tp ct hchk
  obtain ⟨L, a, b, hsp, htp, hL, hab, _, _⟩ := move_split sp tp cs hF
  have hnsp : ∀ x ∈ sp, NoSlash x := fun x hx => hns x (by simp [hx])
  have hntp : ∀ x ∈ tp, NoSlash x := fun x hx => hnt x (by simp [hx])
  have hdeep : ∀ M, M <+: sp → M <+: tp → M <+: L := by
    intro M h1 h2
    rw [hsp] at h1
    rw [htp] at h2
    have h3 : M <+: L ++ (a ++ [cs]) := h1.trans ⟨[cs], by simp⟩
    rcases common_prefix_le L (a ++ [cs]) b M hab h3 h2 with h | h
    · exact h
    · simp at h
  refine ⟨path_of tp, ct, L, make_path_to_parent_snoc tp ct (hnt ct (by simp)), ?_,
    ⟨a, hsp.symm⟩, ⟨b, htp.symm⟩, hdeep, fun hno => ?_, fun t hq hex => ?_⟩
  · rw [shared_path_spec (sp ++ [cs]) tp hns hntp, hL]
  · cases L with
    | nil => rfl
    | cons c r =>
      exfalso
      apply hno c
      constructor
      · rw [hsp]
        exact ⟨r ++ a, by simp⟩
      · rw [htp]
        exact ⟨r ++ b, by simp⟩
  · have hsrc : sp ++ [cs] = L ++ (a ++ [cs]) := by rw [hsp]; simp
    rw [hsrc, htp]
    rw [hsp] at hnsp
    rw [htp] at hntp
    rcases move_to_lca_spec (fun q => q <+: L) t hq L (a ++ [cs]) b (by simp) hab
        (fun x hx => hnsp x (by simp [hx]))
        (fun x hx => by
          rcases List.mem_append.1 hx with h | h
          · exact hnsp x (by simp [h])
          · exact hns x (by simp [List.mem_singleton.1 h]))
        (fun x hx => hntp x (by simp [hx])) (fun q h => h) with
      ⟨s1, h1, _, hinv⟩ | ⟨s1, _, h2, _⟩
    · obtain ⟨n, hn⟩ := Option.isSome_iff_exists.1 hex
      have hm : t.monAt L = some n.mon := by simp [Tree.monAt, hn]
      obtain ⟨m1, hm1, hsh⟩ := hinv.mons L _ hm
      obtain ⟨x, y, z⟩ := quiet_fields _ (hq L (List.prefix_refl L) _ hm)
      refine ⟨s1, m1, h1, hm1, ?_, ?_⟩
      · rw [hsh.2.1, x]
        simp [holds]
      · rw [hsh.1]
        simp [holds]
        exact z
    · rw [h2] at hex
      cases hex

theorem shared_path_is_lca_witness :
    ¬ ex_ab <+: ex_new ∧
    ∃ pp ct L, make_path_to_parent ex_new = some (pp, ct) ∧
      shared_path ex_ab pp = .ok (path_of L) ∧
      L <+: parent_ptr ex_ab ∧ L <+: parent_ptr ex_new ∧
      (∀ M, M <+: parent_ptr ex_ab → M <+: parent_ptr ex_new → M <+: L) ∧
      ((∀ c, ¬ ([c] <+: parent_ptr ex_ab ∧ [c] <+: parent_ptr ex_new)) →
        path_of L = ['/']) ∧
      ∀ t : Tree, t.quiet_on (fun q => q <+: L) → (t.get? L).isSome = true →
        ∃ s1 m, move_to_lca t ex_ab pp (path_of L) = .ok (some L, s1) ∧
          s1.monAt L = some m ∧ m.writer_type_count = 1 ∧ m.reader_type_count ≤ 0 :=
  ⟨by decide, shared_path_is_lca ex_ab ex_new (by decide) (by decide) (by decide) (by decide)
    (by decide)⟩

/-! ## The claim on the folder `tree_remove` destroys -/

/-- C18, at an input where the code departs from it: while another thread reads in the empty
folder `/c/`, its monitor counting one reader, `tree_remove` of `/c/` returns 0 and the folder
is gone from the tree: lines 312-313 have taken it out of the map of its parent and freed
it. -/
theorem tree_remove_frees_held_folder :
    (∃ ta tb, ex_tree.reader_entry [] = .ok ta ∧ ta.reader_entry [['c']] = .ok tb ∧
      tb.reader_final [] = ex_read_c) ∧
    ex_read_c.monAt (path_components ex_c) = some ⟨1, 0, 0, 0, 0⟩ ∧
    ∃ t1, tree_remove ex_read_c ex_c = .ok (0, t1) ∧ t1.get? (path_components ex_c) = none :=
  ⟨⟨_, _, rfl, rfl, rfl⟩, rfl, _, rfl, rfl⟩

/-! ## The claim on walking hand over hand -/

theorem list_loop_steps_snd : ∀ (fuel : Nat) (t : Tree) (pre : Ptr) (sub : CStr),
    (list_loop_steps fuel t pre sub).2 = list_loop fuel t pre sub := by
  intro fuel
  induction fuel with
  | zero => intro t pre sub; rfl
  | succ f ih =>
    intro t pre sub
    rw [list_loop_steps, list_loop]
    cases hsp : split_path sub with
    | none => rfl
    | some cs =>
      obtain ⟨component, subpath⟩ := cs
      simp only []
      cases hg : t.get? (pre ++ [component]) with
      | none => rfl
      | some n =>
        simp only []
        cases he : t.reader_entry (pre ++ [component]) with
        | error e => rfl
        | ok s => exact ih _ _ _

theorem walk_loop_steps_snd : ∀ (fuel : Nat) (t : Tree) (pre : Ptr) (sub : CStr),
    (walk_loop_steps fuel t pre sub).2 = walk_loop fuel t pre sub := by
  intro fuel
  induction fuel with
  | zero => intro t pre sub; rfl
  | succ f ih =>
    intro t pre sub
    rw [walk_loop_steps, walk_loop]
    cases hsp : split_path sub with
    | none => rfl
    | some cs =>
      obtain ⟨component, subpath⟩ := cs
      simp only []
      cases hg : t.get? (pre ++ [component]) with
      | none => rfl
      | some n =>
        simp only []
        cases he : (if subpath ≠ ['/'] then t.reader_entry (pre ++ [component])
            else t.writer_entry (pre ++ [component])) with
        | error e => rfl
        | ok s => exact ih _ _ _

theorem walk_to_parent_steps_snd (t : Tree) (sub : CStr) :
    (walk_to_parent_steps t sub).2 = walk_to_parent t sub := by
  rw [walk_to_parent_steps, walk_to_parent]
  cases he : (if sub ≠ ['/'] then t.reader_entry [] else t.writer_entry []) with
  | error e => rfl
  | ok s => exact walk_loop_steps_snd _ _ _ _

theorem tree_list_steps_snd (t : Tree) (path : CStr) :
    (tree_list_steps t path).2 = tree_list t path := by
  rw [tree_list_steps, tree_list]
  by_cases h1 : (!is_path_valid path) = true
  · rw [if_pos h1, if_pos h1]
  rw [if_neg h1, if_neg h1]
  cases he : t.reader_entry [] with
  | error e => rfl
  | ok s =>
    simp only []
    rw [← list_loop_steps_snd]
    cases hw : list_loop_steps (path.length + 1) s [] path with
    | mk steps res =>
      cases res with
      | error e => rfl
      | ok v =>
        obtain ⟨o, s1⟩ := v
        cases o with
        | none => rfl
        | some curr =>
          simp only []
          cases hg : s1.get? curr with
          | none => rfl
          | some n => rfl

theorem tree_create_steps_snd (t : Tree) (path : CStr) :
    (tree_create_steps t path).2 = tree_create t path := by
  rw [tree_create_steps, tree_create]
  by_cases h1 : path = [] ∨ (!is_path_valid path) = true
  · rw [if_pos h1, if_pos h1]
  rw [if_neg h1, if_neg h1]
  by_cases h2 : path = ['/']
  · rw [if_pos h2, if_pos h2]
  rw [if_neg h2, if_neg h2]
  cases hm : make_path_to_parent path with
  | none => rfl
  | some ps =>
    obtain ⟨subpath, n_path⟩ := ps
    simp only []
    rw [← walk_to_parent_steps_snd]
    cases hw : walk_to_parent_steps t subpath with
    | mk steps res =>
      cases res with
      | error e => rfl
      | ok v =>
        obtain ⟨o, s1⟩ := v
        cases o with
        | none => rfl
        | some curr =>
          simp only []
          cases hg : s1.get? curr with
          | none => rfl
          | some n =>
            simp only []
            cases hi : hmap_insert n.children n_path tree_new with
            | mk ok ch =>
              cases ok with
              | false => rfl
              | true => rfl

theorem tree_remove_steps_snd (t : Tree) (path : CStr) :
    (tree_remove_steps t path).2 = tree_remove t path := by
  rw [tree_remove_steps, tree_remove]
  by_cases h1 : (!is_path_valid path) = true
  · rw [if_pos h1, if_pos h1]
  rw [if_neg h1, if_neg h1]
  by_cases h2 : path = ['/']
  · rw [if_pos h2, if_pos h2]
  rw [if_neg h2, if_neg h2]
  cases hm : make_path_to_parent path with
  | none => rfl
  | some ps =>
    obtain ⟨subpath, name⟩ := ps
    simp only []
    rw [← walk_to_parent_steps_snd]
    cases hw : walk_to_parent_steps t subpath with
    | mk steps res =>
      cases res with
      | error e => rfl
      | ok v =>
        obtain ⟨o, s1⟩ := v
        cases o with
        | none => rfl
        | some curr =>
          simp only []
          cases hg : s1.get? (curr ++ [name]) with
          | none => rfl
          | some n =>
            simp only []
            by_cases hsz : hmap_size n.children ≠ 0
            · rw [if_pos hsz, if_pos hsz]
            · rw [if_neg hsz, if_neg hsz]

theorem hoh_nil : hand_over_hand [] := ⟨by simp, fun a b h => by cases h⟩

theorem hoh_one (p : Ptr) : hand_over_hand [p] := ⟨by simp, fun a b h => by cases h⟩

theorem hoh_pair (p : Ptr) (c : CStr) : hand_over_hand [p ++ [c], p] :=
  ⟨by simp, fun a b h => by cases h; exact ⟨c, rfl⟩⟩

theorem erase_parent (p : Ptr) (c : CStr) : [p ++ [c], p].erase p = [p ++ [c]] := by
  have h : p ++ [c] ≠ p := fun e => ne_append_singleton p c e.symm
  simp [List.erase_cons, h]

theorem erase_child (p : Ptr) (c : CStr) : [p].erase (p ++ [c]) = [p] := by
  have h : p ≠ p ++ [c] := ne_append_singleton p c
  simp [List.erase_cons, h]

theorem erase_self (p : Ptr) : [p].erase p = [] := by simp

theorem held_after_append (h : List Ptr) (a b : List Ev) :
    held_after h (a ++ b) = held_after (held_after h a) b := by
  induction a generalizing h with
  | nil => rfl
  | cons e a ih =>
    rw [List.cons_append, held_after, held_after]
    exact ih _

theorem mem_held_states_append (h : List Ptr) (a b : List Ev) (x : List Ptr) :
    x ∈ held_states h (a ++ b) ↔ x ∈ held_states h a ∨ x ∈ held_states (held_after h a) b := by
  induction a generalizing h with
  | nil =>
    simp only [List.nil_append, held_states, held_after, List.mem_singleton]
    constructor
    · exact fun hx => Or.inr hx
    · rintro (hx | hx)
      · rw [hx]
        cases b <;> simp [held_states]
      · exact hx
  | cons e a ih =>
    rw [List.cons_append, held_states, held_states, held_after]
    simp only [List.mem_cons, ih, or_assoc]

theorem walk_loop_steps_held : ∀ (fuel : Nat) (t : Tree) (pre : Ptr) (sub : CStr),
    (∀ h ∈ held_states [pre] (walk_loop_steps fuel t pre sub).1, hand_over_hand h) ∧
    (∀ q s, (walk_loop_steps fuel t pre sub).2 = .ok (some q, s) →
      held_after [pre] (walk_loop_steps fuel t pre sub).1 = [q]) ∧
    (∀ s, (walk_loop_steps fuel t pre sub).2 = .ok (none, s) →
      held_after [pre] (walk_loop_steps fuel t pre sub).1 = []) := by
  intro fuel
  induction fuel with
  | zero =>
    intro t pre sub
    refine ⟨fun h hh => ?_, fun q s hs => ?_, fun s hs => ?_⟩
    · simp only [walk_loop_steps, held_states, List.mem_singleton] at hh
      rw [hh]
      exact hoh_one pre
    · simp [walk_loop_steps] at hs
    · simp [walk_loop_steps] at hs
  | succ f ih =>
    intro t pre sub
    rw [walk_loop_steps]
    cases hsp : split_path sub with
    | none =>
      refine ⟨fun h hh => ?_, fun q s hs => ?_, fun s hs => ?_⟩
      · simp only [held_states, List.mem_singleton] at hh
        rw [hh]
        exact hoh_one pre
      · simp only [Except.ok.injEq, Prod.mk.injEq, Option.some.injEq] at hs
        rw [← hs.1]
        rfl
      · simp at hs
    | some cs =>
      obtain ⟨component, subpath⟩ := cs
      simp only []
      cases hg : t.get? (pre ++ [component]) with
      | none =>
        refine ⟨fun h hh => ?_, fun q s hs => ?_, fun s hs => ?_⟩
        · simp only [held_states, Ev.apply, erase_self, List.mem_cons, List.mem_singleton,
            List.not_mem_nil, or_false] at hh
          rcases hh with hh | hh
          · rw [hh]; exact hoh_one pre
          · rw [hh]; exact hoh_nil
        · simp at hs
        · simp only [held_after, Ev.apply, erase_self]
      | some n =>
        simp only []
        cases he : (if subpath ≠ ['/'] then t.reader_entry (pre ++ [component])
            else t.writer_entry (pre ++ [component])) with
        | error e =>
          refine ⟨fun h hh => ?_, fun q s hs => ?_, fun s hs => ?_⟩
          · simp only [held_states, List.mem_singleton] at hh
            rw [hh]
            exact hoh_one pre
          · simp at hs
          · simp at hs
        | ok s1 =>
          obtain ⟨i1, i2, i3⟩ := ih (s1.reader_final pre) (pre ++ [component]) subpath
          refine ⟨fun h hh => ?_, fun q s hs => ?_, fun s hs => ?_⟩
          · simp only [held_states, Ev.apply, erase_parent, List.mem_cons] at hh
            rcases hh with hh | hh | hh
            · rw [hh]; exact hoh_one pre
            · rw [hh]; exact hoh_pair pre component
            · exact i1 h hh
          · simp only [held_after, Ev.apply, erase_parent]
            exact i2 q s hs
          · simp only [held_after, Ev.apply, erase_parent]
            exact i3 s hs

theorem list_loop_steps_held : ∀ (fuel : Nat) (t : Tree) (pre : Ptr) (sub : CStr),
    (∀ h ∈ held_states [pre] (list_loop_steps fuel t pre sub).1, hand_over_hand h) ∧
    (∀ q s, (list_loop_steps fuel t pre sub).2 = .ok (some q, s) →
      held_after [pre] (list_loop_steps fuel t pre sub).1 = [q]) ∧
    (∀ s, (list_loop_steps fuel t pre sub).2 = .ok (none, s) →
      held_after [pre] (list_loop_steps fuel t pre sub).1 = []) := by
  intro fuel
  induction fuel with
  | zero =>
    intro t pre sub
    refine ⟨fun h hh => ?_, fun q s hs => ?_, fun s hs => ?_⟩
    · simp only [list_loop_steps, held_states, List.mem_singleton] at hh
      rw [hh]
      exact hoh_one pre
    · simp [list_loop_steps] at hs
    · simp [list_loop_steps] at hs
  | succ f ih =>
    intro t pre sub
    rw [list_loop_steps]
    cases hsp : split_path sub with
    | none =>
      refine ⟨fun h hh => ?_, fun q s hs => ?_, fun s hs => ?_⟩
      · simp only [held_states, List.mem_singleton] at hh
        rw [hh]
        exact hoh_one pre
      · simp only [Except.ok.injEq, Prod.mk.injEq, Option.some.injEq] at hs
        rw [← hs.1]
        rfl
      · simp at hs
    | some cs =>
      obtain ⟨component, subpath⟩ := cs
      simp only []
      cases hg : t.get? (pre ++ [component]) with
      | none =>
        refine ⟨fun h hh => ?_, fun q s hs => ?_, fun s hs => ?_⟩
        · simp only [held_states, Ev.apply, erase_self, List.mem_cons, List.mem_singleton,
            List.not_mem_nil, or_false] at hh
          rcases hh with hh | hh
          · rw [hh]; exact hoh_one pre
          · rw [hh]; exact hoh_nil
        · simp at hs
        · simp only [held_after, Ev.apply, erase_self]
      | some n =>
        simp only []
        cases he : t.reader_entry (pre ++ [component]) with
        | error e =>
          refine ⟨fun h hh => ?_, fun q s hs => ?_, fun s hs => ?_⟩
          · simp only [held_states, List.mem_singleton] at hh
            rw [hh]
            exact hoh_one pre
          · simp at hs
          · simp at hs
        | ok s1 =>
          obtain ⟨i1, i2, i3⟩ := ih (s1.reader_final pre) (pre ++ [component]) subpath
          refine ⟨fun h hh => ?_, fun q s hs => ?_, fun s hs => ?_⟩
          · simp only [held_states, Ev.apply, erase_parent, List.mem_cons] at hh
            rcases hh with hh | hh | hh
            · rw [hh]; exact hoh_one pre
            · rw [hh]; exact hoh_pair pre component
            · exact i1 h hh
          · simp only [held_after, Ev.apply, erase_parent]
            exact i2 q s hs
          · simp only [held_after, Ev.apply, erase_parent]
            exact i3 s hs

theorem walk_to_parent_steps_held (t : Tree) (sub : CStr) :
    (∀ h ∈ held_states [] (walk_to_parent_steps t sub).1, hand_over_hand h) ∧
    (∀ q s, (walk_to_parent_steps t sub).2 = .ok (some q, s) →
      held_after [] (walk_to_parent_steps t sub).1 = [q]) ∧
    (∀ s, (walk_to_parent_steps t sub).2 = .ok (none, s) →
      held_after [] (walk_to_parent_steps t sub).1 = []) := by
  rw [walk_to_parent_steps]
  cases he : (if sub ≠ ['/'] then t.reader_entry [] else t.writer_entry []) with
  | error e =>
    refine ⟨fun h hh => ?_, fun q s hs => ?_, fun s hs => ?_⟩
    · simp only [held_states, List.mem_singleton] at hh
      rw [hh]
      exact hoh_nil
    · simp at hs
    · simp at hs
  | ok s1 =>
    obtain ⟨i1, i2, i3⟩ := walk_loop_steps_held (sub.length + 1) s1 [] sub
    refine ⟨fun h hh => ?_, fun q s hs => ?_, fun s hs => ?_⟩
    · simp only [held_states, Ev.apply, List.mem_cons] at hh
      rcases hh with hh | hh
      · rw [hh]; exact hoh_nil
      · exact i1 h hh
    · simp only [held_after, Ev.apply]
      exact i2 q s hs
    · simp only [held_after, Ev.apply]
      exact i3 s hs

theorem tree_list_steps_held (t : Tree) (path : CStr) :
    ∀ h ∈ held_states [] (tree_list_steps t path).1, hand_over_hand h := by
  rw [tree_list_steps]
  by_cases h1 : (!is_path_valid path) = true
  · rw [if_pos h1]
    intro h hh
    simp only [held_states, List.mem_singleton] at hh
    rw [hh]
    exact hoh_nil
  rw [if_neg h1]
  cases he : t.reader_entry [] with
  | error e =>
    intro h hh
    simp only [held_states, List.mem_singleton] at hh
    rw [hh]
    exact hoh_nil
  | ok s =>
    simp only []
    obtain ⟨i1, i2, i3⟩ := list_loop_steps_held (path.length + 1) s [] path
    cases hw : list_loop_steps (path.length + 1) s [] path with
    | mk steps res =>
      rw [hw] at i1 i2 i3
      simp only [] at i1 i2 i3
      have base : ∀ h ∈ held_states [] (Ev.acquire [] :: steps), hand_over_hand h := by
        intro h hh
        simp only [held_states, Ev.apply, List.mem_cons] at hh
        rcases hh with hh | hh
        · rw [hh]; exact hoh_nil
        · exact i1 h hh
      cases res with
      | error e => exact base
      | ok v =>
        obtain ⟨o, s1⟩ := v
        cases o with
        | none => exact base
        | some curr =>
          simp only []
          cases hg : s1.get? curr with
          | none => exact base
          | some n =>
            intro h hh
            simp only [] at hh
            rw [← List.cons_append, mem_held_states_append] at hh
            rcases hh with hh | hh
            · exact base h hh
            · simp only [held_after, Ev.apply] at hh
              rw [i2 curr s1 rfl] at hh
              simp only [held_states, Ev.apply, erase_self, List.mem_cons, List.mem_singleton,
                List.not_mem_nil, or_false] at hh
              rcases hh with hh | hh
              · rw [hh]; exact hoh_one curr
              · rw [hh]; exact hoh_nil

theorem tree_create_steps_held (t : Tree) (path : CStr) :
    ∀ h ∈ held_states [] (tree_create_steps t path).1, hand_over_hand h := by
  have none_ok : ∀ h ∈ held_states [] ([] : List Ev), hand_over_hand h := by
    intro h hh
    simp only [held_states, List.mem_singleton] at hh
    rw [hh]
    exact hoh_nil
  rw [tree_create_steps]
  by_cases h1 : path = [] ∨ (!is_path_valid path) = true
  · rw [if_pos h1]
    exact none_ok
  rw [if_neg h1]
  by_cases h2 : path = ['/']
  · rw [if_pos h2]
    exact none_ok
  rw [if_neg h2]
  cases hm : make_path_to_parent path with
  | none => exact none_ok
  | some ps =>
    obtain ⟨subpath, n_path⟩ := ps
    simp only []
    obtain ⟨i1, i2, i3⟩ := walk_to_parent_steps_held t subpath
    cases hw : walk_to_parent_steps t subpath with
    | mk steps res =>
      rw [hw] at i1 i2 i3
      simp only [] at i1 i2 i3
      have last : ∀ curr s1, res = .ok (some curr, s1) →
          ∀ h ∈ held_states [] (steps ++ [Ev.release curr]), hand_over_hand h := by
        intro curr s1 hres h hh
        rw [mem_held_states_append] at hh
        rcases hh with hh | hh
        · exact i1 h hh
        · rw [i2 curr s1 hres] at hh
          simp only [held_states, Ev.apply, erase_self, List.mem_cons, List.mem_singleton,
            List.not_mem_nil, or_false] at hh
          rcases hh with hh | hh
          · rw [hh]; exact hoh_one curr
          · rw [hh]; exact hoh_nil
      cases res with
      | error e => exact i1
      | ok v =>
        obtain ⟨o, s1⟩ := v
        cases o with
        | none => exact i1
        | some curr =>
          simp only []
          cases hg : s1.get? curr with
          | none => exact i1
          | some n =>
            simp only []
            cases hi : hmap_insert n.children n_path tree_new with
            | mk ok ch =>
              cases ok with
              | false => exact last curr s1 rfl
              | true => exact last curr s1 rfl

theorem tree_remove_steps_held (t : Tree) (path : CStr) :
    ∀ h ∈ held_states [] (tree_remove_steps t path).1, hand_over_hand h := by
  have none_ok : ∀ h ∈ held_states [] ([] : List Ev), hand_over_hand h := by
    intro h hh
    simp only [held_states, List.mem_singleton] at hh
    rw [hh]
    exact hoh_nil
  rw [tree_remove_steps]
  by_cases h1 : (!is_path_valid path) = true
  · rw [if_pos h1]
    exact none_ok
  rw [if_neg h1]
  by_cases h2 : path = ['/']
  · rw [if_pos h2]
    exact none_ok
  rw [if_neg h2]
  cases hm : make_path_to_parent path with
  | none => exact none_ok
  | some ps =>
    obtain ⟨subpath, name⟩ := ps
    simp only []
    obtain ⟨i1, i2, i3⟩ := walk_to_parent_steps_held t subpath
    cases hw : walk_to_parent_steps t subpath with
    | mk steps res =>
      rw [hw] at i1 i2 i3
      simp only [] at i1 i2 i3
      cases res with
      | error e => exact i1
      | ok v =>
        obtain ⟨o, s1⟩ := v
        cases o with
        | none => exact i1
        | some curr =>
          have hheld := i2 curr s1 rfl
          simp only []
          cases hg : s1.get? (curr ++ [name]) with
          | none =>
            intro h hh
            simp only [] at hh
            rw [mem_held_states_append] at hh
            rcases hh with hh | hh
            · exact i1 h hh
            · rw [hheld] at hh
              simp only [held_states, Ev.apply, erase_self, List.mem_cons, List.mem_singleton,
                List.not_mem_nil, or_false] at hh
              rcases hh with hh | hh
              · rw [hh]; exact hoh_one curr
              · rw [hh]; exact hoh_nil
          | some n =>
            simp only []
            by_cases hsz : hmap_size n.children ≠ 0
            · rw [if_pos hsz]
              intro h hh
              simp only [] at hh
              rw [mem_held_states_append] at hh
              rcases hh with hh | hh
              · exact i1 h hh
              · rw [hheld] at hh
                simp only [held_states, Ev.apply, erase_child, erase_self, List.erase_nil,
                  List.mem_cons, List.mem_singleton, List.not_mem_nil, or_false] at hh
                rcases hh with hh | hh | hh | hh
                · rw [hh]; exact hoh_one curr
                · rw [hh]; exact hoh_one curr
                · rw [hh]; exact hoh_nil
                · rw [hh]; exact hoh_nil
            · rw [if_neg hsz]
              intro h hh
              simp only [] at hh
              rw [mem_held_states_append] at hh
              rcases hh with hh | hh
              · exact i1 h hh
              · rw [hheld] at hh
                simp only [held_states, Ev.apply, erase_child, erase_self, List.mem_cons,
                  List.mem_singleton, List.not_mem_nil, or_false] at hh
                rcases hh with hh | hh | hh
                · rw [hh]; exact hoh_one curr
                · rw [hh]; exact hoh_one curr
                · rw [hh]; exact hoh_nil

theorem coupled_append (h : List Ptr) (a b : List Ev) :
    coupled h (a ++ b) ↔ coupled h a ∧ coupled (held_after h a) b := by
  induction a generalizing h with
  | nil => simp [coupled, held_after]
  | cons e a ih =>
    cases e with
    | acquire p =>
      rw [List.cons_append, coupled, coupled, held_after, ih, and_assoc]
      rfl
    | release p =>
      rw [List.cons_append, coupled, coupled, held_after, ih, and_assoc]
      rfl

theorem coupled_release_one (p q : Ptr) (es : List Ev) :
    coupled [p] (.release q :: es) ↔ coupled ([p].erase q) es := by
  rw [coupled]
  constructor
  · exact fun h => h.2
  · intro h
    refine ⟨fun a b e => ?_, h⟩
    simp at e

theorem coupled_release_none (q : Ptr) (es : List Ev) :
    coupled [] (.release q :: es) ↔ coupled [] es := by
  rw [coupled]
  constructor
  · intro h
    simpa using h.2
  · intro h
    refine ⟨fun a b e => ?_, by simpa using h⟩
    simp at e

theorem coupled_step (pre : Ptr) (c : CStr) (es : List Ev) :
    coupled [pre] (.acquire (pre ++ [c]) :: .release pre :: es) ↔ coupled [pre ++ [c]] es := by
  rw [coupled, coupled, erase_parent]
  constructor
  · exact fun h => h.2.2
  · intro h
    refine ⟨Or.inr ⟨pre, c, rfl, rfl⟩, fun a b e => ?_, h⟩
    simp only [List.cons.injEq, and_true] at e
    exact e.2

theorem walk_loop_steps_coupled : ∀ (fuel : Nat) (t : Tree) (pre : Ptr) (sub : CStr),
    coupled [pre] (walk_loop_steps fuel t pre sub).1 := by
  intro fuel
  induction fuel with
  | zero => intro t pre sub; trivial
  | succ f ih =>
    intro t pre sub
    rw [walk_loop_steps]
    cases hsp : split_path sub with
    | none => trivial
    | some cs =>
      obtain ⟨component, subpath⟩ := cs
      simp only []
      cases hg : t.get? (pre ++ [component]) with
      | none =>
        simp only []
        rw [coupled_release_one]
        trivial
      | some n =>
        simp only []
        cases he : (if subpath ≠ ['/'] then t.reader_entry (pre ++ [component])
            else t.writer_entry (pre ++ [component])) with
        | error e => trivial
        | ok s1 =>
          simp only []
          rw [coupled_step]
          exact ih _ _ _

theorem list_loop_steps_coupled : ∀ (fuel : Nat) (t : Tree) (pre : Ptr) (sub : CStr),
    coupled [pre] (list_loop_steps fuel t pre sub).1 := by
  intro fuel
  induction fuel with
  | zero => intro t pre sub; trivial
  | succ f ih =>
    intro t pre sub
    rw [list_loop_steps]
    cases hsp : split_path sub with
    | none => trivial
    | some cs =>
      obtain ⟨component, subpath⟩ := cs
      simp only []
      cases hg : t.get? (pre ++ [component]) with
      | none =>
        simp only []
        rw [coupled_release_one]
        trivial
      | some n =>
        simp only []
        cases he : t.reader_entry (pre ++ [component]) with
        | error e => trivial
        | ok s1 =>
          simp only []
          rw [coupled_step]
          exact ih _ _ _

theorem coupled_root (es : List Ev) : coupled [] (.acquire [] :: es) ↔ coupled [[]] es := by
  rw [coupled]
  constructor
  · exact fun h => h.2
  · exact fun h => ⟨Or.inl ⟨rfl, rfl⟩, h⟩

theorem walk_to_parent_steps_coupled (t : Tree) (sub : CStr) :
    coupled [] (walk_to_parent_steps t sub).1 := by
  rw [walk_to_parent_steps]
  cases he : (if sub ≠ ['/'] then t.reader_entry [] else t.writer_entry []) with
  | error e => trivial
  | ok s =>
    simp only []
    rw [coupled_root]
    exact walk_loop_steps_coupled _ _ _ _

theorem tree_list_steps_coupled (t : Tree) (path : CStr) :
    coupled [] (tree_list_steps t path).1 := by
  rw [tree_list_steps]
  by_cases h1 : (!is_path_valid path) = true
  · rw [if_pos h1]
    trivial
  rw [if_neg h1]
  cases he : t.reader_entry [] with
  | error e => trivial
  | ok s =>
    simp only []
    obtain ⟨_, i2, _⟩ := list_loop_steps_held (path.length + 1) s [] path
    have j := list_loop_steps_coupled (path.length + 1) s [] path
    cases hw : list_loop_steps (path.length + 1) s [] path with
    | mk steps res =>
      rw [hw] at i2 j
      simp only [] at i2 j
      have base : coupled [] (Ev.acquire [] :: steps) := (coupled_root steps).2 j
      cases res with
      | error e => exact base
      | ok v =>
        obtain ⟨o, s1⟩ := v
        cases o with
        | none => exact base
        | some curr =>
          simp only []
          cases hg : s1.get? curr with
          | none => exact base
          | some n =>
            simp only []
            rw [coupled_root, coupled_append, i2 curr s1 rfl, coupled_release_one]
            exact ⟨j, trivial⟩

theorem tree_create_steps_coupled (t : Tree) (path : CStr) :
    coupled [] (tree_create_steps t path).1 := by
  rw [tree_create_steps]
  by_cases h1 : path = [] ∨ (!is_path_valid path) = true
  · rw [if_pos h1]
    trivial
  rw [if_neg h1]
  by_cases h2 : path = ['/']
  · rw [if_pos h2]
    trivial
  rw [if_neg h2]
  cases hm : make_path_to_parent path with
  | none => trivial
  | some ps =>
    obtain ⟨subpath, n_path⟩ := ps
    simp only []
    obtain ⟨_, i2, _⟩ := walk_to_parent_steps_held t subpath
    have j := walk_to_parent_steps_coupled t subpath
    cases hw : walk_to_parent_steps t subpath with
    | mk steps res =>
      rw [hw] at i2 j
      simp only [] at i2 j
      have last : ∀ curr s1, res = .ok (some curr, s1) →
          coupled [] (steps ++ [Ev.release curr]) := by
        intro curr s1 hres
        rw [coupled_append, i2 curr s1 hres, coupled_release_one]
        exact ⟨j, trivial⟩
      cases res with
      | error e => exact j
      | ok v =>
        obtain ⟨o, s1⟩ := v
        cases o with
        | none => exact j
        | some curr =>
          simp only []
          cases hg : s1.get? curr with
          | none => exact j
          | some n =>
            simp only []
            cases hi : hmap_insert n.children n_path tree_new with
            | mk ok ch =>
              cases ok with
              | false => exact last curr s1 rfl
              | true => exact last curr s1 rfl

theorem tree_remove_steps_coupled (t : Tree) (path : CStr) :
    coupled [] (tree_remove_steps t path).1 := by
  rw [tree_remove_steps]
  by_cases h1 : (!is_path_valid path) = true
  · rw [if_pos h1]
    trivial
  rw [if_neg h1]
  by_cases h2 : path = ['/']
  · rw [if_pos h2]
    trivial
  rw [if_neg h2]
  cases hm : make_path_to_parent path with
  | none => trivial
  | some ps =>
    obtain ⟨subpath, name⟩ := ps
    simp only []
    obtain ⟨_, i2, _⟩ := walk_to_parent_steps_held t subpath
    have j := walk_to_parent_steps_coupled t subpath
    cases hw : walk_to_parent_steps t subpath with
    | mk steps res =>
      rw [hw] at i2 j
      simp only [] at i2 j
      cases res with
      | error e => exact j
      | ok v =>
        obtain ⟨o, s1⟩ := v
        cases o with
        | none => exact j
        | some curr =>
          have hheld := i2 curr s1 rfl
          simp only []
          cases hg : s1.get? (curr ++ [name]) with
          | none =>
            simp only []
            rw [coupled_append, hheld, coupled_release_one]
            exact ⟨j, trivial⟩
          | some n =>
            simp only []
            by_cases hsz : hmap_size n.children ≠ 0
            · rw [if_pos hsz]
              simp only []
              rw [coupled_append, hheld, coupled_release_one, erase_child, coupled_release_one,
                erase_self, coupled_release_none]
              exact ⟨j, trivial⟩
            · rw [if_neg hsz]
              simp only []
              rw [coupled_append, hheld, coupled_release_one, erase_child, coupled_release_one]
              exact ⟨j, trivial⟩

theorem walk_loop_steps_shape : ∀ (rest pre : Ptr) (t : Tree) (fuel : Nat),
    (∀ c ∈ rest, NoSlash c) →
    (∀ q s, (walk_loop_steps fuel t pre (path_of rest)).2 = .ok (some q, s) →
      q = pre ++ rest ∧ (walk_loop_steps fuel t pre (path_of rest)).1 = descent_from pre rest) ∧
    (∀ s, (walk_loop_steps fuel t pre (path_of rest)).2 = .ok (none, s) →
      ∃ r, r <+: rest ∧
        (walk_loop_steps fuel t pre (path_of rest)).1 =
          descent_from pre r ++ [.release (pre ++ r)]) := by
  intro rest
  induction rest with
  | nil =>
    intro pre t fuel _
    cases fuel with
    | zero => exact ⟨fun q s hs => by simp [walk_loop_steps] at hs,
        fun s hs => by simp [walk_loop_steps] at hs⟩
    | succ f =>
      rw [walk_loop_steps, split_path_root]
      refine ⟨fun q s hs => ?_, fun s hs => by simp at hs⟩
      simp only [Except.ok.injEq, Prod.mk.injEq, Option.some.injEq] at hs
      rw [← hs.1, List.append_nil]
      exact ⟨rfl, rfl⟩
  | cons c rest ih =>
    intro pre t fuel hns
    have hc : NoSlash c := hns c (List.mem_cons_self _ _)
    have hnr : ∀ x ∈ rest, NoSlash x := fun x hx => hns x (List.mem_cons_of_mem _ hx)
    cases fuel with
    | zero => exact ⟨fun q s hs => by simp [walk_loop_steps] at hs,
        fun s hs => by simp [walk_loop_steps] at hs⟩
    | succ f =>
      rw [walk_loop_steps, split_path_cons c rest hc]
      simp only []
      cases hg : t.get? (pre ++ [c]) with
      | none =>
        simp only []
        refine ⟨fun q s hs => by simp at hs, fun s hs => ⟨[], List.nil_prefix, ?_⟩⟩
        rw [List.append_nil]
        rfl
      | some n =>
        simp only []
        cases he : (if path_of rest ≠ ['/'] then t.reader_entry (pre ++ [c])
            else t.writer_entry (pre ++ [c])) with
        | error e => exact ⟨fun q s hs => by simp at hs, fun s hs => by simp at hs⟩
        | ok s1 =>
          simp only []
          obtain ⟨i1, i2⟩ := ih (pre ++ [c]) (s1.reader_final pre) f hnr
          refine ⟨fun q s hs => ?_, fun s hs => ?_⟩
          · obtain ⟨hq, hl⟩ := i1 q s hs
            refine ⟨by rw [hq, List.append_assoc]; rfl, ?_⟩
            rw [hl]
            rfl
          · obtain ⟨r, hr, hl⟩ := i2 s hs
            refine ⟨c :: r, List.cons_prefix_cons.2 ⟨rfl, hr⟩, ?_⟩
            rw [hl, List.append_assoc]
            rfl

theorem list_loop_steps_shape : ∀ (rest pre : Ptr) (t : Tree) (fuel : Nat),
    (∀ c ∈ rest, NoSlash c) →
    (∀ q s, (list_loop_steps fuel t pre (path_of rest)).2 = .ok (some q, s) →
      q = pre ++ rest ∧ (list_loop_steps fuel t pre (path_of rest)).1 = descent_from pre rest) ∧
    (∀ s, (list_loop_steps fuel t pre (path_of rest)).2 = .ok (none, s) →
      ∃ r, r <+: rest ∧
        (list_loop_steps fuel t pre (path_of rest)).1 =
          descent_from pre r ++ [.release (pre ++ r)]) := by
  intro rest
  induction rest with
  | nil =>
    intro pre t fuel _
    cases fuel with
    | zero => exact ⟨fun q s hs => by simp [list_loop_steps] at hs,
        fun s hs => by simp [list_loop_steps] at hs⟩
    | succ f =>
      rw [list_loop_steps, split_path_root]
      refine ⟨fun q s hs => ?_, fun s hs => by simp at hs⟩
      simp only [Except.ok.injEq, Prod.mk.injEq, Option.some.injEq] at hs
      rw [← hs.1, List.append_nil]
      exact ⟨rfl, rfl⟩
  | cons c rest ih =>
    intro pre t fuel hns
    have hc : NoSlash c := hns c (List.mem_cons_self _ _)
    have hnr : ∀ x ∈ rest, NoSlash x := fun x hx => hns x (List.mem_cons_of_mem _ hx)
    cases fuel with
    | zero => exact ⟨fun q s hs => by simp [list_loop_steps] at hs,
        fun s hs => by simp [list_loop_steps] at hs⟩
    | succ f =>
      rw [list_loop_steps, split_path_cons c rest hc]
      simp only []
      cases hg : t.get? (pre ++ [c]) with
      | none =>
        simp only []
        refine ⟨fun q s hs => by simp at hs, fun s hs => ⟨[], List.nil_prefix, ?_⟩⟩
        rw [List.append_nil]
        rfl
      | some n =>
        simp only []
        cases he : t.reader_entry (pre ++ [c]) with
        | error e => exact ⟨fun q s hs => by simp at hs, fun s hs => by simp at hs⟩
        | ok s1 =>
          simp only []
          obtain ⟨i1, i2⟩ := ih (pre ++ [c]) (s1.reader_final pre) f hnr
          refine ⟨fun q s hs => ?_, fun s hs => ?_⟩
          · obtain ⟨hq, hl⟩ := i1 q s hs
            refine ⟨by rw [hq, List.append_assoc]; rfl, ?_⟩
            rw [hl]
            rfl
          · obtain ⟨r, hr, hl⟩ := i2 s hs
            refine ⟨c :: r, List.cons_prefix_cons.2 ⟨rfl, hr⟩, ?_⟩
            rw [hl, List.append_assoc]
            rfl

theorem walk_to_parent_steps_shape (t : Tree) (cs : Ptr) (hns : ∀ c ∈ cs, NoSlash c) :
    (∀ q s, (walk_to_parent_steps t (path_of cs)).2 = .ok (some q, s) →
      q = cs ∧ (walk_to_parent_steps t (path_of cs)).1 = descent cs) ∧
    (∀ s, (walk_to_parent_steps t (path_of cs)).2 = .ok (none, s) →
      ∃ r, r <+: cs ∧
        (walk_to_parent_steps t (path_of cs)).1 = descent r ++ [.release r]) := by
  rw [walk_to_parent_steps]
  cases he : (if path_of cs ≠ ['/'] then t.reader_entry [] else t.writer_entry []) with
  | error e => exact ⟨fun q s hs => by simp at hs, fun s hs => by simp at hs⟩
  | ok s0 =>
    simp only []
    obtain ⟨i1, i2⟩ := walk_loop_steps_shape cs [] s0 ((path_of cs).length + 1) hns
    refine ⟨fun q s hs => ?_, fun s hs => ?_⟩
    · obtain ⟨hq, hl⟩ := i1 q s hs
      rw [List.nil_append] at hq
      exact ⟨hq, by rw [hl]; rfl⟩
    · obtain ⟨r, hr, hl⟩ := i2 s hs
      rw [List.nil_append] at hl
      exact ⟨r, hr, by rw [hl]; rfl⟩

theorem tree_create_steps_shape (t : Tree) (path : CStr) (hv : is_path_valid path = true)
    (hr : path ≠ ['/']) (code : Int) (s : Tree)
    (hs : (tree_create_steps t path).2 = .ok (code, s)) :
    ∃ q, q <+: parent_ptr path ∧ (code ≠ ENOENT → q = parent_ptr path) ∧
      (tree_create_steps t path).1 = descent q ++ [.release q] := by
  obtain ⟨s1, _, s3⟩ := valid_path_parts path hv hr
  generalize parent_ptr path = cs at *
  generalize last_name path = c at *
  subst s1
  have hns := noSlash_of_valid _ s3
  have hc : NoSlash c := hns c (by simp)
  have hncs : ∀ x ∈ cs, NoSlash x := fun x hx => hns x (by simp [hx])
  have g : ¬ (path_of (cs ++ [c]) = [] ∨ (!is_path_valid (path_of (cs ++ [c]))) = true) := by
    simp [hv, path_of_ne_nil]
  rw [tree_create_steps, if_neg g, if_neg hr, make_path_to_parent_snoc cs c hc] at hs ⊢
  simp only [] at hs ⊢
  obtain ⟨i1, i2⟩ := walk_to_parent_steps_shape t cs hncs
  cases hw : walk_to_parent_steps t (path_of cs) with
  | mk steps res =>
    rw [hw] at i1 i2 hs
    simp only [] at i1 i2 hs ⊢
    cases res with
    | error e => simp at hs
    | ok v =>
      obtain ⟨o, s1⟩ := v
      cases o with
      | none =>
        simp only [Except.ok.injEq, Prod.mk.injEq] at hs
        obtain ⟨r, hr1, hl⟩ := i2 s1 rfl
        exact ⟨r, hr1, fun hne => absurd hs.1.symm hne, hl⟩
      | some curr =>
        obtain ⟨hq, hl⟩ := i1 curr s1 rfl
        subst hq
        simp only [] at hs ⊢
        cases hg : s1.get? curr with
        | none =>
          rw [hg] at hs
          simp at hs
        | some n =>
          rw [hg] at hs
          simp only [] at hs ⊢
          cases hi : hmap_insert n.children c tree_new with
          | mk ok ch =>
            cases ok with
            | false => exact ⟨curr, List.prefix_refl _, fun _ => rfl, by rw [hl]⟩
            | true => exact ⟨curr, List.prefix_refl _, fun _ => rfl, by rw [hl]⟩

theorem tree_list_steps_shape (t : Tree) (path : CStr) (hv : is_path_valid path = true)
    (r : Option CStr) (s : Tree) (hs : (tree_list_steps t path).2 = .ok (r, s)) :
    ∃ q, q <+: path_components path ∧ (r ≠ none → q = path_components path) ∧
      (tree_list_steps t path).1 = descent q ++ [.release q] := by
  obtain ⟨cs, h1, h2, h3⟩ := valid_path_comps path hv
  rw [h2]
  subst h1
  have hns := noSlash_of_valid _ h3
  have g : ¬ (!is_path_valid (path_of cs)) = true := by simp [hv]
  rw [tree_list_steps, if_neg g] at hs ⊢
  cases he : t.reader_entry [] with
  | error e =>
    rw [he] at hs
    simp at hs
  | ok s0 =>
    rw [he] at hs
    simp only [] at hs ⊢
    obtain ⟨i1, i2⟩ := list_loop_steps_shape cs [] s0 ((path_of cs).length + 1) hns
    cases hw : list_loop_steps ((path_of cs).length + 1) s0 [] (path_of cs) with
    | mk steps res =>
      rw [hw] at i1 i2 hs
      simp only [] at i1 i2 hs ⊢
      cases res with
      | error e => simp at hs
      | ok v =>
        obtain ⟨o, s1⟩ := v
        cases o with
        | none =>
          simp only [Except.ok.injEq, Prod.mk.injEq] at hs
          obtain ⟨q, hq, hl⟩ := i2 s1 rfl
          rw [List.nil_append] at hl
          exact ⟨q, hq, fun hne => absurd hs.1.symm hne, by rw [hl]; rfl⟩
        | some curr =>
          obtain ⟨hq, hl⟩ := i1 curr s1 rfl
          rw [List.nil_append] at hq
          subst hq
          simp only [] at hs ⊢
          cases hg : s1.get? curr with
          | none =>
            rw [hg] at hs
            simp at hs
          | some n =>
            exact ⟨curr, List.prefix_refl _, fun _ => rfl, by rw [hl]; rfl⟩

theorem tree_remove_steps_shape (t : Tree) (path : CStr) (hv : is_path_valid path = true)
    (hr : path ≠ ['/']) (code : Int) (s : Tree)
    (hs : (tree_remove_steps t path).2 = .ok (code, s)) :
    (code = ENOENT ∧ ∃ q, q <+: parent_ptr path ∧
      (tree_remove_steps t path).1 = descent q ++ [.release q]) ∨
    (code = ENOTEMPTY ∧ (tree_remove_steps t path).1 = descent (parent_ptr path) ++
      [.release (parent_ptr path ++ [last_name path]), .release (parent_ptr path),
        .release (parent_ptr path ++ [last_name path])]) ∨
    (code = 0 ∧ (tree_remove_steps t path).1 = descent (parent_ptr path) ++
      [.release (parent_ptr path ++ [last_name path]), .release (parent_ptr path)]) := by
  obtain ⟨s1, _, s3⟩ := valid_path_parts path hv hr
  generalize parent_ptr path = cs at *
  generalize last_name path = c at *
  subst s1
  have hns := noSlash_of_valid _ s3
  have hc : NoSlash c := hns c (by simp)
  have hncs : ∀ x ∈ cs, NoSlash x := fun x hx => hns x (by simp [hx])
  have g : ¬ (!is_path_valid (path_of (cs ++ [c]))) = true := by simp [hv]
  rw [tree_remove_steps, if_neg g, if_neg hr, make_path_to_parent_snoc cs c hc] at hs ⊢
  simp only [] at hs ⊢
  obtain ⟨i1, i2⟩ := walk_to_parent_steps_shape t cs hncs
  cases hw : walk_to_parent_steps t (path_of cs) with
  | mk steps res =>
    rw [hw] at i1 i2 hs
    simp only [] at i1 i2 hs ⊢
    cases res with
    | error e => simp at hs
    | ok v =>
      obtain ⟨o, s1⟩ := v
      cases o with
      | none =>
        simp only [Except.ok.injEq, Prod.mk.injEq] at hs
        obtain ⟨r, hr1, hl⟩ := i2 s1 rfl
        exact Or.inl ⟨hs.1.symm, r, hr1, hl⟩
      | some curr =>
        obtain ⟨hq, hl⟩ := i1 curr s1 rfl
        subst hq
        simp only [] at hs ⊢
        cases hg : s1.get? (curr ++ [c]) with
        | none =>
          rw [hg] at hs
          simp only [Except.ok.injEq, Prod.mk.injEq] at hs
          exact Or.inl ⟨hs.1.symm, curr, List.prefix_refl _, by rw [hl]⟩
        | some n =>
          rw [hg] at hs
          simp only [] at hs ⊢
          by_cases hsz : hmap_size n.children ≠ 0
          · rw [if_pos hsz] at hs ⊢
            simp only [Except.ok.injEq, Prod.mk.injEq] at hs
            exact Or.inr (Or.inl ⟨hs.1.symm, by rw [hl]⟩)
          · rw [if_neg hsz] at hs ⊢
            simp only [Except.ok.injEq, Prod.mk.injEq] at hs
            exact Or.inr (Or.inr ⟨hs.1.symm, by rw [hl]⟩)

theorem tree_create_steps_guard (t : Tree) (path : CStr)
    (h : is_path_valid path = false ∨ path = ['/']) : (tree_create_steps t path).1 = [] := by
  rw [tree_create_steps]
  by_cases h1 : path = [] ∨ (!is_path_valid path) = true
  · rw [if_pos h1]
  · rw [if_neg h1]
    rcases h with h | h
    · exact absurd (Or.inr (by rw [h]; rfl)) h1
    · rw [if_pos h]

theorem tree_list_steps_guard (t : Tree) (path : CStr) (h : is_path_valid path = false) :
    (tree_list_steps t path).1 = [] := by
  rw [tree_list_steps, if_pos (by rw [h]; rfl)]

theorem tree_remove_steps_guard (t : Tree) (path : CStr)
    (h : is_path_valid path = false ∨ path = ['/']) : (tree_remove_steps t path).1 = [] := by
  rw [tree_remove_steps]
  by_cases h1 : (!is_path_valid path) = true
  · rw [if_pos h1]
  · rw [if_neg h1]
    rcases h with h | h
    · exact absurd (by rw [h]; rfl) h1
    · rw [if_pos h]

/-- The steps of `tree_create` of `/a/x/` and of `tree_remove` of `/a/b/` on `ex_tree`: the
root entered, then `/a/` entered and the root left, then `/a/` left; `tree_remove` calls the
final protocol of `/a/b/` in between. -/
theorem steps_example :
    (tree_create_steps ex_tree ex_new).1 =
      [.acquire [], .acquire [['a']], .release [], .release [['a']]] ∧
    (tree_remove_steps ex_tree ex_ab).1 =
      [.acquire [], .acquire [['a']], .release [], .release [['a'], ['b']],
        .release [['a']]] ∧
    held_states [] (tree_create_steps ex_tree ex_new).1 =
      [[], [[]], [[['a']], []], [[['a']]], []] :=
  ⟨rfl, rfl, rfl⟩

/-- The order matters to `coupled`: steps that give up the root before `/a/` is entered, with
never more than one folder held, are refused, and so are steps that enter `/a/b/` from the
root. -/
theorem coupled_refuses :
    (∀ h ∈ held_states [] [.acquire [], .release [], .acquire [['a']], .release [['a']]],
      hand_over_hand h) ∧
    ¬ coupled [] [.acquire [], .release [], .acquire [['a']], .release [['a']]] ∧
    ¬ coupled [] [.acquire [], .acquire [['a'], ['b']], .release []] ∧
    coupled [] [.acquire [], .acquire [['a']], .release [], .release [['a']]] := by
  refine ⟨?_, ?_, ?_, ?_⟩
  · intro h hh
    simp only [held_states, Ev.apply, erase_self, List.mem_cons, List.mem_singleton,
      List.not_mem_nil, or_false] at hh
    rcases hh with hh | hh | hh | hh | hh
    · rw [hh]; exact hoh_nil
    · rw [hh]; exact hoh_one _
    · rw [hh]; exact hoh_nil
    · rw [hh]; exact hoh_one _
    · rw [hh]; exact hoh_nil
  · simp [coupled]
  · simp [coupled]
  · exact (coupled_root _).2 ((coupled_step [] ['a'] _).2
      ((coupled_release_one _ _ _).2 trivial))

/-- C20: for every tree and every path, the steps that `tree_create`, `tree_list` and
`tree_remove` make on the monitors, taken with the result they return, are such that at every
point, before the first step and after each step, the thread holds at most two folders, and
two only as a folder and a child of it; the root is entered while nothing is held, every
other folder is entered while its parent and nothing else is held, and when two are held the
one given up is the parent, so that the child is entered before the parent is given up.  No
step is made for a path that is not valid, nor by `tree_create` and `tree_remove` for `/`;
for every other path a call that returns has walked hand over hand from the root down to a
folder on the path, which is the parent of the path (for `tree_list` the folder of the path)
unless a folder on the way is missing, and has given up that folder last, `tree_remove`
calling the final protocol of the folder it removes as well. -/
theorem hand_over_hand_walks (t : Tree) (path : CStr) :
    ((tree_create_steps t path).2 = tree_create t path ∧
      (∀ h ∈ held_states [] (tree_create_steps t path).1, hand_over_hand h) ∧
      coupled [] (tree_create_steps t path).1 ∧
      (is_path_valid path = false ∨ path = ['/'] → (tree_create_steps t path).1 = []) ∧
      (is_path_valid path = true → path ≠ ['/'] →
        ∀ code s, tree_create t path = .ok (code, s) →
          ∃ q, q <+: parent_ptr path ∧ (code ≠ ENOENT → q = parent_ptr path) ∧
            (tree_create_steps t path).1 = descent q ++ [.release q])) ∧
    ((tree_list_steps t path).2 = tree_list t path ∧
      (∀ h ∈ held_states [] (tree_list_steps t path).1, hand_over_hand h) ∧
      coupled [] (tree_list_steps t path).1 ∧
      (is_path_valid path = false → (tree_list_steps t path).1 = []) ∧
      (is_path_valid path = true →
        ∀ r s, tree_list t path = .ok (r, s) →
          ∃ q, q <+: path_components path ∧ (r ≠ none → q = path_components path) ∧
            (tree_list_steps t path).1 = descent q ++ [.release q])) ∧
    ((tree_remove_steps t path).2 = tree_remove t path ∧
      (∀ h ∈ held_states [] (tree_remove_steps t path).1, hand_over_hand h) ∧
      coupled [] (tree_remove_steps t path).1 ∧
      (is_path_valid path = false ∨ path = ['/'] → (tree_remove_steps t path).1 = []) ∧
      (is_path_valid path = true → path ≠ ['/'] →
        ∀ code s, tree_remove t path = .ok (code, s) →
          (code = ENOENT ∧ ∃ q, q <+: parent_ptr path ∧
            (tree_remove_steps t path).1 = descent q ++ [.release q]) ∨
          (code = ENOTEMPTY ∧ (tree_remove_steps t path).1 = descent (parent_ptr path) ++
            [.release (parent_ptr path ++ [last_name path]), .release (parent_ptr path),
              .release (parent_ptr path ++ [last_name path])]) ∨
          (code = 0 ∧ (tree_remove_steps t path).1 = descent (parent_ptr path) ++
            [.release (parent_ptr path ++ [last_name path]), .release (parent_ptr path)]))) :=
  ⟨⟨tree_create_steps_snd t path, tree_create_steps_held t path,
      tree_create_steps_coupled t path, tree_create_steps_guard t path,
      fun hv hr code s hs =>
        tree_create_steps_shape t path hv hr code s ((tree_create_steps_snd t path).trans hs)⟩,
    ⟨tree_list_steps_snd t path, tree_list_steps_held t path,
      tree_list_steps_coupled t path, tree_list_steps_guard t path,
      fun hv r s hs =>
        tree_list_steps_shape t path hv r s ((tree_list_steps_snd t path).trans hs)⟩,
    ⟨tree_remove_steps_snd t path, tree_remove_steps_held t path,
      tree_remove_steps_coupled t path, tree_remove_steps_guard t path,
      fun hv hr code s hs =>
        tree_remove_steps_shape t path hv hr code s ((tree_remove_steps_snd t path).trans hs)⟩⟩

theorem hand_over_hand_walks_witness :
    (is_path_valid ex_new = true ∧ ex_new ≠ ['/'] ∧
      tree_create ex_tree ex_new = .ok (0, ex_tree.insert_at [['a']] ['x'] tree_new) ∧
      coupled [] (tree_create_steps ex_tree ex_new).1 ∧
      ∃ q, q <+: parent_ptr ex_new ∧ ((0 : Int) ≠ ENOENT → q = parent_ptr ex_new) ∧
        (tree_create_steps ex_tree ex_new).1 = descent q ++ [.release q]) ∧
    (is_path_valid ex_a = true ∧ ex_a ≠ ['/'] ∧
      tree_remove ex_tree ex_a = .ok (ENOTEMPTY, ex_tree.modMon
        (fun m => { m with reader_type_count := m.reader_type_count - 2 }) [['a']]) ∧
      ((ENOTEMPTY = ENOENT ∧ ∃ q, q <+: parent_ptr ex_a ∧
        (tree_remove_steps ex_tree ex_a).1 = descent q ++ [.release q]) ∨
      (ENOTEMPTY = ENOTEMPTY ∧ (tree_remove_steps ex_tree ex_a).1 = descent (parent_ptr ex_a) ++
        [.release (parent_ptr ex_a ++ [last_name ex_a]), .release (parent_ptr ex_a),
          .release (parent_ptr ex_a ++ [last_name ex_a])]) ∨
      (ENOTEMPTY = 0 ∧ (tree_remove_steps ex_tree ex_a).1 = descent (parent_ptr ex_a) ++
        [.release (parent_ptr ex_a ++ [last_name ex_a]), .release (parent_ptr ex_a)]))) ∧
    (tree_list_steps ex_tree ex_ab).1 =
      [.acquire [], .acquire [['a']], .release [], .acquire [['a'], ['b']], .release [['a']],
        .release [['a'], ['b']]] ∧
    ∀ h ∈ held_states [] (tree_list_steps ex_tree ex_ab).1, hand_over_hand h :=
  ⟨⟨by decide, by decide, rfl, (hand_over_hand_walks ex_tree ex_new).1.2.2.1,
      (hand_over_hand_walks ex_tree ex_new).1.2.2.2.2 (by decide) (by decide) 0
        (ex_tree.insert_at [['a']] ['x'] tree_new) rfl⟩,
    ⟨by decide, by decide, rfl,
      (hand_over_hand_walks ex_tree ex_a).2.2.2.2.2.2 (by decide) (by decide) ENOTEMPTY
        (ex_tree.modMon (fun m => { m with reader_type_count := m.reader_type_count - 2 })
          [['a']]) rfl⟩,
    by decide, (hand_over_hand_walks ex_tree ex_ab).2.1.2.1⟩

/-! ## The claim on mutual exclusion -/

theorem reader_entry_eq (m : Monitor) :
    tree_reader_type_entry_protocol m =
      if reader_must_wait m = true then none else some (reader_pass m) := by
  simp only [tree_reader_type_entry_protocol, reader_must_wait, reader_pass, decide_eq_true_eq]

theorem writer_entry_eq (m : Monitor) :
    tree_writer_type_entry_protocol m =
      if writer_must_wait m = true then none else some (writer_pass m) := by
  simp only [tree_writer_type_entry_protocol, writer_must_wait, writer_pass, decide_eq_true_eq]

theorem count_set_int : ∀ (l : List Pc) (i : Nat) (a b x : Pc), l[i]? = some a →
    ((l.set i b).count x : Int) =
      (l.count x : Int) - (if a = x then 1 else 0) + (if b = x then 1 else 0) := by
  intro l
  induction l with
  | nil => intro i a b x h; simp at h
  | cons hd tl ih =>
    intro i a b x h
    cases i with
    | zero =>
      simp only [List.getElem?_cons_zero, Option.some.injEq] at h
      subst h
      simp only [List.set_cons_zero, List.count_cons, beq_iff_eq, Nat.cast_add, Nat.cast_ite,
        Nat.cast_one, Nat.cast_zero]
      omega
    | succ i =>
      simp only [List.getElem?_cons_succ] at h
      have := ih i a b x h
      simp only [List.set_cons_succ, List.count_cons, Nat.cast_add, this]
      omega

theorem reader_pass_fields (m : Monitor) :
    (reader_pass m).reader_type_count = m.reader_type_count + 1 ∧
    (reader_pass m).writer_type_count = m.writer_type_count ∧
    (reader_pass m).writer_type_waiting = m.writer_type_waiting ∧
    0 ≤ (reader_pass m).change ∧ ((reader_pass m).change > 0 → m.change > 0) := by
  simp only [reader_pass]
  split
  · refine ⟨rfl, rfl, rfl, ?_, ?_⟩ <;> simp
  · rename_i h
    have h1 : 0 ≤ m.change - 1 := not_lt.1 h
    refine ⟨rfl, rfl, rfl, h1, fun _ => ?_⟩
    omega

theorem writer_pass_fields (m : Monitor) :
    (writer_pass m).reader_type_count = m.reader_type_count ∧
    (writer_pass m).writer_type_count = m.writer_type_count + 1 ∧
    (writer_pass m).writer_type_waiting = m.writer_type_waiting ∧
    (writer_pass m).change = 0 :=
  ⟨rfl, rfl, rfl, rfl⟩

theorem reader_final_fields (m : Monitor) :
    (tree_reader_type_final_protocol m).reader_type_count = m.reader_type_count - 1 ∧
    (tree_reader_type_final_protocol m).writer_type_count = m.writer_type_count ∧
    (tree_reader_type_final_protocol m).writer_type_waiting = m.writer_type_waiting ∧
    (((tree_reader_type_final_protocol m).change = -1 ∧ m.reader_type_count - 1 = 0) ∨
      (tree_reader_type_final_protocol m).change = m.change) := by
  simp only [tree_reader_type_final_protocol]
  split
  · rename_i h
    exact ⟨rfl, rfl, rfl, Or.inl ⟨rfl, h.1⟩⟩
  · exact ⟨rfl, rfl, rfl, Or.inr rfl⟩

theorem writer_final_fields (m : Monitor) :
    (tree_writer_type_final_protocol m).reader_type_count = m.reader_type_count ∧
    (tree_writer_type_final_protocol m).writer_type_count = m.writer_type_count - 1 ∧
    (tree_writer_type_final_protocol m).writer_type_waiting = m.writer_type_waiting := by
  simp only [tree_writer_type_final_protocol]
  split
  · exact ⟨rfl, rfl, rfl⟩
  · split
    · exact ⟨rfl, rfl, rfl⟩
    · exact ⟨rfl, rfl, rfl⟩

theorem count_pos_of_get (l : List Pc) (i : Nat) (a : Pc) (h : l[i]? = some a) :
    (1 : Int) ≤ (l.count a : Int) := by
  have hm : a ∈ l := List.getElem?_mem h
  have := List.count_pos_iff.2 hm
  omega

/-- The counts of threads after thread `i` has gone from `a` to `b`. -/
theorem counts_after (l : List Pc) (i : Nat) (a b : Pc) (h : l[i]? = some a) :
    ((l.set i b).count Pc.writes : Int) =
      (l.count Pc.writes : Int) - (if a = Pc.writes then 1 else 0) +
        (if b = Pc.writes then 1 else 0) ∧
    ((l.set i b).count Pc.reads : Int) =
      (l.count Pc.reads : Int) - (if a = Pc.reads then 1 else 0) +
        (if b = Pc.reads then 1 else 0) ∧
    ((l.set i b).count Pc.writer_waits : Int) =
      (l.count Pc.writer_waits : Int) - (if a = Pc.writer_waits then 1 else 0) +
        (if b = Pc.writer_waits then 1 else 0) :=
  ⟨count_set_int l i a b _ h, count_set_int l i a b _ h, count_set_int l i a b _ h⟩

theorem step_reader_pass (s : Shared) (i : Nat) (a : Pc) (m : Monitor) (h : s.ok)
    (hp : s.pcs[i]? = some a) (ha : a = Pc.outside ∨ a = Pc.reader_waits)
    (hw : m.writer_type_count = s.mon.writer_type_count)
    (hr : m.reader_type_count = s.mon.reader_type_count)
    (hq : m.writer_type_waiting = s.mon.writer_type_waiting)
    (hc : m.change = s.mon.change) (hpass : reader_must_wait m = false) :
    Shared.ok ⟨reader_pass m, s.pcs.set i Pc.reads⟩ := by
  obtain ⟨h1, h2, h3, h4, h5, h6, h7⟩ := h
  obtain ⟨cw, cr, cq⟩ := counts_after s.pcs i a Pc.reads hp
  obtain ⟨f1, f2, f3, f4, f5⟩ := reader_pass_fields m
  have hww : (0 : Int) ≤ (s.pcs.count Pc.writer_waits : Int) := Int.natCast_nonneg _
  have hwc : (0 : Int) ≤ (s.pcs.count Pc.writes : Int) := Int.natCast_nonneg _
  simp only [reader_must_wait, decide_eq_false_iff_not, not_and, not_le] at hpass
  have hz : s.mon.writer_type_count = 0 := by
    by_cases hch : m.change > 0
    · exact h5 (by omega)
    · have := mt hpass hch
      omega
  simp only [Shared.ok]
  rcases ha with rfl | rfl
  · simp only [reduceCtorEq, if_false] at cw cr cq
    simp only [if_true] at cr
    refine ⟨?_, ?_, ?_, ?_, ?_, ?_, ?_⟩ <;> omega
  · simp only [reduceCtorEq, if_false] at cw cr cq
    simp only [if_true] at cr
    refine ⟨?_, ?_, ?_, ?_, ?_, ?_, ?_⟩ <;> omega

theorem step_writer_pass (s : Shared) (i : Nat) (a : Pc) (m : Monitor) (h : s.ok)
    (hp : s.pcs[i]? = some a) (ha : a = Pc.outside ∨ a = Pc.writer_waits)
    (hw : m.writer_type_count = s.mon.writer_type_count)
    (hr : m.reader_type_count = s.mon.reader_type_count)
    (hq : m.writer_type_waiting =
      s.mon.writer_type_waiting - (if a = Pc.writer_waits then 1 else 0))
    (hc : m.change = s.mon.change) (hpass : writer_must_wait m = false) :
    Shared.ok ⟨writer_pass m, s.pcs.set i Pc.writes⟩ := by
  obtain ⟨h1, h2, h3, h4, h5, h6, h7⟩ := h
  obtain ⟨cw, cr, cq⟩ := counts_after s.pcs i a Pc.writes hp
  obtain ⟨f1, f2, f3, f4⟩ := writer_pass_fields m
  have hrc : (0 : Int) ≤ (s.pcs.count Pc.reads : Int) := Int.natCast_nonneg _
  have hwc : (0 : Int) ≤ (s.pcs.count Pc.writes : Int) := Int.natCast_nonneg _
  simp only [writer_must_wait, decide_eq_false_iff_not, not_and, not_not] at hpass
  have hz : s.mon.writer_type_count = 0 ∧ s.mon.reader_type_count = 0 := by
    by_cases hch : m.change = -1
    · exact h4 (by omega)
    · have := mt hpass hch
      constructor <;> omega
  simp only [Shared.ok]
  rcases ha with rfl | rfl
  · simp only [reduceCtorEq, if_false] at cw cr cq hq
    simp only [if_true] at cw
    refine ⟨?_, ?_, ?_, ?_, ?_, ?_, ?_⟩ <;> omega
  · simp only [reduceCtorEq, if_false] at cw cr cq
    simp only [if_true] at cw cq hq
    refine ⟨?_, ?_, ?_, ?_, ?_, ?_, ?_⟩ <;> omega

theorem step_reader_leaves (s : Shared) (i : Nat) (h : s.ok)
    (hp : s.pcs[i]? = some Pc.reads) :
    Shared.ok ⟨tree_reader_type_final_protocol s.mon, s.pcs.set i Pc.outside⟩ := by
  obtain ⟨h1, h2, h3, h4, h5, h6, h7⟩ := h
  obtain ⟨cw, cr, cq⟩ := counts_after s.pcs i Pc.reads Pc.outside hp
  obtain ⟨f1, f2, f3, f4⟩ := reader_final_fields s.mon
  have hin := count_pos_of_get s.pcs i Pc.reads hp
  have hwc : (0 : Int) ≤ (s.pcs.count Pc.writes : Int) := Int.natCast_nonneg _
  simp only [reduceCtorEq, if_false] at cw cr cq
  simp only [if_true] at cr
  have hz : s.mon.writer_type_count = 0 := by
    by_contra hne
    have : s.mon.writer_type_count = 1 := by omega
    have := h7 this
    omega
  have hn1 : s.mon.change ≠ -1 := by
    intro e
    have := (h4 e).2
    omega
  simp only [Shared.ok]
  rcases f4 with ⟨f4, f5⟩ | f4
  · refine ⟨?_, ?_, ?_, ?_, ?_, ?_, ?_⟩ <;> omega
  · refine ⟨?_, ?_, ?_, ?_, ?_, ?_, ?_⟩ <;> omega

theorem step_writer_leaves (s : Shared) (i : Nat) (h : s.ok)
    (hp : s.pcs[i]? = some Pc.writes) :
    Shared.ok ⟨tree_writer_type_final_protocol s.mon, s.pcs.set i Pc.outside⟩ := by
  obtain ⟨h1, h2, h3, h4, h5, h6, h7⟩ := h
  obtain ⟨cw, cr, cq⟩ := counts_after s.pcs i Pc.writes Pc.outside hp
  obtain ⟨f1, f2, f3⟩ := writer_final_fields s.mon
  have hin := count_pos_of_get s.pcs i Pc.writes hp
  simp only [reduceCtorEq, if_false] at cw cr cq
  simp only [if_true] at cw
  have hone : s.mon.writer_type_count = 1 := by omega
  have hr0 := h7 hone
  simp only [Shared.ok]
  refine ⟨?_, ?_, ?_, ?_, ?_, ?_, ?_⟩ <;> omega

theorem step_waits (s : Shared) (pcs : List Pc) (m : Monitor) (h : s.ok)
    (hw : m.writer_type_count = s.mon.writer_type_count)
    (hr : m.reader_type_count = s.mon.reader_type_count)
    (hc : m.change = s.mon.change)
    (cw : (pcs.count Pc.writes : Int) = (s.pcs.count Pc.writes : Int))
    (cr : (pcs.count Pc.reads : Int) = (s.pcs.count Pc.reads : Int))
    (cq : m.writer_type_waiting = (pcs.count Pc.writer_waits : Int)) :
    Shared.ok ⟨m, pcs⟩ := by
  obtain ⟨h1, h2, h3, h4, h5, h6, h7⟩ := h
  simp only [Shared.ok]
  refine ⟨?_, ?_, ?_, ?_, ?_, ?_, ?_⟩ <;> omega

theorem step_ok (s s1 : Shared) (a : Act) (h : s.ok) (hs : s.step a = some s1) : s1.ok := by
  have h3 := h.2.2.1
  cases a with
  | reader_enters i =>
    simp only [Shared.step] at hs
    by_cases hp : s.pcs[i]? = some Pc.outside
    · rw [if_pos hp] at hs
      obtain ⟨cw, cr, cq⟩ := counts_after s.pcs i Pc.outside Pc.reader_waits hp
      simp only [reduceCtorEq, if_false] at cw cr cq
      by_cases hw : reader_must_wait s.mon = true
      · rw [if_pos hw] at hs
        cases hs
        exact step_waits s _ _ h rfl rfl rfl (by omega) (by omega) (by simp only; omega)
      · rw [if_neg hw] at hs
        cases hs
        exact step_reader_pass s i _ s.mon h hp (Or.inl rfl) rfl rfl rfl rfl (by simpa using hw)
    · rw [if_neg hp] at hs
      cases hs
  | writer_enters i =>
    simp only [Shared.step] at hs
    by_cases hp : s.pcs[i]? = some Pc.outside
    · rw [if_pos hp] at hs
      obtain ⟨cw, cr, cq⟩ := counts_after s.pcs i Pc.outside Pc.writer_waits hp
      simp only [reduceCtorEq, if_false] at cw cr cq
      simp only [if_true] at cq
      by_cases hw : writer_must_wait s.mon = true
      · rw [if_pos hw] at hs
        cases hs
        exact step_waits s _ _ h rfl rfl rfl (by omega) (by omega) (by simp only; omega)
      · rw [if_neg hw] at hs
        cases hs
        exact step_writer_pass s i _ s.mon h hp (Or.inl rfl) rfl rfl (by simp) rfl
          (by simpa using hw)
    · rw [if_neg hp] at hs
      cases hs
  | wakes i =>
    simp only [Shared.step] at hs
    cases hp : s.pcs[i]? with
    | none => rw [hp] at hs; cases hs
    | some pc =>
      rw [hp] at hs
      cases pc with
      | outside => cases hs
      | reads => cases hs
      | writes => cases hs
      | reader_waits =>
        simp only [] at hs
        split at hs
        · cases hs
          exact step_waits s _ _ h rfl rfl rfl rfl rfl h3
        · rename_i hw
          cases hs
          exact step_reader_pass s i _ _ h hp (Or.inr rfl) rfl rfl rfl rfl (by simpa using hw)
      | writer_waits =>
        simp only [] at hs
        split at hs
        · cases hs
          exact step_waits s _ _ h rfl rfl rfl rfl rfl (by simp only; omega)
        · rename_i hw
          cases hs
          exact step_writer_pass s i _ _ h hp (Or.inr rfl) rfl rfl (by simp) rfl
            (by simpa using hw)
  | leaves i =>
    simp only [Shared.step] at hs
    cases hp : s.pcs[i]? with
    | none => rw [hp] at hs; cases hs
    | some pc =>
      rw [hp] at hs
      cases pc with
      | outside => cases hs
      | reader_waits => cases hs
      | writer_waits => cases hs
      | reads =>
        cases hs
        exact step_reader_leaves s i h hp
      | writes =>
        cases hs
        exact step_writer_leaves s i h hp

theorem init_ok (n : Nat) : (Shared.init n).ok := by
  have hc : ∀ pc : Pc, pc ≠ Pc.outside → (List.replicate n Pc.outside).count pc = 0 := by
    intro pc hne
    rw [List.count_replicate]
    simp [Ne.symm hne]
  simp only [Shared.ok, Shared.init, hc Pc.writes (by decide), hc Pc.reads (by decide),
    hc Pc.writer_waits (by decide)]
  refine ⟨rfl, rfl, rfl, fun _ => ⟨rfl, rfl⟩, fun _ => rfl, by decide, fun _ => rfl⟩

theorem run_ok : ∀ (acts : List Act) (s s1 : Shared), s.ok → s.run acts = some s1 → s1.ok := by
  intro acts
  induction acts with
  | nil =>
    intro s s1 h hs
    cases hs
    exact h
  | cons a as ih =>
    intro s s1 h hs
    rw [Shared.run] at hs
    cases hst : s.step a with
    | none => rw [hst] at hs; cases hs
    | some s2 =>
      rw [hst] at hs
      exact ih s2 s1 (step_ok s s2 a h hst) hs

/-- C17: from a new folder and any number of threads, after any list of steps in which the
threads take turns in any order, each calling an entry protocol, waiting where the protocol
waits, being woken at any time, and calling the matching final protocol, at most one thread
is past `tree_writer_type_entry_protocol` and not yet in its final protocol, and when one is,
no thread is past `tree_reader_type_entry_protocol` and not yet in its final protocol. -/
theorem monitor_mutual_exclusion (n : Nat) (acts : List Act) (s : Shared)
    (h : (Shared.init n).run acts = some s) :
    s.pcs.count Pc.writes ≤ 1 ∧ (0 < s.pcs.count Pc.writes → s.pcs.count Pc.reads = 0) := by
  obtain ⟨h1, h2, h3, h4, h5, h6, h7⟩ := run_ok acts _ s (init_ok n) h
  constructor
  · omega
  · intro hpos
    have : s.mon.writer_type_count = 1 := by omega
    have := h7 this
    omega

theorem monitor_mutual_exclusion_witness :
    (Shared.init 3).run ex_acts = some ex_shared ∧
      ex_shared.pcs.count Pc.writes ≤ 1 ∧
      (0 < ex_shared.pcs.count Pc.writes → ex_shared.pcs.count Pc.reads = 0) :=
  ⟨by decide, monitor_mutual_exclusion 3 ex_acts ex_shared (by decide)⟩

/-- The tree the calls of `main.c` leave: `/a/` with `/a/b/`, and `/b/` with `/b/c/`; the call
of `tree_remove` on `/a/`, which is not empty, has left the reader count of `/a/` at -2. -/
theorem run_calls_example :
    ∃ t, run_calls tree_new ex_calls = .ok t ∧
      t.keysAt [] = some [['a'], ['b']] ∧ t.keysAt [['a']] = some [['b']] ∧
      t.keysAt [['b']] = some [['c']] ∧ t.keysAt [['b'], ['c']] = some [] ∧
      t.monAt [['a']] = some ⟨-2, 0, 0, 0, 0⟩ :=
  ⟨_, rfl, rfl, rfl, rfl, rfl, rfl⟩

/-! ## The claim on the exit of a writer -/

/-- C21: for every state of the monitor, `tree_writer_type_final_protocol` takes one from the
count of writers inside; it sets `change` to the number of readers waiting when that number
is positive, otherwise to -1 when a writer waits, otherwise to 0; the count of readers inside
and the two counts of threads waiting stay as they are. -/
theorem writer_final_transition (m : Monitor) :
    (tree_writer_type_final_protocol m).writer_type_count = m.writer_type_count - 1 ∧
    (0 < m.reader_type_waiting →
      (tree_writer_type_final_protocol m).change = m.reader_type_waiting) ∧
    (m.reader_type_waiting ≤ 0 → 0 < m.writer_type_waiting →
      (tree_writer_type_final_protocol m).change = -1) ∧
    (m.reader_type_waiting ≤ 0 → m.writer_type_waiting ≤ 0 →
      (tree_writer_type_final_protocol m).change = 0) ∧
    (tree_writer_type_final_protocol m).reader_type_count = m.reader_type_count ∧
    (tree_writer_type_final_protocol m).reader_type_waiting = m.reader_type_waiting ∧
    (tree_writer_type_final_protocol m).writer_type_waiting = m.writer_type_waiting := by
  simp only [tree_writer_type_final_protocol]
  by_cases hr : m.reader_type_waiting > 0
  · rw [if_pos hr]
    exact ⟨rfl, fun _ => rfl, fun h => absurd hr (by omega), fun h => absurd hr (by omega),
      rfl, rfl, rfl⟩
  · rw [if_neg hr]
    by_cases hw : m.writer_type_waiting > 0
    · rw [if_pos hw]
      exact ⟨rfl, fun h => absurd h hr, fun _ _ => rfl, fun _ h => absurd hw (by omega),
        rfl, rfl, rfl⟩
    · rw [if_neg hw]
      exact ⟨rfl, fun h => absurd h hr, fun _ h => absurd h hw, fun _ _ => rfl, rfl, rfl, rfl⟩

theorem writer_final_transition_witness :
    tree_writer_type_final_protocol ⟨0, 1, 2, 1, 0⟩ = ⟨0, 0, 2, 1, 2⟩ ∧
    tree_writer_type_final_protocol ⟨0, 1, 0, 1, 0⟩ = ⟨0, 0, 0, 1, -1⟩ ∧
    tree_writer_type_final_protocol ⟨0, 1, 0, 0, 5⟩ = ⟨0, 0, 0, 0, 0⟩ ∧
    (tree_writer_type_final_protocol ⟨0, 1, 2, 1, 0⟩).change = 2 :=
  ⟨by decide, by decide, by decide,
    (writer_final_transition ⟨0, 1, 2, 1, 0⟩).2.1 (by decide)⟩

/-! ## The claim that no call waits for itself -/

theorem move_lca_loop_steps_snd : ∀ (fuel : Nat) (t : Tree) (pre : Ptr) (ss st : Option CStr)
    (c1 c2 : CStr),
    (move_lca_loop_steps fuel t pre ss st c1 c2).2 = move_lca_loop fuel t pre ss st c1 c2 := by
  intro fuel
  induction fuel with
  | zero => intro t pre ss st c1 c2; rfl
  | succ f ih =>
    intro t pre ss st c1 c2
    rw [move_lca_loop_steps, move_lca_loop]
    by_cases hc : c1 = c2
    swap
    · rw [if_neg hc, if_neg hc]
    rw [if_pos hc, if_pos hc]
    cases hg : t.get? (pre ++ [c1]) with
    | none => simp only [hg]
    | some n =>
      simp only [hg]
      cases ss with
      | none => rfl
      | some ss1 =>
        cases st with
        | none => rfl
        | some st1 =>
          simp only []
          by_cases hb : (split_path_buf ss1 c1).2 ≠ (split_path_buf st1 c2).2 ∨
              (split_path_buf st1 c2).1 = none
          · rw [if_pos hb, if_pos hb]
            cases he : t.writer_entry (pre ++ [c1]) with
            | error e => rfl
            | ok s2 => rfl
          · rw [if_neg hb, if_neg hb]
            cases he : t.reader_entry (pre ++ [c1]) with
            | error e => rfl
            | ok s2 => exact ih _ _ _ _ _ _

theorem move_to_lca_steps_snd (t : Tree) (source ptp shared : CStr) :
    (move_to_lca_steps t source ptp shared).2 = move_to_lca t source ptp shared := by
  rw [move_to_lca_steps, move_to_lca]
  by_cases hs : shared = ['/']
  · rw [if_pos hs, if_pos hs]
    cases he : t.writer_entry [] with
    | error e => rfl
    | ok s0 => rfl
  · rw [if_neg hs, if_neg hs]
    cases he : t.reader_entry [] with
    | error e => rfl
    | ok s0 =>
      simp only []
      cases h1 : split_path source with
      | none => rfl
      | some a =>
        cases h2 : split_path ptp with
        | none => rfl
        | some b => exact move_lca_loop_steps_snd _ _ _ _ _ _ _

theorem move_source_loop_steps_snd : ∀ (fuel : Nat) (t : Tree) (curr st : Ptr) (left : CStr)
    (first : Bool),
    (move_source_loop_steps fuel t curr st left first).2 =
      move_source_loop fuel t curr st left first := by
  intro fuel
  induction fuel with
  | zero => intro t curr st left first; rfl
  | succ f ih =>
    intro t curr st left first
    rw [move_source_loop_steps, move_source_loop]
    cases hsp : split_path left with
    | none => rfl
    | some cs =>
      obtain ⟨component, left1⟩ := cs
      cases hg : t.get? (st ++ [component]) with
      | none =>
        simp only [hg]
        cases hm : t.monAt st with
        | none => rfl
        | some m => rfl
      | some n =>
        simp only [hg]
        cases he : (if left1 ≠ ['/'] then t.reader_entry (st ++ [component])
            else t.writer_entry (st ++ [component])) with
        | error e => rfl
        | ok s2 => exact ih _ _ _ _ _

theorem move_target_loop_steps_snd : ∀ (fuel : Nat) (t : Tree) (curr src tt : Ptr)
    (left : CStr) (first : Bool),
    (move_target_loop_steps fuel t curr src tt left first).2 =
      move_target_loop fuel t curr src tt left first := by
  intro fuel
  induction fuel with
  | zero => intro t curr src tt left first; rfl
  | succ f ih =>
    intro t curr src tt left first
    rw [move_target_loop_steps, move_target_loop]
    cases hsp : split_path left with
    | none => rfl
    | some cs =>
      obtain ⟨component, left1⟩ := cs
      cases hg : t.get? (tt ++ [component]) with
      | none => simp only [hg]
      | some n =>
        simp only [hg]
        cases he : (if left1 ≠ ['/'] then t.reader_entry (tt ++ [component])
            else t.writer_entry (tt ++ [component])) with
        | error e => rfl
        | ok s2 =>
          simp only []
          by_cases hb : (!first) = true ∧ tt ≠ curr
          · rw [if_pos hb, if_pos hb]
            cases hm : s2.monAt tt with
            | none => rfl
            | some m => exact ih _ _ _ _ _ _
          · rw [if_neg hb, if_neg hb]
            exact ih _ _ _ _ _ _

theorem tree_move_steps_snd (t : Tree) (source target : CStr) :
    (tree_move_steps t source target).2 = tree_move t source target := by
  rw [tree_move_steps, tree_move]
  by_cases h1 : (!is_path_valid source || !is_path_valid target) = true
  · rw [if_pos h1, if_pos h1]
  rw [if_neg h1, if_neg h1]
  by_cases h2 : source = ['/']
  · rw [if_pos h2, if_pos h2]
  rw [if_neg h2, if_neg h2]
  by_cases h3 : target = ['/']
  · rw [if_pos h3, if_pos h3]
  rw [if_neg h3, if_neg h3]
  by_cases h4 : moving_to_own_subtree source target = true
  · rw [if_pos h4, if_pos h4]
  rw [if_neg h4, if_neg h4]
  cases hm1 : make_path_to_parent target with
  | none => rfl
  | some pt =>
    obtain ⟨ptp, ct⟩ := pt
    cases hm2 : make_path_to_parent source with
    | none => rfl
    | some ps =>
      obtain ⟨psp, cs⟩ := ps
      simp only []
      cases hsh : shared_path source ptp with
      | error e => rfl
      | ok shared =>
        simp only []
        rw [← move_to_lca_steps_snd]
        cases hl : move_to_lca_steps t source ptp shared with
        | mk l1 res1 =>
          cases res1 with
          | error e => rfl
          | ok rs =>
            obtain ⟨r, s1⟩ := rs
            cases r with
            | none => rfl
            | some curr =>
              simp only []
              rw [← move_source_loop_steps_snd]
              cases hs : move_source_loop_steps ((psp.drop (shared.length - 1)).length + 1) s1
                  curr curr (psp.drop (shared.length - 1)) true with
              | mk l2 res2 =>
                cases res2 with
                | error e => rfl
                | ok rs2 =>
                  obtain ⟨r2, s2⟩ := rs2
                  cases r2 with
                  | none => rfl
                  | some sf =>
                    obtain ⟨st, first⟩ := sf
                    simp only []
                    cases hg : s2.get? (st ++ [cs]) with
                    | none => rfl
                    | some sn =>
                      simp only []
                      rw [← move_target_loop_steps_snd]
                      cases ht : move_target_loop_steps
                          ((ptp.drop (shared.length - 1)).length + 1) s2 curr st curr
                          (ptp.drop (shared.length - 1)) true with
                      | mk l3 res3 =>
                        cases res3 with
                        | error e => rfl
                        | ok rs3 =>
                          obtain ⟨r3, s3⟩ := rs3
                          cases r3 with
                          | none => rfl
                          | some tf =>
                            obtain ⟨tt, ft⟩ := tf
                            simp only []
                            cases hg1 : s3.get? (st ++ [cs]) with
                            | none => rfl
                            | some sn3 =>
                              cases hg2 : s3.get? tt with
                              | none => rfl
                              | some tn3 =>
                                simp only []
                                cases hi : hmap_insert tn3.children ct
                                    (Tree.node tree_new.mon sn3.children) with
                                | mk ok ch =>
                                  cases ok with
                                  | false => rfl
                                  | true => rfl

theorem no_reentry_append (h : List Ptr) (a b : List Ev) :
    no_reentry h (a ++ b) ↔ no_reentry h a ∧ no_reentry (held_after h a) b := by
  induction a generalizing h with
  | nil => simp [no_reentry, held_after]
  | cons e a ih =>
    cases e with
    | acquire p =>
      rw [List.cons_append, no_reentry, no_reentry, held_after, ih, and_assoc]
      rfl
    | release p =>
      rw [List.cons_append, no_reentry, no_reentry, held_after, ih]
      rfl

theorem not_mem_parent (p : Ptr) (c : CStr) : p ++ [c] ∉ [p] := by
  simp only [List.mem_singleton]
  exact fun e => ne_append_singleton p c e.symm

theorem move_lca_loop_steps_held : ∀ (fuel : Nat) (t : Tree) (pre : Ptr)
    (ss st : Option CStr) (c1 c2 : CStr),
    no_reentry [pre] (move_lca_loop_steps fuel t pre ss st c1 c2).1 ∧
    (∀ q s, (move_lca_loop_steps fuel t pre ss st c1 c2).2 = .ok (some q, s) →
      held_after [pre] (move_lca_loop_steps fuel t pre ss st c1 c2).1 = [q]) ∧
    (∀ s, (move_lca_loop_steps fuel t pre ss st c1 c2).2 = .ok (none, s) →
      held_after [pre] (move_lca_loop_steps fuel t pre ss st c1 c2).1 = []) := by
  intro fuel
  induction fuel with
  | zero =>
    intro t pre ss st c1 c2
    refine ⟨trivial, fun q s hs => ?_, fun s hs => ?_⟩ <;> simp [move_lca_loop_steps] at hs
  | succ f ih =>
    intro t pre ss st c1 c2
    rw [move_lca_loop_steps]
    by_cases hc : c1 = c2
    swap
    · rw [if_neg hc]
      refine ⟨trivial, fun q s hs => ?_, fun s hs => ?_⟩
      · simp only [Except.ok.injEq, Prod.mk.injEq, Option.some.injEq] at hs
        rw [← hs.1]
        rfl
      · simp at hs
    rw [if_pos hc]
    cases hg : t.get? (pre ++ [c1]) with
    | none =>
      simp only [hg]
      refine ⟨?_, fun q s hs => ?_, fun s hs => ?_⟩
      · simp only [no_reentry]
      · simp at hs
      · simp only [held_after, Ev.apply, erase_self]
    | some n =>
      simp only [hg]
      cases ss with
      | none => refine ⟨trivial, fun q s hs => ?_, fun s hs => ?_⟩ <;> simp at hs
      | some ss1 =>
        cases st with
        | none => refine ⟨trivial, fun q s hs => ?_, fun s hs => ?_⟩ <;> simp at hs
        | some st1 =>
          simp only []
          by_cases hb : (split_path_buf ss1 c1).2 ≠ (split_path_buf st1 c2).2 ∨
              (split_path_buf st1 c2).1 = none
          · rw [if_pos hb]
            cases he : t.writer_entry (pre ++ [c1]) with
            | error e => refine ⟨trivial, fun q s hs => ?_, fun s hs => ?_⟩ <;> simp at hs
            | ok s2 =>
              refine ⟨?_, fun q s hs => ?_, fun s hs => ?_⟩
              · simp only [no_reentry, and_true]
                exact not_mem_parent pre c1
              · simp only [Except.ok.injEq, Prod.mk.injEq, Option.some.injEq] at hs
                rw [← hs.1]
                simp only [held_after, Ev.apply, erase_parent]
              · simp at hs
          · rw [if_neg hb]
            cases he : t.reader_entry (pre ++ [c1]) with
            | error e => refine ⟨trivial, fun q s hs => ?_, fun s hs => ?_⟩ <;> simp at hs
            | ok s2 =>
              obtain ⟨i1, i2, i3⟩ := ih (s2.reader_final pre) (pre ++ [c1])
                (split_path_buf ss1 c1).1 (split_path_buf st1 c2).1 (split_path_buf ss1 c1).2
                (split_path_buf st1 c2).2
              refine ⟨?_, fun q s hs => ?_, fun s hs => ?_⟩
              · simp only [no_reentry, erase_parent]
                exact ⟨not_mem_parent pre c1, i1⟩
              · simp only [held_after, Ev.apply, erase_parent]
                exact i2 q s hs
              · simp only [held_after, Ev.apply, erase_parent]
                exact i3 s hs

theorem move_to_lca_steps_held (t : Tree) (source ptp shared : CStr) :
    no_reentry [] (move_to_lca_steps t source ptp shared).1 ∧
    (∀ q s, (move_to_lca_steps t source ptp shared).2 = .ok (some q, s) →
      held_after [] (move_to_lca_steps t source ptp shared).1 = [q]) ∧
    (∀ s, (move_to_lca_steps t source ptp shared).2 = .ok (none, s) →
      held_after [] (move_to_lca_steps t source ptp shared).1 = []) := by
  rw [move_to_lca_steps]
  by_cases hs : shared = ['/']
  · rw [if_pos hs]
    cases he : t.writer_entry [] with
    | error e => refine ⟨trivial, fun q s hs => ?_, fun s hs => ?_⟩ <;> simp at hs
    | ok s0 =>
      refine ⟨?_, fun q s hs => ?_, fun s hs => ?_⟩
      · simp [no_reentry]
      · simp only [Except.ok.injEq, Prod.mk.injEq, Option.some.injEq] at hs
        rw [← hs.1]
        rfl
      · simp at hs
  · rw [if_neg hs]
    cases he : t.reader_entry [] with
    | error e => refine ⟨trivial, fun q s hs => ?_, fun s hs => ?_⟩ <;> simp at hs
    | ok s0 =>
      simp only []
      cases h1 : split_path source with
      | none =>
        refine ⟨?_, fun q s hs => ?_, fun s hs => ?_⟩
        · simp [no_reentry]
        · simp at hs
        · simp at hs
      | some a =>
        cases h2 : split_path ptp with
        | none =>
          refine ⟨?_, fun q s hs => ?_, fun s hs => ?_⟩
          · simp [no_reentry]
          · simp at hs
          · simp at hs
        | some b =>
          obtain ⟨i1, i2, i3⟩ := move_lca_loop_steps_held (source.length + 1) s0 []
            (some a.2) (some b.2) a.1 b.1
          refine ⟨?_, fun q s hs => ?_, fun s hs => ?_⟩
          · simp only [no_reentry, List.not_mem_nil, not_false_eq_true, true_and]
            exact i1
          · simp only [held_after, Ev.apply]
            exact i2 q s hs
          · simp only [held_after, Ev.apply]
            exact i3 s hs

theorem ne_append_of_ne_nil (L d : Ptr) (hd : d ≠ []) : L ++ d ≠ L := by
  intro h
  have := congrArg List.length h
  simp only [List.length_append] at this
  have h1 : 0 < d.length := List.length_pos.2 hd
  omega

theorem move_source_loop_steps_held (L : Ptr) :
    ∀ (rest done st : Ptr) (t : Tree) (fuel : Nat) (first : Bool),
      st = L ++ done → first = decide (done = []) →
      (∀ c ∈ rest, NoSlash c) → (path_of rest).length < fuel →
      no_reentry (if done = [] then [L] else [st, L])
          (move_source_loop_steps fuel t L st (path_of rest) first).1 ∧
      (∀ p f s, (move_source_loop_steps fuel t L st (path_of rest) first).2 =
          .ok (some (p, f), s) →
        p = L ++ (done ++ rest) ∧ f = decide (done ++ rest = []) ∧
        held_after (if done = [] then [L] else [st, L])
          (move_source_loop_steps fuel t L st (path_of rest) first).1 =
            (if done ++ rest = [] then [L] else [p, L])) ∧
      (∀ s, (move_source_loop_steps fuel t L st (path_of rest) first).2 = .ok (none, s) →
        held_after (if done = [] then [L] else [st, L])
          (move_source_loop_steps fuel t L st (path_of rest) first).1 = []) := by
  intro rest
  induction rest with
  | nil =>
    intro done st t fuel first hst hf _ hfuel
    cases fuel with
    | zero => exact absurd hfuel (Nat.not_lt_zero _)
    | succ f =>
      rw [move_source_loop_steps, split_path_root]
      refine ⟨trivial, fun p f1 s hs => ?_, fun s hs => ?_⟩
      · simp only [Except.ok.injEq, Prod.mk.injEq, Option.some.injEq] at hs
        obtain ⟨⟨hp, hf1⟩, _⟩ := hs
        rw [← hp, ← hf1, List.append_nil]
        exact ⟨hst, hf, rfl⟩
      · simp at hs
  | cons c rest ih =>
    intro done st t fuel first hst hf hns hfuel
    have hc : NoSlash c := hns c (List.mem_cons_self _ _)
    have hnr : ∀ x ∈ rest, NoSlash x := fun x hx => hns x (List.mem_cons_of_mem _ hx)
    cases fuel with
    | zero => exact absurd hfuel (Nat.not_lt_zero _)
    | succ f =>
      have hfuel1 : (path_of rest).length < f := by
        have := length_path_of_cons c rest
        omega
      rw [move_source_loop_steps, split_path_cons c rest hc]
      simp only []
      have hne : done ++ c :: rest ≠ [] := by simp
      have hchild : st ++ [c] ≠ st := fun e => ne_append_singleton st c e.symm
      have hchildL : st ++ [c] ≠ L := by
        rw [hst, List.append_assoc]
        exact ne_append_of_ne_nil L (done ++ [c]) (by simp)
      cases hg : t.get? (st ++ [c]) with
      | none =>
        simp only []
        cases hm : t.monAt st with
        | none => refine ⟨trivial, fun p f1 s hs => ?_, fun s hs => ?_⟩ <;> simp at hs
        | some m =>
          simp only []
          by_cases hd : done = []
          · have hsl : st = L := by rw [hst, hd, List.append_nil]
            rw [if_pos hd, hsl]
            refine ⟨?_, fun p f1 s hs => ?_, fun s hs => ?_⟩
            · simp [no_reentry]
            · simp at hs
            · simp [held_after, Ev.apply]
          · have hsl : st ≠ L := by
              rw [hst]
              exact ne_append_of_ne_nil L done hd
            rw [if_neg hd, if_pos hsl]
            refine ⟨?_, fun p f1 s hs => ?_, fun s hs => ?_⟩
            · simp [no_reentry]
            · simp at hs
            · simp [held_after, Ev.apply]
      | some n =>
        simp only []
        cases he : (if path_of rest ≠ ['/'] then t.reader_entry (st ++ [c])
            else t.writer_entry (st ++ [c])) with
        | error e => refine ⟨trivial, fun p f1 s hs => ?_, fun s hs => ?_⟩ <;> simp at hs
        | ok s1 =>
          simp only []
          have hst1 : st ++ [c] = L ++ (done ++ [c]) := by rw [hst, List.append_assoc]
          have hd1 : done ++ [c] ≠ [] := by simp
          have hasm : done ++ [c] ++ rest = done ++ c :: rest := by simp
          obtain ⟨i1, i2, i3⟩ := ih (done ++ [c]) (st ++ [c])
            (if (!first) = true then s1.reader_final st else s1) f false hst1 (by simp) hnr hfuel1
          simp only [if_neg hd1, hasm] at i1 i2 i3
          by_cases hd : done = []
          · have hfirst : first = true := by rw [hf, hd]; rfl
            have hsl : st = L := by rw [hst, hd, List.append_nil]
            rw [if_pos hd]
            rw [hfirst] at i1 i2 i3 ⊢
            rw [hsl] at i1 i2 i3 hchildL ⊢
            refine ⟨?_, fun p f1 s hs => ?_, fun s hs => ?_⟩
            · simp only [Bool.not_true, Bool.false_eq_true, if_false, List.nil_append,
                no_reentry, List.mem_singleton]
              exact ⟨hchildL, i1⟩
            · simp only [Bool.not_true, Bool.false_eq_true, if_false, List.nil_append,
                held_after, Ev.apply]
              exact i2 p f1 s hs
            · simp only [Bool.not_true, Bool.false_eq_true, if_false, List.nil_append,
                held_after, Ev.apply]
              exact i3 s hs
          · have hfirst : first = false := by rw [hf]; simp [hd]
            have her : [st ++ [c], st, L].erase st = [st ++ [c], L] := by
              simp [List.erase_cons, hchild]
            rw [if_neg hd]
            rw [hfirst] at i1 i2 i3 ⊢
            simp only [Bool.not_false, if_true] at i1 i2 i3 ⊢
            refine ⟨?_, fun p f1 s hs => ?_, fun s hs => ?_⟩
            · simp only [Bool.not_false, if_true, List.singleton_append, no_reentry,
                List.mem_cons, List.mem_singleton, List.not_mem_nil, or_false, her]
              exact ⟨fun h => h.elim hchild hchildL, i1⟩
            · simp only [Bool.not_false, if_true, List.singleton_append, held_after,
                Ev.apply, her]
              exact i2 p f1 s hs
            · simp only [Bool.not_false, if_true, List.singleton_append, held_after,
                Ev.apply, her]
              exact i3 s hs

theorem move_target_loop_steps_held (L sp : Ptr) (S : List Ptr)
    (hS : S = if sp = L then [L] else [sp, L]) :
    ∀ (rest done tg : Ptr) (t : Tree) (fuel : Nat) (ft : Bool),
      tg = L ++ done → ft = decide (done = []) →
      (∀ c ∈ rest, NoSlash c) → (path_of rest).length < fuel →
      (∀ d, d ≠ [] → d <+: done ++ rest → L ++ d ≠ sp) →
      no_reentry (if done = [] then S else tg :: S)
          (move_target_loop_steps fuel t L sp tg (path_of rest) ft).1 ∧
      (∀ p f s, (move_target_loop_steps fuel t L sp tg (path_of rest) ft).2 =
          .ok (some (p, f), s) →
        p = L ++ (done ++ rest) ∧ f = decide (done ++ rest = []) ∧
        held_after (if done = [] then S else tg :: S)
          (move_target_loop_steps fuel t L sp tg (path_of rest) ft).1 =
            (if done ++ rest = [] then S else p :: S)) ∧
      (∀ s, (move_target_loop_steps fuel t L sp tg (path_of rest) ft).2 = .ok (none, s) →
        held_after (if done = [] then S else tg :: S)
          (move_target_loop_steps fuel t L sp tg (path_of rest) ft).1 = []) := by
  have hS1 : ∀ x, x ≠ sp → x ≠ L → x ∉ S := by
    intro x h1 h2
    rw [hS]
    by_cases e : sp = L
    · rw [if_pos e]; simpa using h2
    · rw [if_neg e]; simp [h1, h2]
  have hS2 : held_after S ((if sp ≠ L then [Ev.release sp] else []) ++ [Ev.release L]) = [] := by
    rw [hS]
    by_cases e : sp = L
    · simp [e, held_after, Ev.apply]
    · simp [e, held_after, Ev.apply]
  have hrel : ∀ (h : List Ptr), no_reentry h
      ((if sp ≠ L then [Ev.release sp] else []) ++ [Ev.release L]) := by
    intro h
    by_cases e : sp = L
    · simp [e, no_reentry]
    · simp [e, no_reentry]
  intro rest
  induction rest with
  | nil =>
    intro done tg t fuel ft htg hf _ hfuel _
    cases fuel with
    | zero => exact absurd hfuel (Nat.not_lt_zero _)
    | succ f =>
      rw [move_target_loop_steps, split_path_root]
      refine ⟨trivial, fun p f1 s hs => ?_, fun s hs => ?_⟩
      · simp only [Except.ok.injEq, Prod.mk.injEq, Option.some.injEq] at hs
        obtain ⟨⟨hp, hf1⟩, _⟩ := hs
        rw [← hp, ← hf1, List.append_nil]
        refine ⟨htg, hf, ?_⟩
        by_cases hd : done = []
        · rw [if_pos hd]; rfl
        · rw [if_neg hd]; rfl
      · simp at hs
  | cons c rest ih =>
    intro done tg t fuel ft htg hf hns hfuel hdiv
    have hc : NoSlash c := hns c (List.mem_cons_self _ _)
    have hnr : ∀ x ∈ rest, NoSlash x := fun x hx => hns x (List.mem_cons_of_mem _ hx)
    cases fuel with
    | zero => exact absurd hfuel (Nat.not_lt_zero _)
    | succ f =>
      have hfuel1 : (path_of rest).length < f := by
        have := length_path_of_cons c rest
        omega
      rw [move_target_loop_steps, split_path_cons c rest hc]
      simp only []
      have hne : done ++ c :: rest ≠ [] := by simp
      have hchild : tg ++ [c] ≠ tg := fun e => ne_append_singleton tg c e.symm
      have hst1 : tg ++ [c] = L ++ (done ++ [c]) := by rw [htg, List.append_assoc]
      have hchildL : tg ++ [c] ≠ L := by
        rw [hst1]
        exact ne_append_of_ne_nil L (done ++ [c]) (by simp)
      have hchildS : tg ++ [c] ≠ sp := by
        rw [hst1]
        refine hdiv (done ++ [c]) (by simp) ?_
        exact ⟨rest, by simp⟩
      have hmem : tg ++ [c] ∉ S := hS1 _ hchildS hchildL
      cases hg : t.get? (tg ++ [c]) with
      | none =>
        simp only []
        by_cases hd : done = []
        · have hsl : tg = L := by rw [htg, hd, List.append_nil]
          have hnn : ¬ tg ≠ L := fun h => h hsl
          rw [if_pos hd, if_neg hnn, List.nil_append]
          exact ⟨hrel S, fun p f1 s hs => by simp at hs, fun s hs => hS2⟩
        · have hsl : tg ≠ L := by
            rw [htg]
            exact ne_append_of_ne_nil L done hd
          rw [if_neg hd, if_pos hsl, List.singleton_append]
          refine ⟨?_, fun p f1 s hs => by simp at hs, fun s hs => ?_⟩
          · rw [no_reentry, List.erase_cons_head]
            exact hrel S
          · rw [held_after, Ev.apply, List.erase_cons_head]
            exact hS2
      | some n =>
        simp only []
        cases he : (if path_of rest ≠ ['/'] then t.reader_entry (tg ++ [c])
            else t.writer_entry (tg ++ [c])) with
        | error e => refine ⟨trivial, fun p f1 s hs => ?_, fun s hs => ?_⟩ <;> simp at hs
        | ok s1 =>
          simp only []
          have hd1 : done ++ [c] ≠ [] := by simp
          have hasm : done ++ [c] ++ rest = done ++ c :: rest := by simp
          have hdiv1 : ∀ d, d ≠ [] → d <+: done ++ [c] ++ rest → L ++ d ≠ sp := by
            intro d h1 h2
            rw [hasm] at h2
            exact hdiv d h1 h2
          by_cases hd : done = []
          · have hfirst : ft = true := by rw [hf, hd]; rfl
            have hcond : ¬ ((!ft) = true ∧ tg ≠ L) := by
              rw [hfirst]
              exact fun h => Bool.noConfusion h.1
            rw [if_pos hd, if_neg hcond]
            obtain ⟨i1, i2, i3⟩ := ih (done ++ [c]) (tg ++ [c]) s1 f false hst1 (by simp) hnr
              hfuel1 hdiv1
            simp only [if_neg hd1, hasm] at i1 i2 i3
            refine ⟨?_, fun p f1 s hs => ?_, fun s hs => ?_⟩
            · rw [no_reentry]
              exact ⟨hmem, i1⟩
            · rw [held_after, Ev.apply]
              exact i2 p f1 s hs
            · rw [held_after, Ev.apply]
              exact i3 s hs
          · have hfirst : ft = false := by rw [hf]; simp [hd]
            have hsl : tg ≠ L := by
              rw [htg]
              exact ne_append_of_ne_nil L done hd
            have hcond : (!ft) = true ∧ tg ≠ L := by
              rw [hfirst]
              exact ⟨rfl, hsl⟩
            have hmem1 : tg ++ [c] ∉ tg :: S := by
              simp only [List.mem_cons, not_or]
              exact ⟨hchild, hmem⟩
            have her : ((tg ++ [c]) :: tg :: S).erase tg = (tg ++ [c]) :: S := by
              rw [List.erase_cons_tail (by simp [hchild]), List.erase_cons_head]
            rw [if_neg hd, if_pos hcond]
            cases hm : s1.monAt tg with
            | none =>
              simp only []
              refine ⟨?_, fun p f1 s hs => by simp at hs, fun s hs => by simp at hs⟩
              rw [no_reentry]
              exact ⟨hmem1, trivial⟩
            | some m =>
              simp only []
              obtain ⟨i1, i2, i3⟩ := ih (done ++ [c]) (tg ++ [c])
                (if m.writer_type_count = 0 then s1.reader_final tg else s1.writer_final tg)
                f false hst1 (by simp) hnr hfuel1 hdiv1
              simp only [if_neg hd1, hasm] at i1 i2 i3
              refine ⟨?_, fun p f1 s hs => ?_, fun s hs => ?_⟩
              · rw [no_reentry, no_reentry, her]
                exact ⟨hmem1, i1⟩
              · rw [held_after, Ev.apply, held_after, Ev.apply, her]
                exact i2 p f1 s hs
              · rw [held_after, Ev.apply, held_after, Ev.apply, her]
                exact i3 s hs

theorem move_release_steps_no_reentry (h : List Ptr) (curr source_tree target_tree : Ptr)
    (first first_target : Bool) :
    no_reentry h (move_release_steps curr source_tree target_tree first first_target) := by
  cases first <;> cases first_target <;> simp [move_release_steps, no_reentry]

theorem tree_move_steps_comp (t : Tree) (sp : Ptr) (cs : CStr) (tp : Ptr)
    (ct : CStr) (hq : t.quiet_on (fun q => q <+: sp ∨ q <+: tp))
    (hvs : is_path_valid (path_of (sp ++ [cs])) = true)
    (hvt : is_path_valid (path_of (tp ++ [ct])) = true)
    (hns : ∀ x ∈ sp ++ [cs], NoSlash x) (hnt : ∀ x ∈ tp ++ [ct], NoSlash x)
    (hchk : moving_to_own_subtree (path_of (sp ++ [cs])) (path_of (tp ++ [ct])) = false) :
    no_reentry [] (tree_move_steps t (path_of (sp ++ [cs])) (path_of (tp ++ [ct]))).1 := by
  have hnp := not_prefix_of_check (sp ++ [cs]) tp ct hchk
  obtain ⟨L, a, b, hsp, htp, hL, hab, hdiv, hst⟩ := move_split sp tp cs hnp
  have hcs : NoSlash cs := hns cs (by simp)
  have hct : NoSlash ct := hnt ct (by simp)
  have hnsp : ∀ x ∈ sp, NoSlash x := fun x hx => hns x (by simp [hx])
  have hntp : ∀ x ∈ tp, NoSlash x := fun x hx => hnt x (by simp [hx])
  have hnL : ∀ x ∈ L, NoSlash x := fun x hx => hnsp x (by rw [hsp]; simp [hx])
  have hna : ∀ x ∈ a, NoSlash x := fun x hx => hnsp x (by rw [hsp]; simp [hx])
  have hnb : ∀ x ∈ b, NoSlash x := fun x hx => hntp x (by rw [htp]; simp [hx])
  have hPL : ∀ q, q <+: L → (fun q => q <+: sp ∨ q <+: tp) q :=
    fun q h => Or.inl (by rw [hsp]; exact h.trans (List.prefix_append _ _))
  have g1 : ¬ ((!is_path_valid (path_of (sp ++ [cs])) || !is_path_valid (path_of (tp ++ [ct])))
      = true) := by simp [hvs, hvt]
  have e_drop_t : (path_of tp).drop ((path_of L).length - 1) = path_of b := by
    rw [htp]; exact drop_shared L b
  have e_drop_s : (path_of sp).drop ((path_of L).length - 1) = path_of a := by
    rw [hsp]; exact drop_shared L a
  rw [tree_move_steps, if_neg g1, if_neg (path_of_snoc_ne_root sp cs),
    if_neg (path_of_snoc_ne_root tp ct), if_neg (by simp [hchk]),
    make_path_to_parent_snoc tp ct hct, make_path_to_parent_snoc sp cs hcs]
  simp only [shared_path_spec (sp ++ [cs]) tp hns hntp, hL, e_drop_t, e_drop_s]
  have e_src : sp ++ [cs] = L ++ (a ++ [cs]) := by rw [hsp]; simp
  have hnacs : ∀ x ∈ a ++ [cs], NoSlash x := by
    intro x hx
    rcases List.mem_append.1 hx with h | h
    · exact hna x h
    · simp only [List.mem_singleton] at h; rw [h]; exact hcs
  have hlca := move_to_lca_spec _ t hq L (a ++ [cs]) b (by simp) hab hnL hnacs hnb hPL
  rw [← e_src, ← htp, ← move_to_lca_steps_snd] at hlca
  obtain ⟨k1, k2, k3⟩ := move_to_lca_steps_held t (path_of (sp ++ [cs])) (path_of tp) (path_of L)
  cases hl : move_to_lca_steps t (path_of (sp ++ [cs])) (path_of tp) (path_of L) with
  | mk l1 res1 =>
    rw [hl] at hlca k1 k2 k3
    simp only [] at hlca k1 k2 k3
    rcases hlca with ⟨s1, hw, _, _⟩ | ⟨s1, hw, _, _⟩
    swap
    · subst hw
      exact k1
    subst hw
    simp only []
    have k2L : held_after [] l1 = [L] := k2 L s1 rfl
    obtain ⟨j1, j2, j3⟩ := move_source_loop_steps_held L a [] L s1 ((path_of a).length + 1) true
      (by simp) rfl hna (by omega)
    simp only [if_true, List.nil_append] at j1 j2 j3
    cases hs : move_source_loop_steps ((path_of a).length + 1) s1 L L (path_of a) true with
    | mk l2 res2 =>
      rw [hs] at j1 j2 j3
      simp only [] at j1 j2 j3
      have n12 : no_reentry [] (l1 ++ l2) :=
        (no_reentry_append [] l1 l2).2 ⟨k1, by rw [k2L]; exact j1⟩
      cases res2 with
      | error e => exact n12
      | ok rs2 =>
        obtain ⟨r2, s2⟩ := rs2
        cases r2 with
        | none => exact n12
        | some sf =>
          obtain ⟨st, first⟩ := sf
          obtain ⟨hp, hf, hh⟩ := j2 st first s2 rfl
          rw [← hsp] at hp
          subst hp
          simp only []
          have h12 : held_after [] (l1 ++ l2) = if a = [] then [L] else [st, L] := by
            rw [held_after_append, k2L]
            exact hh
          cases hg : s2.get? (st ++ [cs]) with
          | none =>
            simp only []
            rw [← List.append_assoc]
            refine (no_reentry_append [] (l1 ++ l2) _).2 ⟨n12, ?_⟩
            cases first <;> simp [no_reentry]
          | some sn =>
            simp only []
            have hS : (if a = [] then [L] else [st, L]) = if st = L then [L] else [st, L] := by
              by_cases ha : a = []
              · have : st = L := by rw [hsp, ha, List.append_nil]
                rw [if_pos ha, if_pos this]
              · have : st ≠ L := by rw [hsp]; exact ne_append_of_ne_nil L a ha
                rw [if_neg ha, if_neg this]
            obtain ⟨m1, m2, m3⟩ := move_target_loop_steps_held L st _ hS b [] L s2
              ((path_of b).length + 1) true (by simp) rfl hnb (by omega)
              (fun d hd1 hd2 => hdiv d hd1 (by simpa using hd2))
            simp only [if_true, List.nil_append] at m1 m2 m3
            cases ht : move_target_loop_steps ((path_of b).length + 1) s2 L st L (path_of b)
                true with
            | mk l3 res3 =>
              rw [ht] at m1 m2 m3
              simp only [] at m1 m2 m3
              have n123 : no_reentry [] (l1 ++ (l2 ++ l3)) := by
                rw [← List.append_assoc]
                exact (no_reentry_append [] (l1 ++ l2) l3).2 ⟨n12, by rw [h12]; exact m1⟩
              cases res3 with
              | error e => exact n123
              | ok rs3 =>
                obtain ⟨r3, s3⟩ := rs3
                cases r3 with
                | none => exact n123
                | some tf =>
                  obtain ⟨tt, ft⟩ := tf
                  simp only []
                  have nall : no_reentry [] (l1 ++ (l2 ++ (l3 ++
                      move_release_steps L st tt first ft))) := by
                    rw [← List.append_assoc, ← List.append_assoc]
                    refine (no_reentry_append [] _ _).2 ⟨?_, move_release_steps_no_reentry _ _ _ _ _ _⟩
                    rw [List.append_assoc]
                    exact n123
                  cases hg1 : s3.get? (st ++ [cs]) with
                  | none => exact n123
                  | some sn3 =>
                    cases hg2 : s3.get? tt with
                    | none => exact n123
                    | some tn3 =>
                      simp only []
                      cases hi : hmap_insert tn3.children ct
                          (Tree.node tree_new.mon sn3.children) with
                      | mk ok ch =>
                        cases ok with
                        | false => exact nall
                        | true => exact nall

theorem tree_move_steps_no_reentry (t : Tree) (hq : t.all_quiet) (source target : CStr) :
    no_reentry [] (tree_move_steps t source target).1 := by
  by_cases h0 : (!is_path_valid source || !is_path_valid target) = true
  · rw [tree_move_steps, if_pos h0]
    trivial
  by_cases hs : source = ['/']
  · rw [tree_move_steps, if_neg h0, if_pos hs]
    trivial
  by_cases ht : target = ['/']
  · rw [tree_move_steps, if_neg h0, if_neg hs, if_pos ht]
    trivial
  by_cases hchk : moving_to_own_subtree source target = true
  · rw [tree_move_steps, if_neg h0, if_neg hs, if_neg ht, if_pos hchk]
    trivial
  have hchk : moving_to_own_subtree source target = false := by simpa using hchk
  have hvs : is_path_valid source = true := by
    by_contra h
    apply h0
    simp [h]
  have hvt : is_path_valid target = true := by
    by_contra h
    apply h0
    simp [h]
  obtain ⟨s1, _, s3⟩ := valid_path_parts source hvs hs
  obtain ⟨t1, _, t3⟩ := valid_path_parts target hvt ht
  generalize parent_ptr source = sp at *
  generalize last_name source = cs at *
  generalize parent_ptr target = tp at *
  generalize last_name target = ct at *
  subst s1
  subst t1
  exact tree_move_steps_comp t sp cs tp ct (fun p _ => hq p) hvs hvt (noSlash_of_valid _ s3)
    (noSlash_of_valid _ t3) hchk

theorem nodup_of_hand_over_hand (h : List Ptr) (hh : hand_over_hand h) : h.Nodup := by
  obtain ⟨hl, hp⟩ := hh
  match h, hl, hp with
  | [], _, _ => exact List.nodup_nil
  | [a], _, _ => exact List.nodup_singleton a
  | [a, b], _, hp =>
    obtain ⟨c, hc⟩ := hp a b rfl
    have hab : a ≠ b := by
      rw [hc]
      exact fun e => ne_append_singleton b c e.symm
    simp [hab]
  | _ :: _ :: _ :: _, hl, _ => simp at hl

theorem held_states_head (h : List Ptr) (es : List Ev) : h ∈ held_states h es := by
  cases es with
  | nil => simp [held_states]
  | cons e es => simp [held_states]

theorem no_reentry_of_nodup : ∀ (es : List Ev) (h : List Ptr),
    (∀ x ∈ held_states h es, x.Nodup) → no_reentry h es := by
  intro es
  induction es with
  | nil => intro h _; trivial
  | cons e es ih =>
    intro h hn
    have htail : ∀ x ∈ held_states (e.apply h) es, x.Nodup := by
      intro x hx
      apply hn
      rw [held_states]
      exact List.mem_cons_of_mem _ hx
    cases e with
    | acquire p =>
      rw [no_reentry]
      have := htail _ (held_states_head (Ev.apply h (.acquire p)) es)
      rw [Ev.apply, List.nodup_cons] at this
      exact ⟨this.1, ih _ htail⟩
    | release p =>
      rw [no_reentry]
      exact ih _ htail

/-- C22: on a tree in which the monitor of every folder is idle, `tree_create`, `tree_list`,
`tree_remove` and `tree_move` return for every argument, so that no call one of them makes
to `tree_reader_type_entry_protocol` or `tree_writer_type_entry_protocol` finds its wait
condition true (a call that does ends the run with `Stuck.blocked`); and in the steps each of
them makes on the monitors, taken with the result it returns, no folder is entered while the
thread holds it: the walk of `tree_move` to the parent of the target enters neither the
deepest common folder nor the parent of the source again. -/
theorem no_self_block (t : Tree) (hi : t.all_idle) :
    (∀ path, (∃ r, tree_create t path = .ok r) ∧
      (tree_create_steps t path).2 = tree_create t path ∧
      no_reentry [] (tree_create_steps t path).1) ∧
    (∀ path, (∃ r, tree_list t path = .ok r) ∧
      (tree_list_steps t path).2 = tree_list t path ∧
      no_reentry [] (tree_list_steps t path).1) ∧
    (∀ path, (∃ r, tree_remove t path = .ok r) ∧
      (tree_remove_steps t path).2 = tree_remove t path ∧
      no_reentry [] (tree_remove_steps t path).1) ∧
    (∀ source target, (∃ r, tree_move t source target = .ok r) ∧
      (tree_move_steps t source target).2 = tree_move t source target ∧
      no_reentry [] (tree_move_steps t source target).1) := by
  have hq := all_quiet_of_idle t hi
  refine ⟨fun path => ⟨?_, tree_create_steps_snd t path, ?_⟩,
    fun path => ⟨?_, tree_list_steps_snd t path, ?_⟩,
    fun path => ⟨?_, tree_remove_steps_snd t path, ?_⟩,
    fun source target => ⟨?_, tree_move_steps_snd t source target,
      tree_move_steps_no_reentry t hq source target⟩⟩
  · obtain ⟨code, s, hs, _⟩ := tree_create_outcome t hq path
    exact ⟨_, hs⟩
  · exact no_reentry_of_nodup _ _
      (fun x hx => nodup_of_hand_over_hand x (tree_create_steps_held t path x hx))
  · obtain ⟨r, s, hs, _⟩ := tree_list_outcome t hq path
    exact ⟨_, hs⟩
  · exact no_reentry_of_nodup _ _
      (fun x hx => nodup_of_hand_over_hand x (tree_list_steps_held t path x hx))
  · obtain ⟨code, s, hs, _⟩ := tree_remove_outcome t hq path
    exact ⟨_, hs⟩
  · exact no_reentry_of_nodup _ _
      (fun x hx => nodup_of_hand_over_hand x (tree_remove_steps_held t path x hx))
  · obtain ⟨code, s, hs, _⟩ := tree_move_outcome t source target (fun p _ => hq p)
    exact ⟨_, hs⟩

theorem no_self_block_witness :
    ex_tree.all_idle ∧
    (tree_move_steps ex_tree ex_ab ex_cb).1 =
      [.acquire [], .acquire [['a']], .acquire [['c']], .release [['a']], .release [['c']],
        .release []] ∧
    (∃ r, tree_move ex_tree ex_ab ex_cb = .ok r) ∧
    no_reentry [] (tree_move_steps ex_tree ex_ab ex_cb).1 ∧
    (∃ r, tree_remove ex_tree ex_ab = .ok r) :=
  ⟨allMon_monAt Monitor.idle ex_tree (by decide), by decide,
    ((no_self_block ex_tree (allMon_monAt Monitor.idle ex_tree (by decide))).2.2.2 ex_ab
      ex_cb).1,
    ((no_self_block ex_tree (allMon_monAt Monitor.idle ex_tree (by decide))).2.2.2 ex_ab
      ex_cb).2.2,
    ((no_self_block ex_tree (allMon_monAt Monitor.idle ex_tree (by decide))).2.2.1 ex_ab).1⟩

end CFS
